import Mathlib

/-!
Verification of the use-async-effekt hooks library.

This file gives a shallow embedding of the three hooks of the repository
(useAsyncEffekt, useAsyncMemo, useAsyncMemoSuspense) and proves or refutes
the frozen specification claims about them.

JavaScript runtime values are modelled by the inductive `JSVal`: numbers are
restricted to exact integers plus the two values NaN and -0 that the
same-value comparison `Object.is` treats specially; objects and functions are
modelled by reference identity.  Promises, the microtask queue and the
cooperative single-threaded scheduler are modelled as an explicit state
machine driven by an adversarially chosen list of events (see the
`UseAsyncEffekt` namespace); continuations are defunctionalized, one
constructor per syntactic continuation of the source.
-/

/-- A JavaScript runtime value, as far as the claims need to distinguish
values.  Numbers other than NaN and negative zero are modelled as exact
integers; `obj` and `fn` model object and function reference identity. -/
inductive JSVal where
  | undef
  | null
  | bool (b : Bool)
  | num (n : Int)
  | negZero
  | nan
  | str (s : String)
  | obj (id : Nat)
  | fn (id : Nat)
deriving DecidableEq, Repr

/-- `Object.is` semantics on the modelled values: NaN is equal to itself,
`0` and `-0` are distinct, objects and functions compare by reference
identity.  On the model this is exactly constructor-wise equality. -/
def objectIs (a b : JSVal) : Bool := decide (a = b)

/-- JavaScript truthiness: `undefined`, `null`, `false`, `0`, `-0`, `NaN`
and the empty string are falsy, everything else is truthy. -/
def JSVal.truthy : JSVal → Bool
  | .undef => false
  | .null => false
  | .bool b => b
  | .num 0 => false
  | .negZero => false
  | .nan => false
  | .str "" => false
  | _ => true

/-- Whether a value is callable (a function). -/
def JSVal.callable : JSVal → Bool
  | .fn _ => true
  | _ => false

/-- From the source (useAsyncMemoSuspense, `sameDeps`):
`a.length === b.length && a.every((v, i) => Object.is(v, b[i]))`.
Out-of-range indexing `b[i]` yields `undefined` in JavaScript, which the
`getD` default mirrors (it is never reached when the length guard holds). -/
def sameDeps (a b : List JSVal) : Bool :=
  a.length == b.length &&
    (List.range a.length).all fun i =>
      objectIs (a.getD i JSVal.undef) (b.getD i JSVal.undef)

namespace UseAsyncMemoSuspense

/-- The JSON image of a primitive value, as produced for array elements by
`JSON.stringify`:  `NaN` serializes as `null`, `-0` serializes as `0`,
`undefined` inside an array serializes as `null`, functions serialize as
`null`.  (Structural serialization of plain objects is not modelled; no
claim exercises object-valued dependencies in a cache key.) -/
inductive JsonPrim where
  | null
  | bool (b : Bool)
  | num (n : Int)
  | str (s : String)
deriving DecidableEq, Repr

/-- JSON serialization of a dependency value placed in an array. -/
def jsonOfVal : JSVal → JsonPrim
  | .undef => .null
  | .null => .null
  | .bool b => .bool b
  | .num n => .num n
  | .negZero => .num 0
  | .nan => .null
  | .str s => .str s
  | .obj _ => .null
  | .fn _ => .null

/-- The cache key of the source,
`JSON.stringify([factory.toString(), deps, scope || ""])`,
modelled as the JSON tree the stringify call serializes: two calls produce
equal key strings exactly when the factory source texts agree, the
pointwise JSON images of the dependency values agree, and the effective
scopes agree. -/
structure CacheKey where
  factorySrc : String
  depsJson : List JsonPrim
  scope : String
deriving DecidableEq, Repr

/-- From the source (`getCacheKey`): build the key from the textual identity
of the factory, the dependency list and `scope || ""`. -/
def getCacheKey (factorySrc : String) (deps : List JSVal)
    (scope : Option String) : CacheKey :=
  ⟨factorySrc, deps.map jsonOfVal, scope.getD ""⟩

/-- Status part of a cache entry: the tagged union
`pending | success | error` of the source `CacheEntry` type. -/
inductive EntryStatus where
  | pending
  | success (v : JSVal)
  | error (e : JSVal)
deriving DecidableEq, Repr

/-- One cache entry: the source record keeps its `promise` and `deps`
fields through the in-place `Object.assign` status mutations.  `promise`
is the identifier of the normalized factory promise. -/
structure CacheEntry where
  status : EntryStatus
  promise : Nat
  deps : List JSVal
deriving DecidableEq, Repr

/-- The process-wide cache: an association list modelling the global
`Map<string, CacheEntry<unknown>>`, plus a counter producing fresh
promise identifiers. -/
structure SuspCache where
  entries : List (CacheKey × CacheEntry)
  nextPid : Nat
deriving DecidableEq, Repr

/-- The empty process-wide cache. -/
def SuspCache.empty : SuspCache := ⟨[], 0⟩

/-- `Map.get` on the modelled cache. -/
def lookupEntry : List (CacheKey × CacheEntry) → CacheKey → Option CacheEntry
  | [], _ => none
  | (k', e') :: rest, k => if k' = k then some e' else lookupEntry rest k

/-- `Map.set` on the modelled cache: replace the entry under the key or
append a fresh binding. -/
def setEntry : List (CacheKey × CacheEntry) → CacheKey → CacheEntry →
    List (CacheKey × CacheEntry)
  | [], k, e => [(k, e)]
  | (k', e') :: rest, k, e =>
    if k' = k then (k, e) :: rest else (k', e') :: setEntry rest k e

/-- Synchronous outcome of one `useAsyncMemoSuspense` call: return
`undefined` (server-side rendering), return a settled success value, throw
a settled error, or throw the in-flight promise (suspend). -/
inductive SuspResult where
  | ssrUndefined
  | value (v : JSVal)
  | throwError (e : JSVal)
  | suspend (promise : Nat)
deriving DecidableEq, Repr

/-- The synchronous body of `useAsyncMemoSuspense` from the source.  Returns
the call outcome, the updated process-wide cache, and whether the factory
was invoked by this call.  The source guard
`if (!cacheEntry || !sameDeps(cacheEntry.deps, deps))` starts a fresh
computation (a pending entry holding a fresh promise, storing a copy of
`deps`) and stores it under the key immediately; otherwise the looked-up
entry is served: success returns, error throws, pending suspends on the
stored promise. -/
def useAsyncMemoSuspense (factorySrc : String) (deps : List JSVal)
    (scope : Option String) (isClient : Bool) (st : SuspCache) :
    SuspResult × SuspCache × Bool :=
  if isClient = false then (.ssrUndefined, st, false)
  else
    let cacheKey := getCacheKey factorySrc deps scope
    let startNew : SuspResult × SuspCache × Bool :=
      let pid := st.nextPid
      let newEntry : CacheEntry := ⟨.pending, pid, deps⟩
      (.suspend pid, ⟨setEntry st.entries cacheKey newEntry, pid + 1⟩, true)
    match lookupEntry st.entries cacheKey with
    | none => startNew
    | some e =>
      if sameDeps e.deps deps then
        match e.status with
        | .success v => (.value v, st, false)
        | .error err => (.throwError err, st, false)
        | .pending => (.suspend e.promise, st, false)
      else startNew

/-- The continuation attached by the source
(`newCacheEntry.promise.then(...).catch(...)`): when the promise with
identifier `pid` settles, mutate the entry holding it in place to the
settled status.  An entry that was replaced in the map before its promise
settled is unreachable from the cache and is not tracked, matching the
source where the continuation then mutates a dropped object. -/
def settleEntry (st : SuspCache) (pid : Nat) (newStatus : EntryStatus) :
    SuspCache :=
  ⟨st.entries.map fun p =>
      if p.2.promise = pid then (p.1, { p.2 with status := newStatus }) else p,
    st.nextPid⟩

theorem objectIs_refl (v : JSVal) : objectIs v v = true := by
  simp [objectIs]

theorem sameDeps_refl (d : List JSVal) : sameDeps d d = true := by
  simp [sameDeps, objectIs_refl]

theorem lookupEntry_setEntry_self (c : List (CacheKey × CacheEntry))
    (k : CacheKey) (e : CacheEntry) :
    lookupEntry (setEntry c k e) k = some e := by
  induction c with
  | nil => simp [setEntry, lookupEntry]
  | cons p rest ih =>
    by_cases h : p.1 = k
    · simp [setEntry, lookupEntry, h]
    · simp [setEntry, lookupEntry, h, ih]

/-- Shape of a `useAsyncMemoSuspense` call that invoked the factory: it
stored a fresh pending entry (a copy of `deps`, the fresh promise id) under
the cache key, suspended on that promise, and bumped the promise counter. -/
theorem useAsyncMemoSuspense_invoked (f : String) (deps : List JSVal)
    (scope : Option String) (st : SuspCache)
    (h : (useAsyncMemoSuspense f deps scope true st).2.2 = true) :
    useAsyncMemoSuspense f deps scope true st =
      (.suspend st.nextPid,
       ⟨setEntry st.entries (getCacheKey f deps scope)
          ⟨.pending, st.nextPid, deps⟩, st.nextPid + 1⟩,
       true) := by
  unfold useAsyncMemoSuspense at h ⊢
  simp only [Bool.true_eq_false, if_false] at h ⊢
  cases hl : lookupEntry st.entries (getCacheKey f deps scope) with
  | none => simp [hl]
  | some e =>
    obtain ⟨estat, epid, edeps⟩ := e
    simp only [hl] at h ⊢
    by_cases hs : sameDeps edeps deps = true
    · exfalso
      simp only [hs, if_true] at h
      cases estat <;> simp at h
    · simp [hs]

end UseAsyncMemoSuspense

open UseAsyncMemoSuspense in
/-- C9: The dependency-list comparison used by SuspendingMemo (sameDeps) is
same-value comparison: two lists are the same iff they have equal length and
every position satisfies Object.is; in particular 0 and -0 compare as
different and NaN compares as equal to itself. -/
theorem C9_sameDeps_is_same_value_comparison :
    (∀ a b : List JSVal, sameDeps a b = true ↔
      (a.length = b.length ∧ ∀ i, i < a.length →
        objectIs (a.getD i JSVal.undef) (b.getD i JSVal.undef) = true)) ∧
    sameDeps [JSVal.num 0] [JSVal.negZero] = false ∧
    sameDeps [JSVal.nan] [JSVal.nan] = true := by
  refine ⟨fun a b => ?_, by decide, by decide⟩
  simp [sameDeps, List.all_eq_true]

open UseAsyncMemoSuspense in
/-- C10: With no global window object (isClient = false, server-side
rendering), useAsyncMemoSuspense returns undefined without invoking the
factory and without reading or modifying the process-wide cache, for every
factory, dependency list, scope and cache state. -/
theorem C10_ssr_returns_undefined (f : String) (deps : List JSVal)
    (scope : Option String) (st : SuspCache) :
    useAsyncMemoSuspense f deps scope false st = (.ssrUndefined, st, false) :=
  rfl

open UseAsyncMemoSuspense in
/-- C2: Two SuspendingMemo lookups with identical factory identity,
dependency list and scope, the second issued before the first settles
(no settlement step in between), invoke the factory exactly once: given that
the first lookup started a computation, the second lookup does not invoke,
leaves the cache unchanged, and suspends on the very promise the first
lookup created and stored in its pending entry. -/
theorem C2_concurrent_lookups_idempotent (f : String) (deps : List JSVal)
    (scope : Option String) (st : SuspCache)
    (h : (useAsyncMemoSuspense f deps scope true st).2.2 = true) :
    (useAsyncMemoSuspense f deps scope true
        (useAsyncMemoSuspense f deps scope true st).2.1).2.2 = false ∧
    (useAsyncMemoSuspense f deps scope true
        (useAsyncMemoSuspense f deps scope true st).2.1).2.1 =
      (useAsyncMemoSuspense f deps scope true st).2.1 ∧
    (useAsyncMemoSuspense f deps scope true
        (useAsyncMemoSuspense f deps scope true st).2.1).1 =
      .suspend st.nextPid ∧
    (useAsyncMemoSuspense f deps scope true st).1 = .suspend st.nextPid ∧
    lookupEntry (useAsyncMemoSuspense f deps scope true st).2.1.entries
        (getCacheKey f deps scope) =
      some ⟨.pending, st.nextPid, deps⟩ := by
  have h1 := useAsyncMemoSuspense_invoked f deps scope st h
  rw [h1]
  have hl : lookupEntry
      (setEntry st.entries (getCacheKey f deps scope)
        ⟨.pending, st.nextPid, deps⟩) (getCacheKey f deps scope) =
      some ⟨.pending, st.nextPid, deps⟩ :=
    lookupEntry_setEntry_self _ _ _
  refine ⟨?_, ?_, ?_, rfl, hl⟩ <;>
    · unfold useAsyncMemoSuspense
      simp [hl, sameDeps_refl]

open UseAsyncMemoSuspense in
/-- C2 witness: the two-lookup idempotence at a concrete input. -/
theorem C2_concurrent_lookups_idempotent_witness :
    (useAsyncMemoSuspense "f" [] none true
        (useAsyncMemoSuspense "f" [] none true SuspCache.empty).2.1).2.2 =
      false ∧
    (useAsyncMemoSuspense "f" [] none true
        (useAsyncMemoSuspense "f" [] none true SuspCache.empty).2.1).2.1 =
      (useAsyncMemoSuspense "f" [] none true SuspCache.empty).2.1 ∧
    (useAsyncMemoSuspense "f" [] none true
        (useAsyncMemoSuspense "f" [] none true SuspCache.empty).2.1).1 =
      .suspend SuspCache.empty.nextPid ∧
    (useAsyncMemoSuspense "f" [] none true SuspCache.empty).1 =
      .suspend SuspCache.empty.nextPid ∧
    lookupEntry
        (useAsyncMemoSuspense "f" [] none true SuspCache.empty).2.1.entries
        (getCacheKey "f" [] none) =
      some ⟨.pending, SuspCache.empty.nextPid, []⟩ :=
  C2_concurrent_lookups_idempotent "f" [] none SuspCache.empty (by decide)

open UseAsyncMemoSuspense in
/-- C4 counterexample: two lookups that differ only in one dependency value
under same-value comparison, 0 versus -0, DO share a cache entry slot: the
cache key serializes both dependency lists to the same JSON, so the keys are
equal, and after the two lookups the cache holds a single entry — the second
lookup replaced the first entry instead of keeping an independent one. -/
theorem C4_counterexample_zero_negzero_share_key :
    getCacheKey "f" [JSVal.num 0] none = getCacheKey "f" [JSVal.negZero] none ∧
    (useAsyncMemoSuspense "f" [JSVal.negZero] none true
        (useAsyncMemoSuspense "f" [JSVal.num 0] none true
          SuspCache.empty).2.1).2.1.entries.length = 1 ∧
    lookupEntry
        (useAsyncMemoSuspense "f" [JSVal.negZero] none true
          (useAsyncMemoSuspense "f" [JSVal.num 0] none true
            SuspCache.empty).2.1).2.1.entries
        (getCacheKey "f" [JSVal.num 0] none) =
      some ⟨.pending, 1, [JSVal.negZero]⟩ := by
  decide

open UseAsyncMemoSuspense in
/-- C4 (amended): lookups differing only in scope never share a cache entry —
distinct effective scopes give distinct keys and, from an empty cache, two
independent pending entries, both still present after both lookups.  Lookups
whose dependency lists differ under same-value comparison always trigger a
fresh factory invocation, but when the differing values have identical JSON
serializations (0 versus -0) the two lookups share one cache key and the
second replaces the first entry in place rather than keeping an independent
one. -/
theorem C4_amended_scope_and_deps_partitioning :
    (∀ (f : String) (deps : List JSVal) (s1 s2 : Option String),
      s1.getD "" ≠ s2.getD "" →
        getCacheKey f deps s1 ≠ getCacheKey f deps s2 ∧
        lookupEntry
            (useAsyncMemoSuspense f deps s2 true
              (useAsyncMemoSuspense f deps s1 true
                SuspCache.empty).2.1).2.1.entries
            (getCacheKey f deps s1) = some ⟨.pending, 0, deps⟩ ∧
        lookupEntry
            (useAsyncMemoSuspense f deps s2 true
              (useAsyncMemoSuspense f deps s1 true
                SuspCache.empty).2.1).2.1.entries
            (getCacheKey f deps s2) = some ⟨.pending, 1, deps⟩) ∧
    (∀ (f : String) (d1 d2 : List JSVal) (scope : Option String),
      sameDeps d1 d2 = false →
        (useAsyncMemoSuspense f d2 scope true
          (useAsyncMemoSuspense f d1 scope true
            SuspCache.empty).2.1).2.2 = true) := by
  constructor
  · intro f deps s1 s2 hne
    have hkey : getCacheKey f deps s1 ≠ getCacheKey f deps s2 := by
      intro heq
      exact hne (congrArg CacheKey.scope heq)
    refine ⟨hkey, ?_, ?_⟩ <;>
      · unfold useAsyncMemoSuspense
        simp [SuspCache.empty, lookupEntry, setEntry, hkey, Ne.symm hkey]
  · intro f d1 d2 scope hsd
    unfold useAsyncMemoSuspense
    by_cases hk : getCacheKey f d1 scope = getCacheKey f d2 scope
    · simp [SuspCache.empty, lookupEntry, setEntry, hk, hsd]
    · simp [SuspCache.empty, lookupEntry, setEntry, hk, hsd]

open UseAsyncMemoSuspense in
/-- C4 amended witness: scope partitioning and same-value recomputation at
concrete inputs. -/
theorem C4_amended_scope_and_deps_partitioning_witness :
    (getCacheKey "f" [] (some "a") ≠ getCacheKey "f" [] (some "b") ∧
      lookupEntry
          (useAsyncMemoSuspense "f" [] (some "b") true
            (useAsyncMemoSuspense "f" [] (some "a") true
              SuspCache.empty).2.1).2.1.entries
          (getCacheKey "f" [] (some "a")) = some ⟨.pending, 0, []⟩ ∧
      lookupEntry
          (useAsyncMemoSuspense "f" [] (some "b") true
            (useAsyncMemoSuspense "f" [] (some "a") true
              SuspCache.empty).2.1).2.1.entries
          (getCacheKey "f" [] (some "b")) = some ⟨.pending, 1, []⟩) ∧
    (useAsyncMemoSuspense "f" [JSVal.negZero] none true
      (useAsyncMemoSuspense "f" [JSVal.num 0] none true
        SuspCache.empty).2.1).2.2 = true :=
  ⟨C4_amended_scope_and_deps_partitioning.1 "f" [] (some "a") (some "b")
      (by decide),
    C4_amended_scope_and_deps_partitioning.2 "f" [JSVal.num 0] [JSVal.negZero]
      none (by decide)⟩

namespace UseAsyncMemo

/-!
State machine for `useAsyncMemo` (the DependencyMemo).  Each dependency
change runs the effect body: it starts a factory invocation with a fresh
closure variable `cancelled = false`, and the effect cleanup of the
superseded run (executed by the host immediately before the next run, and on
unmount) sets that run's `cancelled` flag.  The `await factory(...)`
continuation runs in a microtask directly after the factory promise settles
— no host activation can interpose between a settlement and its
continuation on the single-threaded scheduler — so a settlement event here
performs the continuation's guarded state update in the same step:
on success, if `isMountedRef.current && !cancelled`, store the value and
retain it as last successful; on failure, if `isMountedRef.current &&
!cancelled`, report the error and revert the value to the retained last
successful value.
-/

/-- One factory invocation: its `cancelled` closure flag and whether its
promise has settled (a promise settles at most once). -/
structure Invocation where
  cancelled : Bool
  settled : Bool
deriving DecidableEq, Repr

/-- Instance state of one `useAsyncMemo` hook occurrence.  `value` is the
React state (`none` = `undefined`), `lastSuccessful` the
`lastSuccessfulValueRef`, `invs` the invocations in start order, `reports`
the number of reported errors, and `history` a ghost trace of every value a
successful settlement stored. -/
structure MemoState where
  mounted : Bool
  value : Option JSVal
  lastSuccessful : Option JSVal
  invs : List Invocation
  reports : Nat
  history : List JSVal
deriving DecidableEq, Repr

/-- The initial hook state: mounted, value `undefined`, no invocation yet. -/
def memoInit : MemoState :=
  ⟨true, none, none, [], 0, []⟩

/-- Mark the most recent invocation cancelled: the effect cleanup
`() => { cancelled = true; }` of the run being replaced or unmounted. -/
def cancelLast : List Invocation → List Invocation
  | [] => []
  | [inv] => [{ inv with cancelled := true }]
  | inv :: rest => inv :: cancelLast rest

/-- Events driving one `useAsyncMemo` instance: a host activation with a
changed dependency list (run the previous run's cleanup, then start a fresh
invocation), the settlement of invocation `i` with a success value or an
error, and unmount. -/
inductive MemoEv where
  | activate
  | settleOk (i : Nat) (v : JSVal)
  | settleErr (i : Nat) (e : JSVal)
deriving DecidableEq, Repr

/-- Step function of the `useAsyncMemo` state machine, from the source of
the hook: the effect body, its cleanup, and the two settle paths of
`executeFactory` with their `isMountedRef.current && !cancelled` guards. -/
def memoStep (ev : MemoEv) (s : MemoState) : MemoState :=
  match ev with
  | .activate =>
    if s.mounted then { s with invs := cancelLast s.invs ++ [⟨false, false⟩] }
    else s
  | .settleOk i v =>
    match s.invs[i]? with
    | none => s
    | some inv =>
      if inv.settled then s
      else if s.mounted && !inv.cancelled then
        { s with invs := s.invs.set i { inv with settled := true },
                 value := some v, lastSuccessful := some v,
                 history := s.history ++ [v] }
      else { s with invs := s.invs.set i { inv with settled := true } }
  | .settleErr i _ =>
    match s.invs[i]? with
    | none => s
    | some inv =>
      if inv.settled then s
      else if s.mounted && !inv.cancelled then
        { s with invs := s.invs.set i { inv with settled := true },
                 reports := s.reports + 1, value := s.lastSuccessful }
      else { s with invs := s.invs.set i { inv with settled := true } }

/-- Unmount: the effect cleanup cancels the pending run and the
mount-tracking effect clears the flag. -/
def memoUnmount (s : MemoState) : MemoState :=
  if s.mounted then { s with mounted := false, invs := cancelLast s.invs }
  else s

/-- A full event; unmount is separated so traces can end an instance. -/
inductive MemoFullEv where
  | ev (e : MemoEv)
  | unmount
deriving DecidableEq, Repr

/-- Run a trace of events from the initial hook state. -/
def memoRun (evs : List MemoFullEv) : MemoState :=
  evs.foldl
    (fun s fe => match fe with
      | .ev e => memoStep e s
      | .unmount => memoUnmount s)
    memoInit

/-- The invariants of reachable `useAsyncMemo` states: every invocation
other than the most recent one is cancelled, and the retained last
successful value is the most recent value a successful settlement stored. -/
structure MemoInv (s : MemoState) : Prop where
  cancelled_of_superseded : ∀ i inv, i + 1 < s.invs.length →
    s.invs[i]? = some inv → inv.cancelled = true
  lastSuccessful_history : s.lastSuccessful = s.history.getLast?
  live_latest_not_cancelled : s.mounted = true → ∀ i inv,
    i + 1 = s.invs.length → s.invs[i]? = some inv → inv.cancelled = false

theorem cancelLast_length (l : List Invocation) :
    (cancelLast l).length = l.length := by
  induction l with
  | nil => rfl
  | cons a t ih =>
    cases t with
    | nil => rfl
    | cons b u => simpa [cancelLast] using ih

theorem cancelLast_getElem?_of_lt (l : List Invocation) (i : Nat)
    (h : i + 1 < l.length) : (cancelLast l)[i]? = l[i]? := by
  induction l generalizing i with
  | nil => rfl
  | cons a t ih =>
    cases t with
    | nil => simp at h
    | cons b u =>
      cases i with
      | zero => simp [cancelLast]
      | succ j =>
        have hj : j + 1 < (b :: u).length := Nat.lt_of_succ_lt_succ h
        simpa [cancelLast] using ih j hj

theorem cancelLast_cancelled (l : List Invocation) (i : Nat) (inv : Invocation)
    (hg : (cancelLast l)[i]? = some inv) (hlast : i + 1 = l.length) :
    inv.cancelled = true := by
  induction l generalizing i with
  | nil => simp [cancelLast] at hg
  | cons a t ih =>
    cases t with
    | nil =>
      have hi : i = 0 := by simpa using hlast
      subst hi
      simp [cancelLast] at hg
      rw [← hg]
    | cons b u =>
      cases i with
      | zero => simp at hlast
      | succ j =>
        have hj : j + 1 = (b :: u).length := by simpa using hlast
        exact ih j (by simpa [cancelLast] using hg) hj

theorem memoInv_init : MemoInv memoInit := by
  constructor
  · intro i inv hi
    simp [memoInit] at hi
  · rfl
  · intro _ i inv hi
    simp [memoInit] at hi

theorem memoInv_setSettled (s : MemoState) (h : MemoInv s) (i : Nat)
    (inv : Invocation) (hg : s.invs[i]? = some inv) :
    ∀ j inv', j + 1 < (s.invs.set i { inv with settled := true }).length →
      (s.invs.set i { inv with settled := true })[j]? = some inv' →
      inv'.cancelled = true := by
  intro j inv' hj hg'
  simp only [List.length_set] at hj
  rw [List.getElem?_set] at hg'
  by_cases hji : i = j
  · subst hji
    rw [if_pos rfl, if_pos (by omega)] at hg'
    have hc := h.cancelled_of_superseded i inv hj hg
    cases hg'
    simpa using hc
  · rw [if_neg hji] at hg'
    exact h.cancelled_of_superseded j inv' hj hg'

theorem memoInv_setSettled_live (s : MemoState) (h : MemoInv s) (i : Nat)
    (inv : Invocation) (hg : s.invs[i]? = some inv) (hm : s.mounted = true) :
    ∀ j inv', j + 1 = (s.invs.set i { inv with settled := true }).length →
      (s.invs.set i { inv with settled := true })[j]? = some inv' →
      inv'.cancelled = false := by
  intro j inv' hj hg'
  simp only [List.length_set] at hj
  rw [List.getElem?_set] at hg'
  by_cases hji : i = j
  · subst hji
    rw [if_pos rfl, if_pos (by omega)] at hg'
    have hc := h.live_latest_not_cancelled hm i inv hj hg
    cases hg'
    simpa using hc
  · rw [if_neg hji] at hg'
    exact h.live_latest_not_cancelled hm j inv' hj hg'

theorem memoInv_step (ev : MemoEv) (s : MemoState) (h : MemoInv s) :
    MemoInv (memoStep ev s) := by
  cases ev with
  | activate =>
    cases hm : s.mounted with
    | false => simpa [memoStep, hm] using h
    | true =>
      constructor
      · intro i inv hi hg
        simp only [memoStep, hm, if_true, List.length_append,
          cancelLast_length, List.length_singleton] at hi hg
        have hilt : i < s.invs.length := by omega
        rw [List.getElem?_append,
          if_pos (by simpa [cancelLast_length] using hilt)] at hg
        by_cases hmid : i + 1 < s.invs.length
        · rw [cancelLast_getElem?_of_lt _ _ hmid] at hg
          exact h.cancelled_of_superseded i inv hmid hg
        · exact cancelLast_cancelled _ _ _ hg (by omega)
      · simpa [memoStep, hm] using h.lastSuccessful_history
      · intro _ i inv hi hg
        simp only [memoStep, hm, if_true, List.length_append,
          cancelLast_length, List.length_singleton] at hi hg
        have hieq : i = (cancelLast s.invs).length := by
          simp [cancelLast_length]; omega
        subst hieq
        rw [List.getElem?_concat_length] at hg
        cases hg
        rfl
  | settleOk i v =>
    simp only [memoStep]
    cases hg : s.invs[i]? with
    | none => exact h
    | some inv =>
      by_cases hsett : inv.settled = true
      · simpa [hsett] using h
      simp only [hsett, if_false]
      by_cases happ : (s.mounted && !inv.cancelled) = true
      · simp only [happ, if_true]
        exact ⟨memoInv_setSettled s h i inv hg, by simp,
          fun hm => memoInv_setSettled_live s h i inv hg hm⟩
      · simp only [happ, if_false]
        exact ⟨memoInv_setSettled s h i inv hg, h.lastSuccessful_history,
          fun hm => memoInv_setSettled_live s h i inv hg hm⟩
  | settleErr i e =>
    simp only [memoStep]
    cases hg : s.invs[i]? with
    | none => exact h
    | some inv =>
      by_cases hsett : inv.settled = true
      · simpa [hsett] using h
      simp only [hsett, if_false]
      by_cases happ : (s.mounted && !inv.cancelled) = true
      · simp only [happ, if_true]
        exact ⟨memoInv_setSettled s h i inv hg, h.lastSuccessful_history,
          fun hm => memoInv_setSettled_live s h i inv hg hm⟩
      · simp only [happ, if_false]
        exact ⟨memoInv_setSettled s h i inv hg, h.lastSuccessful_history,
          fun hm => memoInv_setSettled_live s h i inv hg hm⟩

theorem memoInv_unmount (s : MemoState) (h : MemoInv s) :
    MemoInv (memoUnmount s) := by
  cases hm : s.mounted with
  | false => simpa [memoUnmount, hm] using h
  | true =>
    constructor
    · intro i inv hi hg
      simp only [memoUnmount, hm, if_true, cancelLast_length] at hi hg
      rw [cancelLast_getElem?_of_lt _ _ hi] at hg
      exact h.cancelled_of_superseded i inv hi hg
    · simpa [memoUnmount, hm] using h.lastSuccessful_history
    · intro hm' i inv hi hg
      simp [memoUnmount, hm] at hm'

theorem memoInv_run (evs : List MemoFullEv) : MemoInv (memoRun evs) := by
  have hall : ∀ s, MemoInv s →
      MemoInv (evs.foldl
        (fun s fe => match fe with
          | .ev e => memoStep e s
          | .unmount => memoUnmount s) s) := by
    induction evs with
    | nil => intro s hs; exact hs
    | cons fe rest ih =>
      intro s hs
      cases fe with
      | ev e => exact ih _ (memoInv_step e s hs)
      | unmount => exact ih _ (memoInv_unmount s hs)
  exact hall memoInit memoInv_init

end UseAsyncMemo

open UseAsyncMemo in
/-- C3: In every reachable state of a `useAsyncMemo` instance, the
resolution of a superseded factory invocation (one that is not the most
recently started, because the dependency list changed before it settled)
never changes the stored value, the retained last successful value, or the
history of displayed values: its result is discarded. -/
theorem C3_superseded_invocation_never_stored (evs : List MemoFullEv)
    (i : Nat) (v : JSVal) (hi : i + 1 < (memoRun evs).invs.length) :
    (memoStep (.settleOk i v) (memoRun evs)).value = (memoRun evs).value ∧
    (memoStep (.settleOk i v) (memoRun evs)).lastSuccessful =
      (memoRun evs).lastSuccessful ∧
    (memoStep (.settleOk i v) (memoRun evs)).history =
      (memoRun evs).history := by
  have h := memoInv_run evs
  cases hg : (memoRun evs).invs[i]? with
  | none =>
    rw [List.getElem?_eq_none_iff] at hg
    omega
  | some inv =>
    have hc : inv.cancelled = true := h.cancelled_of_superseded i inv hi hg
    simp only [memoStep, hg]
    by_cases hsett : inv.settled = true
    · simp [hsett]
    · simp [hsett, hc]

open UseAsyncMemo in
/-- C3 witness: two activations, then the first (superseded) invocation
resolves; the stored value is unchanged. -/
theorem C3_superseded_invocation_never_stored_witness :
    (memoStep (.settleOk 0 (JSVal.num 7))
        (memoRun [.ev .activate, .ev .activate])).value =
      (memoRun [.ev .activate, .ev .activate]).value ∧
    (memoStep (.settleOk 0 (JSVal.num 7))
        (memoRun [.ev .activate, .ev .activate])).lastSuccessful =
      (memoRun [.ev .activate, .ev .activate]).lastSuccessful ∧
    (memoStep (.settleOk 0 (JSVal.num 7))
        (memoRun [.ev .activate, .ev .activate])).history =
      (memoRun [.ev .activate, .ev .activate]).history :=
  C3_superseded_invocation_never_stored [.ev .activate, .ev .activate] 0
    (JSVal.num 7) (by decide)

open UseAsyncMemo in
/-- C5: If, in a reachable `useAsyncMemo` state, the latest invocation
settles with an error while the instance is still mounted and the
invocation had not settled before, then the stored value reverts to the
most recent successfully stored value (`undefined` — `none` — if no
invocation ever stored one), the retained value and history are unchanged,
and the error is reported (the report counter grows by one) rather than
re-raised. -/
theorem C5_error_reverts_to_last_successful (evs : List MemoFullEv)
    (i : Nat) (e : JSVal) (inv : Invocation)
    (hg : (memoRun evs).invs[i]? = some inv)
    (hlast : i + 1 = (memoRun evs).invs.length)
    (hm : (memoRun evs).mounted = true)
    (hsett : inv.settled = false) :
    (memoStep (.settleErr i e) (memoRun evs)).value =
      (memoRun evs).history.getLast? ∧
    (memoStep (.settleErr i e) (memoRun evs)).reports =
      (memoRun evs).reports + 1 ∧
    (memoStep (.settleErr i e) (memoRun evs)).lastSuccessful =
      (memoRun evs).history.getLast? ∧
    (memoStep (.settleErr i e) (memoRun evs)).history =
      (memoRun evs).history := by
  have h := memoInv_run evs
  have hc : inv.cancelled = false :=
    h.live_latest_not_cancelled hm i inv hlast hg
  have hls := h.lastSuccessful_history
  simp only [memoStep, hg, hsett, hc, hm]
  simp [hls]

open UseAsyncMemo in
/-- C5 witness: one successful invocation stores a value, a dependency
change starts a second invocation which fails; the value reverts to the
first value and the error is reported. -/
theorem C5_error_reverts_to_last_successful_witness :
    (memoStep (.settleErr 1 (JSVal.str "boom"))
        (memoRun [.ev .activate, .ev (.settleOk 0 (JSVal.num 3)),
          .ev .activate])).value =
      (memoRun [.ev .activate, .ev (.settleOk 0 (JSVal.num 3)),
        .ev .activate]).history.getLast? ∧
    (memoStep (.settleErr 1 (JSVal.str "boom"))
        (memoRun [.ev .activate, .ev (.settleOk 0 (JSVal.num 3)),
          .ev .activate])).reports =
      (memoRun [.ev .activate, .ev (.settleOk 0 (JSVal.num 3)),
        .ev .activate]).reports + 1 ∧
    (memoStep (.settleErr 1 (JSVal.str "boom"))
        (memoRun [.ev .activate, .ev (.settleOk 0 (JSVal.num 3)),
          .ev .activate])).lastSuccessful =
      (memoRun [.ev .activate, .ev (.settleOk 0 (JSVal.num 3)),
        .ev .activate]).history.getLast? ∧
    (memoStep (.settleErr 1 (JSVal.str "boom"))
        (memoRun [.ev .activate, .ev (.settleOk 0 (JSVal.num 3)),
          .ev .activate])).history =
      (memoRun [.ev .activate, .ev (.settleOk 0 (JSVal.num 3)),
        .ev .activate]).history :=
  C5_error_reverts_to_last_successful
    [.ev .activate, .ev (.settleOk 0 (JSVal.num 3)), .ev .activate]
    1 (JSVal.str "boom") ⟨false, false⟩ (by decide) (by decide) (by decide)
    (by decide)

namespace UseAsyncEffekt

/-!
State machine for `useAsyncEffekt` (the EffectSequencer), from the source of
the hook.  Promises live in a heap `Nat → Prom`; a pending promise carries
its registered continuations, and settling moves them, paired with the
settlement outcome, onto the FIFO microtask queue.  Continuations are
defunctionalized, one constructor per syntactic continuation of the source:

* `execEffect i` — the resumption of `cleanup = await effect(...)` inside
  `executeEffect` of run `i`: on fulfilment store the resolved value in the
  `cleanup` variable, on rejection report the error if still mounted; either
  way `executeEffect` returns, resolving `currentEffectPromise`.
* `chainLink1 i chain` — `currentEffectPromise.then(() => cleanupPromise)`:
  on fulfilment the callback returns `cleanupPromise`, so the chain promise
  adopts it (register `chainLink2`); on rejection the chain rejects.
* `chainLink2 chain` — the adoption: the chain promise settles exactly as
  `cleanupPromise` settles.
* `teardownA i p2` — `currentEffectPromise.then(async () => {...})` of the
  returned cleanup closure: if the `cleanup` variable is falsy, return; if
  it is callable, invoke it (a fresh call promise, settled by the
  environment) and await it; if it is truthy but not callable, the call
  expression throws a TypeError which the `try/catch` catches and reports.
* `teardownAwait i p2` — the resumption of `await cleanup()`: on rejection
  report the cleanup error (the source logs it unconditionally); either way
  the teardown body returns, resolving `p2`.
* `teardownCatch p3` — the `.catch(() => {})`.
* `teardownB i` — the final `.then` that calls `cleanupResolver`, resolving
  `cleanupPromise`.

The environment (host and user code) drives the machine through events:
`rerender` (run the active run's returned cleanup closure, then the effect
setup for a fresh run — React runs both synchronously in one commit),
`unmount` (run the cleanup closure and clear the mounted flag),
`settleAction`/`settleCleanup` (the user action's promise or a cleanup call
settles, with any outcome), and `micro` (run the next queued microtask).
-/

/-- A promise settlement. -/
inductive Outcome where
  | fulfilled (v : JSVal)
  | rejected (e : JSVal)
deriving DecidableEq, Repr

/-- Defunctionalized continuations of the source (see the header above). -/
inductive Cont where
  | execEffect (i : Nat)
  | chainLink1 (i : Nat) (chain : Nat)
  | chainLink2 (chain : Nat)
  | teardownA (i : Nat) (p2 : Nat)
  | teardownAwait (i : Nat) (p2 : Nat)
  | teardownCatch (p3 : Nat)
  | teardownB (i : Nat)
deriving DecidableEq, Repr

/-- A promise: pending with registered continuations, or settled. -/
inductive Prom where
  | pending (conts : List Cont)
  | fulfilled (v : JSVal)
  | rejected (e : JSVal)
deriving DecidableEq, Repr

/-- Whether a promise has settled. -/
def Prom.isSettled : Prom → Bool
  | .pending _ => false
  | _ => true

/-- The settled promise state of an outcome. -/
def Outcome.toProm : Outcome → Prom
  | .fulfilled v => .fulfilled v
  | .rejected e => .rejected e

/-- Which `console.error` call of the source produced a log entry. -/
inductive LogKind where
  | actionErr
  | cleanupErr
deriving DecidableEq, Repr

/-- One reported error: which catch reported it, for which run, and the
value of `isMountedRef.current` at the moment of the catch. -/
structure LogEntry where
  kind : LogKind
  runIdx : Nat
  mountedAtCatch : Bool
deriving DecidableEq, Repr

/-- One attempted invocation of a stored cleanup value at teardown;
`callable` records whether the value was in fact a function. -/
structure CallAttempt where
  runIdx : Nat
  callable : Bool
deriving DecidableEq, Repr

/-- Bookkeeping of one effect run: the promise returned by the user action
(`effP`), `currentEffectPromise` (`cep`), the manually resolved
`cleanupPromise`, the captured `previousEffectChain` (`prevChain`, what
`waitForPrevious` returns), the published chain promise
`currentEffectPromise.then(() => cleanupPromise)` (`chainP`), the `cleanup`
variable, whether the host ran the returned cleanup closure, the two
promises that closure chains (`tdP2`, `tdP3`), and the promise of the
cleanup call, once invoked (`callP`). -/
structure Run where
  effP : Nat
  cep : Nat
  cleanupP : Nat
  prevChain : Nat
  chainP : Nat
  cleanupVal : JSVal
  torndown : Bool
  tdP2 : Option Nat
  tdP3 : Option Nat
  callP : Option Nat
deriving DecidableEq, Repr

/-- Value of the run map below any allocated index. -/
def defaultRun : Run := ⟨0, 0, 0, 0, 0, .undef, false, none, none, none⟩

/-- State of one `useAsyncEffekt` hook instance together with its promise
heap and microtask queue.  `log` records every `console.error`, `calls`
every attempted cleanup invocation. -/
structure EffSt where
  mounted : Bool
  nextId : Nat
  proms : Nat → Prom
  runs : Nat → Run
  runCount : Nat
  chainRef : Nat
  queue : List (Cont × Outcome)
  log : List LogEntry
  calls : List CallAttempt

/-- Pointwise update of a heap. -/
def updFn {α : Type} (f : Nat → α) (n : Nat) (v : α) : Nat → α :=
  fun m => if m = n then v else f m

/-- Register a continuation on a promise: a pending promise stores it, a
settled promise schedules it immediately with the settled outcome. -/
def subscribe (p : Nat) (c : Cont) (s : EffSt) : EffSt :=
  match s.proms p with
  | .pending cs => { s with proms := updFn s.proms p (.pending (cs ++ [c])) }
  | .fulfilled v => { s with queue := s.queue ++ [(c, .fulfilled v)] }
  | .rejected e => { s with queue := s.queue ++ [(c, .rejected e)] }

/-- Settle a promise: a pending promise takes the outcome and its
continuations are scheduled with it; settling an already settled promise is
a no-op (a promise settles at most once). -/
def settle (p : Nat) (o : Outcome) (s : EffSt) : EffSt :=
  match s.proms p with
  | .pending cs =>
    { s with proms := updFn s.proms p o.toProm,
             queue := s.queue ++ cs.map (fun c => (c, o)) }
  | _ => s

/-- Update the bookkeeping of run `i`. -/
def updRun (i : Nat) (f : Run → Run) (s : EffSt) : EffSt :=
  { s with runs := updFn s.runs i (f (s.runs i)) }

/-- Append a `console.error` record. -/
def pushLog (e : LogEntry) (s : EffSt) : EffSt :=
  { s with log := s.log ++ [e] }

/-- Append a cleanup invocation attempt. -/
def pushCall (c : CallAttempt) (s : EffSt) : EffSt :=
  { s with calls := s.calls ++ [c] }

/-- The synchronous body of the effect setup from the source: capture the
current chain as `previousEffectChain`, create `cleanupPromise`, invoke the
user action (its promise `effP` is settled later by the environment) and
register the `await` resumption, create `currentEffectPromise`, publish
`currentEffectPromise.then(() => cleanupPromise)` as the new chain, and
record the run. -/
def setup (s : EffSt) : EffSt :=
  let i := s.runCount
  let cleanupP := s.nextId
  let effP := s.nextId + 1
  let cep := s.nextId + 2
  let chainP := s.nextId + 3
  let r : Run :=
    ⟨effP, cep, cleanupP, s.chainRef, chainP, .undef, false, none, none, none⟩
  { s with
    nextId := s.nextId + 4,
    proms :=
      updFn (updFn (updFn (updFn s.proms
        cleanupP (.pending []))
        effP (.pending [.execEffect i]))
        cep (.pending [.chainLink1 i chainP]))
        chainP (.pending []),
    runs := updFn s.runs i r,
    runCount := i + 1,
    chainRef := chainP }

/-- The returned cleanup closure of run `i`, as the host executes it:
`currentEffectPromise.then(async () => {...}).catch(() => {}).then(...)`.
It only registers continuations; the teardown body itself runs as a
microtask once `currentEffectPromise` settles.  The host runs it at most
once per run. -/
def teardownRun (i : Nat) (s : EffSt) : EffSt :=
  if (s.runs i).torndown then s
  else
    let p2 := s.nextId
    let p3 := s.nextId + 1
    let s1 : EffSt :=
      { s with
        nextId := s.nextId + 2,
        proms := updFn (updFn s.proms
          p2 (.pending [.teardownCatch p3]))
          p3 (.pending [.teardownB i]),
        runs := updFn s.runs i
          { s.runs i with torndown := true, tdP2 := some p2, tdP3 := some p3 } }
    subscribe (s.runs i).cep (.teardownA i p2) s1

/-- Execute one defunctionalized continuation with the outcome it was
scheduled with (see the header comment for the source of each case). -/
def runTask (c : Cont) (o : Outcome) (s : EffSt) : EffSt :=
  match c with
  | .execEffect i =>
    match o with
    | .fulfilled v =>
      settle (s.runs i).cep (.fulfilled .undef)
        (updRun i (fun r => { r with cleanupVal := v }) s)
    | .rejected _ =>
      settle (s.runs i).cep (.fulfilled .undef)
        (if s.mounted then pushLog ⟨.actionErr, i, s.mounted⟩ s else s)
  | .chainLink1 i chain =>
    match o with
    | .fulfilled _ => subscribe (s.runs i).cleanupP (.chainLink2 chain) s
    | .rejected e => settle chain (.rejected e) s
  | .chainLink2 chain => settle chain o s
  | .teardownA i p2 =>
    match o with
    | .rejected e => settle p2 (.rejected e) s
    | .fulfilled _ =>
      let cv := (s.runs i).cleanupVal
      if cv.truthy = false then settle p2 (.fulfilled .undef) s
      else
        match cv with
        | .fn _ =>
          let cp := s.nextId
          { s with
            nextId := s.nextId + 1,
            proms := updFn s.proms cp (.pending [.teardownAwait i p2]),
            runs := updFn s.runs i { s.runs i with callP := some cp },
            calls := s.calls ++ [⟨i, true⟩] }
        | _ =>
          settle p2 (.fulfilled .undef)
            (pushLog ⟨.cleanupErr, i, s.mounted⟩ (pushCall ⟨i, false⟩ s))
  | .teardownAwait i p2 =>
    match o with
    | .fulfilled _ => settle p2 (.fulfilled .undef) s
    | .rejected _ =>
      settle p2 (.fulfilled .undef) (pushLog ⟨.cleanupErr, i, s.mounted⟩ s)
  | .teardownCatch p3 =>
    match o with
    | .fulfilled v => settle p3 (.fulfilled v) s
    | .rejected _ => settle p3 (.fulfilled .undef) s
  | .teardownB i => settle (s.runs i).cleanupP (.fulfilled .undef) s

/-- Events the environment can perform. -/
inductive Ev where
  | rerender
  | unmount
  | settleAction (i : Nat) (o : Outcome)
  | settleCleanup (i : Nat) (o : Outcome)
  | micro
deriving DecidableEq, Repr

/-- Run the cleanup closure of the active (most recent) run, if any. -/
def teardownLast (s : EffSt) : EffSt :=
  match s.runCount with
  | 0 => s
  | n + 1 => teardownRun n s

/-- The transition function.  The host only re-renders a mounted instance;
on a dependency change it runs the previous cleanup closure and then the
new setup synchronously in one commit; on unmount it runs the cleanup
closure and then the mount-tracking effect clears the flag. -/
def step (ev : Ev) (s : EffSt) : EffSt :=
  match ev with
  | .rerender => if s.mounted then setup (teardownLast s) else s
  | .unmount => if s.mounted then { teardownLast s with mounted := false } else s
  | .settleAction i o =>
    if i < s.runCount then settle (s.runs i).effP o s else s
  | .settleCleanup i o =>
    if i < s.runCount then
      match (s.runs i).callP with
      | some cp => settle cp o s
      | none => s
    else s
  | .micro =>
    match s.queue with
    | [] => s
    | t :: rest => runTask t.1 t.2 { s with queue := rest }

/-- The initial instance state: promise `0` is the already resolved initial
chain (`useRef(Promise.resolve())`). -/
def init : EffSt :=
  { mounted := true, nextId := 1,
    proms := fun n => if n = 0 then .fulfilled .undef else .pending [],
    runs := fun _ => defaultRun, runCount := 0, chainRef := 0,
    queue := [], log := [], calls := [] }

/-- Run an event trace from the initial state. -/
def effRun (evs : List Ev) : EffSt :=
  evs.foldl (fun s e => step e s) init

theorem updFn_self {α : Type} (f : Nat → α) (n : Nat) (v : α) :
    updFn f n v n = v := by simp [updFn]

theorem updFn_ne {α : Type} (f : Nat → α) (n m : Nat) (v : α) (h : m ≠ n) :
    updFn f n v m = f m := by simp [updFn, h]

theorem settle_log (p : Nat) (o : Outcome) (s : EffSt) :
    (settle p o s).log = s.log := by
  unfold settle; cases s.proms p <;> rfl

theorem settle_calls (p : Nat) (o : Outcome) (s : EffSt) :
    (settle p o s).calls = s.calls := by
  unfold settle; cases s.proms p <;> rfl

theorem settle_mounted (p : Nat) (o : Outcome) (s : EffSt) :
    (settle p o s).mounted = s.mounted := by
  unfold settle; cases s.proms p <;> rfl

theorem settle_runs (p : Nat) (o : Outcome) (s : EffSt) :
    (settle p o s).runs = s.runs := by
  unfold settle; cases s.proms p <;> rfl

theorem settle_runCount (p : Nat) (o : Outcome) (s : EffSt) :
    (settle p o s).runCount = s.runCount := by
  unfold settle; cases s.proms p <;> rfl

theorem settle_nextId (p : Nat) (o : Outcome) (s : EffSt) :
    (settle p o s).nextId = s.nextId := by
  unfold settle; cases s.proms p <;> rfl

theorem settle_chainRef (p : Nat) (o : Outcome) (s : EffSt) :
    (settle p o s).chainRef = s.chainRef := by
  unfold settle; cases s.proms p <;> rfl

theorem settle_proms_ne (p q : Nat) (o : Outcome) (s : EffSt) (h : q ≠ p) :
    (settle p o s).proms q = s.proms q := by
  unfold settle
  cases s.proms p with
  | pending cs => exact updFn_ne _ _ _ _ h
  | fulfilled v => rfl
  | rejected e => rfl

theorem subscribe_log (p : Nat) (c : Cont) (s : EffSt) :
    (subscribe p c s).log = s.log := by
  unfold subscribe; cases s.proms p <;> rfl

theorem subscribe_calls (p : Nat) (c : Cont) (s : EffSt) :
    (subscribe p c s).calls = s.calls := by
  unfold subscribe; cases s.proms p <;> rfl

theorem subscribe_mounted (p : Nat) (c : Cont) (s : EffSt) :
    (subscribe p c s).mounted = s.mounted := by
  unfold subscribe; cases s.proms p <;> rfl

theorem subscribe_runs (p : Nat) (c : Cont) (s : EffSt) :
    (subscribe p c s).runs = s.runs := by
  unfold subscribe; cases s.proms p <;> rfl

theorem subscribe_runCount (p : Nat) (c : Cont) (s : EffSt) :
    (subscribe p c s).runCount = s.runCount := by
  unfold subscribe; cases s.proms p <;> rfl

theorem subscribe_nextId (p : Nat) (c : Cont) (s : EffSt) :
    (subscribe p c s).nextId = s.nextId := by
  unfold subscribe; cases s.proms p <;> rfl

theorem subscribe_chainRef (p : Nat) (c : Cont) (s : EffSt) :
    (subscribe p c s).chainRef = s.chainRef := by
  unfold subscribe; cases s.proms p <;> rfl

theorem subscribe_proms_ne (p q : Nat) (c : Cont) (s : EffSt) (h : q ≠ p) :
    (subscribe p c s).proms q = s.proms q := by
  unfold subscribe
  cases s.proms p with
  | pending cs => exact updFn_ne _ _ _ _ h
  | fulfilled v => rfl
  | rejected e => rfl

/-- The continuations registered on a promise (none once it settled). -/
def Prom.contsOf : Prom → List Cont
  | .pending cs => cs
  | _ => []

/-- A continuation is registered on promise `p`. -/
def OnProm (s : EffSt) (p : Nat) (c : Cont) : Prop :=
  c ∈ (s.proms p).contsOf

/-- A continuation is scheduled on the microtask queue. -/
def InQueue (s : EffSt) (c : Cont) : Prop :=
  ∃ o, (c, o) ∈ s.queue

/-- Where a registered continuation may live, in terms of the run
bookkeeping: each defunctionalized continuation sits on the promise the
source registers it on. -/
def ContAt (s : EffSt) (c : Cont) (p : Nat) : Prop :=
  match c with
  | .execEffect i => i < s.runCount ∧ p = (s.runs i).effP
  | .chainLink1 i ch =>
    i < s.runCount ∧ p = (s.runs i).cep ∧ ch = (s.runs i).chainP
  | .chainLink2 ch =>
    ∃ i, i < s.runCount ∧ ch = (s.runs i).chainP ∧ p = (s.runs i).cleanupP
  | .teardownA i q2 =>
    i < s.runCount ∧ p = (s.runs i).cep ∧ (s.runs i).tdP2 = some q2
  | .teardownAwait i q2 =>
    i < s.runCount ∧ (s.runs i).tdP2 = some q2 ∧ (s.runs i).callP = some p
  | .teardownCatch q3 =>
    ∃ i, i < s.runCount ∧ (s.runs i).tdP2 = some p ∧ (s.runs i).tdP3 = some q3
  | .teardownB i =>
    i < s.runCount ∧ (s.runs i).tdP3 = some p

/-- What holds of a scheduled task: its continuation is wired to existing
run bookkeeping and the promise that triggered it has settled with exactly
the outcome the task carries. -/
def TaskOK (s : EffSt) (c : Cont) (o : Outcome) : Prop :=
  match c with
  | .execEffect i =>
    i < s.runCount ∧ s.proms (s.runs i).effP = o.toProm
  | .chainLink1 i ch =>
    i < s.runCount ∧ ch = (s.runs i).chainP ∧
      s.proms (s.runs i).cep = o.toProm
  | .chainLink2 ch =>
    ∃ i, i < s.runCount ∧ ch = (s.runs i).chainP ∧
      s.proms (s.runs i).cleanupP = o.toProm
  | .teardownA i q2 =>
    i < s.runCount ∧ (s.runs i).tdP2 = some q2 ∧
      s.proms (s.runs i).cep = o.toProm
  | .teardownAwait i q2 =>
    i < s.runCount ∧ (s.runs i).tdP2 = some q2 ∧
      ∃ cp, (s.runs i).callP = some cp ∧ s.proms cp = o.toProm
  | .teardownCatch q3 =>
    ∃ i q2, i < s.runCount ∧ (s.runs i).tdP2 = some q2 ∧
      (s.runs i).tdP3 = some q3 ∧ s.proms q2 = o.toProm
  | .teardownB i =>
    i < s.runCount ∧ ∃ q3, (s.runs i).tdP3 = some q3 ∧
      s.proms q3 = o.toProm

/-- How many copies of the teardown body continuation of run `i` exist:
registered on `currentEffectPromise` or scheduled.  The source registers it
exactly once per run (the cleanup closure runs once), which is what makes
the teardown body, and the callP allocation inside it, unrepeatable. -/
def tdAOcc (s : EffSt) (i q2 : Nat) : Nat :=
  ((s.proms (s.runs i).cep).contsOf.count (Cont.teardownA i q2)) +
    (s.queue.countP (fun t => decide (t.1 = Cont.teardownA i q2)))

/-- The pure-bookkeeping part of the invariant: facts about the run records,
the run count, the chain reference and the id counter only.  Preserved by
any state change that keeps `runs`, `runCount` and `chainRef` and does not
decrease `nextId`. -/
structure InvData (s : EffSt) : Prop where
  nextId_pos : 1 ≤ s.nextId
  order : ∀ i, i < s.runCount →
    0 < (s.runs i).cleanupP ∧
    (s.runs i).effP = (s.runs i).cleanupP + 1 ∧
    (s.runs i).cep = (s.runs i).cleanupP + 2 ∧
    (s.runs i).chainP = (s.runs i).cleanupP + 3
  bounds : ∀ i, i < s.runCount →
    (s.runs i).chainP < s.nextId ∧
    (∀ q3, (s.runs i).tdP3 = some q3 → q3 < s.nextId) ∧
    (∀ cp, (s.runs i).callP = some cp → cp < s.nextId)
  td_ids : ∀ i, i < s.runCount →
    ((s.runs i).tdP2 = none ∧ (s.runs i).tdP3 = none ∧
      (s.runs i).torndown = false ∧ (s.runs i).callP = none) ∨
    (∃ q2 q3, (s.runs i).tdP2 = some q2 ∧ (s.runs i).tdP3 = some q3 ∧
      (s.runs i).torndown = true ∧ (s.runs i).chainP < q2 ∧ q3 = q2 + 1)
  cross : ∀ i j, i < j → j < s.runCount →
    (s.runs i).chainP < (s.runs j).cleanupP ∧
    (∀ q3, (s.runs i).tdP3 = some q3 → q3 < (s.runs j).cleanupP)
  callp_ids : ∀ i, i < s.runCount → ∀ cp, (s.runs i).callP = some cp →
    (∃ q3, (s.runs i).tdP3 = some q3 ∧ q3 < cp) ∧
    (∀ j, j < s.runCount →
      cp ≠ (s.runs j).cleanupP ∧ cp ≠ (s.runs j).effP ∧
      cp ≠ (s.runs j).cep ∧ cp ≠ (s.runs j).chainP ∧
      (∀ q, (s.runs j).tdP2 = some q → cp ≠ q) ∧
      (∀ q, (s.runs j).tdP3 = some q → cp ≠ q) ∧
      (j ≠ i → ∀ cq, (s.runs j).callP = some cq → cp ≠ cq))
  chainRef_spec : (s.runCount = 0 ∧ s.chainRef = 0) ∨
    (∃ n, s.runCount = n + 1 ∧ s.chainRef = (s.runs n).chainP)
  prevChain_link : ∀ i, i < s.runCount →
    (i = 0 → (s.runs i).prevChain = 0) ∧
    (∀ j, i = j + 1 → (s.runs i).prevChain = (s.runs j).chainP)
  torndown_prev : ∀ i, i + 1 < s.runCount → (s.runs i).torndown = true

/-- The pop-stable part of the invariant: everything except the pipeline
progress disjunctions.  Removing a task from the queue preserves this
part. -/
structure InvCore (s : EffSt) : Prop where
  data : InvData s
  fresh : ∀ p, s.nextId ≤ p → s.proms p = .pending []
  prom0 : s.proms 0 = .fulfilled .undef
  callp_cep : ∀ i, i < s.runCount → ∀ cp, (s.runs i).callP = some cp →
    (s.proms (s.runs i).cep).isSettled = true
  placement : ∀ p c, OnProm s p c → ContAt s c p
  queue_ok : ∀ c o, (c, o) ∈ s.queue → TaskOK s c o
  tdA_count : ∀ i, i < s.runCount → ∀ q2, (s.runs i).tdP2 = some q2 →
    tdAOcc s i q2 ≤ 1 ∧
    (∀ cp, (s.runs i).callP = some cp → tdAOcc s i q2 = 0)
  tdA_q2_pending : ∀ i, i < s.runCount → ∀ q2, (s.runs i).tdP2 = some q2 →
    (OnProm s (s.runs i).cep (.teardownA i q2) ∨ InQueue s (.teardownA i q2)) →
    (s.proms q2).isSettled = false
  s1 : ∀ i, i < s.runCount → (s.proms (s.runs i).cep).isSettled = true →
    s.proms (s.runs i).cep = .fulfilled .undef ∧
    (s.proms (s.runs i).effP).isSettled = true
  s2 : ∀ i, i < s.runCount → ∀ q2, (s.runs i).tdP2 = some q2 →
    (s.proms q2).isSettled = true →
    s.proms q2 = .fulfilled .undef ∧
    (s.proms (s.runs i).cep).isSettled = true ∧
    (∀ cp, (s.runs i).callP = some cp → (s.proms cp).isSettled = true)
  s3 : ∀ i, i < s.runCount → ∀ q3, (s.runs i).tdP3 = some q3 →
    (s.proms q3).isSettled = true →
    s.proms q3 = .fulfilled .undef ∧
    (∀ q2, (s.runs i).tdP2 = some q2 → (s.proms q2).isSettled = true)
  s4 : ∀ i, i < s.runCount → (s.proms (s.runs i).cleanupP).isSettled = true →
    s.proms (s.runs i).cleanupP = .fulfilled .undef ∧
    (∃ q3, (s.runs i).tdP3 = some q3 ∧ (s.proms q3).isSettled = true)
  s5 : ∀ i, i < s.runCount → (s.proms (s.runs i).chainP).isSettled = true →
    s.proms (s.runs i).chainP = .fulfilled .undef ∧
    (s.proms (s.runs i).cleanupP).isSettled = true ∧
    (s.proms (s.runs i).cep).isSettled = true

/-- The pipeline progress part of the invariant: each stage of each run's
promise pipeline is either still registered, scheduled, or done. -/
structure InvLive (s : EffSt) : Prop where
  l0 : ∀ i, i < s.runCount →
    OnProm s (s.runs i).effP (.execEffect i) ∨ InQueue s (.execEffect i) ∨
    (s.proms (s.runs i).cep).isSettled = true
  l1 : ∀ i, i < s.runCount →
    OnProm s (s.runs i).cep (.chainLink1 i (s.runs i).chainP) ∨
    InQueue s (.chainLink1 i (s.runs i).chainP) ∨
    OnProm s (s.runs i).cleanupP (.chainLink2 (s.runs i).chainP) ∨
    InQueue s (.chainLink2 (s.runs i).chainP) ∨
    (s.proms (s.runs i).chainP).isSettled = true
  l2 : ∀ i, i < s.runCount → ∀ q2, (s.runs i).tdP2 = some q2 →
    OnProm s (s.runs i).cep (.teardownA i q2) ∨ InQueue s (.teardownA i q2) ∨
    (∃ cp, (s.runs i).callP = some cp ∧
      (OnProm s cp (.teardownAwait i q2) ∨ InQueue s (.teardownAwait i q2))) ∨
    (s.proms q2).isSettled = true
  l3 : ∀ i, i < s.runCount → ∀ q2 q3, (s.runs i).tdP2 = some q2 →
    (s.runs i).tdP3 = some q3 →
    OnProm s q2 (.teardownCatch q3) ∨ InQueue s (.teardownCatch q3) ∨
    (s.proms q3).isSettled = true
  l4 : ∀ i, i < s.runCount → ∀ q3, (s.runs i).tdP3 = some q3 →
    OnProm s q3 (.teardownB i) ∨ InQueue s (.teardownB i) ∨
    (s.proms (s.runs i).cleanupP).isSettled = true

/-- The inductive invariant of reachable `useAsyncEffekt` states. -/
structure Inv (s : EffSt) : Prop where
  core : InvCore s
  live : InvLive s

theorem Prom.contsOf_eq_nil_of_isSettled (pr : Prom)
    (h : pr.isSettled = true) : pr.contsOf = [] := by
  cases pr with
  | pending cs => simp [Prom.isSettled] at h
  | fulfilled v => rfl
  | rejected e => rfl

theorem Outcome.toProm_isSettled (o : Outcome) : o.toProm.isSettled = true := by
  cases o <;> rfl

theorem Outcome.toProm_ne_pending (o : Outcome) (cs : List Cont) :
    o.toProm ≠ .pending cs := by
  cases o <;> simp [Outcome.toProm]

theorem settle_of_settled (p : Nat) (o : Outcome) (s : EffSt)
    (h : (s.proms p).isSettled = true) : settle p o s = s := by
  unfold settle
  cases hp : s.proms p with
  | pending cs => rw [hp] at h; simp [Prom.isSettled] at h
  | fulfilled v => rfl
  | rejected e => rfl

theorem settle_of_pending (p : Nat) (o : Outcome) (s : EffSt) (cs : List Cont)
    (h : s.proms p = .pending cs) :
    settle p o s = { s with proms := updFn s.proms p o.toProm,
                            queue := s.queue ++ cs.map (fun c => (c, o)) } := by
  unfold settle
  rw [h]

theorem settle_proms_self_of_pending (p : Nat) (o : Outcome) (s : EffSt)
    (cs : List Cont) (h : s.proms p = .pending cs) :
    (settle p o s).proms p = o.toProm := by
  rw [settle_of_pending p o s cs h]
  exact updFn_self _ _ _

theorem settle_proms_of_settled (p q : Nat) (o : Outcome) (s : EffSt)
    (h : (s.proms q).isSettled = true) :
    (settle p o s).proms q = s.proms q := by
  by_cases hpq : q = p
  · subst hpq
    rw [settle_of_settled q o s h]
  · exact settle_proms_ne p q o s hpq

theorem settle_isSettled_mono (p q : Nat) (o : Outcome) (s : EffSt)
    (h : (s.proms q).isSettled = true) :
    ((settle p o s).proms q).isSettled = true := by
  rw [settle_proms_of_settled p q o s h]; exact h

theorem settle_queue_subset (p : Nat) (o : Outcome) (s : EffSt)
    (t : Cont × Outcome) (h : t ∈ s.queue) : t ∈ (settle p o s).queue := by
  unfold settle
  cases s.proms p with
  | pending cs => simp [h]
  | fulfilled v => exact h
  | rejected e => exact h

theorem settle_queue_cases (p : Nat) (o : Outcome) (s : EffSt)
    (t : Cont × Outcome) (h : t ∈ (settle p o s).queue) :
    t ∈ s.queue ∨ (t.2 = o ∧ OnProm s p t.1) := by
  unfold settle at h
  cases hp : s.proms p with
  | pending cs =>
    rw [hp] at h
    simp only [List.mem_append] at h
    rcases h with h | h
    · exact Or.inl h
    · right
      rcases List.mem_map.mp h with ⟨c, hc, hceq⟩
      cases t
      cases hceq
      exact ⟨rfl, by simp [OnProm, hp, Prom.contsOf, hc]⟩
  | fulfilled v => rw [hp] at h; exact Or.inl h
  | rejected e => rw [hp] at h; exact Or.inl h

theorem settle_queue_of_cont (p : Nat) (o : Outcome) (s : EffSt) (c : Cont)
    (h : OnProm s p c) : (c, o) ∈ (settle p o s).queue := by
  unfold settle
  cases hp : s.proms p with
  | pending cs =>
    rw [OnProm, hp] at h
    simp [List.mem_append, List.mem_map]
    right
    exact h
  | fulfilled v => rw [OnProm, hp] at h; simp [Prom.contsOf] at h
  | rejected e => rw [OnProm, hp] at h; simp [Prom.contsOf] at h

theorem settle_contsOf_self (p : Nat) (o : Outcome) (s : EffSt) :
    ((settle p o s).proms p).contsOf = [] := by
  unfold settle
  cases hp : s.proms p with
  | pending cs =>
    simp only
    rw [updFn_self]
    exact Prom.contsOf_eq_nil_of_isSettled _ (Outcome.toProm_isSettled o)
  | fulfilled v => rw [hp]; rfl
  | rejected e => rw [hp]; rfl

theorem subscribe_of_pending (p : Nat) (c : Cont) (s : EffSt) (cs : List Cont)
    (h : s.proms p = .pending cs) :
    subscribe p c s = { s with proms := updFn s.proms p (.pending (cs ++ [c])) } := by
  unfold subscribe
  rw [h]

theorem Prom.exists_pending_of_not_settled (pr : Prom)
    (h : ¬ pr.isSettled = true) : ∃ cs, pr = .pending cs := by
  cases pr with
  | pending cs => exact ⟨cs, rfl⟩
  | fulfilled v => simp [Prom.isSettled] at h
  | rejected e => simp [Prom.isSettled] at h

theorem subscribe_of_settled (p : Nat) (c : Cont) (s : EffSt)
    (h : (s.proms p).isSettled = true) :
    ∃ o : Outcome, o.toProm = s.proms p ∧
      subscribe p c s = { s with queue := s.queue ++ [(c, o)] } := by
  cases hp : s.proms p with
  | pending cs => rw [hp] at h; simp [Prom.isSettled] at h
  | fulfilled v =>
    refine ⟨.fulfilled v, rfl, ?_⟩
    unfold subscribe
    rw [hp]
  | rejected e =>
    refine ⟨.rejected e, rfl, ?_⟩
    unfold subscribe
    rw [hp]

theorem subscribe_proms_of_settled (p q : Nat) (c : Cont) (s : EffSt)
    (h : (s.proms q).isSettled = true) :
    (subscribe p c s).proms q = s.proms q := by
  by_cases hpq : q = p
  · subst hpq
    rcases subscribe_of_settled q c s h with ⟨o, _, heq⟩
    rw [heq]
  · exact subscribe_proms_ne p q c s hpq

theorem subscribe_queue_subset (p : Nat) (c : Cont) (s : EffSt)
    (t : Cont × Outcome) (h : t ∈ s.queue) : t ∈ (subscribe p c s).queue := by
  unfold subscribe
  cases s.proms p with
  | pending cs => exact h
  | fulfilled v => simp [h]
  | rejected e => simp [h]

theorem subscribe_queue_cases (p : Nat) (c : Cont) (s : EffSt)
    (t : Cont × Outcome) (h : t ∈ (subscribe p c s).queue) :
    t ∈ s.queue ∨ (t.1 = c ∧ t.2.toProm = s.proms p) := by
  unfold subscribe at h
  cases hp : s.proms p with
  | pending cs => rw [hp] at h; exact Or.inl h
  | fulfilled v =>
    rw [hp] at h
    simp only [List.mem_append, List.mem_singleton] at h
    rcases h with h | h
    · exact Or.inl h
    · cases t; cases h; exact Or.inr ⟨rfl, rfl⟩
  | rejected e =>
    rw [hp] at h
    simp only [List.mem_append, List.mem_singleton] at h
    rcases h with h | h
    · exact Or.inl h
    · cases t; cases h; exact Or.inr ⟨rfl, rfl⟩

theorem subscribe_onProm_self (p : Nat) (c : Cont) (s : EffSt) :
    OnProm (subscribe p c s) p c ∨ InQueue (subscribe p c s) c := by
  unfold subscribe
  cases hp : s.proms p with
  | pending cs =>
    left
    simp [OnProm, updFn_self, Prom.contsOf]
  | fulfilled v =>
    right
    exact ⟨.fulfilled v, by simp⟩
  | rejected e =>
    right
    exact ⟨.rejected e, by simp⟩

theorem subscribe_onProm_cases (p : Nat) (c : Cont) (s : EffSt) (q : Nat)
    (d : Cont) (h : OnProm (subscribe p c s) q d) :
    OnProm s q d ∨ (q = p ∧ d = c) := by
  by_cases hset : (s.proms p).isSettled = true
  · rcases subscribe_of_settled p c s hset with ⟨o, _, heq⟩
    rw [heq] at h
    exact Or.inl h
  · rcases Prom.exists_pending_of_not_settled _ hset with ⟨cs, hp⟩
    rw [subscribe_of_pending p c s cs hp] at h
    unfold OnProm at h ⊢
    dsimp only at h
    by_cases hq : q = p
    · subst hq
      rw [updFn_self] at h
      simp only [Prom.contsOf, List.mem_append, List.mem_singleton] at h
      rcases h with h | h
      · left; rw [hp]; exact h
      · right; exact ⟨rfl, h⟩
    · rw [updFn_ne _ _ _ _ hq] at h
      exact Or.inl h

theorem subscribe_onProm_subset (p : Nat) (c : Cont) (s : EffSt) (q : Nat)
    (d : Cont) (h : OnProm s q d) : OnProm (subscribe p c s) q d := by
  by_cases hset : (s.proms p).isSettled = true
  · rcases subscribe_of_settled p c s hset with ⟨o, _, heq⟩
    rw [heq]
    exact h
  · rcases Prom.exists_pending_of_not_settled _ hset with ⟨cs, hp⟩
    rw [subscribe_of_pending p c s cs hp]
    unfold OnProm at h ⊢
    dsimp only
    by_cases hq : q = p
    · subst hq
      rw [updFn_self]
      rw [hp] at h
      simp only [Prom.contsOf, List.mem_append] at h ⊢
      exact Or.inl h
    · rw [updFn_ne _ _ _ _ hq]
      exact h

theorem settle_onProm_cases (p : Nat) (o : Outcome) (s : EffSt) (q : Nat)
    (d : Cont) (h : OnProm (settle p o s) q d) : OnProm s q d := by
  by_cases hset : (s.proms p).isSettled = true
  · rw [settle_of_settled p o s hset] at h
    exact h
  · rcases Prom.exists_pending_of_not_settled _ hset with ⟨cs, hp⟩
    rw [settle_of_pending p o s cs hp] at h
    unfold OnProm at h ⊢
    dsimp only at h
    by_cases hq : q = p
    · subst hq
      rw [updFn_self] at h
      rw [Prom.contsOf_eq_nil_of_isSettled _ (Outcome.toProm_isSettled o)] at h
      cases h
    · rw [updFn_ne _ _ _ _ hq] at h
      exact h

theorem settle_onProm_subset_ne (p : Nat) (o : Outcome) (s : EffSt) (q : Nat)
    (d : Cont) (hq : q ≠ p) (h : OnProm s q d) : OnProm (settle p o s) q d := by
  unfold OnProm at h ⊢
  rw [settle_proms_ne p q o s hq]
  exact h

/-- The four setup promises of distinct runs occupy disjoint id intervals. -/
theorem InvData.sep_lt {s : EffSt} (hd : InvData s) {i j : Nat} (hij : i < j)
    (hj : j < s.runCount) :
    (s.runs i).cleanupP + 3 < (s.runs j).cleanupP := by
  have hi : i < s.runCount := lt_trans hij hj
  have h1 := (hd.order i hi).2.2.2
  have h2 := (hd.cross i j hij hj).1
  omega

/-- Teardown promise data of a torn-down run. -/
theorem InvData.td_some {s : EffSt} (hd : InvData s) {i : Nat} (hi : i < s.runCount)
    {q2 : Nat} (h : (s.runs i).tdP2 = some q2) :
    ∃ q3, (s.runs i).tdP3 = some q3 ∧ (s.runs i).chainP < q2 ∧ q3 = q2 + 1 := by
  rcases hd.td_ids i hi with ⟨h2, _, _, _⟩ | ⟨a, b, ha, hb, _, hlt, hq3⟩
  · rw [h2] at h; cases h
  · rw [ha] at h
    cases h
    exact ⟨b, hb, hlt, hq3⟩

theorem InvData.td3_some {s : EffSt} (hd : InvData s) {i : Nat} (hi : i < s.runCount)
    {q3 : Nat} (h : (s.runs i).tdP3 = some q3) :
    ∃ q2, (s.runs i).tdP2 = some q2 ∧ (s.runs i).chainP < q2 ∧ q3 = q2 + 1 := by
  rcases hd.td_ids i hi with ⟨_, h3, _, _⟩ | ⟨a, b, ha, hb, _, hlt, hq3⟩
  · rw [h3] at h; cases h
  · rw [hb] at h
    cases h
    exact ⟨a, ha, hlt, hq3⟩

/-- Teardown promise ids of run `i` lie below the setup ids of any later
run. -/
theorem InvData.td_below_later {s : EffSt} (hd : InvData s) {i j : Nat} (hij : i < j)
    (hj : j < s.runCount) {q2 q3 : Nat} (h2 : (s.runs i).tdP2 = some q2)
    (h3 : (s.runs i).tdP3 = some q3) :
    q2 < (s.runs j).cleanupP ∧ q3 < (s.runs j).cleanupP := by
  have hlt := (hd.cross i j hij hj).2 q3 h3
  rcases hd.td_some (i := i) (lt_trans hij hj) h2 with ⟨q3', h3', _, hq3'⟩
  rw [h3] at h3'
  cases h3'
  omega

/-- Only the `await effect(...)` resumption of run `i` can be registered on
run `i`'s action promise. -/
theorem InvData.cont_at_effP {s : EffSt} (hd : InvData s) {i : Nat}
    (hi : i < s.runCount) {c : Cont}
    (h : ContAt s c (s.runs i).effP) : c = .execEffect i := by
  have horderi := hd.order i hi
  cases c with
  | execEffect j =>
    rcases h with ⟨hj, hp⟩
    have horderj := hd.order j hj
    rcases Nat.lt_trichotomy i j with hij | hij | hij
    · have := hd.sep_lt hij hj; omega
    · rw [hij]
    · have := hd.sep_lt hij hi; omega
  | chainLink1 j ch =>
    rcases h with ⟨hj, hp, _⟩
    have horderj := hd.order j hj
    rcases Nat.lt_trichotomy i j with hij | hij | hij
    · have := hd.sep_lt hij hj; omega
    · subst hij; omega
    · have := hd.sep_lt hij hi; omega
  | chainLink2 ch =>
    rcases h with ⟨j, hj, _, hp⟩
    have horderj := hd.order j hj
    rcases Nat.lt_trichotomy i j with hij | hij | hij
    · have := hd.sep_lt hij hj; omega
    · subst hij; omega
    · have := hd.sep_lt hij hi; omega
  | teardownA j q2 =>
    rcases h with ⟨hj, hp, _⟩
    have horderj := hd.order j hj
    rcases Nat.lt_trichotomy i j with hij | hij | hij
    · have := hd.sep_lt hij hj; omega
    · subst hij; omega
    · have := hd.sep_lt hij hi; omega
  | teardownAwait j q2 =>
    rcases h with ⟨hj, _, hcp⟩
    exact absurd rfl (((hd.callp_ids j hj _ hcp).2 i hi).2.1).symm
  | teardownCatch q3 =>
    rcases h with ⟨j, hj, hp2, hp3⟩
    rcases hd.td_some (i := j) hj hp2 with ⟨q3', h3', hlt, _⟩
    have horderj := hd.order j hj
    rcases Nat.lt_trichotomy i j with hij | hij | hij
    · have := hd.sep_lt hij hj; omega
    · subst hij; omega
    · have := hd.td_below_later hij hi hp2 h3'; omega
  | teardownB j =>
    rcases h with ⟨hj, hp3⟩
    rcases hd.td3_some (i := j) hj hp3 with ⟨q2', h2', hlt, hq3⟩
    have horderj := hd.order j hj
    rcases Nat.lt_trichotomy i j with hij | hij | hij
    · have := hd.sep_lt hij hj; omega
    · subst hij; omega
    · have := hd.td_below_later hij hi h2' hp3; omega

/-- Only run `i`'s chain adoption and its teardown body can be registered
on run `i`'s `currentEffectPromise`. -/
theorem InvData.cont_at_cep {s : EffSt} (hd : InvData s) {i : Nat}
    (hi : i < s.runCount) {c : Cont}
    (h : ContAt s c (s.runs i).cep) :
    c = .chainLink1 i (s.runs i).chainP ∨
    ∃ q2, (s.runs i).tdP2 = some q2 ∧ c = .teardownA i q2 := by
  have horderi := hd.order i hi
  cases c with
  | execEffect j =>
    rcases h with ⟨hj, hp⟩
    have horderj := hd.order j hj
    rcases Nat.lt_trichotomy i j with hij | hij | hij
    · have := hd.sep_lt hij hj; omega
    · subst hij; omega
    · have := hd.sep_lt hij hi; omega
  | chainLink1 j ch =>
    rcases h with ⟨hj, hp, hch⟩
    have horderj := hd.order j hj
    have hij : i = j := by
      rcases Nat.lt_trichotomy i j with hij | hij | hij
      · have := hd.sep_lt hij hj; omega
      · exact hij
      · have := hd.sep_lt hij hi; omega
    subst hij
    left
    rw [hch]
  | chainLink2 ch =>
    rcases h with ⟨j, hj, _, hp⟩
    have horderj := hd.order j hj
    rcases Nat.lt_trichotomy i j with hij | hij | hij
    · have := hd.sep_lt hij hj; omega
    · subst hij; omega
    · have := hd.sep_lt hij hi; omega
  | teardownA j q2 =>
    rcases h with ⟨hj, hp, hq2⟩
    have horderj := hd.order j hj
    have hij : i = j := by
      rcases Nat.lt_trichotomy i j with hij | hij | hij
      · have := hd.sep_lt hij hj; omega
      · exact hij
      · have := hd.sep_lt hij hi; omega
    subst hij
    right
    exact ⟨q2, hq2, rfl⟩
  | teardownAwait j q2 =>
    rcases h with ⟨hj, _, hcp⟩
    exact absurd rfl (((hd.callp_ids j hj _ hcp).2 i hi).2.2.1).symm
  | teardownCatch q3 =>
    rcases h with ⟨j, hj, hp2, hp3⟩
    rcases hd.td_some (i := j) hj hp2 with ⟨q3', h3', hlt, _⟩
    have horderj := hd.order j hj
    rcases Nat.lt_trichotomy i j with hij | hij | hij
    · have := hd.sep_lt hij hj; omega
    · subst hij; omega
    · have := hd.td_below_later hij hi hp2 h3'; omega
  | teardownB j =>
    rcases h with ⟨hj, hp3⟩
    rcases hd.td3_some (i := j) hj hp3 with ⟨q2', h2', hlt, hq3⟩
    have horderj := hd.order j hj
    rcases Nat.lt_trichotomy i j with hij | hij | hij
    · have := hd.sep_lt hij hj; omega
    · subst hij; omega
    · have := hd.td_below_later hij hi h2' hp3; omega

/-- Only run `i`'s chain adoption continuation can be registered on run
`i`'s `cleanupPromise`. -/
theorem InvData.cont_at_cleanupP {s : EffSt} (hd : InvData s) {i : Nat}
    (hi : i < s.runCount) {c : Cont}
    (h : ContAt s c (s.runs i).cleanupP) :
    c = .chainLink2 (s.runs i).chainP := by
  have horderi := hd.order i hi
  cases c with
  | execEffect j =>
    rcases h with ⟨hj, hp⟩
    have horderj := hd.order j hj
    rcases Nat.lt_trichotomy i j with hij | hij | hij
    · have := hd.sep_lt hij hj; omega
    · subst hij; omega
    · have := hd.sep_lt hij hi; omega
  | chainLink1 j ch =>
    rcases h with ⟨hj, hp, _⟩
    have horderj := hd.order j hj
    rcases Nat.lt_trichotomy i j with hij | hij | hij
    · have := hd.sep_lt hij hj; omega
    · subst hij; omega
    · have := hd.sep_lt hij hi; omega
  | chainLink2 ch =>
    rcases h with ⟨j, hj, hch, hp⟩
    have horderj := hd.order j hj
    have hij : i = j := by
      rcases Nat.lt_trichotomy i j with hij | hij | hij
      · have := hd.sep_lt hij hj; omega
      · exact hij
      · have := hd.sep_lt hij hi; omega
    subst hij
    rw [hch]
  | teardownA j q2 =>
    rcases h with ⟨hj, hp, _⟩
    have horderj := hd.order j hj
    rcases Nat.lt_trichotomy i j with hij | hij | hij
    · have := hd.sep_lt hij hj; omega
    · subst hij; omega
    · have := hd.sep_lt hij hi; omega
  | teardownAwait j q2 =>
    rcases h with ⟨hj, _, hcp⟩
    exact absurd rfl (((hd.callp_ids j hj _ hcp).2 i hi).1).symm
  | teardownCatch q3 =>
    rcases h with ⟨j, hj, hp2, hp3⟩
    rcases hd.td_some (i := j) hj hp2 with ⟨q3', h3', hlt, _⟩
    have horderj := hd.order j hj
    rcases Nat.lt_trichotomy i j with hij | hij | hij
    · have := hd.sep_lt hij hj; omega
    · subst hij; omega
    · have := hd.td_below_later hij hi hp2 h3'; omega
  | teardownB j =>
    rcases h with ⟨hj, hp3⟩
    rcases hd.td3_some (i := j) hj hp3 with ⟨q2', h2', hlt, hq3⟩
    have horderj := hd.order j hj
    rcases Nat.lt_trichotomy i j with hij | hij | hij
    · have := hd.sep_lt hij hj; omega
    · subst hij; omega
    · have := hd.td_below_later hij hi h2' hp3; omega

/-- Nothing is ever registered on a chain promise: every continuation kind
lives on a promise with a different id. -/
theorem InvData.cont_at_chainP {s : EffSt} (hd : InvData s) {i : Nat}
    (hi : i < s.runCount) {c : Cont}
    (h : ContAt s c (s.runs i).chainP) : False := by
  have horderi := hd.order i hi
  cases c with
  | execEffect j =>
    rcases h with ⟨hj, hp⟩
    have horderj := hd.order j hj
    rcases Nat.lt_trichotomy i j with hij | hij | hij
    · have := hd.sep_lt hij hj; omega
    · subst hij; omega
    · have := hd.sep_lt hij hi; omega
  | chainLink1 j ch =>
    rcases h with ⟨hj, hp, _⟩
    have horderj := hd.order j hj
    rcases Nat.lt_trichotomy i j with hij | hij | hij
    · have := hd.sep_lt hij hj; omega
    · subst hij; omega
    · have := hd.sep_lt hij hi; omega
  | chainLink2 ch =>
    rcases h with ⟨j, hj, _, hp⟩
    have horderj := hd.order j hj
    rcases Nat.lt_trichotomy i j with hij | hij | hij
    · have := hd.sep_lt hij hj; omega
    · subst hij; omega
    · have := hd.sep_lt hij hi; omega
  | teardownA j q2 =>
    rcases h with ⟨hj, hp, _⟩
    have horderj := hd.order j hj
    rcases Nat.lt_trichotomy i j with hij | hij | hij
    · have := hd.sep_lt hij hj; omega
    · subst hij; omega
    · have := hd.sep_lt hij hi; omega
  | teardownAwait j q2 =>
    rcases h with ⟨hj, _, hcp⟩
    exact absurd rfl (((hd.callp_ids j hj _ hcp).2 i hi).2.2.2.1).symm
  | teardownCatch q3 =>
    rcases h with ⟨j, hj, hp2, hp3⟩
    rcases hd.td_some (i := j) hj hp2 with ⟨q3', h3', hlt, _⟩
    have horderj := hd.order j hj
    rcases Nat.lt_trichotomy i j with hij | hij | hij
    · have := hd.sep_lt hij hj; omega
    · subst hij; omega
    · have := hd.td_below_later hij hi hp2 h3'; omega
  | teardownB j =>
    rcases h with ⟨hj, hp3⟩
    rcases hd.td3_some (i := j) hj hp3 with ⟨q2', h2', hlt, hq3⟩
    have horderj := hd.order j hj
    rcases Nat.lt_trichotomy i j with hij | hij | hij
    · have := hd.sep_lt hij hj; omega
    · subst hij; omega
    · have := hd.td_below_later hij hi h2' hp3; omega

/-- Only the `.catch` continuation of run `i`'s teardown chain can be
registered on run `i`'s first teardown promise. -/
theorem InvData.cont_at_q2 {s : EffSt} (hd : InvData s) {i : Nat}
    (hi : i < s.runCount) {q2 : Nat} (h2 : (s.runs i).tdP2 = some q2)
    {c : Cont} (h : ContAt s c q2) :
    ∃ q3, (s.runs i).tdP3 = some q3 ∧ c = .teardownCatch q3 := by
  have horderi := hd.order i hi
  rcases hd.td_some (i := i) hi h2 with ⟨q3i, h3i, hltq2, hq3i⟩
  cases c with
  | execEffect j =>
    rcases h with ⟨hj, hp⟩
    have horderj := hd.order j hj
    rcases Nat.lt_trichotomy i j with hij | hij | hij
    · have := hd.td_below_later hij hj h2 h3i; omega
    · subst hij; omega
    · have := hd.sep_lt hij hi; omega
  | chainLink1 j ch =>
    rcases h with ⟨hj, hp, _⟩
    have horderj := hd.order j hj
    rcases Nat.lt_trichotomy i j with hij | hij | hij
    · have := hd.td_below_later hij hj h2 h3i; omega
    · subst hij; omega
    · have := hd.sep_lt hij hi; omega
  | chainLink2 ch =>
    rcases h with ⟨j, hj, _, hp⟩
    have horderj := hd.order j hj
    rcases Nat.lt_trichotomy i j with hij | hij | hij
    · have := hd.td_below_later hij hj h2 h3i; omega
    · subst hij; omega
    · have := hd.sep_lt hij hi; omega
  | teardownA j q2' =>
    rcases h with ⟨hj, hp, _⟩
    have horderj := hd.order j hj
    rcases Nat.lt_trichotomy i j with hij | hij | hij
    · have := hd.td_below_later hij hj h2 h3i; omega
    · subst hij; omega
    · have := hd.sep_lt hij hi; omega
  | teardownAwait j q2' =>
    rcases h with ⟨hj, _, hcp⟩
    exact absurd rfl ((((hd.callp_ids j hj _ hcp).2 i hi).2.2.2.2.1 q2 h2)).symm
  | teardownCatch q3 =>
    rcases h with ⟨j, hj, hp2, hp3⟩
    rcases hd.td_some (i := j) hj hp2 with ⟨q3', h3', hltj, _⟩
    have horderj := hd.order j hj
    have hij : i = j := by
      rcases Nat.lt_trichotomy i j with hij | hij | hij
      · have := hd.td_below_later hij hj h2 h3i; omega
      · exact hij
      · have := hd.td_below_later hij hi hp2 h3'; omega
    subst hij
    exact ⟨q3, hp3, rfl⟩
  | teardownB j =>
    rcases h with ⟨hj, hp3⟩
    rcases hd.td3_some (i := j) hj hp3 with ⟨q2', h2', hltj, hq3j⟩
    have horderj := hd.order j hj
    rcases Nat.lt_trichotomy i j with hij | hij | hij
    · have := hd.td_below_later hij hj h2 h3i; omega
    · subst hij
      rw [h2'] at h2
      cases h2
      omega
    · have := hd.td_below_later hij hi h2' hp3; omega

/-- Only the final `.then` continuation of run `i`'s teardown chain can be
registered on run `i`'s second teardown promise. -/
theorem InvData.cont_at_q3 {s : EffSt} (hd : InvData s) {i : Nat}
    (hi : i < s.runCount) {q3 : Nat} (h3 : (s.runs i).tdP3 = some q3)
    {c : Cont} (h : ContAt s c q3) : c = .teardownB i := by
  have horderi := hd.order i hi
  rcases hd.td3_some (i := i) hi h3 with ⟨q2i, h2i, hltq2, hq3i⟩
  cases c with
  | execEffect j =>
    rcases h with ⟨hj, hp⟩
    have horderj := hd.order j hj
    rcases Nat.lt_trichotomy i j with hij | hij | hij
    · have := hd.td_below_later hij hj h2i h3; omega
    · subst hij; omega
    · have := hd.sep_lt hij hi; omega
  | chainLink1 j ch =>
    rcases h with ⟨hj, hp, _⟩
    have horderj := hd.order j hj
    rcases Nat.lt_trichotomy i j with hij | hij | hij
    · have := hd.td_below_later hij hj h2i h3; omega
    · subst hij; omega
    · have := hd.sep_lt hij hi; omega
  | chainLink2 ch =>
    rcases h with ⟨j, hj, _, hp⟩
    have horderj := hd.order j hj
    rcases Nat.lt_trichotomy i j with hij | hij | hij
    · have := hd.td_below_later hij hj h2i h3; omega
    · subst hij; omega
    · have := hd.sep_lt hij hi; omega
  | teardownA j q2' =>
    rcases h with ⟨hj, hp, _⟩
    have horderj := hd.order j hj
    rcases Nat.lt_trichotomy i j with hij | hij | hij
    · have := hd.td_below_later hij hj h2i h3; omega
    · subst hij; omega
    · have := hd.sep_lt hij hi; omega
  | teardownAwait j q2' =>
    rcases h with ⟨hj, _, hcp⟩
    exact absurd rfl ((((hd.callp_ids j hj _ hcp).2 i hi).2.2.2.2.2.1 q3 h3)).symm
  | teardownCatch q3' =>
    rcases h with ⟨j, hj, hp2, hp3⟩
    rcases hd.td_some (i := j) hj hp2 with ⟨q3j, h3j, hltj, hq3j⟩
    have horderj := hd.order j hj
    rcases Nat.lt_trichotomy i j with hij | hij | hij
    · have := hd.td_below_later hij hj h2i h3; omega
    · subst hij
      rw [h2i] at hp2
      cases hp2
      omega
    · have := hd.td_below_later hij hi hp2 h3j; omega
  | teardownB j =>
    rcases h with ⟨hj, hp3⟩
    rcases hd.td3_some (i := j) hj hp3 with ⟨q2', h2', hltj, hq3j⟩
    have horderj := hd.order j hj
    have hij : i = j := by
      rcases Nat.lt_trichotomy i j with hij | hij | hij
      · have := hd.td_below_later hij hj h2i h3; omega
      · exact hij
      · have := hd.td_below_later hij hi h2' hp3; omega
    subst hij
    rfl

/-- Only the `await cleanup()` resumption of run `i` can be registered on
run `i`'s cleanup-call promise. -/
theorem InvData.cont_at_callP {s : EffSt} (hd : InvData s) {i : Nat}
    (hi : i < s.runCount) {cp : Nat} (hcp : (s.runs i).callP = some cp)
    {c : Cont} (h : ContAt s c cp) :
    ∃ q2, (s.runs i).tdP2 = some q2 ∧ c = .teardownAwait i q2 := by
  have hdist := (hd.callp_ids i hi cp hcp).2
  cases c with
  | execEffect j =>
    rcases h with ⟨hj, hp⟩
    exact absurd hp ((hdist j hj).2.1)
  | chainLink1 j ch =>
    rcases h with ⟨hj, hp, _⟩
    exact absurd hp ((hdist j hj).2.2.1)
  | chainLink2 ch =>
    rcases h with ⟨j, hj, _, hp⟩
    exact absurd hp ((hdist j hj).1)
  | teardownA j q2' =>
    rcases h with ⟨hj, hp, _⟩
    exact absurd hp ((hdist j hj).2.2.1)
  | teardownAwait j q2' =>
    rcases h with ⟨hj, hq2', hcpj⟩
    have hij : j = i := by
      by_contra hne
      exact ((hd.callp_ids i hi _ hcp).2 j hj).2.2.2.2.2.2 hne cp hcpj rfl
    subst hij
    rw [hcpj] at hcp
    cases hcp
    exact ⟨q2', hq2', rfl⟩
  | teardownCatch q3' =>
    rcases h with ⟨j, hj, hp2, hp3⟩
    exact absurd rfl ((hdist j hj).2.2.2.2.1 cp hp2)
  | teardownB j =>
    rcases h with ⟨hj, hp3⟩
    exact absurd rfl ((hdist j hj).2.2.2.2.2.1 cp hp3)

/-- The data part of the invariant is preserved by any operation that keeps
the run records, the run count and the chain reference and does not
decrease the id counter. -/
theorem InvData.frames {s s' : EffSt} (hd : InvData s)
    (hruns : s'.runs = s.runs) (hcount : s'.runCount = s.runCount)
    (href : s'.chainRef = s.chainRef) (hnext : s.nextId ≤ s'.nextId) :
    InvData s' := by
  have hpos := hd.nextId_pos
  refine ⟨by omega, ?_, ?_, ?_, ?_, ?_, ?_, ?_, ?_⟩
  · intro i hi
    rw [hruns]
    exact hd.order i (by omega)
  · intro i hi
    rw [hruns]
    rcases hd.bounds i (by omega) with ⟨h1, h2, h3⟩
    exact ⟨by omega, fun q3 hq => by have := h2 q3 hq; omega,
      fun cp hc => by have := h3 cp hc; omega⟩
  · intro i hi
    rw [hruns]
    exact hd.td_ids i (by omega)
  · intro i j hij hj
    rw [hruns]
    exact hd.cross i j hij (by omega)
  · intro i hi cp hcp
    rw [hruns] at hcp ⊢
    rcases hd.callp_ids i (by omega) cp hcp with ⟨h1, h2⟩
    exact ⟨h1, fun j hj => h2 j (by omega)⟩
  · rw [hruns, hcount, href]
    exact hd.chainRef_spec
  · intro i hi
    rw [hruns]
    exact hd.prevChain_link i (by omega)
  · intro i hi
    rw [hruns]
    exact hd.torndown_prev i (by omega)

/-- Continuation placement only depends on the run records and count. -/
theorem ContAt.framesContAt {s s' : EffSt} {c : Cont} {p : Nat}
    (hruns : s'.runs = s.runs) (hcount : s.runCount ≤ s'.runCount)
    (h : ContAt s c p) : ContAt s' c p := by
  cases c with
  | execEffect i =>
    rcases h with ⟨h1, h2⟩
    exact ⟨by omega, by rw [hruns]; exact h2⟩
  | chainLink1 i ch =>
    rcases h with ⟨h1, h2, h3⟩
    exact ⟨by omega, by rw [hruns]; exact h2, by rw [hruns]; exact h3⟩
  | chainLink2 ch =>
    rcases h with ⟨i, h1, h2, h3⟩
    exact ⟨i, by omega, by rw [hruns]; exact h2, by rw [hruns]; exact h3⟩
  | teardownA i q2 =>
    rcases h with ⟨h1, h2, h3⟩
    exact ⟨by omega, by rw [hruns]; exact h2, by rw [hruns]; exact h3⟩
  | teardownAwait i q2 =>
    rcases h with ⟨h1, h2, h3⟩
    exact ⟨by omega, by rw [hruns]; exact h2, by rw [hruns]; exact h3⟩
  | teardownCatch q3 =>
    rcases h with ⟨i, h1, h2, h3⟩
    exact ⟨i, by omega, by rw [hruns]; exact h2, by rw [hruns]; exact h3⟩
  | teardownB i =>
    rcases h with ⟨h1, h2⟩
    exact ⟨by omega, by rw [hruns]; exact h2⟩

/-- A scheduled task stays well-formed whenever the run records and count
are kept and the states of already settled promises are kept. -/
theorem TaskOK.framesTaskOK {s s' : EffSt} {c : Cont} {o : Outcome}
    (hruns : s'.runs = s.runs) (hcount : s.runCount ≤ s'.runCount)
    (hproms : ∀ q, (s.proms q).isSettled = true → s'.proms q = s.proms q)
    (h : TaskOK s c o) : TaskOK s' c o := by
  have hkeep : ∀ q, s.proms q = o.toProm → s'.proms q = o.toProm := by
    intro q hq
    rw [hproms q (by rw [hq]; exact Outcome.toProm_isSettled o), hq]
  cases c with
  | execEffect i =>
    rcases h with ⟨h1, h2⟩
    exact ⟨by omega, by rw [hruns]; exact hkeep _ h2⟩
  | chainLink1 i ch =>
    rcases h with ⟨h1, h2, h3⟩
    exact ⟨by omega, by rw [hruns]; exact h2, by rw [hruns]; exact hkeep _ h3⟩
  | chainLink2 ch =>
    rcases h with ⟨i, h1, h2, h3⟩
    exact ⟨i, by omega, by rw [hruns]; exact h2, by rw [hruns]; exact hkeep _ h3⟩
  | teardownA i q2 =>
    rcases h with ⟨h1, h2, h3⟩
    exact ⟨by omega, by rw [hruns]; exact h2, by rw [hruns]; exact hkeep _ h3⟩
  | teardownAwait i q2 =>
    rcases h with ⟨h1, h2, cp, h3, h4⟩
    exact ⟨by omega, by rw [hruns]; exact h2, cp,
      by rw [hruns]; exact h3, hkeep _ h4⟩
  | teardownCatch q3 =>
    rcases h with ⟨i, q2, h1, h2, h3, h4⟩
    exact ⟨i, q2, by omega, by rw [hruns]; exact h2,
      by rw [hruns]; exact h3, hkeep _ h4⟩
  | teardownB i =>
    rcases h with ⟨h1, q3, h2, h3⟩
    exact ⟨by omega, q3, by rw [hruns]; exact h2, hkeep _ h3⟩

theorem InQueue_settle (p : Nat) (o : Outcome) (s : EffSt) (c : Cont)
    (h : InQueue s c) : InQueue (settle p o s) c := by
  rcases h with ⟨o', ho'⟩
  exact ⟨o', settle_queue_subset p o s _ ho'⟩

theorem InQueue_subscribe (p : Nat) (c' : Cont) (s : EffSt) (c : Cont)
    (h : InQueue s c) : InQueue (subscribe p c' s) c := by
  rcases h with ⟨o', ho'⟩
  exact ⟨o', subscribe_queue_subset p c' s _ ho'⟩

theorem InQueue_of_onProm_settle (p : Nat) (o : Outcome) (s : EffSt)
    (c : Cont) (h : OnProm s p c) : InQueue (settle p o s) c :=
  ⟨o, settle_queue_of_cont p o s c h⟩

/-- No promise id of run `j` other than its own action promise coincides
with run `i`'s action promise. -/
theorem InvData.ne_effP {s : EffSt} (hd : InvData s) {i j : Nat}
    (hi : i < s.runCount) (hj : j < s.runCount) :
    (s.runs j).cleanupP ≠ (s.runs i).effP ∧
    (s.runs j).cep ≠ (s.runs i).effP ∧
    (s.runs j).chainP ≠ (s.runs i).effP ∧
    (j ≠ i → (s.runs j).effP ≠ (s.runs i).effP) ∧
    (∀ q2, (s.runs j).tdP2 = some q2 → q2 ≠ (s.runs i).effP) ∧
    (∀ q3, (s.runs j).tdP3 = some q3 → q3 ≠ (s.runs i).effP) ∧
    (∀ cp, (s.runs j).callP = some cp → cp ≠ (s.runs i).effP) := by
  have hoi := hd.order i hi
  have hoj := hd.order j hj
  refine ⟨?_, ?_, ?_, ?_, ?_, ?_, ?_⟩
  · rcases Nat.lt_trichotomy i j with h | h | h
    · have := hd.sep_lt h hj; omega
    · subst h; omega
    · have := hd.sep_lt h hi; omega
  · rcases Nat.lt_trichotomy i j with h | h | h
    · have := hd.sep_lt h hj; omega
    · subst h; omega
    · have := hd.sep_lt h hi; omega
  · rcases Nat.lt_trichotomy i j with h | h | h
    · have := hd.sep_lt h hj; omega
    · subst h; omega
    · have := hd.sep_lt h hi; omega
  · intro hne
    rcases Nat.lt_trichotomy i j with h | h | h
    · have := hd.sep_lt h hj; omega
    · exact absurd h.symm hne
    · have := hd.sep_lt h hi; omega
  · intro q2 hq2
    rcases hd.td_some hj hq2 with ⟨q3', h3', hlt, _⟩
    rcases Nat.lt_trichotomy i j with h | h | h
    · have := hd.sep_lt h hj; omega
    · subst h; omega
    · have := hd.td_below_later h hi hq2 h3'; omega
  · intro q3 hq3
    rcases hd.td3_some hj hq3 with ⟨q2', h2', hlt, he⟩
    rcases Nat.lt_trichotomy i j with h | h | h
    · have := hd.sep_lt h hj; omega
    · subst h; omega
    · have := hd.td_below_later h hi h2' hq3; omega
  · intro cp hcp
    exact ((hd.callp_ids j hj cp hcp).2 i hi).2.1

/-- No promise id of run `j` other than its own `currentEffectPromise`
coincides with run `i`'s `currentEffectPromise`. -/
theorem InvData.ne_cep {s : EffSt} (hd : InvData s) {i j : Nat}
    (hi : i < s.runCount) (hj : j < s.runCount) :
    (s.runs j).cleanupP ≠ (s.runs i).cep ∧
    (s.runs j).effP ≠ (s.runs i).cep ∧
    (s.runs j).chainP ≠ (s.runs i).cep ∧
    (j ≠ i → (s.runs j).cep ≠ (s.runs i).cep) ∧
    (∀ q2, (s.runs j).tdP2 = some q2 → q2 ≠ (s.runs i).cep) ∧
    (∀ q3, (s.runs j).tdP3 = some q3 → q3 ≠ (s.runs i).cep) ∧
    (∀ cp, (s.runs j).callP = some cp → cp ≠ (s.runs i).cep) := by
  have hoi := hd.order i hi
  have hoj := hd.order j hj
  refine ⟨?_, ?_, ?_, ?_, ?_, ?_, ?_⟩
  · rcases Nat.lt_trichotomy i j with h | h | h
    · have := hd.sep_lt h hj; omega
    · subst h; omega
    · have := hd.sep_lt h hi; omega
  · rcases Nat.lt_trichotomy i j with h | h | h
    · have := hd.sep_lt h hj; omega
    · subst h; omega
    · have := hd.sep_lt h hi; omega
  · rcases Nat.lt_trichotomy i j with h | h | h
    · have := hd.sep_lt h hj; omega
    · subst h; omega
    · have := hd.sep_lt h hi; omega
  · intro hne
    rcases Nat.lt_trichotomy i j with h | h | h
    · have := hd.sep_lt h hj; omega
    · exact absurd h.symm hne
    · have := hd.sep_lt h hi; omega
  · intro q2 hq2
    rcases hd.td_some hj hq2 with ⟨q3', h3', hlt, _⟩
    rcases Nat.lt_trichotomy i j with h | h | h
    · have := hd.sep_lt h hj; omega
    · subst h; omega
    · have := hd.td_below_later h hi hq2 h3'; omega
  · intro q3 hq3
    rcases hd.td3_some hj hq3 with ⟨q2', h2', hlt, he⟩
    rcases Nat.lt_trichotomy i j with h | h | h
    · have := hd.sep_lt h hj; omega
    · subst h; omega
    · have := hd.td_below_later h hi h2' hq3; omega
  · intro cp hcp
    exact ((hd.callp_ids j hj cp hcp).2 i hi).2.2.1

/-- No promise id of run `j` other than its own `cleanupPromise` coincides
with run `i`'s `cleanupPromise`. -/
theorem InvData.ne_cleanupP {s : EffSt} (hd : InvData s) {i j : Nat}
    (hi : i < s.runCount) (hj : j < s.runCount) :
    (s.runs j).effP ≠ (s.runs i).cleanupP ∧
    (s.runs j).cep ≠ (s.runs i).cleanupP ∧
    (s.runs j).chainP ≠ (s.runs i).cleanupP ∧
    (j ≠ i → (s.runs j).cleanupP ≠ (s.runs i).cleanupP) ∧
    (∀ q2, (s.runs j).tdP2 = some q2 → q2 ≠ (s.runs i).cleanupP) ∧
    (∀ q3, (s.runs j).tdP3 = some q3 → q3 ≠ (s.runs i).cleanupP) ∧
    (∀ cp, (s.runs j).callP = some cp → cp ≠ (s.runs i).cleanupP) := by
  have hoi := hd.order i hi
  have hoj := hd.order j hj
  refine ⟨?_, ?_, ?_, ?_, ?_, ?_, ?_⟩
  · rcases Nat.lt_trichotomy i j with h | h | h
    · have := hd.sep_lt h hj; omega
    · subst h; omega
    · have := hd.sep_lt h hi; omega
  · rcases Nat.lt_trichotomy i j with h | h | h
    · have := hd.sep_lt h hj; omega
    · subst h; omega
    · have := hd.sep_lt h hi; omega
  · rcases Nat.lt_trichotomy i j with h | h | h
    · have := hd.sep_lt h hj; omega
    · subst h; omega
    · have := hd.sep_lt h hi; omega
  · intro hne
    rcases Nat.lt_trichotomy i j with h | h | h
    · have := hd.sep_lt h hj; omega
    · exact absurd h.symm hne
    · have := hd.sep_lt h hi; omega
  · intro q2 hq2
    rcases hd.td_some hj hq2 with ⟨q3', h3', hlt, _⟩
    rcases Nat.lt_trichotomy i j with h | h | h
    · have := hd.sep_lt h hj; omega
    · subst h; omega
    · have := hd.td_below_later h hi hq2 h3'; omega
  · intro q3 hq3
    rcases hd.td3_some hj hq3 with ⟨q2', h2', hlt, he⟩
    rcases Nat.lt_trichotomy i j with h | h | h
    · have := hd.sep_lt h hj; omega
    · subst h; omega
    · have := hd.td_below_later h hi h2' hq3; omega
  · intro cp hcp
    exact ((hd.callp_ids j hj cp hcp).2 i hi).1

/-- No promise id of run `j` other than its own chain promise coincides
with run `i`'s chain promise. -/
theorem InvData.ne_chainP {s : EffSt} (hd : InvData s) {i j : Nat}
    (hi : i < s.runCount) (hj : j < s.runCount) :
    (s.runs j).cleanupP ≠ (s.runs i).chainP ∧
    (s.runs j).effP ≠ (s.runs i).chainP ∧
    (s.runs j).cep ≠ (s.runs i).chainP ∧
    (j ≠ i → (s.runs j).chainP ≠ (s.runs i).chainP) ∧
    (∀ q2, (s.runs j).tdP2 = some q2 → q2 ≠ (s.runs i).chainP) ∧
    (∀ q3, (s.runs j).tdP3 = some q3 → q3 ≠ (s.runs i).chainP) ∧
    (∀ cp, (s.runs j).callP = some cp → cp ≠ (s.runs i).chainP) := by
  have hoi := hd.order i hi
  have hoj := hd.order j hj
  refine ⟨?_, ?_, ?_, ?_, ?_, ?_, ?_⟩
  · rcases Nat.lt_trichotomy i j with h | h | h
    · have := hd.sep_lt h hj; omega
    · subst h; omega
    · have := hd.sep_lt h hi; omega
  · rcases Nat.lt_trichotomy i j with h | h | h
    · have := hd.sep_lt h hj; omega
    · subst h; omega
    · have := hd.sep_lt h hi; omega
  · rcases Nat.lt_trichotomy i j with h | h | h
    · have := hd.sep_lt h hj; omega
    · subst h; omega
    · have := hd.sep_lt h hi; omega
  · intro hne
    rcases Nat.lt_trichotomy i j with h | h | h
    · have := hd.sep_lt h hj; omega
    · exact absurd h.symm hne
    · have := hd.sep_lt h hi; omega
  · intro q2 hq2
    rcases hd.td_some hj hq2 with ⟨q3', h3', hlt, _⟩
    rcases Nat.lt_trichotomy i j with h | h | h
    · have := hd.sep_lt h hj; omega
    · subst h; omega
    · have := hd.td_below_later h hi hq2 h3'; omega
  · intro q3 hq3
    rcases hd.td3_some hj hq3 with ⟨q2', h2', hlt, he⟩
    rcases Nat.lt_trichotomy i j with h | h | h
    · have := hd.sep_lt h hj; omega
    · subst h; omega
    · have := hd.td_below_later h hi h2' hq3; omega
  · intro cp hcp
    exact ((hd.callp_ids j hj cp hcp).2 i hi).2.2.2.1

/-- No promise id of run `j` other than run `i`'s own first teardown
promise coincides with it. -/
theorem InvData.ne_q2 {s : EffSt} (hd : InvData s) {i j : Nat}
    (hi : i < s.runCount) (hj : j < s.runCount) {q2i : Nat}
    (h2i : (s.runs i).tdP2 = some q2i) :
    (s.runs j).cleanupP ≠ q2i ∧
    (s.runs j).effP ≠ q2i ∧
    (s.runs j).cep ≠ q2i ∧
    (s.runs j).chainP ≠ q2i ∧
    (j ≠ i → ∀ q2, (s.runs j).tdP2 = some q2 → q2 ≠ q2i) ∧
    (∀ q3, (s.runs j).tdP3 = some q3 → q3 ≠ q2i) ∧
    (∀ cp, (s.runs j).callP = some cp → cp ≠ q2i) := by
  have hoi := hd.order i hi
  have hoj := hd.order j hj
  rcases hd.td_some hi h2i with ⟨q3i, h3i, hlti, hei⟩
  refine ⟨?_, ?_, ?_, ?_, ?_, ?_, ?_⟩
  · rcases Nat.lt_trichotomy i j with h | h | h
    · have := hd.td_below_later h hj h2i h3i; omega
    · subst h; omega
    · have := hd.sep_lt h hi; omega
  · rcases Nat.lt_trichotomy i j with h | h | h
    · have := hd.td_below_later h hj h2i h3i; omega
    · subst h; omega
    · have := hd.sep_lt h hi; omega
  · rcases Nat.lt_trichotomy i j with h | h | h
    · have := hd.td_below_later h hj h2i h3i; omega
    · subst h; omega
    · have := hd.sep_lt h hi; omega
  · rcases Nat.lt_trichotomy i j with h | h | h
    · have := hd.td_below_later h hj h2i h3i; omega
    · subst h; omega
    · have := hd.sep_lt h hi; omega
  · intro hne q2 hq2
    rcases hd.td_some hj hq2 with ⟨q3', h3', hlt, _⟩
    rcases Nat.lt_trichotomy i j with h | h | h
    · have := hd.td_below_later h hj h2i h3i; omega
    · exact absurd h.symm hne
    · have := hd.td_below_later h hi hq2 h3'; omega
  · intro q3 hq3
    rcases hd.td3_some hj hq3 with ⟨q2', h2', hlt, he⟩
    rcases Nat.lt_trichotomy i j with h | h | h
    · have := hd.td_below_later h hj h2i h3i; omega
    · subst h
      rw [h2'] at h2i
      cases h2i
      omega
    · have := hd.td_below_later h hi h2' hq3; omega
  · intro cp hcp
    exact ((hd.callp_ids j hj cp hcp).2 i hi).2.2.2.2.1 q2i h2i

/-- No promise id of run `j` other than run `i`'s own second teardown
promise coincides with it. -/
theorem InvData.ne_q3 {s : EffSt} (hd : InvData s) {i j : Nat}
    (hi : i < s.runCount) (hj : j < s.runCount) {q3i : Nat}
    (h3i : (s.runs i).tdP3 = some q3i) :
    (s.runs j).cleanupP ≠ q3i ∧
    (s.runs j).effP ≠ q3i ∧
    (s.runs j).cep ≠ q3i ∧
    (s.runs j).chainP ≠ q3i ∧
    (∀ q2, (s.runs j).tdP2 = some q2 → q2 ≠ q3i) ∧
    (j ≠ i → ∀ q3, (s.runs j).tdP3 = some q3 → q3 ≠ q3i) ∧
    (∀ cp, (s.runs j).callP = some cp → cp ≠ q3i) := by
  have hoi := hd.order i hi
  have hoj := hd.order j hj
  rcases hd.td3_some hi h3i with ⟨q2i, h2i, hlti, hei⟩
  refine ⟨?_, ?_, ?_, ?_, ?_, ?_, ?_⟩
  · rcases Nat.lt_trichotomy i j with h | h | h
    · have := hd.td_below_later h hj h2i h3i; omega
    · subst h; omega
    · have := hd.sep_lt h hi; omega
  · rcases Nat.lt_trichotomy i j with h | h | h
    · have := hd.td_below_later h hj h2i h3i; omega
    · subst h; omega
    · have := hd.sep_lt h hi; omega
  · rcases Nat.lt_trichotomy i j with h | h | h
    · have := hd.td_below_later h hj h2i h3i; omega
    · subst h; omega
    · have := hd.sep_lt h hi; omega
  · rcases Nat.lt_trichotomy i j with h | h | h
    · have := hd.td_below_later h hj h2i h3i; omega
    · subst h; omega
    · have := hd.sep_lt h hi; omega
  · intro q2 hq2
    rcases hd.td_some hj hq2 with ⟨q3', h3', hlt, _⟩
    rcases Nat.lt_trichotomy i j with h | h | h
    · have := hd.td_below_later h hj h2i h3i; omega
    · subst h
      rw [h3'] at h3i
      cases h3i
      omega
    · have := hd.td_below_later h hi hq2 h3'; omega
  · intro hne q3 hq3
    rcases hd.td3_some hj hq3 with ⟨q2', h2', hlt, he⟩
    rcases Nat.lt_trichotomy i j with h | h | h
    · have := hd.td_below_later h hj h2i h3i; omega
    · exact absurd h.symm hne
    · have := hd.td_below_later h hi h2' hq3; omega
  · intro cp hcp
    exact ((hd.callp_ids j hj cp hcp).2 i hi).2.2.2.2.2.1 q3i h3i

theorem InQueue_settle_cases (p : Nat) (o : Outcome) (s : EffSt) (c : Cont)
    (h : InQueue (settle p o s) c) : InQueue s c ∨ OnProm s p c := by
  rcases h with ⟨o', ho'⟩
  rcases settle_queue_cases p o s (c, o') ho' with h1 | ⟨_, h1⟩
  · exact Or.inl ⟨o', h1⟩
  · exact Or.inr h1

theorem InQueue_subscribe_cases (p : Nat) (c' : Cont) (s : EffSt) (c : Cont)
    (h : InQueue (subscribe p c' s) c) : InQueue s c ∨ c = c' := by
  rcases h with ⟨o', ho'⟩
  rcases subscribe_queue_cases p c' s (c, o') ho' with h1 | ⟨h1, _⟩
  · exact Or.inl ⟨o', h1⟩
  · exact Or.inr h1

/-- Settling the action promise of run `i` preserves the pop-stable part
of the invariant. -/
theorem InvCore.settleEffPCore {s : EffSt} (hc : InvCore s) {i : Nat}
    (hi : i < s.runCount) (o : Outcome) :
    InvCore (settle (s.runs i).effP o s) := by
  by_cases hset : (s.proms (s.runs i).effP).isSettled = true
  · rw [settle_of_settled _ _ _ hset]; exact hc
  rcases Prom.exists_pending_of_not_settled _ hset with ⟨cs, hp⟩
  have hd := hc.data
  have hoi := hd.order i hi
  have hbi := hd.bounds i hi
  have hXlt : (s.runs i).effP < s.nextId := by omega
  have hX0 : 0 < (s.runs i).effP := by omega
  have hruns := settle_runs (s.runs i).effP o s
  have hcount := settle_runCount (s.runs i).effP o s
  have hnext := settle_nextId (s.runs i).effP o s
  have href := settle_chainRef (s.runs i).effP o s
  have hcontsX : ∀ c, OnProm s (s.runs i).effP c → c = .execEffect i :=
    fun c hOn => hd.cont_at_effP hi (hc.placement _ c hOn)
  have hkeep : ∀ q, (s.proms q).isSettled = true →
      (settle (s.runs i).effP o s).proms q = s.proms q :=
    fun q hq => settle_proms_of_settled _ _ _ _ hq
  refine ⟨hd.frames hruns hcount href (le_of_eq hnext.symm),
    ?_, ?_, ?_, ?_, ?_, ?_, ?_, ?_, ?_, ?_, ?_, ?_⟩
  · intro p hpge
    rw [hnext] at hpge
    rw [settle_proms_ne _ _ _ _ (by omega)]
    exact hc.fresh p hpge
  · rw [settle_proms_ne _ _ _ _ (by omega)]
    exact hc.prom0
  · intro j hj cp hcp
    rw [hcount] at hj
    rw [hruns] at hcp ⊢
    exact settle_isSettled_mono _ _ _ _ (hc.callp_cep j hj cp hcp)
  · intro p c hOn
    exact ContAt.framesContAt hruns (le_of_eq hcount.symm)
      (hc.placement p c (settle_onProm_cases _ _ _ _ _ hOn))
  · intro c o' ht
    rcases settle_queue_cases _ _ _ (c, o') ht with hold | ⟨ho2, hOn⟩
    · exact TaskOK.framesTaskOK hruns (le_of_eq hcount.symm) hkeep
        (hc.queue_ok c o' hold)
    · have hceq := hcontsX c hOn
      subst hceq
      have ho2' : o' = o := ho2
      subst ho2'
      refine ⟨by omega, ?_⟩
      rw [hruns]
      exact settle_proms_self_of_pending _ _ _ cs hp
  · intro j hj q2 h2
    rw [hcount] at hj
    rw [hruns] at h2 ⊢
    have hocc : tdAOcc (settle (s.runs i).effP o s) j q2 = tdAOcc s j q2 := by
      unfold tdAOcc
      rw [hruns]
      rw [settle_proms_ne _ _ _ _ ((hd.ne_effP hi hj).2.1)]
      rw [settle_of_pending _ _ _ cs hp]
      show _ + List.countP _ (s.queue ++ cs.map fun c => (c, o)) = _
      rw [List.countP_append]
      have hz : List.countP (fun t => decide (t.1 = Cont.teardownA j q2))
          (cs.map fun c => (c, o)) = 0 := by
        rw [List.countP_eq_zero]
        intro t htm
        rcases List.mem_map.mp htm with ⟨c, hc, hceq⟩
        have : OnProm s (s.runs i).effP c := by
          unfold OnProm
          rw [hp]
          exact hc
        have hcex := hcontsX c this
        subst hcex
        rw [← hceq]
        simp
      omega
    rw [hocc]
    exact hc.tdA_count j hj q2 h2
  · intro j hj q2 h2 hoccur
    rw [hcount] at hj
    rw [hruns] at h2 hoccur
    have hq2ne : q2 ≠ (s.runs i).effP := (hd.ne_effP hi hj).2.2.2.2.1 q2 h2
    rw [settle_proms_ne _ _ _ _ hq2ne]
    refine hc.tdA_q2_pending j hj q2 h2 ?_
    rcases hoccur with hOn | hq
    · exact Or.inl (settle_onProm_cases _ _ _ _ _ hOn)
    · rcases InQueue_settle_cases _ _ _ _ hq with h1 | h1
      · exact Or.inr h1
      · have := hcontsX _ h1
        cases this
  · intro j hj hsettled
    rw [hcount] at hj
    rw [hruns] at hsettled ⊢
    have hne : (s.runs j).cep ≠ (s.runs i).effP := (hd.ne_effP hi hj).2.1
    rw [settle_proms_ne _ _ _ _ hne] at hsettled ⊢
    rcases hc.s1 j hj hsettled with ⟨hful, heff⟩
    exact ⟨hful, settle_isSettled_mono _ _ _ _ heff⟩
  · intro j hj q2 h2 hsettled
    rw [hcount] at hj
    rw [hruns] at h2 ⊢
    have hne : q2 ≠ (s.runs i).effP := (hd.ne_effP hi hj).2.2.2.2.1 q2 h2
    rw [settle_proms_ne _ _ _ _ hne] at hsettled ⊢
    rcases hc.s2 j hj q2 h2 hsettled with ⟨hful, hcep, hcp⟩
    exact ⟨hful, settle_isSettled_mono _ _ _ _ hcep,
      fun cp hc => settle_isSettled_mono _ _ _ _ (hcp cp hc)⟩
  · intro j hj q3 h3 hsettled
    rw [hcount] at hj
    rw [hruns] at h3 ⊢
    have hne : q3 ≠ (s.runs i).effP := (hd.ne_effP hi hj).2.2.2.2.2.1 q3 h3
    rw [settle_proms_ne _ _ _ _ hne] at hsettled ⊢
    rcases hc.s3 j hj q3 h3 hsettled with ⟨hful, hq2⟩
    exact ⟨hful, fun q2 h2 => settle_isSettled_mono _ _ _ _ (hq2 q2 h2)⟩
  · intro j hj hsettled
    rw [hcount] at hj
    rw [hruns] at hsettled ⊢
    have hne : (s.runs j).cleanupP ≠ (s.runs i).effP := (hd.ne_effP hi hj).1
    rw [settle_proms_ne _ _ _ _ hne] at hsettled ⊢
    rcases hc.s4 j hj hsettled with ⟨hful, q3, h3, hq3s⟩
    exact ⟨hful, q3, h3, settle_isSettled_mono _ _ _ _ hq3s⟩
  · intro j hj hsettled
    rw [hcount] at hj
    rw [hruns] at hsettled ⊢
    have hne : (s.runs j).chainP ≠ (s.runs i).effP := (hd.ne_effP hi hj).2.2.1
    rw [settle_proms_ne _ _ _ _ hne] at hsettled ⊢
    rcases hc.s5 j hj hsettled with ⟨hful, hcln, hcep⟩
    exact ⟨hful, settle_isSettled_mono _ _ _ _ hcln,
      settle_isSettled_mono _ _ _ _ hcep⟩

/-- Settling the action promise of run `i` preserves the pipeline progress
part of the invariant. -/
theorem InvLive.settleEffPLive {s : EffSt} (hc : InvCore s) (hl : InvLive s)
    {i : Nat} (hi : i < s.runCount) (o : Outcome) :
    InvLive (settle (s.runs i).effP o s) := by
  have hd := hc.data
  have hoi := hd.order i hi
  have hruns := settle_runs (s.runs i).effP o s
  have hcount := settle_runCount (s.runs i).effP o s
  refine ⟨?_, ?_, ?_, ?_, ?_⟩
  · intro j hj
    rw [hcount] at hj
    rw [hruns]
    rcases hl.l0 j hj with hOn | hq | hsett
    · by_cases hji : j = i
      · subst hji
        exact Or.inr (Or.inl (InQueue_of_onProm_settle _ _ _ _ hOn))
      · refine Or.inl (settle_onProm_subset_ne _ _ _ _ _ ?_ hOn)
        exact (hd.ne_effP hi hj).2.2.2.1 hji
    · exact Or.inr (Or.inl (InQueue_settle _ _ _ _ hq))
    · exact Or.inr (Or.inr (settle_isSettled_mono _ _ _ _ hsett))
  · intro j hj
    rw [hcount] at hj
    rw [hruns]
    rcases hl.l1 j hj with hOn | hq | hOn | hq | hsett
    · exact Or.inl (settle_onProm_subset_ne _ _ _ _ _
        ((hd.ne_effP hi hj).2.1) hOn)
    · exact Or.inr (Or.inl (InQueue_settle _ _ _ _ hq))
    · exact Or.inr (Or.inr (Or.inl (settle_onProm_subset_ne _ _ _ _ _
        ((hd.ne_effP hi hj).1) hOn)))
    · exact Or.inr (Or.inr (Or.inr (Or.inl (InQueue_settle _ _ _ _ hq))))
    · exact Or.inr (Or.inr (Or.inr (Or.inr
        (settle_isSettled_mono _ _ _ _ hsett))))
  · intro j hj q2 h2
    rw [hcount] at hj
    rw [hruns] at h2 ⊢
    rcases hl.l2 j hj q2 h2 with hOn | hq | ⟨cp, hcp, hcpx⟩ | hsett
    · exact Or.inl (settle_onProm_subset_ne _ _ _ _ _
        ((hd.ne_effP hi hj).2.1) hOn)
    · exact Or.inr (Or.inl (InQueue_settle _ _ _ _ hq))
    · refine Or.inr (Or.inr (Or.inl ⟨cp, hcp, ?_⟩))
      rcases hcpx with hOn | hq
      · exact Or.inl (settle_onProm_subset_ne _ _ _ _ _
          ((hd.ne_effP hi hj).2.2.2.2.2.2 cp hcp) hOn)
      · exact Or.inr (InQueue_settle _ _ _ _ hq)
    · exact Or.inr (Or.inr (Or.inr (settle_isSettled_mono _ _ _ _ hsett)))
  · intro j hj q2 q3 h2 h3
    rw [hcount] at hj
    rw [hruns] at h2 h3
    rcases hl.l3 j hj q2 q3 h2 h3 with hOn | hq | hsett
    · exact Or.inl (settle_onProm_subset_ne _ _ _ _ _
        ((hd.ne_effP hi hj).2.2.2.2.1 q2 h2) hOn)
    · exact Or.inr (Or.inl (InQueue_settle _ _ _ _ hq))
    · exact Or.inr (Or.inr (settle_isSettled_mono _ _ _ _ hsett))
  · intro j hj q3 h3
    rw [hcount] at hj
    rw [hruns] at h3 ⊢
    rcases hl.l4 j hj q3 h3 with hOn | hq | hsett
    · exact Or.inl (settle_onProm_subset_ne _ _ _ _ _
        ((hd.ne_effP hi hj).2.2.2.2.2.1 q3 h3) hOn)
    · exact Or.inr (Or.inl (InQueue_settle _ _ _ _ hq))
    · exact Or.inr (Or.inr (settle_isSettled_mono _ _ _ _ hsett))


/-- Settling the action promise of run `i` (the environment resolves or
rejects the user action) preserves the invariant. -/
theorem Inv.settleEffP {s : EffSt} (hs : Inv s) {i : Nat}
    (hi : i < s.runCount) (o : Outcome) :
    Inv (settle (s.runs i).effP o s) :=
  ⟨hs.core.settleEffPCore hi o, InvLive.settleEffPLive hs.core hs.live hi o⟩

/-- The pop-stable part transfers across state changes that keep the
promise heap, the run bookkeeping and the queue (only the mounted flag,
the log, or the call record may differ). -/
theorem InvCore.defeq_frames {s s' : EffSt} (hc : InvCore s)
    (hproms : s'.proms = s.proms) (hruns : s'.runs = s.runs)
    (hcount : s'.runCount = s.runCount) (href : s'.chainRef = s.chainRef)
    (hnext : s'.nextId = s.nextId) (hqueue : s'.queue = s.queue) :
    InvCore s' := by
  have honp : ∀ p c, OnProm s' p c ↔ OnProm s p c := by
    intro p c
    unfold OnProm
    rw [hproms]
  have hinq : ∀ c, InQueue s' c ↔ InQueue s c := by
    intro c
    unfold InQueue
    rw [hqueue]
  have hocc : ∀ i q2, tdAOcc s' i q2 = tdAOcc s i q2 := by
    intro i q2
    unfold tdAOcc
    rw [hproms, hruns, hqueue]
  refine ⟨hc.data.frames hruns hcount href (le_of_eq hnext.symm),
    ?_, ?_, ?_, ?_, ?_, ?_, ?_, ?_, ?_, ?_, ?_, ?_⟩
  · intro p hp
    rw [hnext] at hp
    rw [hproms]
    exact hc.fresh p hp
  · rw [hproms]
    exact hc.prom0
  · intro i hi cp hcp
    rw [hcount] at hi
    rw [hruns] at hcp ⊢
    rw [hproms]
    exact hc.callp_cep i hi cp hcp
  · intro p c hOn
    exact ContAt.framesContAt hruns (le_of_eq hcount.symm)
      (hc.placement p c ((honp p c).mp hOn))
  · intro c o ht
    rw [hqueue] at ht
    exact TaskOK.framesTaskOK hruns (le_of_eq hcount.symm)
      (fun q _ => by rw [hproms]) (hc.queue_ok c o ht)
  · intro i hi q2 h2
    rw [hcount] at hi
    rw [hruns] at h2 ⊢
    rw [hocc]
    exact hc.tdA_count i hi q2 h2
  · intro i hi q2 h2 hoccur
    rw [hcount] at hi
    rw [hruns] at h2 hoccur
    rw [hproms]
    refine hc.tdA_q2_pending i hi q2 h2 ?_
    rcases hoccur with h | h
    · exact Or.inl ((honp _ _).mp h)
    · exact Or.inr ((hinq _).mp h)
  · intro i hi hsett
    rw [hcount] at hi
    rw [hruns] at hsett ⊢
    rw [hproms] at hsett ⊢
    exact hc.s1 i hi hsett
  · intro i hi q2 h2 hsett
    rw [hcount] at hi
    rw [hruns] at h2 ⊢
    rw [hproms] at hsett ⊢
    exact hc.s2 i hi q2 h2 hsett
  · intro i hi q3 h3 hsett
    rw [hcount] at hi
    rw [hruns] at h3 ⊢
    rw [hproms] at hsett ⊢
    exact hc.s3 i hi q3 h3 hsett
  · intro i hi hsett
    rw [hcount] at hi
    rw [hruns] at hsett ⊢
    rw [hproms] at hsett ⊢
    exact hc.s4 i hi hsett
  · intro i hi hsett
    rw [hcount] at hi
    rw [hruns] at hsett ⊢
    rw [hproms] at hsett ⊢
    exact hc.s5 i hi hsett

/-- The progress part transfers across the same changes. -/
theorem InvLive.defeqFramesLive {s s' : EffSt} (hl : InvLive s)
    (hproms : s'.proms = s.proms) (hruns : s'.runs = s.runs)
    (hcount : s'.runCount = s.runCount) (hqueue : s'.queue = s.queue) :
    InvLive s' := by
  have honp : ∀ p c, OnProm s' p c ↔ OnProm s p c := by
    intro p c
    unfold OnProm
    rw [hproms]
  have hinq : ∀ c, InQueue s' c ↔ InQueue s c := by
    intro c
    unfold InQueue
    rw [hqueue]
  refine ⟨?_, ?_, ?_, ?_, ?_⟩
  · intro i hi
    rw [hcount] at hi
    rw [hruns]
    rcases hl.l0 i hi with h | h | h
    · exact Or.inl ((honp _ _).mpr h)
    · exact Or.inr (Or.inl ((hinq _).mpr h))
    · exact Or.inr (Or.inr (by rw [hproms]; exact h))
  · intro i hi
    rw [hcount] at hi
    rw [hruns]
    rcases hl.l1 i hi with h | h | h | h | h
    · exact Or.inl ((honp _ _).mpr h)
    · exact Or.inr (Or.inl ((hinq _).mpr h))
    · exact Or.inr (Or.inr (Or.inl ((honp _ _).mpr h)))
    · exact Or.inr (Or.inr (Or.inr (Or.inl ((hinq _).mpr h))))
    · exact Or.inr (Or.inr (Or.inr (Or.inr (by rw [hproms]; exact h))))
  · intro i hi q2 h2
    rw [hcount] at hi
    rw [hruns] at h2 ⊢
    rcases hl.l2 i hi q2 h2 with h | h | ⟨cp, hcp, hx⟩ | h
    · exact Or.inl ((honp _ _).mpr h)
    · exact Or.inr (Or.inl ((hinq _).mpr h))
    · refine Or.inr (Or.inr (Or.inl ⟨cp, hcp, ?_⟩))
      rcases hx with h | h
      · exact Or.inl ((honp _ _).mpr h)
      · exact Or.inr ((hinq _).mpr h)
    · exact Or.inr (Or.inr (Or.inr (by rw [hproms]; exact h)))
  · intro i hi q2 q3 h2 h3
    rw [hcount] at hi
    rw [hruns] at h2 h3
    rcases hl.l3 i hi q2 q3 h2 h3 with h | h | h
    · exact Or.inl ((honp _ _).mpr h)
    · exact Or.inr (Or.inl ((hinq _).mpr h))
    · exact Or.inr (Or.inr (by rw [hproms]; exact h))
  · intro i hi q3 h3
    rw [hcount] at hi
    rw [hruns] at h3 ⊢
    rcases hl.l4 i hi q3 h3 with h | h | h
    · exact Or.inl ((honp _ _).mpr h)
    · exact Or.inr (Or.inl ((hinq _).mpr h))
    · exact Or.inr (Or.inr (by rw [hproms]; exact h))

/-- Settling run `i`'s `currentEffectPromise` with `undefined` — the tail
of `executeEffect`, which runs only once the action promise has settled —
preserves the pop-stable part. -/
theorem InvCore.settleCep {s : EffSt} (hc : InvCore s) {i : Nat}
    (hi : i < s.runCount)
    (heff : (s.proms (s.runs i).effP).isSettled = true) :
    InvCore (settle (s.runs i).cep (.fulfilled .undef) s) := by
  by_cases hset : (s.proms (s.runs i).cep).isSettled = true
  · rw [settle_of_settled _ _ _ hset]; exact hc
  rcases Prom.exists_pending_of_not_settled _ hset with ⟨cs, hp⟩
  have hd := hc.data
  have hoi := hd.order i hi
  have hbi := hd.bounds i hi
  have hXlt : (s.runs i).cep < s.nextId := by omega
  have hX0 : 0 < (s.runs i).cep := by omega
  have hruns := settle_runs (s.runs i).cep (.fulfilled .undef) s
  have hcount := settle_runCount (s.runs i).cep (.fulfilled .undef) s
  have hnext := settle_nextId (s.runs i).cep (.fulfilled .undef) s
  have href := settle_chainRef (s.runs i).cep (.fulfilled .undef) s
  have hcontsX : ∀ c, OnProm s (s.runs i).cep c →
      c = .chainLink1 i (s.runs i).chainP ∨
      ∃ q2, (s.runs i).tdP2 = some q2 ∧ c = .teardownA i q2 :=
    fun c hOn => hd.cont_at_cep hi (hc.placement _ c hOn)
  have hkeep : ∀ q, (s.proms q).isSettled = true →
      (settle (s.runs i).cep (.fulfilled .undef) s).proms q = s.proms q :=
    fun q hq => settle_proms_of_settled _ _ _ _ hq
  have hself : (settle (s.runs i).cep (.fulfilled .undef) s).proms
      (s.runs i).cep = .fulfilled .undef :=
    settle_proms_self_of_pending _ _ _ cs hp
  refine ⟨hd.frames hruns hcount href (le_of_eq hnext.symm),
    ?_, ?_, ?_, ?_, ?_, ?_, ?_, ?_, ?_, ?_, ?_, ?_⟩
  · intro p hpge
    rw [hnext] at hpge
    rw [settle_proms_ne _ _ _ _ (by omega)]
    exact hc.fresh p hpge
  · rw [settle_proms_ne _ _ _ _ (by omega)]
    exact hc.prom0
  · intro j hj cp hcp
    rw [hcount] at hj
    rw [hruns] at hcp ⊢
    exact settle_isSettled_mono _ _ _ _ (hc.callp_cep j hj cp hcp)
  · intro p c hOn
    exact ContAt.framesContAt hruns (le_of_eq hcount.symm)
      (hc.placement p c (settle_onProm_cases _ _ _ _ _ hOn))
  · intro c o' ht
    rcases settle_queue_cases _ _ _ (c, o') ht with hold | ⟨ho2, hOn⟩
    · exact TaskOK.framesTaskOK hruns (le_of_eq hcount.symm) hkeep
        (hc.queue_ok c o' hold)
    · have ho2' : o' = .fulfilled .undef := ho2
      subst ho2'
      rcases hcontsX c hOn with hceq | ⟨q2, h2, hceq⟩
      · subst hceq
        refine ⟨by omega, by rw [hruns], by rw [hruns]; exact hself⟩
      · subst hceq
        refine ⟨by omega, by rw [hruns]; exact h2, by rw [hruns]; exact hself⟩
  · intro j hj q2 h2
    rw [hcount] at hj
    rw [hruns] at h2 ⊢
    have hocc : tdAOcc (settle (s.runs i).cep (.fulfilled .undef) s) j q2 =
        tdAOcc s j q2 := by
      unfold tdAOcc
      rw [hruns]
      by_cases hji : j = i
      · subst hji
        rw [settle_contsOf_self]
        rw [settle_of_pending _ _ _ cs hp]
        show List.count _ [] +
          List.countP _ (s.queue ++ cs.map fun c => (c, Outcome.fulfilled .undef)) = _
        rw [List.countP_append, List.countP_map, hp]
        show 0 + (_ + List.countP _ cs) = List.count _ cs + _
        have : List.countP
            ((fun t => decide (t.1 = Cont.teardownA j q2)) ∘
              fun c => (c, Outcome.fulfilled JSVal.undef)) cs =
            List.count (Cont.teardownA j q2) cs := by
          rfl
        rw [this]
        show 0 + (List.countP _ s.queue + _) = _
        omega
      · rw [settle_proms_ne _ _ _ _ ((hd.ne_cep hi hj).2.2.2.1 hji)]
        rw [settle_of_pending _ _ _ cs hp]
        show _ + List.countP _ (s.queue ++ cs.map fun c => (c, Outcome.fulfilled .undef)) = _
        rw [List.countP_append]
        have hz : List.countP (fun t => decide (t.1 = Cont.teardownA j q2))
            (cs.map fun c => (c, Outcome.fulfilled JSVal.undef)) = 0 := by
          rw [List.countP_eq_zero]
          intro t htm
          rcases List.mem_map.mp htm with ⟨c, hcmem, hceq⟩
          have hOn : OnProm s (s.runs i).cep c := by
            unfold OnProm
            rw [hp]
            exact hcmem
          rcases hcontsX c hOn with hcc | ⟨q2', _, hcc⟩
          · subst hcc
            rw [← hceq]
            simp only [decide_eq_true_eq]
            intro hcontra
            cases hcontra
          · subst hcc
            rw [← hceq]
            simp only [decide_eq_true_eq]
            intro hcontra
            rw [Cont.teardownA.injEq] at hcontra
            omega
        omega
    rw [hocc]
    exact hc.tdA_count j hj q2 h2
  · intro j hj q2 h2 hoccur
    rw [hcount] at hj
    rw [hruns] at h2 hoccur
    have hq2ne : q2 ≠ (s.runs i).cep := (hd.ne_cep hi hj).2.2.2.2.1 q2 h2
    rw [settle_proms_ne _ _ _ _ hq2ne]
    refine hc.tdA_q2_pending j hj q2 h2 ?_
    rcases hoccur with hOn | hq
    · exact Or.inl (settle_onProm_cases _ _ _ _ _ hOn)
    · rcases InQueue_settle_cases _ _ _ _ hq with h1 | h1
      · exact Or.inr h1
      · rcases hcontsX _ h1 with hcc | ⟨q2', h2', hcc⟩
        · cases hcc
        · rw [Cont.teardownA.injEq] at hcc
          rcases hcc with ⟨rfl, rfl⟩
          exact Or.inl h1
  · intro j hj hsettled
    rw [hcount] at hj
    rw [hruns] at hsettled ⊢
    by_cases hji : j = i
    · subst hji
      exact ⟨hself, settle_isSettled_mono _ _ _ _ heff⟩
    · have hne : (s.runs j).cep ≠ (s.runs i).cep :=
        (hd.ne_cep hi hj).2.2.2.1 hji
      rw [settle_proms_ne _ _ _ _ hne] at hsettled ⊢
      rcases hc.s1 j hj hsettled with ⟨hful, heffj⟩
      exact ⟨hful, settle_isSettled_mono _ _ _ _ heffj⟩
  · intro j hj q2 h2 hsettled
    rw [hcount] at hj
    rw [hruns] at h2 ⊢
    have hne : q2 ≠ (s.runs i).cep := (hd.ne_cep hi hj).2.2.2.2.1 q2 h2
    rw [settle_proms_ne _ _ _ _ hne] at hsettled ⊢
    rcases hc.s2 j hj q2 h2 hsettled with ⟨hful, hcep, hcp⟩
    exact ⟨hful, settle_isSettled_mono _ _ _ _ hcep,
      fun cp hcc => settle_isSettled_mono _ _ _ _ (hcp cp hcc)⟩
  · intro j hj q3 h3 hsettled
    rw [hcount] at hj
    rw [hruns] at h3 ⊢
    have hne : q3 ≠ (s.runs i).cep := (hd.ne_cep hi hj).2.2.2.2.2.1 q3 h3
    rw [settle_proms_ne _ _ _ _ hne] at hsettled ⊢
    rcases hc.s3 j hj q3 h3 hsettled with ⟨hful, hq2⟩
    exact ⟨hful, fun q2 h2 => settle_isSettled_mono _ _ _ _ (hq2 q2 h2)⟩
  · intro j hj hsettled
    rw [hcount] at hj
    rw [hruns] at hsettled ⊢
    have hne : (s.runs j).cleanupP ≠ (s.runs i).cep := (hd.ne_cep hi hj).1
    rw [settle_proms_ne _ _ _ _ hne] at hsettled ⊢
    rcases hc.s4 j hj hsettled with ⟨hful, q3, h3, hq3s⟩
    exact ⟨hful, q3, h3, settle_isSettled_mono _ _ _ _ hq3s⟩
  · intro j hj hsettled
    rw [hcount] at hj
    rw [hruns] at hsettled ⊢
    have hne : (s.runs j).chainP ≠ (s.runs i).cep := (hd.ne_cep hi hj).2.2.1
    rw [settle_proms_ne _ _ _ _ hne] at hsettled ⊢
    rcases hc.s5 j hj hsettled with ⟨hful, hcln, hcep⟩
    exact ⟨hful, settle_isSettled_mono _ _ _ _ hcln,
      settle_isSettled_mono _ _ _ _ hcep⟩

/-- Equality of every invariant-relevant projection of the run map. -/
abbrev RunsProj (s sp : EffSt) : Prop := ∀ j,
  (sp.runs j).effP = (s.runs j).effP ∧
  (sp.runs j).cep = (s.runs j).cep ∧
  (sp.runs j).cleanupP = (s.runs j).cleanupP ∧
  (sp.runs j).prevChain = (s.runs j).prevChain ∧
  (sp.runs j).chainP = (s.runs j).chainP ∧
  (sp.runs j).torndown = (s.runs j).torndown ∧
  (sp.runs j).tdP2 = (s.runs j).tdP2 ∧
  (sp.runs j).tdP3 = (s.runs j).tdP3 ∧
  (sp.runs j).callP = (s.runs j).callP

theorem ContAt.projFramesContAt {s sp : EffSt} {c : Cont} {p : Nat}
    (hcount : sp.runCount = s.runCount) (hproj : RunsProj s sp)
    (h : ContAt s c p) : ContAt sp c p := by
  cases c with
  | execEffect i =>
    rcases h with ⟨h1, h2⟩
    exact ⟨by omega, by rw [(hproj i).1]; exact h2⟩
  | chainLink1 i ch =>
    rcases h with ⟨h1, h2, h3⟩
    exact ⟨by omega, by rw [(hproj i).2.1]; exact h2,
      by rw [(hproj i).2.2.2.2.1]; exact h3⟩
  | chainLink2 ch =>
    rcases h with ⟨i, h1, h2, h3⟩
    exact ⟨i, by omega, by rw [(hproj i).2.2.2.2.1]; exact h2,
      by rw [(hproj i).2.2.1]; exact h3⟩
  | teardownA i q2 =>
    rcases h with ⟨h1, h2, h3⟩
    exact ⟨by omega, by rw [(hproj i).2.1]; exact h2,
      by rw [(hproj i).2.2.2.2.2.2.1]; exact h3⟩
  | teardownAwait i q2 =>
    rcases h with ⟨h1, h2, h3⟩
    exact ⟨by omega, by rw [(hproj i).2.2.2.2.2.2.1]; exact h2,
      by rw [(hproj i).2.2.2.2.2.2.2.2]; exact h3⟩
  | teardownCatch q3 =>
    rcases h with ⟨i, h1, h2, h3⟩
    exact ⟨i, by omega, by rw [(hproj i).2.2.2.2.2.2.1]; exact h2,
      by rw [(hproj i).2.2.2.2.2.2.2.1]; exact h3⟩
  | teardownB i =>
    rcases h with ⟨h1, h2⟩
    exact ⟨by omega, by rw [(hproj i).2.2.2.2.2.2.2.1]; exact h2⟩

theorem TaskOK.projFramesTaskOK {s sp : EffSt} {c : Cont} {o : Outcome}
    (hcount : sp.runCount = s.runCount) (hproms : sp.proms = s.proms)
    (hproj : RunsProj s sp) (h : TaskOK s c o) : TaskOK sp c o := by
  cases c with
  | execEffect i =>
    rcases h with ⟨h1, h2⟩
    exact ⟨by omega, by rw [hproms, (hproj i).1]; exact h2⟩
  | chainLink1 i ch =>
    rcases h with ⟨h1, h2, h3⟩
    exact ⟨by omega, by rw [(hproj i).2.2.2.2.1]; exact h2,
      by rw [hproms, (hproj i).2.1]; exact h3⟩
  | chainLink2 ch =>
    rcases h with ⟨i, h1, h2, h3⟩
    exact ⟨i, by omega, by rw [(hproj i).2.2.2.2.1]; exact h2,
      by rw [hproms, (hproj i).2.2.1]; exact h3⟩
  | teardownA i q2 =>
    rcases h with ⟨h1, h2, h3⟩
    exact ⟨by omega, by rw [(hproj i).2.2.2.2.2.2.1]; exact h2,
      by rw [hproms, (hproj i).2.1]; exact h3⟩
  | teardownAwait i q2 =>
    rcases h with ⟨h1, h2, cp, h3, h4⟩
    exact ⟨by omega, by rw [(hproj i).2.2.2.2.2.2.1]; exact h2, cp,
      by rw [(hproj i).2.2.2.2.2.2.2.2]; exact h3, by rw [hproms]; exact h4⟩
  | teardownCatch q3 =>
    rcases h with ⟨i, q2, h1, h2, h3, h4⟩
    exact ⟨i, q2, by omega, by rw [(hproj i).2.2.2.2.2.2.1]; exact h2,
      by rw [(hproj i).2.2.2.2.2.2.2.1]; exact h3, by rw [hproms]; exact h4⟩
  | teardownB i =>
    rcases h with ⟨h1, q3, h2, h3⟩
    exact ⟨by omega, q3, by rw [(hproj i).2.2.2.2.2.2.2.1]; exact h2,
      by rw [hproms]; exact h3⟩

/-- The data part transfers along any change that keeps all relevant run
projections, the run count and the chain reference, and does not decrease
the id counter. -/
theorem InvData.proj_frames {s sp : EffSt} (hd : InvData s)
    (hproj : RunsProj s sp) (hcount : sp.runCount = s.runCount)
    (href : sp.chainRef = s.chainRef) (hnext : s.nextId ≤ sp.nextId) :
    InvData sp := by
  refine ⟨by have := hd.nextId_pos; omega, ?_, ?_, ?_, ?_, ?_, ?_, ?_, ?_⟩
  · intro j hj
    rw [hcount] at hj
    rcases hproj j with ⟨p1, p2, p3, _, p5, _⟩
    rw [p1, p2, p3, p5]
    exact hd.order j hj
  · intro j hj
    rw [hcount] at hj
    rcases hproj j with ⟨_, _, _, _, p5, _, _, p8, p9⟩
    rw [p5, p8, p9]
    have hb := hd.bounds j hj
    refine ⟨by omega, ?_, ?_⟩
    · intro q3 h3
      have := hb.2.1 q3 h3
      omega
    · intro cp hcp
      have := hb.2.2 cp hcp
      omega
  · intro j hj
    rw [hcount] at hj
    rcases hproj j with ⟨_, _, _, _, p5, p6, p7, p8, p9⟩
    rw [p5, p6, p7, p8, p9]
    exact hd.td_ids j hj
  · intro j k hjk hk
    rw [hcount] at hk
    rcases hproj j with ⟨_, _, _, _, p5, _, _, p8, _⟩
    rcases hproj k with ⟨_, _, q3, _, _⟩
    rw [p5, p8, q3]
    exact hd.cross j k hjk hk
  · intro j hj cp hcp
    rw [hcount] at hj
    rw [(hproj j).2.2.2.2.2.2.2.2] at hcp
    rw [(hproj j).2.2.2.2.2.2.2.1]
    refine ⟨(hd.callp_ids j hj cp hcp).1, ?_⟩
    intro k hk
    rw [hcount] at hk
    rcases hproj k with ⟨q1, q2, q3, _, q5, _, q7, q8, q9⟩
    rw [q1, q2, q3, q5, q7, q8, q9]
    exact (hd.callp_ids j hj cp hcp).2 k hk
  · rw [hcount, href]
    rcases hd.chainRef_spec with ⟨h1, h2⟩ | ⟨n, h1, h2⟩
    · exact Or.inl ⟨h1, h2⟩
    · exact Or.inr ⟨n, h1, by rw [(hproj n).2.2.2.2.1]; exact h2⟩
  · intro j hj
    rw [hcount] at hj
    rw [(hproj j).2.2.2.1]
    rcases hd.prevChain_link j hj with ⟨h1, h2⟩
    exact ⟨h1, fun k hk => by rw [(hproj k).2.2.2.2.1]; exact h2 k hk⟩
  · intro j hj
    rw [hcount] at hj
    rw [(hproj j).2.2.2.2.2.1]
    exact hd.torndown_prev j hj

/-- The pop-stable part transfers along any change that keeps the promise
heap, the queue, the relevant run projections, the run count and the chain
reference, and does not decrease the id counter. -/
theorem InvCore.projFramesCore {s sp : EffSt} (hc : InvCore s)
    (hproj : RunsProj s sp) (hproms : sp.proms = s.proms)
    (hqueue : sp.queue = s.queue) (hcount : sp.runCount = s.runCount)
    (href : sp.chainRef = s.chainRef) (hnext : sp.nextId = s.nextId) :
    InvCore sp := by
  have hocc : ∀ j q2, tdAOcc sp j q2 = tdAOcc s j q2 := by
    intro j q2
    unfold tdAOcc
    rw [hproms, hqueue, (hproj j).2.1]
  refine ⟨hc.data.proj_frames hproj hcount href (le_of_eq hnext.symm),
    ?_, ?_, ?_, ?_, ?_, ?_, ?_, ?_, ?_, ?_, ?_, ?_⟩
  · intro p hpge
    rw [hnext] at hpge
    rw [hproms]
    exact hc.fresh p hpge
  · rw [hproms]
    exact hc.prom0
  · intro j hj cp hcp
    rw [hcount] at hj
    rw [(hproj j).2.2.2.2.2.2.2.2] at hcp
    rw [hproms, (hproj j).2.1]
    exact hc.callp_cep j hj cp hcp
  · intro p c hOn
    have hOn2 : OnProm s p c := by
      unfold OnProm at hOn ⊢
      rw [hproms] at hOn
      exact hOn
    exact ContAt.projFramesContAt hcount hproj (hc.placement p c hOn2)
  · intro c o ht
    rw [hqueue] at ht
    exact TaskOK.projFramesTaskOK hcount hproms hproj (hc.queue_ok c o ht)
  · intro j hj q2 h2
    rw [hcount] at hj
    rw [(hproj j).2.2.2.2.2.2.1] at h2
    rw [hocc, (hproj j).2.2.2.2.2.2.2.2]
    exact hc.tdA_count j hj q2 h2
  · intro j hj q2 h2 hoccur
    rw [hcount] at hj
    rw [(hproj j).2.2.2.2.2.2.1] at h2
    rw [hproms]
    refine hc.tdA_q2_pending j hj q2 h2 ?_
    rcases hoccur with h | ⟨o, ho⟩
    · left
      unfold OnProm at h ⊢
      rw [hproms, (hproj j).2.1] at h
      exact h
    · right
      rw [hqueue] at ho
      exact ⟨o, ho⟩
  · intro j hj hsett
    rw [hcount] at hj
    rw [hproms, (hproj j).2.1] at hsett ⊢
    rw [(hproj j).1]
    exact hc.s1 j hj hsett
  · intro j hj q2 h2 hsett
    rw [hcount] at hj
    rw [(hproj j).2.2.2.2.2.2.1] at h2
    rw [hproms] at hsett ⊢
    rw [(hproj j).2.1, (hproj j).2.2.2.2.2.2.2.2]
    exact hc.s2 j hj q2 h2 hsett
  · intro j hj q3 h3 hsett
    rw [hcount] at hj
    rw [(hproj j).2.2.2.2.2.2.2.1] at h3
    rw [hproms] at hsett ⊢
    rw [(hproj j).2.2.2.2.2.2.1]
    exact hc.s3 j hj q3 h3 hsett
  · intro j hj hsett
    rw [hcount] at hj
    rw [hproms, (hproj j).2.2.1] at hsett ⊢
    rw [(hproj j).2.2.2.2.2.2.2.1]
    exact hc.s4 j hj hsett
  · intro j hj hsett
    rw [hcount] at hj
    rw [hproms, (hproj j).2.2.2.2.1] at hsett ⊢
    rw [(hproj j).2.2.1, (hproj j).2.1]
    exact hc.s5 j hj hsett

/-- The progress part transfers along the same changes. -/
theorem InvLive.projFramesLive {s sp : EffSt} (hl : InvLive s)
    (hproj : RunsProj s sp) (hproms : sp.proms = s.proms)
    (hqueue : sp.queue = s.queue) (hcount : sp.runCount = s.runCount) :
    InvLive sp := by
  have honp : ∀ p c, OnProm s p c → OnProm sp p c := by
    intro p c h
    unfold OnProm at h ⊢
    rw [hproms]
    exact h
  have hinq : ∀ c, InQueue s c → InQueue sp c := by
    intro c ⟨o, ho⟩
    rw [← hqueue] at ho
    exact ⟨o, ho⟩
  refine ⟨?_, ?_, ?_, ?_, ?_⟩
  · intro j hj
    rw [hcount] at hj
    rw [(hproj j).1, (hproj j).2.1, hproms]
    rcases hl.l0 j hj with h | h | h
    · exact Or.inl (honp _ _ h)
    · exact Or.inr (Or.inl (hinq _ h))
    · exact Or.inr (Or.inr h)
  · intro j hj
    rw [hcount] at hj
    rw [(hproj j).2.1, (hproj j).2.2.2.2.1, (hproj j).2.2.1, hproms]
    rcases hl.l1 j hj with h | h | h | h | h
    · exact Or.inl (honp _ _ h)
    · exact Or.inr (Or.inl (hinq _ h))
    · exact Or.inr (Or.inr (Or.inl (honp _ _ h)))
    · exact Or.inr (Or.inr (Or.inr (Or.inl (hinq _ h))))
    · exact Or.inr (Or.inr (Or.inr (Or.inr h)))
  · intro j hj q2 h2
    rw [hcount] at hj
    rw [(hproj j).2.2.2.2.2.2.1] at h2
    rw [(hproj j).2.1, (hproj j).2.2.2.2.2.2.2.2, hproms]
    rcases hl.l2 j hj q2 h2 with h | h | ⟨cp, hcp, hx⟩ | h
    · exact Or.inl (honp _ _ h)
    · exact Or.inr (Or.inl (hinq _ h))
    · refine Or.inr (Or.inr (Or.inl ⟨cp, hcp, ?_⟩))
      rcases hx with h | h
      · exact Or.inl (honp _ _ h)
      · exact Or.inr (hinq _ h)
    · exact Or.inr (Or.inr (Or.inr h))
  · intro j hj q2 q3 h2 h3
    rw [hcount] at hj
    rw [(hproj j).2.2.2.2.2.2.1] at h2
    rw [(hproj j).2.2.2.2.2.2.2.1] at h3
    rw [hproms]
    rcases hl.l3 j hj q2 q3 h2 h3 with h | h | h
    · exact Or.inl (honp _ _ h)
    · exact Or.inr (Or.inl (hinq _ h))
    · exact Or.inr (Or.inr h)
  · intro j hj q3 h3
    rw [hcount] at hj
    rw [(hproj j).2.2.2.2.2.2.2.1] at h3
    rw [(hproj j).2.2.1, hproms]
    rcases hl.l4 j hj q3 h3 with h | h | h
    · exact Or.inl (honp _ _ h)
    · exact Or.inr (Or.inl (hinq _ h))
    · exact Or.inr (Or.inr h)

/-- Updating run `i` of the run map with a `cleanupVal` change keeps every
invariant-relevant projection.  The invariant thus ignores the `cleanup`
variable entirely. -/
theorem runs_proj_updCleanupVal (s : EffSt) (i : Nat) (v : JSVal) :
    RunsProj s (updRun i (fun r => { r with cleanupVal := v }) s) := by
  intro j
  unfold updRun updFn
  by_cases hj : j = i
  · subst hj
    simp
  · simp [hj]

theorem InvCore.updRun_cleanupVal {s : EffSt} (hc : InvCore s) (i : Nat)
    (v : JSVal) :
    InvCore (updRun i (fun r => { r with cleanupVal := v }) s) :=
  hc.projFramesCore (runs_proj_updCleanupVal s i v) rfl rfl rfl rfl rfl

theorem InvLive.updRunCleanupValLive {s : EffSt} (hl : InvLive s) (i : Nat)
    (v : JSVal) :
    InvLive (updRun i (fun r => { r with cleanupVal := v }) s) :=
  hl.projFramesLive (runs_proj_updCleanupVal s i v) rfl rfl rfl

/-- Settling the promise returned by invoking the stored cleanup (the
environment resolves or rejects `cleanup()`) preserves the pop-stable
part. -/
theorem InvCore.settleCallPCore {s : EffSt} (hc : InvCore s) {i : Nat}
    (hi : i < s.runCount) {cp : Nat} (hcp : (s.runs i).callP = some cp)
    (o : Outcome) : InvCore (settle cp o s) := by
  by_cases hset : (s.proms cp).isSettled = true
  · rw [settle_of_settled _ _ _ hset]; exact hc
  rcases Prom.exists_pending_of_not_settled _ hset with ⟨cs, hp⟩
  have hd := hc.data
  have hdist := (hd.callp_ids i hi cp hcp).2
  have hXlt : cp < s.nextId := (hd.bounds i hi).2.2 cp hcp
  have hX0 : 0 < cp := by
    rcases (hd.callp_ids i hi cp hcp).1 with ⟨q3, h3, hq3lt⟩
    omega
  have hruns := settle_runs cp o s
  have hcount := settle_runCount cp o s
  have hnext := settle_nextId cp o s
  have href := settle_chainRef cp o s
  have hcontsX : ∀ c, OnProm s cp c →
      ∃ q2, (s.runs i).tdP2 = some q2 ∧ c = .teardownAwait i q2 :=
    fun c hOn => hd.cont_at_callP hi hcp (hc.placement _ c hOn)
  have hkeep : ∀ q, (s.proms q).isSettled = true →
      (settle cp o s).proms q = s.proms q :=
    fun q hq => settle_proms_of_settled _ _ _ _ hq
  have hself : (settle cp o s).proms cp = o.toProm :=
    settle_proms_self_of_pending _ _ _ cs hp
  refine ⟨hd.frames hruns hcount href (le_of_eq hnext.symm),
    ?_, ?_, ?_, ?_, ?_, ?_, ?_, ?_, ?_, ?_, ?_, ?_⟩
  · intro p hpge
    rw [hnext] at hpge
    rw [settle_proms_ne _ _ _ _ (by omega)]
    exact hc.fresh p hpge
  · rw [settle_proms_ne _ _ _ _ (by omega)]
    exact hc.prom0
  · intro j hj cp' hcp'
    rw [hcount] at hj
    rw [hruns] at hcp' ⊢
    exact settle_isSettled_mono _ _ _ _ (hc.callp_cep j hj cp' hcp')
  · intro p c hOn
    exact ContAt.framesContAt hruns (le_of_eq hcount.symm)
      (hc.placement p c (settle_onProm_cases _ _ _ _ _ hOn))
  · intro c o' ht
    rcases settle_queue_cases _ _ _ (c, o') ht with hold | ⟨ho2, hOn⟩
    · exact TaskOK.framesTaskOK hruns (le_of_eq hcount.symm) hkeep
        (hc.queue_ok c o' hold)
    · have ho2' : o' = o := ho2
      subst ho2'
      rcases hcontsX c hOn with ⟨q2, h2, hceq⟩
      subst hceq
      refine ⟨by omega, by rw [hruns]; exact h2, cp,
        by rw [hruns]; exact hcp, hself⟩
  · intro j hj q2 h2
    rw [hcount] at hj
    rw [hruns] at h2 ⊢
    have hocc : tdAOcc (settle cp o s) j q2 = tdAOcc s j q2 := by
      unfold tdAOcc
      rw [hruns]
      rw [settle_proms_ne _ _ _ _ (Ne.symm ((hdist j hj).2.2.1))]
      rw [settle_of_pending _ _ _ cs hp]
      show _ + List.countP _ (s.queue ++ cs.map fun c => (c, o)) = _
      rw [List.countP_append]
      have hz : List.countP (fun t => decide (t.1 = Cont.teardownA j q2))
          (cs.map fun c => (c, o)) = 0 := by
        rw [List.countP_eq_zero]
        intro t htm
        rcases List.mem_map.mp htm with ⟨c, hcmem, hceq⟩
        have hOn : OnProm s cp c := by
          unfold OnProm
          rw [hp]
          exact hcmem
        rcases hcontsX c hOn with ⟨q2', _, hcc⟩
        subst hcc
        rw [← hceq]
        simp only [decide_eq_true_eq]
        intro hcontra
        cases hcontra
      omega
    rw [hocc]
    exact hc.tdA_count j hj q2 h2
  · intro j hj q2 h2 hoccur
    rw [hcount] at hj
    rw [hruns] at h2 hoccur
    have hq2ne : q2 ≠ cp := Ne.symm ((hdist j hj).2.2.2.2.1 q2 h2)
    rw [settle_proms_ne _ _ _ _ hq2ne]
    refine hc.tdA_q2_pending j hj q2 h2 ?_
    rcases hoccur with hOn | hq
    · exact Or.inl (settle_onProm_cases _ _ _ _ _ hOn)
    · rcases InQueue_settle_cases _ _ _ _ hq with h1 | h1
      · exact Or.inr h1
      · rcases hcontsX _ h1 with ⟨q2', _, hcc⟩
        cases hcc
  · intro j hj hsettled
    rw [hcount] at hj
    rw [hruns] at hsettled ⊢
    have hne : (s.runs j).cep ≠ cp := Ne.symm ((hdist j hj).2.2.1)
    rw [settle_proms_ne _ _ _ _ hne] at hsettled ⊢
    have hne2 : (s.runs j).effP ≠ cp := Ne.symm ((hdist j hj).2.1)
    rw [settle_proms_ne _ _ _ _ hne2]
    exact hc.s1 j hj hsettled
  · intro j hj q2 h2 hsettled
    rw [hcount] at hj
    rw [hruns] at h2 ⊢
    have hne : q2 ≠ cp := Ne.symm ((hdist j hj).2.2.2.2.1 q2 h2)
    rw [settle_proms_ne _ _ _ _ hne] at hsettled ⊢
    rcases hc.s2 j hj q2 h2 hsettled with ⟨hful, hcep, hcpS⟩
    refine ⟨hful, settle_isSettled_mono _ _ _ _ hcep, ?_⟩
    intro cp' hcp'
    exact settle_isSettled_mono _ _ _ _ (hcpS cp' hcp')
  · intro j hj q3 h3 hsettled
    rw [hcount] at hj
    rw [hruns] at h3 ⊢
    have hne : q3 ≠ cp := Ne.symm ((hdist j hj).2.2.2.2.2.1 q3 h3)
    rw [settle_proms_ne _ _ _ _ hne] at hsettled ⊢
    rcases hc.s3 j hj q3 h3 hsettled with ⟨hful, hq2⟩
    exact ⟨hful, fun q2 h2 => settle_isSettled_mono _ _ _ _ (hq2 q2 h2)⟩
  · intro j hj hsettled
    rw [hcount] at hj
    rw [hruns] at hsettled ⊢
    have hne : (s.runs j).cleanupP ≠ cp := Ne.symm ((hdist j hj).1)
    rw [settle_proms_ne _ _ _ _ hne] at hsettled ⊢
    rcases hc.s4 j hj hsettled with ⟨hful, q3, h3, hq3s⟩
    exact ⟨hful, q3, h3, settle_isSettled_mono _ _ _ _ hq3s⟩
  · intro j hj hsettled
    rw [hcount] at hj
    rw [hruns] at hsettled ⊢
    have hne : (s.runs j).chainP ≠ cp := Ne.symm ((hdist j hj).2.2.2.1)
    rw [settle_proms_ne _ _ _ _ hne] at hsettled ⊢
    rcases hc.s5 j hj hsettled with ⟨hful, hcln, hcep⟩
    exact ⟨hful, settle_isSettled_mono _ _ _ _ hcln,
      settle_isSettled_mono _ _ _ _ hcep⟩

/-- Settling the cleanup-call promise preserves the pipeline progress
part. -/
theorem InvLive.settleCallPLive {s : EffSt} (hc : InvCore s) (hl : InvLive s)
    {i : Nat} (hi : i < s.runCount) {cp : Nat}
    (hcp : (s.runs i).callP = some cp) (o : Outcome) :
    InvLive (settle cp o s) := by
  have hd := hc.data
  have hdist := (hd.callp_ids i hi cp hcp).2
  have hruns := settle_runs cp o s
  have hcount := settle_runCount cp o s
  refine ⟨?_, ?_, ?_, ?_, ?_⟩
  · intro j hj
    rw [hcount] at hj
    rw [hruns]
    rcases hl.l0 j hj with hOn | hq | hsett
    · exact Or.inl (settle_onProm_subset_ne _ _ _ _ _
        (Ne.symm ((hdist j hj).2.1)) hOn)
    · exact Or.inr (Or.inl (InQueue_settle _ _ _ _ hq))
    · exact Or.inr (Or.inr (settle_isSettled_mono _ _ _ _ hsett))
  · intro j hj
    rw [hcount] at hj
    rw [hruns]
    rcases hl.l1 j hj with hOn | hq | hOn | hq | hsett
    · exact Or.inl (settle_onProm_subset_ne _ _ _ _ _
        (Ne.symm ((hdist j hj).2.2.1)) hOn)
    · exact Or.inr (Or.inl (InQueue_settle _ _ _ _ hq))
    · exact Or.inr (Or.inr (Or.inl (settle_onProm_subset_ne _ _ _ _ _
        (Ne.symm ((hdist j hj).1)) hOn)))
    · exact Or.inr (Or.inr (Or.inr (Or.inl (InQueue_settle _ _ _ _ hq))))
    · exact Or.inr (Or.inr (Or.inr (Or.inr
        (settle_isSettled_mono _ _ _ _ hsett))))
  · intro j hj q2 h2
    rw [hcount] at hj
    rw [hruns] at h2 ⊢
    rcases hl.l2 j hj q2 h2 with hOn | hq | ⟨cp', hcp', hcpx⟩ | hsett
    · exact Or.inl (settle_onProm_subset_ne _ _ _ _ _
        (Ne.symm ((hdist j hj).2.2.1)) hOn)
    · exact Or.inr (Or.inl (InQueue_settle _ _ _ _ hq))
    · refine Or.inr (Or.inr (Or.inl ⟨cp', hcp', ?_⟩))
      by_cases hji : j = i
      · subst hji
        rw [hcp'] at hcp
        cases hcp
        rcases hcpx with hOn | hq
        · exact Or.inr (InQueue_of_onProm_settle _ _ _ _ hOn)
        · exact Or.inr (InQueue_settle _ _ _ _ hq)
      · have hne : cp' ≠ cp :=
          Ne.symm ((hdist j hj).2.2.2.2.2.2 hji cp' hcp')
        rcases hcpx with hOn | hq
        · exact Or.inl (settle_onProm_subset_ne _ _ _ _ _ hne hOn)
        · exact Or.inr (InQueue_settle _ _ _ _ hq)
    · exact Or.inr (Or.inr (Or.inr (settle_isSettled_mono _ _ _ _ hsett)))
  · intro j hj q2 q3 h2 h3
    rw [hcount] at hj
    rw [hruns] at h2 h3
    rcases hl.l3 j hj q2 q3 h2 h3 with hOn | hq | hsett
    · exact Or.inl (settle_onProm_subset_ne _ _ _ _ _
        (Ne.symm ((hdist j hj).2.2.2.2.1 q2 h2)) hOn)
    · exact Or.inr (Or.inl (InQueue_settle _ _ _ _ hq))
    · exact Or.inr (Or.inr (settle_isSettled_mono _ _ _ _ hsett))
  · intro j hj q3 h3
    rw [hcount] at hj
    rw [hruns] at h3 ⊢
    rcases hl.l4 j hj q3 h3 with hOn | hq | hsett
    · exact Or.inl (settle_onProm_subset_ne _ _ _ _ _
        (Ne.symm ((hdist j hj).2.2.2.2.2.1 q3 h3)) hOn)
    · exact Or.inr (Or.inl (InQueue_settle _ _ _ _ hq))
    · exact Or.inr (Or.inr (settle_isSettled_mono _ _ _ _ hsett))

/-- Registering a continuation never changes whether any promise has
settled. -/
theorem subscribe_isSettled (p q : Nat) (c : Cont) (s : EffSt) :
    ((subscribe p c s).proms q).isSettled = (s.proms q).isSettled := by
  by_cases hset : (s.proms p).isSettled = true
  · rcases subscribe_of_settled p c s hset with ⟨o, _, heq⟩
    rw [heq]
  · rcases Prom.exists_pending_of_not_settled _ hset with ⟨cs, hp⟩
    rw [subscribe_of_pending p c s cs hp]
    dsimp only
    by_cases hq : q = p
    · subst hq
      rw [updFn_self, hp]
      rfl
    · rw [updFn_ne _ _ _ _ hq]

/-- After `settle p o`, promise `p` is settled in every case. -/
theorem settle_self_isSettled (p : Nat) (o : Outcome) (s : EffSt) :
    ((settle p o s).proms p).isSettled = true := by
  by_cases hset : (s.proms p).isSettled = true
  · rw [settle_of_settled p o s hset]
    exact hset
  · rcases Prom.exists_pending_of_not_settled _ hset with ⟨cs, hp⟩
    rw [settle_proms_self_of_pending p o s cs hp]
    exact Outcome.toProm_isSettled o

/-- Registering run `i`'s chain adoption (`.then(() => cleanupPromise)`
resuming on `cleanupPromise`) preserves the pop-stable part. -/
theorem InvCore.subChainLink2 {s : EffSt} (hc : InvCore s) {i : Nat}
    (hi : i < s.runCount) :
    InvCore (subscribe (s.runs i).cleanupP (.chainLink2 (s.runs i).chainP) s) := by
  have hd := hc.data
  have hoi := hd.order i hi
  have hbi := hd.bounds i hi
  have hXlt : (s.runs i).cleanupP < s.nextId := by omega
  have hX0 : 0 < (s.runs i).cleanupP := by omega
  have hruns := subscribe_runs (s.runs i).cleanupP (.chainLink2 (s.runs i).chainP) s
  have hcount := subscribe_runCount (s.runs i).cleanupP (.chainLink2 (s.runs i).chainP) s
  have hnext := subscribe_nextId (s.runs i).cleanupP (.chainLink2 (s.runs i).chainP) s
  have href := subscribe_chainRef (s.runs i).cleanupP (.chainLink2 (s.runs i).chainP) s
  have hkeep : ∀ q, (s.proms q).isSettled = true →
      (subscribe (s.runs i).cleanupP (.chainLink2 (s.runs i).chainP) s).proms q =
        s.proms q :=
    fun q hq => subscribe_proms_of_settled _ _ _ _ hq
  have hsets := subscribe_isSettled (s.runs i).cleanupP
  refine ⟨hd.frames hruns hcount href (le_of_eq hnext.symm),
    ?_, ?_, ?_, ?_, ?_, ?_, ?_, ?_, ?_, ?_, ?_, ?_⟩
  · intro p hpge
    rw [hnext] at hpge
    rw [subscribe_proms_ne _ _ _ _ (by omega)]
    exact hc.fresh p hpge
  · rw [subscribe_proms_ne _ _ _ _ (by omega)]
    exact hc.prom0
  · intro j hj cp hcp
    rw [hcount] at hj
    rw [hruns] at hcp ⊢
    rw [hsets]
    exact hc.callp_cep j hj cp hcp
  · intro p c hOn
    rcases subscribe_onProm_cases _ _ _ _ _ hOn with hold | ⟨hp, hceq⟩
    · exact ContAt.framesContAt hruns (le_of_eq hcount.symm) (hc.placement p c hold)
    · subst hp
      subst hceq
      refine ⟨i, ?_, by rw [hruns], by rw [hruns]⟩
      omega
  · intro c o' ht
    rcases subscribe_queue_cases _ _ _ (c, o') ht with hold | ⟨hceq, hto⟩
    · exact TaskOK.framesTaskOK hruns (le_of_eq hcount.symm) hkeep
        (hc.queue_ok c o' hold)
    · have hceq' : c = .chainLink2 (s.runs i).chainP := hceq
      subst hceq'
      have hsettl : (s.proms (s.runs i).cleanupP).isSettled = true := by
        rw [← hto]
        exact Outcome.toProm_isSettled o'
      refine ⟨i, by omega, by rw [hruns], ?_⟩
      rw [hruns, hkeep _ hsettl]
      exact hto.symm
  · intro j hj q2 h2
    rw [hcount] at hj
    rw [hruns] at h2 ⊢
    have hocc : tdAOcc (subscribe (s.runs i).cleanupP
        (.chainLink2 (s.runs i).chainP) s) j q2 = tdAOcc s j q2 := by
      unfold tdAOcc
      rw [hruns]
      rw [subscribe_proms_ne _ _ _ _ ((hd.ne_cleanupP hi hj).2.1)]
      by_cases hset : (s.proms (s.runs i).cleanupP).isSettled = true
      · rcases subscribe_of_settled _ (.chainLink2 (s.runs i).chainP) _ hset with
          ⟨o, _, heq⟩
        rw [heq]
        show _ + List.countP _ (s.queue ++ [(Cont.chainLink2 (s.runs i).chainP, o)]) = _
        rw [List.countP_append]
        have hz : List.countP (fun t => decide (t.1 = Cont.teardownA j q2))
            [(Cont.chainLink2 (s.runs i).chainP, o)] = 0 := by
          simp
        omega
      · rcases Prom.exists_pending_of_not_settled _ hset with ⟨cs, hp⟩
        rw [subscribe_of_pending _ _ _ cs hp]
    rw [hocc]
    exact hc.tdA_count j hj q2 h2
  · intro j hj q2 h2 hoccur
    rw [hcount] at hj
    rw [hruns] at h2 hoccur
    have hq2ne : q2 ≠ (s.runs i).cleanupP :=
      (hd.ne_cleanupP hi hj).2.2.2.2.1 q2 h2
    rw [subscribe_proms_ne _ _ _ _ hq2ne]
    refine hc.tdA_q2_pending j hj q2 h2 ?_
    rcases hoccur with hOn | hq
    · rcases subscribe_onProm_cases _ _ _ _ _ hOn with hold | ⟨_, hceq⟩
      · exact Or.inl hold
      · cases hceq
    · rcases InQueue_subscribe_cases _ _ _ _ hq with h1 | h1
      · exact Or.inr h1
      · cases h1
  · intro j hj hsettled
    rw [hcount] at hj
    rw [hruns] at hsettled ⊢
    rw [hsets] at hsettled
    rcases hc.s1 j hj hsettled with ⟨hful, heffj⟩
    rw [hkeep _ hsettled, hsets]
    exact ⟨hful, heffj⟩
  · intro j hj q2 h2 hsettled
    rw [hcount] at hj
    rw [hruns] at h2 ⊢
    rw [hsets] at hsettled
    rcases hc.s2 j hj q2 h2 hsettled with ⟨hful, hcep, hcp⟩
    rw [hkeep _ hsettled, hsets]
    refine ⟨hful, hcep, ?_⟩
    intro cp hcc
    rw [hsets]
    exact hcp cp hcc
  · intro j hj q3 h3 hsettled
    rw [hcount] at hj
    rw [hruns] at h3 ⊢
    rw [hsets] at hsettled
    rcases hc.s3 j hj q3 h3 hsettled with ⟨hful, hq2⟩
    rw [hkeep _ hsettled]
    refine ⟨hful, ?_⟩
    intro q2 h2
    rw [hsets]
    exact hq2 q2 h2
  · intro j hj hsettled
    rw [hcount] at hj
    rw [hruns] at hsettled ⊢
    rw [hsets] at hsettled
    rcases hc.s4 j hj hsettled with ⟨hful, q3, h3, hq3s⟩
    rw [hkeep _ hsettled]
    refine ⟨hful, q3, h3, ?_⟩
    rw [hsets]
    exact hq3s
  · intro j hj hsettled
    rw [hcount] at hj
    rw [hruns] at hsettled ⊢
    rw [hsets] at hsettled
    rcases hc.s5 j hj hsettled with ⟨hful, hcln, hcep⟩
    rw [hkeep _ hsettled]
    refine ⟨hful, ?_, ?_⟩
    · rw [hsets]
      exact hcln
    · rw [hsets]
      exact hcep

/-- Settling run `i`'s published chain promise with `undefined` (the
resumption of `.then(() => cleanupPromise)` once `cleanupPromise` is
fulfilled) preserves the pop-stable part.  Nothing of this model registers
on the chain promise itself, so no task is scheduled. -/
theorem InvCore.settleChainP {s : EffSt} (hc : InvCore s) {i : Nat}
    (hi : i < s.runCount)
    (hcln : (s.proms (s.runs i).cleanupP).isSettled = true)
    (hcep : (s.proms (s.runs i).cep).isSettled = true) :
    InvCore (settle (s.runs i).chainP (.fulfilled .undef) s) := by
  by_cases hset : (s.proms (s.runs i).chainP).isSettled = true
  · rw [settle_of_settled _ _ _ hset]; exact hc
  rcases Prom.exists_pending_of_not_settled _ hset with ⟨cs, hp⟩
  have hd := hc.data
  have hoi := hd.order i hi
  have hbi := hd.bounds i hi
  have hXlt : (s.runs i).chainP < s.nextId := by omega
  have hX0 : 0 < (s.runs i).chainP := by omega
  have hruns := settle_runs (s.runs i).chainP (.fulfilled .undef) s
  have hcount := settle_runCount (s.runs i).chainP (.fulfilled .undef) s
  have hnext := settle_nextId (s.runs i).chainP (.fulfilled .undef) s
  have href := settle_chainRef (s.runs i).chainP (.fulfilled .undef) s
  have hcontsX : ∀ c, OnProm s (s.runs i).chainP c → False :=
    fun c hOn => hd.cont_at_chainP hi (hc.placement _ c hOn)
  have hkeep : ∀ q, (s.proms q).isSettled = true →
      (settle (s.runs i).chainP (.fulfilled .undef) s).proms q = s.proms q :=
    fun q hq => settle_proms_of_settled _ _ _ _ hq
  have hself : (settle (s.runs i).chainP (.fulfilled .undef) s).proms
      (s.runs i).chainP = .fulfilled .undef :=
    settle_proms_self_of_pending _ _ _ cs hp
  refine ⟨hd.frames hruns hcount href (le_of_eq hnext.symm),
    ?_, ?_, ?_, ?_, ?_, ?_, ?_, ?_, ?_, ?_, ?_, ?_⟩
  · intro p hpge
    rw [hnext] at hpge
    rw [settle_proms_ne _ _ _ _ (by omega)]
    exact hc.fresh p hpge
  · rw [settle_proms_ne _ _ _ _ (by omega)]
    exact hc.prom0
  · intro j hj cp hcp
    rw [hcount] at hj
    rw [hruns] at hcp ⊢
    exact settle_isSettled_mono _ _ _ _ (hc.callp_cep j hj cp hcp)
  · intro p c hOn
    exact ContAt.framesContAt hruns (le_of_eq hcount.symm)
      (hc.placement p c (settle_onProm_cases _ _ _ _ _ hOn))
  · intro c o' ht
    rcases settle_queue_cases _ _ _ (c, o') ht with hold | ⟨ho2, hOn⟩
    · exact TaskOK.framesTaskOK hruns (le_of_eq hcount.symm) hkeep
        (hc.queue_ok c o' hold)
    · exact absurd hOn (hcontsX c)
  · intro j hj q2 h2
    rw [hcount] at hj
    rw [hruns] at h2 ⊢
    have hocc : tdAOcc (settle (s.runs i).chainP (.fulfilled .undef) s) j q2 =
        tdAOcc s j q2 := by
      unfold tdAOcc
      rw [hruns]
      rw [settle_proms_ne _ _ _ _ ((hd.ne_chainP hi hj).2.2.1)]
      rw [settle_of_pending _ _ _ cs hp]
      show _ + List.countP _ (s.queue ++ cs.map fun c => (c, Outcome.fulfilled .undef)) = _
      rw [List.countP_append]
      have hz : List.countP (fun t => decide (t.1 = Cont.teardownA j q2))
          (cs.map fun c => (c, Outcome.fulfilled JSVal.undef)) = 0 := by
        rw [List.countP_eq_zero]
        intro t htm
        rcases List.mem_map.mp htm with ⟨c, hcmem, hceq⟩
        have hOn : OnProm s (s.runs i).chainP c := by
          unfold OnProm
          rw [hp]
          exact hcmem
        exact absurd hOn (hcontsX c)
      omega
    rw [hocc]
    exact hc.tdA_count j hj q2 h2
  · intro j hj q2 h2 hoccur
    rw [hcount] at hj
    rw [hruns] at h2 hoccur
    have hq2ne : q2 ≠ (s.runs i).chainP :=
      (hd.ne_chainP hi hj).2.2.2.2.1 q2 h2
    rw [settle_proms_ne _ _ _ _ hq2ne]
    refine hc.tdA_q2_pending j hj q2 h2 ?_
    rcases hoccur with hOn | hq
    · exact Or.inl (settle_onProm_cases _ _ _ _ _ hOn)
    · rcases InQueue_settle_cases _ _ _ _ hq with h1 | h1
      · exact Or.inr h1
      · exact absurd h1 (hcontsX _)
  · intro j hj hsettled
    rw [hcount] at hj
    rw [hruns] at hsettled ⊢
    have hne : (s.runs j).cep ≠ (s.runs i).chainP := (hd.ne_chainP hi hj).2.2.1
    rw [settle_proms_ne _ _ _ _ hne] at hsettled ⊢
    have hne2 : (s.runs j).effP ≠ (s.runs i).chainP := (hd.ne_chainP hi hj).2.1
    rw [settle_proms_ne _ _ _ _ hne2]
    exact hc.s1 j hj hsettled
  · intro j hj q2 h2 hsettled
    rw [hcount] at hj
    rw [hruns] at h2 ⊢
    have hne : q2 ≠ (s.runs i).chainP := (hd.ne_chainP hi hj).2.2.2.2.1 q2 h2
    rw [settle_proms_ne _ _ _ _ hne] at hsettled ⊢
    rcases hc.s2 j hj q2 h2 hsettled with ⟨hful, hcepj, hcpj⟩
    exact ⟨hful, settle_isSettled_mono _ _ _ _ hcepj,
      fun cp hcc => settle_isSettled_mono _ _ _ _ (hcpj cp hcc)⟩
  · intro j hj q3 h3 hsettled
    rw [hcount] at hj
    rw [hruns] at h3 ⊢
    have hne : q3 ≠ (s.runs i).chainP := (hd.ne_chainP hi hj).2.2.2.2.2.1 q3 h3
    rw [settle_proms_ne _ _ _ _ hne] at hsettled ⊢
    rcases hc.s3 j hj q3 h3 hsettled with ⟨hful, hq2⟩
    exact ⟨hful, fun q2 h2 => settle_isSettled_mono _ _ _ _ (hq2 q2 h2)⟩
  · intro j hj hsettled
    rw [hcount] at hj
    rw [hruns] at hsettled ⊢
    have hne : (s.runs j).cleanupP ≠ (s.runs i).chainP := (hd.ne_chainP hi hj).1
    rw [settle_proms_ne _ _ _ _ hne] at hsettled ⊢
    rcases hc.s4 j hj hsettled with ⟨hful, q3, h3, hq3s⟩
    exact ⟨hful, q3, h3, settle_isSettled_mono _ _ _ _ hq3s⟩
  · intro j hj hsettled
    rw [hcount] at hj
    rw [hruns] at hsettled ⊢
    by_cases hji : j = i
    · subst hji
      refine ⟨hself, ?_, ?_⟩
      · exact settle_isSettled_mono _ _ _ _ hcln
      · exact settle_isSettled_mono _ _ _ _ hcep
    · have hne : (s.runs j).chainP ≠ (s.runs i).chainP :=
        (hd.ne_chainP hi hj).2.2.2.1 hji
      rw [settle_proms_ne _ _ _ _ hne] at hsettled ⊢
      rcases hc.s5 j hj hsettled with ⟨hful, hclnj, hcepj⟩
      exact ⟨hful, settle_isSettled_mono _ _ _ _ hclnj,
        settle_isSettled_mono _ _ _ _ hcepj⟩

/-- Resolving run `i`'s first teardown promise (the teardown body finished,
with any cleanup call settled) preserves the pop-stable part, provided no
copy of the teardown body continuation is left. -/
theorem InvCore.settleQ2 {s : EffSt} (hc : InvCore s) {i : Nat}
    (hi : i < s.runCount) {q2 : Nat} (h2 : (s.runs i).tdP2 = some q2)
    (hcep : (s.proms (s.runs i).cep).isSettled = true)
    (hcall : ∀ cp, (s.runs i).callP = some cp →
      (s.proms cp).isSettled = true)
    (hocc0 : tdAOcc s i q2 = 0) :
    InvCore (settle q2 (.fulfilled .undef) s) := by
  by_cases hset : (s.proms q2).isSettled = true
  · rw [settle_of_settled _ _ _ hset]; exact hc
  rcases Prom.exists_pending_of_not_settled _ hset with ⟨cs, hp⟩
  have hd := hc.data
  have hoi := hd.order i hi
  have hbi := hd.bounds i hi
  rcases hd.td_some hi h2 with ⟨q3i, h3i, hq2gt, hq3e⟩
  have hq3lt : q3i < s.nextId := hbi.2.1 q3i h3i
  have hXlt : q2 < s.nextId := by omega
  have hX0 : 0 < q2 := by omega
  have hruns := settle_runs q2 (.fulfilled .undef) s
  have hcount := settle_runCount q2 (.fulfilled .undef) s
  have hnext := settle_nextId q2 (.fulfilled .undef) s
  have href := settle_chainRef q2 (.fulfilled .undef) s
  have hcontsX : ∀ c, OnProm s q2 c →
      ∃ q3, (s.runs i).tdP3 = some q3 ∧ c = .teardownCatch q3 :=
    fun c hOn => hd.cont_at_q2 hi h2 (hc.placement _ c hOn)
  have hkeep : ∀ q, (s.proms q).isSettled = true →
      (settle q2 (.fulfilled .undef) s).proms q = s.proms q :=
    fun q hq => settle_proms_of_settled _ _ _ _ hq
  have hself : (settle q2 (.fulfilled .undef) s).proms q2 = .fulfilled .undef :=
    settle_proms_self_of_pending _ _ _ cs hp
  refine ⟨hd.frames hruns hcount href (le_of_eq hnext.symm),
    ?_, ?_, ?_, ?_, ?_, ?_, ?_, ?_, ?_, ?_, ?_, ?_⟩
  · intro p hpge
    rw [hnext] at hpge
    rw [settle_proms_ne _ _ _ _ (by omega)]
    exact hc.fresh p hpge
  · rw [settle_proms_ne _ _ _ _ (by omega)]
    exact hc.prom0
  · intro j hj cp hcp
    rw [hcount] at hj
    rw [hruns] at hcp ⊢
    exact settle_isSettled_mono _ _ _ _ (hc.callp_cep j hj cp hcp)
  · intro p c hOn
    exact ContAt.framesContAt hruns (le_of_eq hcount.symm)
      (hc.placement p c (settle_onProm_cases _ _ _ _ _ hOn))
  · intro c o' ht
    rcases settle_queue_cases _ _ _ (c, o') ht with hold | ⟨ho2, hOn⟩
    · exact TaskOK.framesTaskOK hruns (le_of_eq hcount.symm) hkeep
        (hc.queue_ok c o' hold)
    · have ho2' : o' = .fulfilled .undef := ho2
      subst ho2'
      rcases hcontsX c hOn with ⟨q3, h3, hceq⟩
      subst hceq
      refine ⟨i, q2, by omega, by rw [hruns]; exact h2,
        by rw [hruns]; exact h3, hself⟩
  · intro j hj q2' h2'
    rw [hcount] at hj
    rw [hruns] at h2' ⊢
    have hocc : tdAOcc (settle q2 (.fulfilled .undef) s) j q2' =
        tdAOcc s j q2' := by
      unfold tdAOcc
      rw [hruns]
      rw [settle_proms_ne _ _ _ _ ((hd.ne_q2 hi hj h2).2.2.1)]
      rw [settle_of_pending _ _ _ cs hp]
      show _ + List.countP _ (s.queue ++ cs.map fun c => (c, Outcome.fulfilled .undef)) = _
      rw [List.countP_append]
      have hz : List.countP (fun t => decide (t.1 = Cont.teardownA j q2'))
          (cs.map fun c => (c, Outcome.fulfilled JSVal.undef)) = 0 := by
        rw [List.countP_eq_zero]
        intro t htm
        rcases List.mem_map.mp htm with ⟨c, hcmem, hceq⟩
        have hOn : OnProm s q2 c := by
          unfold OnProm
          rw [hp]
          exact hcmem
        rcases hcontsX c hOn with ⟨q3, _, hcc⟩
        subst hcc
        rw [← hceq]
        simp
      omega
    rw [hocc]
    exact hc.tdA_count j hj q2' h2'
  · intro j hj q2' h2' hoccur
    rw [hcount] at hj
    rw [hruns] at h2' hoccur
    have hocc1 : OnProm s (s.runs j).cep (.teardownA j q2') ∨
        InQueue s (.teardownA j q2') := by
      rcases hoccur with hOn | hq
      · exact Or.inl (settle_onProm_cases _ _ _ _ _ hOn)
      · rcases InQueue_settle_cases _ _ _ _ hq with h1 | h1
        · exact Or.inr h1
        · rcases hcontsX _ h1 with ⟨q3, _, hcc⟩
          cases hcc
    by_cases hq2eq : q2' = q2
    · subst hq2eq
      have hji : j = i := by
        by_contra hne
        exact absurd rfl ((hd.ne_q2 hi hj h2).2.2.2.2.1 hne q2' h2')
      subst hji
      exfalso
      unfold tdAOcc at hocc0
      rcases hocc1 with hOn | ⟨o, ho⟩
      · rw [Nat.add_eq_zero] at hocc0
        have := List.count_eq_zero.mp hocc0.1
        exact this hOn
      · rw [Nat.add_eq_zero] at hocc0
        have := List.countP_eq_zero.mp hocc0.2 _ ho
        simp at this
    · rw [settle_proms_ne _ _ _ _ hq2eq]
      exact hc.tdA_q2_pending j hj q2' h2' hocc1
  · intro j hj hsettled
    rw [hcount] at hj
    rw [hruns] at hsettled ⊢
    have hne : (s.runs j).cep ≠ q2 := (hd.ne_q2 hi hj h2).2.2.1
    rw [settle_proms_ne _ _ _ _ hne] at hsettled ⊢
    have hne2 : (s.runs j).effP ≠ q2 := (hd.ne_q2 hi hj h2).2.1
    rw [settle_proms_ne _ _ _ _ hne2]
    exact hc.s1 j hj hsettled
  · intro j hj q2' h2' hsettled
    rw [hcount] at hj
    rw [hruns] at h2' ⊢
    by_cases hq2eq : q2' = q2
    · subst hq2eq
      have hji : j = i := by
        by_contra hne
        exact absurd rfl ((hd.ne_q2 hi hj h2).2.2.2.2.1 hne q2' h2')
      subst hji
      refine ⟨hself, settle_isSettled_mono _ _ _ _ hcep, ?_⟩
      intro cp hcc
      exact settle_isSettled_mono _ _ _ _ (hcall cp hcc)
    · rw [settle_proms_ne _ _ _ _ hq2eq] at hsettled ⊢
      rcases hc.s2 j hj q2' h2' hsettled with ⟨hful, hcepj, hcpj⟩
      exact ⟨hful, settle_isSettled_mono _ _ _ _ hcepj,
        fun cp hcc => settle_isSettled_mono _ _ _ _ (hcpj cp hcc)⟩
  · intro j hj q3 h3 hsettled
    rw [hcount] at hj
    rw [hruns] at h3 ⊢
    have hne : q3 ≠ q2 := (hd.ne_q2 hi hj h2).2.2.2.2.2.1 q3 h3
    rw [settle_proms_ne _ _ _ _ hne] at hsettled ⊢
    rcases hc.s3 j hj q3 h3 hsettled with ⟨hful, hq2j⟩
    refine ⟨hful, ?_⟩
    intro q2'' h2''
    exact settle_isSettled_mono _ _ _ _ (hq2j q2'' h2'')
  · intro j hj hsettled
    rw [hcount] at hj
    rw [hruns] at hsettled ⊢
    have hne : (s.runs j).cleanupP ≠ q2 := (hd.ne_q2 hi hj h2).1
    rw [settle_proms_ne _ _ _ _ hne] at hsettled ⊢
    rcases hc.s4 j hj hsettled with ⟨hful, q3, h3, hq3s⟩
    exact ⟨hful, q3, h3, settle_isSettled_mono _ _ _ _ hq3s⟩
  · intro j hj hsettled
    rw [hcount] at hj
    rw [hruns] at hsettled ⊢
    have hne : (s.runs j).chainP ≠ q2 := (hd.ne_q2 hi hj h2).2.2.2.1
    rw [settle_proms_ne _ _ _ _ hne] at hsettled ⊢
    rcases hc.s5 j hj hsettled with ⟨hful, hclnj, hcepj⟩
    exact ⟨hful, settle_isSettled_mono _ _ _ _ hclnj,
      settle_isSettled_mono _ _ _ _ hcepj⟩

/-- Resolving run `i`'s second teardown promise (the `.catch(() => {})`
resumption) preserves the pop-stable part, provided its first teardown
promise has settled. -/
theorem InvCore.settleQ3 {s : EffSt} (hc : InvCore s) {i : Nat}
    (hi : i < s.runCount) {q3 : Nat} (h3 : (s.runs i).tdP3 = some q3)
    (hq2s : ∀ q2, (s.runs i).tdP2 = some q2 →
      (s.proms q2).isSettled = true) :
    InvCore (settle q3 (.fulfilled .undef) s) := by
  by_cases hset : (s.proms q3).isSettled = true
  · rw [settle_of_settled _ _ _ hset]; exact hc
  rcases Prom.exists_pending_of_not_settled _ hset with ⟨cs, hp⟩
  have hd := hc.data
  have hoi := hd.order i hi
  have hbi := hd.bounds i hi
  rcases hd.td3_some hi h3 with ⟨q2i, h2i, hq2gt, hq3e⟩
  have hXlt : q3 < s.nextId := hbi.2.1 q3 h3
  have hX0 : 0 < q3 := by omega
  have hruns := settle_runs q3 (.fulfilled .undef) s
  have hcount := settle_runCount q3 (.fulfilled .undef) s
  have hnext := settle_nextId q3 (.fulfilled .undef) s
  have href := settle_chainRef q3 (.fulfilled .undef) s
  have hcontsX : ∀ c, OnProm s q3 c → c = .teardownB i :=
    fun c hOn => hd.cont_at_q3 hi h3 (hc.placement _ c hOn)
  have hkeep : ∀ q, (s.proms q).isSettled = true →
      (settle q3 (.fulfilled .undef) s).proms q = s.proms q :=
    fun q hq => settle_proms_of_settled _ _ _ _ hq
  have hself : (settle q3 (.fulfilled .undef) s).proms q3 = .fulfilled .undef :=
    settle_proms_self_of_pending _ _ _ cs hp
  refine ⟨hd.frames hruns hcount href (le_of_eq hnext.symm),
    ?_, ?_, ?_, ?_, ?_, ?_, ?_, ?_, ?_, ?_, ?_, ?_⟩
  · intro p hpge
    rw [hnext] at hpge
    rw [settle_proms_ne _ _ _ _ (by omega)]
    exact hc.fresh p hpge
  · rw [settle_proms_ne _ _ _ _ (by omega)]
    exact hc.prom0
  · intro j hj cp hcp
    rw [hcount] at hj
    rw [hruns] at hcp ⊢
    exact settle_isSettled_mono _ _ _ _ (hc.callp_cep j hj cp hcp)
  · intro p c hOn
    exact ContAt.framesContAt hruns (le_of_eq hcount.symm)
      (hc.placement p c (settle_onProm_cases _ _ _ _ _ hOn))
  · intro c o' ht
    rcases settle_queue_cases _ _ _ (c, o') ht with hold | ⟨ho2, hOn⟩
    · exact TaskOK.framesTaskOK hruns (le_of_eq hcount.symm) hkeep
        (hc.queue_ok c o' hold)
    · have ho2' : o' = .fulfilled .undef := ho2
      subst ho2'
      have hceq := hcontsX c hOn
      subst hceq
      exact ⟨by omega, q3, by rw [hruns]; exact h3, hself⟩
  · intro j hj q2' h2'
    rw [hcount] at hj
    rw [hruns] at h2' ⊢
    have hocc : tdAOcc (settle q3 (.fulfilled .undef) s) j q2' =
        tdAOcc s j q2' := by
      unfold tdAOcc
      rw [hruns]
      rw [settle_proms_ne _ _ _ _ ((hd.ne_q3 hi hj h3).2.2.1)]
      rw [settle_of_pending _ _ _ cs hp]
      show _ + List.countP _ (s.queue ++ cs.map fun c => (c, Outcome.fulfilled .undef)) = _
      rw [List.countP_append]
      have hz : List.countP (fun t => decide (t.1 = Cont.teardownA j q2'))
          (cs.map fun c => (c, Outcome.fulfilled JSVal.undef)) = 0 := by
        rw [List.countP_eq_zero]
        intro t htm
        rcases List.mem_map.mp htm with ⟨c, hcmem, hceq⟩
        have hOn : OnProm s q3 c := by
          unfold OnProm
          rw [hp]
          exact hcmem
        have hcc := hcontsX c hOn
        subst hcc
        rw [← hceq]
        simp
      omega
    rw [hocc]
    exact hc.tdA_count j hj q2' h2'
  · intro j hj q2' h2' hoccur
    rw [hcount] at hj
    rw [hruns] at h2' hoccur
    have hne : q2' ≠ q3 := (hd.ne_q3 hi hj h3).2.2.2.2.1 q2' h2'
    rw [settle_proms_ne _ _ _ _ hne]
    refine hc.tdA_q2_pending j hj q2' h2' ?_
    rcases hoccur with hOn | hq
    · exact Or.inl (settle_onProm_cases _ _ _ _ _ hOn)
    · rcases InQueue_settle_cases _ _ _ _ hq with h1 | h1
      · exact Or.inr h1
      · have := hcontsX _ h1
        cases this
  · intro j hj hsettled
    rw [hcount] at hj
    rw [hruns] at hsettled ⊢
    have hne : (s.runs j).cep ≠ q3 := (hd.ne_q3 hi hj h3).2.2.1
    rw [settle_proms_ne _ _ _ _ hne] at hsettled ⊢
    have hne2 : (s.runs j).effP ≠ q3 := (hd.ne_q3 hi hj h3).2.1
    rw [settle_proms_ne _ _ _ _ hne2]
    exact hc.s1 j hj hsettled
  · intro j hj q2' h2' hsettled
    rw [hcount] at hj
    rw [hruns] at h2' ⊢
    have hne : q2' ≠ q3 := (hd.ne_q3 hi hj h3).2.2.2.2.1 q2' h2'
    rw [settle_proms_ne _ _ _ _ hne] at hsettled ⊢
    rcases hc.s2 j hj q2' h2' hsettled with ⟨hful, hcepj, hcpj⟩
    exact ⟨hful, settle_isSettled_mono _ _ _ _ hcepj,
      fun cp hcc => settle_isSettled_mono _ _ _ _ (hcpj cp hcc)⟩
  · intro j hj q3' h3' hsettled
    rw [hcount] at hj
    rw [hruns] at h3' ⊢
    by_cases hq3eq : q3' = q3
    · subst hq3eq
      have hji : j = i := by
        by_contra hne
        exact absurd rfl ((hd.ne_q3 hi hj h3).2.2.2.2.2.1 hne q3' h3')
      subst hji
      refine ⟨hself, ?_⟩
      intro q2'' h2''
      exact settle_isSettled_mono _ _ _ _ (hq2s q2'' h2'')
    · rw [settle_proms_ne _ _ _ _ hq3eq] at hsettled ⊢
      rcases hc.s3 j hj q3' h3' hsettled with ⟨hful, hq2j⟩
      exact ⟨hful, fun q2'' h2'' =>
        settle_isSettled_mono _ _ _ _ (hq2j q2'' h2'')⟩
  · intro j hj hsettled
    rw [hcount] at hj
    rw [hruns] at hsettled ⊢
    have hne : (s.runs j).cleanupP ≠ q3 := (hd.ne_q3 hi hj h3).1
    rw [settle_proms_ne _ _ _ _ hne] at hsettled ⊢
    rcases hc.s4 j hj hsettled with ⟨hful, q3', h3', hq3s⟩
    exact ⟨hful, q3', h3', settle_isSettled_mono _ _ _ _ hq3s⟩
  · intro j hj hsettled
    rw [hcount] at hj
    rw [hruns] at hsettled ⊢
    have hne : (s.runs j).chainP ≠ q3 := (hd.ne_q3 hi hj h3).2.2.2.1
    rw [settle_proms_ne _ _ _ _ hne] at hsettled ⊢
    rcases hc.s5 j hj hsettled with ⟨hful, hclnj, hcepj⟩
    exact ⟨hful, settle_isSettled_mono _ _ _ _ hclnj,
      settle_isSettled_mono _ _ _ _ hcepj⟩

/-- Manually resolving run `i`'s `cleanupPromise` (the final `.then` of the
cleanup closure) preserves the pop-stable part, provided the second
teardown promise has settled. -/
theorem InvCore.settleCleanupB {s : EffSt} (hc : InvCore s) {i : Nat}
    (hi : i < s.runCount)
    (hq3 : ∃ q3, (s.runs i).tdP3 = some q3 ∧
      (s.proms q3).isSettled = true) :
    InvCore (settle (s.runs i).cleanupP (.fulfilled .undef) s) := by
  by_cases hset : (s.proms (s.runs i).cleanupP).isSettled = true
  · rw [settle_of_settled _ _ _ hset]; exact hc
  rcases Prom.exists_pending_of_not_settled _ hset with ⟨cs, hp⟩
  have hd := hc.data
  have hoi := hd.order i hi
  have hbi := hd.bounds i hi
  have hXlt : (s.runs i).cleanupP < s.nextId := by omega
  have hX0 : 0 < (s.runs i).cleanupP := by omega
  have hruns := settle_runs (s.runs i).cleanupP (.fulfilled .undef) s
  have hcount := settle_runCount (s.runs i).cleanupP (.fulfilled .undef) s
  have hnext := settle_nextId (s.runs i).cleanupP (.fulfilled .undef) s
  have href := settle_chainRef (s.runs i).cleanupP (.fulfilled .undef) s
  have hcontsX : ∀ c, OnProm s (s.runs i).cleanupP c →
      c = .chainLink2 (s.runs i).chainP :=
    fun c hOn => hd.cont_at_cleanupP hi (hc.placement _ c hOn)
  have hkeep : ∀ q, (s.proms q).isSettled = true →
      (settle (s.runs i).cleanupP (.fulfilled .undef) s).proms q = s.proms q :=
    fun q hq => settle_proms_of_settled _ _ _ _ hq
  have hself : (settle (s.runs i).cleanupP (.fulfilled .undef) s).proms
      (s.runs i).cleanupP = .fulfilled .undef :=
    settle_proms_self_of_pending _ _ _ cs hp
  refine ⟨hd.frames hruns hcount href (le_of_eq hnext.symm),
    ?_, ?_, ?_, ?_, ?_, ?_, ?_, ?_, ?_, ?_, ?_, ?_⟩
  · intro p hpge
    rw [hnext] at hpge
    rw [settle_proms_ne _ _ _ _ (by omega)]
    exact hc.fresh p hpge
  · rw [settle_proms_ne _ _ _ _ (by omega)]
    exact hc.prom0
  · intro j hj cp hcp
    rw [hcount] at hj
    rw [hruns] at hcp ⊢
    exact settle_isSettled_mono _ _ _ _ (hc.callp_cep j hj cp hcp)
  · intro p c hOn
    exact ContAt.framesContAt hruns (le_of_eq hcount.symm)
      (hc.placement p c (settle_onProm_cases _ _ _ _ _ hOn))
  · intro c o' ht
    rcases settle_queue_cases _ _ _ (c, o') ht with hold | ⟨ho2, hOn⟩
    · exact TaskOK.framesTaskOK hruns (le_of_eq hcount.symm) hkeep
        (hc.queue_ok c o' hold)
    · have ho2' : o' = .fulfilled .undef := ho2
      subst ho2'
      have hceq := hcontsX c hOn
      subst hceq
      exact ⟨i, by omega, by rw [hruns], by rw [hruns]; exact hself⟩
  · intro j hj q2' h2'
    rw [hcount] at hj
    rw [hruns] at h2' ⊢
    have hocc : tdAOcc (settle (s.runs i).cleanupP (.fulfilled .undef) s) j q2' =
        tdAOcc s j q2' := by
      unfold tdAOcc
      rw [hruns]
      rw [settle_proms_ne _ _ _ _ ((hd.ne_cleanupP hi hj).2.1)]
      rw [settle_of_pending _ _ _ cs hp]
      show _ + List.countP _ (s.queue ++ cs.map fun c => (c, Outcome.fulfilled .undef)) = _
      rw [List.countP_append]
      have hz : List.countP (fun t => decide (t.1 = Cont.teardownA j q2'))
          (cs.map fun c => (c, Outcome.fulfilled JSVal.undef)) = 0 := by
        rw [List.countP_eq_zero]
        intro t htm
        rcases List.mem_map.mp htm with ⟨c, hcmem, hceq⟩
        have hOn : OnProm s (s.runs i).cleanupP c := by
          unfold OnProm
          rw [hp]
          exact hcmem
        have hcc := hcontsX c hOn
        subst hcc
        rw [← hceq]
        simp
      omega
    rw [hocc]
    exact hc.tdA_count j hj q2' h2'
  · intro j hj q2' h2' hoccur
    rw [hcount] at hj
    rw [hruns] at h2' hoccur
    have hne : q2' ≠ (s.runs i).cleanupP :=
      (hd.ne_cleanupP hi hj).2.2.2.2.1 q2' h2'
    rw [settle_proms_ne _ _ _ _ hne]
    refine hc.tdA_q2_pending j hj q2' h2' ?_
    rcases hoccur with hOn | hq
    · exact Or.inl (settle_onProm_cases _ _ _ _ _ hOn)
    · rcases InQueue_settle_cases _ _ _ _ hq with h1 | h1
      · exact Or.inr h1
      · have := hcontsX _ h1
        cases this
  · intro j hj hsettled
    rw [hcount] at hj
    rw [hruns] at hsettled ⊢
    have hne : (s.runs j).cep ≠ (s.runs i).cleanupP :=
      (hd.ne_cleanupP hi hj).2.1
    rw [settle_proms_ne _ _ _ _ hne] at hsettled ⊢
    have hne2 : (s.runs j).effP ≠ (s.runs i).cleanupP :=
      (hd.ne_cleanupP hi hj).1
    rw [settle_proms_ne _ _ _ _ hne2]
    exact hc.s1 j hj hsettled
  · intro j hj q2' h2' hsettled
    rw [hcount] at hj
    rw [hruns] at h2' ⊢
    have hne : q2' ≠ (s.runs i).cleanupP :=
      (hd.ne_cleanupP hi hj).2.2.2.2.1 q2' h2'
    rw [settle_proms_ne _ _ _ _ hne] at hsettled ⊢
    rcases hc.s2 j hj q2' h2' hsettled with ⟨hful, hcepj, hcpj⟩
    exact ⟨hful, settle_isSettled_mono _ _ _ _ hcepj,
      fun cp hcc => settle_isSettled_mono _ _ _ _ (hcpj cp hcc)⟩
  · intro j hj q3' h3' hsettled
    rw [hcount] at hj
    rw [hruns] at h3' ⊢
    have hne : q3' ≠ (s.runs i).cleanupP :=
      (hd.ne_cleanupP hi hj).2.2.2.2.2.1 q3' h3'
    rw [settle_proms_ne _ _ _ _ hne] at hsettled ⊢
    rcases hc.s3 j hj q3' h3' hsettled with ⟨hful, hq2j⟩
    exact ⟨hful, fun q2'' h2'' =>
      settle_isSettled_mono _ _ _ _ (hq2j q2'' h2'')⟩
  · intro j hj hsettled
    rw [hcount] at hj
    rw [hruns] at hsettled ⊢
    by_cases hji : j = i
    · subst hji
      rcases hq3 with ⟨q3, h3, hq3s⟩
      exact ⟨hself, q3, h3, settle_isSettled_mono _ _ _ _ hq3s⟩
    · have hne : (s.runs j).cleanupP ≠ (s.runs i).cleanupP :=
        (hd.ne_cleanupP hi hj).2.2.2.1 hji
      rw [settle_proms_ne _ _ _ _ hne] at hsettled ⊢
      rcases hc.s4 j hj hsettled with ⟨hful, q3', h3', hq3s⟩
      exact ⟨hful, q3', h3', settle_isSettled_mono _ _ _ _ hq3s⟩
  · intro j hj hsettled
    rw [hcount] at hj
    rw [hruns] at hsettled ⊢
    have hne : (s.runs j).chainP ≠ (s.runs i).cleanupP :=
      (hd.ne_cleanupP hi hj).2.2.1
    rw [settle_proms_ne _ _ _ _ hne] at hsettled ⊢
    rcases hc.s5 j hj hsettled with ⟨hful, hclnj, hcepj⟩
    exact ⟨hful, settle_isSettled_mono _ _ _ _ hclnj,
      settle_isSettled_mono _ _ _ _ hcepj⟩

/-- Invoking the stored cleanup function in the teardown body: a fresh
promise for the call result is allocated with the `await` resumption
registered on it, and the run records the call.  Preserves the pop-stable
part, provided the teardown body continuation was the one just consumed
(no copy left, callP not yet set, the first teardown promise still
pending). -/
theorem InvCore.allocCallP {s : EffSt} (hc : InvCore s) {i : Nat}
    (hi : i < s.runCount) {q2 : Nat} (h2 : (s.runs i).tdP2 = some q2)
    (hcep : (s.proms (s.runs i).cep).isSettled = true)
    (hocc0 : tdAOcc s i q2 = 0)
    (hcallnone : (s.runs i).callP = none)
    (hq2pend : (s.proms q2).isSettled = false) :
    InvCore { s with
      nextId := s.nextId + 1,
      proms := updFn s.proms s.nextId (.pending [.teardownAwait i q2]),
      runs := updFn s.runs i { s.runs i with callP := some s.nextId },
      calls := s.calls ++ [⟨i, true⟩] } := by
  have hd := hc.data
  have hidlt : ∀ j, j < s.runCount → (s.runs j).cleanupP < s.nextId ∧
      (s.runs j).effP < s.nextId ∧ (s.runs j).cep < s.nextId ∧
      (s.runs j).chainP < s.nextId := by
    intro j hj
    have ho := hd.order j hj
    have hb := hd.bounds j hj
    omega
  have h2lt : ∀ j, j < s.runCount → ∀ q, (s.runs j).tdP2 = some q →
      q < s.nextId := by
    intro j hj q hq
    rcases hd.td_some hj hq with ⟨q3, h3, _, he⟩
    have := (hd.bounds j hj).2.1 q3 h3
    omega
  have h3lt : ∀ j, j < s.runCount → ∀ q, (s.runs j).tdP3 = some q →
      q < s.nextId := fun j hj q hq => (hd.bounds j hj).2.1 q hq
  have hcplt : ∀ j, j < s.runCount → ∀ q, (s.runs j).callP = some q →
      q < s.nextId := fun j hj q hq => (hd.bounds j hj).2.2 q hq
  have hrio : updFn s.runs i { s.runs i with callP := some s.nextId } i =
      { s.runs i with callP := some s.nextId } := updFn_self _ _ _
  have hrne : ∀ j, j ≠ i →
      updFn s.runs i { s.runs i with callP := some s.nextId } j = s.runs j :=
    fun j hj => updFn_ne _ _ _ _ hj
  have hcallpi :
      (updFn s.runs i { s.runs i with callP := some s.nextId } i).callP =
        some s.nextId := by rw [hrio]
  have hproj8 : ∀ j,
      (updFn s.runs i { s.runs i with callP := some s.nextId } j).effP =
        (s.runs j).effP ∧
      (updFn s.runs i { s.runs i with callP := some s.nextId } j).cep =
        (s.runs j).cep ∧
      (updFn s.runs i { s.runs i with callP := some s.nextId } j).cleanupP =
        (s.runs j).cleanupP ∧
      (updFn s.runs i { s.runs i with callP := some s.nextId } j).prevChain =
        (s.runs j).prevChain ∧
      (updFn s.runs i { s.runs i with callP := some s.nextId } j).chainP =
        (s.runs j).chainP ∧
      (updFn s.runs i { s.runs i with callP := some s.nextId } j).torndown =
        (s.runs j).torndown ∧
      (updFn s.runs i { s.runs i with callP := some s.nextId } j).tdP2 =
        (s.runs j).tdP2 ∧
      (updFn s.runs i { s.runs i with callP := some s.nextId } j).tdP3 =
        (s.runs j).tdP3 := by
    intro j
    by_cases hj : j = i
    · subst hj
      rw [hrio]
      exact ⟨rfl, rfl, rfl, rfl, rfl, rfl, rfl, rfl⟩
    · rw [hrne j hj]
      exact ⟨rfl, rfl, rfl, rfl, rfl, rfl, rfl, rfl⟩
  generalize hgen : ({ s with
      nextId := s.nextId + 1,
      proms := updFn s.proms s.nextId (.pending [.teardownAwait i q2]),
      runs := updFn s.runs i { s.runs i with callP := some s.nextId },
      calls := s.calls ++ [⟨i, true⟩] } : EffSt) = sA
  have hEruns : sA.runs =
      updFn s.runs i { s.runs i with callP := some s.nextId } := by
    rw [← hgen]
  have hEproms : sA.proms =
      updFn s.proms s.nextId (Prom.pending [.teardownAwait i q2]) := by
    rw [← hgen]
  have hEcount : sA.runCount = s.runCount := by rw [← hgen]
  have hEnext : sA.nextId = s.nextId + 1 := by rw [← hgen]
  have hEref : sA.chainRef = s.chainRef := by rw [← hgen]
  have hEqueue : sA.queue = s.queue := by rw [← hgen]
  have hdata : InvData sA := by
    refine ⟨?_, ?_, ?_, ?_, ?_, ?_, ?_, ?_, ?_⟩
    · rw [hEnext]
      have := hd.nextId_pos
      omega
    · intro j hj
      rw [hEcount] at hj
      rw [hEruns]
      rcases hproj8 j with ⟨p1, p2, p3, _, p5, _⟩
      rw [p1, p2, p3, p5]
      exact hd.order j hj
    · intro j hj
      rw [hEcount] at hj
      rw [hEruns, hEnext]
      rcases hproj8 j with ⟨_, _, _, _, p5, _, _, p8⟩
      rw [p5, p8]
      have hb := hd.bounds j hj
      refine ⟨by omega, ?_, ?_⟩
      · intro q3 h3
        have := hb.2.1 q3 h3
        omega
      · intro cp hcp
        by_cases hj2 : j = i
        · subst hj2
          rw [hcallpi] at hcp
          cases hcp
          omega
        · rw [hrne j hj2] at hcp
          have := hb.2.2 cp hcp
          omega
    · intro j hj
      rw [hEcount] at hj
      rw [hEruns]
      rcases hproj8 j with ⟨_, _, _, _, p5, p6, p7, p8⟩
      rw [p5, p6, p7, p8]
      by_cases hj2 : j = i
      · subst hj2
        rcases hd.td_ids j hj with ⟨ha, _⟩ | ⟨a, b, ha, hb2, hto, hlt, he⟩
        · rw [ha] at h2
          cases h2
        · exact Or.inr ⟨a, b, ha, hb2, hto, hlt, he⟩
      · rcases hd.td_ids j hj with ⟨ha, hb2, hto, hcp⟩ | hrest
        · refine Or.inl ⟨ha, hb2, hto, ?_⟩
          rw [hrne j hj2]
          exact hcp
        · exact Or.inr hrest
    · intro j k hjk hk
      rw [hEcount] at hk
      rw [hEruns]
      rcases hproj8 j with ⟨_, _, _, _, p5, _, _, p8⟩
      rcases hproj8 k with ⟨_, _, q3c, _⟩
      rw [p5, p8, q3c]
      exact hd.cross j k hjk hk
    · intro j hj cp hcp
      rw [hEcount] at hj
      rw [hEruns] at hcp ⊢
      by_cases hj2 : j = i
      · subst hj2
        rw [hcallpi] at hcp
        cases hcp
        rcases hd.td_some hi h2 with ⟨q3, h3, _, _⟩
        have hq3lt := h3lt j hi q3 h3
        refine ⟨⟨q3, ?_, by omega⟩, ?_⟩
        · rw [(hproj8 j).2.2.2.2.2.2.2]
          exact h3
        · intro k hk
          rw [hEcount] at hk
          rcases hproj8 k with ⟨r1, r2, r3, _, r5, _, r7, r8⟩
          rw [r1, r2, r3, r5, r7, r8]
          have hk4 := hidlt k hk
          refine ⟨by omega, by omega, by omega, by omega, ?_, ?_, ?_⟩
          · intro q hq
            have := h2lt k hk q hq
            omega
          · intro q hq
            have := h3lt k hk q hq
            omega
          · intro hne cq hcq
            rw [hrne k hne] at hcq
            have := hcplt k hk cq hcq
            omega
      · rw [hrne j hj2] at hcp
        refine ⟨?_, ?_⟩
        · rcases (hd.callp_ids j hj cp hcp).1 with ⟨q3, h3, hlt⟩
          refine ⟨q3, ?_, hlt⟩
          rw [(hproj8 j).2.2.2.2.2.2.2]
          exact h3
        · intro k hk
          rw [hEcount] at hk
          rcases hproj8 k with ⟨r1, r2, r3, _, r5, _, r7, r8⟩
          rw [r1, r2, r3, r5, r7, r8]
          have hold := (hd.callp_ids j hj cp hcp).2 k hk
          refine ⟨hold.1, hold.2.1, hold.2.2.1, hold.2.2.2.1,
            hold.2.2.2.2.1, hold.2.2.2.2.2.1, ?_⟩
          intro hne cq hcq
          by_cases hk2 : k = i
          · subst hk2
            rw [hcallpi] at hcq
            cases hcq
            have := hcplt j hj cp hcp
            omega
          · rw [hrne k hk2] at hcq
            exact hold.2.2.2.2.2.2 hne cq hcq
    · rw [hEcount, hEref, hEruns]
      rcases hd.chainRef_spec with ⟨h1, h5⟩ | ⟨n, h1, h5⟩
      · exact Or.inl ⟨h1, h5⟩
      · refine Or.inr ⟨n, h1, ?_⟩
        rw [(hproj8 n).2.2.2.2.1]
        exact h5
    · intro j hj
      rw [hEcount] at hj
      rw [hEruns]
      rcases hd.prevChain_link j hj with ⟨ha, hb2⟩
      refine ⟨?_, ?_⟩
      · intro hj0
        rw [(hproj8 j).2.2.2.1]
        exact ha hj0
      · intro k hk
        rw [(hproj8 j).2.2.2.1, (hproj8 k).2.2.2.2.1]
        exact hb2 k hk
    · intro j hj
      rw [hEcount] at hj
      rw [hEruns, (hproj8 j).2.2.2.2.2.1]
      exact hd.torndown_prev j hj
  refine ⟨hdata, ?_, ?_, ?_, ?_, ?_, ?_, ?_, ?_, ?_, ?_, ?_, ?_⟩
  · intro p hpge
    rw [hEnext] at hpge
    rw [hEproms, updFn_ne _ _ _ _ (show p ≠ s.nextId by omega)]
    exact hc.fresh p (by omega)
  · rw [hEproms, updFn_ne _ _ _ _
      (show (0 : Nat) ≠ s.nextId by have := hd.nextId_pos; omega)]
    exact hc.prom0
  · intro j hj cp hcp
    rw [hEcount] at hj
    rw [hEruns] at hcp ⊢
    rw [hEproms, (hproj8 j).2.1, updFn_ne _ _ _ _
      (show (s.runs j).cep ≠ s.nextId by have := (hidlt j hj).2.2.1; omega)]
    by_cases hj2 : j = i
    · subst hj2
      exact hcep
    · rw [hrne j hj2] at hcp
      exact hc.callp_cep j hj cp hcp
  · intro p c hOn
    unfold OnProm at hOn
    rw [hEproms] at hOn
    by_cases hp : p = s.nextId
    · subst hp
      rw [updFn_self] at hOn
      simp only [Prom.contsOf, List.mem_singleton] at hOn
      subst hOn
      refine ⟨by rw [hEcount]; exact hi, ?_, ?_⟩
      · rw [hEruns, (hproj8 i).2.2.2.2.2.2.1]
        exact h2
      · rw [hEruns]
        exact hcallpi
    · rw [updFn_ne _ _ _ _ hp] at hOn
      have hold := hc.placement p c hOn
      cases c with
      | execEffect j =>
        rcases hold with ⟨h1, hq⟩
        exact ⟨by rw [hEcount]; exact h1,
          by rw [hEruns, (hproj8 j).1]; exact hq⟩
      | chainLink1 j ch =>
        rcases hold with ⟨h1, hq, h5⟩
        exact ⟨by rw [hEcount]; exact h1,
          by rw [hEruns, (hproj8 j).2.1]; exact hq,
          by rw [hEruns, (hproj8 j).2.2.2.2.1]; exact h5⟩
      | chainLink2 ch =>
        rcases hold with ⟨j, h1, hq, h5⟩
        exact ⟨j, by rw [hEcount]; exact h1,
          by rw [hEruns, (hproj8 j).2.2.2.2.1]; exact hq,
          by rw [hEruns, (hproj8 j).2.2.1]; exact h5⟩
      | teardownA j q2a =>
        rcases hold with ⟨h1, hq, h5⟩
        exact ⟨by rw [hEcount]; exact h1,
          by rw [hEruns, (hproj8 j).2.1]; exact hq,
          by rw [hEruns, (hproj8 j).2.2.2.2.2.2.1]; exact h5⟩
      | teardownAwait j q2a =>
        rcases hold with ⟨h1, hq, h5⟩
        by_cases hj2 : j = i
        · subst hj2
          rw [hcallnone] at h5
          cases h5
        · exact ⟨by rw [hEcount]; exact h1,
            by rw [hEruns, (hproj8 j).2.2.2.2.2.2.1]; exact hq,
            by rw [hEruns, hrne j hj2]; exact h5⟩
      | teardownCatch q3 =>
        rcases hold with ⟨j, h1, hq, h5⟩
        exact ⟨j, by rw [hEcount]; exact h1,
          by rw [hEruns, (hproj8 j).2.2.2.2.2.2.1]; exact hq,
          by rw [hEruns, (hproj8 j).2.2.2.2.2.2.2]; exact h5⟩
      | teardownB j =>
        rcases hold with ⟨h1, hq⟩
        exact ⟨by rw [hEcount]; exact h1,
          by rw [hEruns, (hproj8 j).2.2.2.2.2.2.2]; exact hq⟩
  · intro c o ht
    rw [hEqueue] at ht
    have hold := hc.queue_ok c o ht
    cases c with
    | execEffect j =>
      rcases hold with ⟨h1, hq⟩
      refine ⟨by rw [hEcount]; exact h1, ?_⟩
      rw [hEruns, (hproj8 j).1, hEproms, updFn_ne _ _ _ _
        (show (s.runs j).effP ≠ s.nextId by have := (hidlt j h1).2.1; omega)]
      exact hq
    | chainLink1 j ch =>
      rcases hold with ⟨h1, hq, h5⟩
      refine ⟨by rw [hEcount]; exact h1,
        by rw [hEruns, (hproj8 j).2.2.2.2.1]; exact hq, ?_⟩
      rw [hEruns, (hproj8 j).2.1, hEproms, updFn_ne _ _ _ _
        (show (s.runs j).cep ≠ s.nextId by have := (hidlt j h1).2.2.1; omega)]
      exact h5
    | chainLink2 ch =>
      rcases hold with ⟨j, h1, hq, h5⟩
      refine ⟨j, by rw [hEcount]; exact h1,
        by rw [hEruns, (hproj8 j).2.2.2.2.1]; exact hq, ?_⟩
      rw [hEruns, (hproj8 j).2.2.1, hEproms, updFn_ne _ _ _ _
        (show (s.runs j).cleanupP ≠ s.nextId by have := (hidlt j h1).1; omega)]
      exact h5
    | teardownA j q2a =>
      rcases hold with ⟨h1, hq, h5⟩
      refine ⟨by rw [hEcount]; exact h1,
        by rw [hEruns, (hproj8 j).2.2.2.2.2.2.1]; exact hq, ?_⟩
      rw [hEruns, (hproj8 j).2.1, hEproms, updFn_ne _ _ _ _
        (show (s.runs j).cep ≠ s.nextId by have := (hidlt j h1).2.2.1; omega)]
      exact h5
    | teardownAwait j q2a =>
      rcases hold with ⟨h1, hq, cp, h5, h6⟩
      by_cases hj2 : j = i
      · subst hj2
        rw [hcallnone] at h5
        cases h5
      · refine ⟨by rw [hEcount]; exact h1,
          by rw [hEruns, (hproj8 j).2.2.2.2.2.2.1]; exact hq, cp,
          by rw [hEruns, hrne j hj2]; exact h5, ?_⟩
        rw [hEproms, updFn_ne _ _ _ _
          (show cp ≠ s.nextId by have := hcplt j h1 cp h5; omega)]
        exact h6
    | teardownCatch q3 =>
      rcases hold with ⟨j, q2a, h1, hq, h5, h6⟩
      refine ⟨j, q2a, by rw [hEcount]; exact h1,
        by rw [hEruns, (hproj8 j).2.2.2.2.2.2.1]; exact hq,
        by rw [hEruns, (hproj8 j).2.2.2.2.2.2.2]; exact h5, ?_⟩
      rw [hEproms, updFn_ne _ _ _ _
        (show q2a ≠ s.nextId by have := h2lt j h1 q2a hq; omega)]
      exact h6
    | teardownB j =>
      rcases hold with ⟨h1, q3, hq, h5⟩
      refine ⟨by rw [hEcount]; exact h1, q3,
        by rw [hEruns, (hproj8 j).2.2.2.2.2.2.2]; exact hq, ?_⟩
      rw [hEproms, updFn_ne _ _ _ _
        (show q3 ≠ s.nextId by have := h3lt j h1 q3 hq; omega)]
      exact h5
  · intro j hj q2a h2a
    rw [hEcount] at hj
    rw [hEruns, (hproj8 j).2.2.2.2.2.2.1] at h2a
    have hoccsame : tdAOcc sA j q2a = tdAOcc s j q2a := by
      unfold tdAOcc
      rw [hEqueue, hEruns, (hproj8 j).2.1, hEproms, updFn_ne _ _ _ _
        (show (s.runs j).cep ≠ s.nextId by have := (hidlt j hj).2.2.1; omega)]
    rw [hoccsame, hEruns]
    by_cases hj2 : j = i
    · subst hj2
      have hq2e : q2a = q2 := by
        rw [h2a] at h2
        cases h2
        rfl
      subst hq2e
      rw [hocc0]
      exact ⟨by omega, fun _ _ => rfl⟩
    · rw [hrne j hj2]
      exact hc.tdA_count j hj q2a h2a
  · intro j hj q2a h2a hoccur
    rw [hEcount] at hj
    rw [hEruns, (hproj8 j).2.2.2.2.2.2.1] at h2a
    rw [hEproms, updFn_ne _ _ _ _
      (show q2a ≠ s.nextId by have := h2lt j hj q2a h2a; omega)]
    refine hc.tdA_q2_pending j hj q2a h2a ?_
    rcases hoccur with hOn | ⟨o, ho⟩
    · left
      unfold OnProm at hOn ⊢
      rw [hEproms, hEruns, (hproj8 j).2.1, updFn_ne _ _ _ _
        (show (s.runs j).cep ≠ s.nextId by
          have := (hidlt j hj).2.2.1; omega)] at hOn
      exact hOn
    · right
      rw [hEqueue] at ho
      exact ⟨o, ho⟩
  · intro j hj hsett
    rw [hEcount] at hj
    rw [hEproms, hEruns, (hproj8 j).2.1, updFn_ne _ _ _ _
      (show (s.runs j).cep ≠ s.nextId by
        have := (hidlt j hj).2.2.1; omega)] at hsett
    rw [hEproms, hEruns, (hproj8 j).2.1, (hproj8 j).1,
      updFn_ne _ _ _ _ (show (s.runs j).cep ≠ s.nextId by
        have := (hidlt j hj).2.2.1; omega),
      updFn_ne _ _ _ _ (show (s.runs j).effP ≠ s.nextId by
        have := (hidlt j hj).2.1; omega)]
    exact hc.s1 j hj hsett
  · intro j hj q2a h2a hsett
    rw [hEcount] at hj
    rw [hEruns, (hproj8 j).2.2.2.2.2.2.1] at h2a
    rw [hEproms, updFn_ne _ _ _ _
      (show q2a ≠ s.nextId by have := h2lt j hj q2a h2a; omega)] at hsett
    by_cases hj2 : j = i
    · subst hj2
      rw [h2a] at h2
      cases h2
      rw [hsett] at hq2pend
      cases hq2pend
    · rcases hc.s2 j hj q2a h2a hsett with ⟨hful, hcepj, hcpj⟩
      refine ⟨?_, ?_, ?_⟩
      · rw [hEproms, updFn_ne _ _ _ _
          (show q2a ≠ s.nextId by have := h2lt j hj q2a h2a; omega)]
        exact hful
      · rw [hEproms, hEruns, (hproj8 j).2.1, updFn_ne _ _ _ _
          (show (s.runs j).cep ≠ s.nextId by
            have := (hidlt j hj).2.2.1; omega)]
        exact hcepj
      · intro cp hcc
        rw [hEruns, hrne j hj2] at hcc
        rw [hEproms, updFn_ne _ _ _ _
          (show cp ≠ s.nextId by have := hcplt j hj cp hcc; omega)]
        exact hcpj cp hcc
  · intro j hj q3a h3a hsett
    rw [hEcount] at hj
    rw [hEruns, (hproj8 j).2.2.2.2.2.2.2] at h3a
    rw [hEproms, updFn_ne _ _ _ _
      (show q3a ≠ s.nextId by have := h3lt j hj q3a h3a; omega)] at hsett
    rcases hc.s3 j hj q3a h3a hsett with ⟨hful, hq2j⟩
    refine ⟨?_, ?_⟩
    · rw [hEproms, updFn_ne _ _ _ _
        (show q3a ≠ s.nextId by have := h3lt j hj q3a h3a; omega)]
      exact hful
    · intro q2b h2b
      rw [hEruns, (hproj8 j).2.2.2.2.2.2.1] at h2b
      rw [hEproms, updFn_ne _ _ _ _
        (show q2b ≠ s.nextId by have := h2lt j hj q2b h2b; omega)]
      exact hq2j q2b h2b
  · intro j hj hsett
    rw [hEcount] at hj
    rw [hEproms, hEruns, (hproj8 j).2.2.1, updFn_ne _ _ _ _
      (show (s.runs j).cleanupP ≠ s.nextId by
        have := (hidlt j hj).1; omega)] at hsett
    rcases hc.s4 j hj hsett with ⟨hful, q3a, h3a, hq3s⟩
    refine ⟨?_, q3a, ?_, ?_⟩
    · rw [hEproms, hEruns, (hproj8 j).2.2.1, updFn_ne _ _ _ _
        (show (s.runs j).cleanupP ≠ s.nextId by
          have := (hidlt j hj).1; omega)]
      exact hful
    · rw [hEruns, (hproj8 j).2.2.2.2.2.2.2]
      exact h3a
    · rw [hEproms, updFn_ne _ _ _ _
        (show q3a ≠ s.nextId by have := h3lt j hj q3a h3a; omega)]
      exact hq3s
  · intro j hj hsett
    rw [hEcount] at hj
    rw [hEproms, hEruns, (hproj8 j).2.2.2.2.1, updFn_ne _ _ _ _
      (show (s.runs j).chainP ≠ s.nextId by
        have := (hidlt j hj).2.2.2; omega)] at hsett
    rcases hc.s5 j hj hsett with ⟨hful, hclnj, hcepj⟩
    refine ⟨?_, ?_, ?_⟩
    · rw [hEproms, hEruns, (hproj8 j).2.2.2.2.1, updFn_ne _ _ _ _
        (show (s.runs j).chainP ≠ s.nextId by
          have := (hidlt j hj).2.2.2; omega)]
      exact hful
    · rw [hEproms, hEruns, (hproj8 j).2.2.1, updFn_ne _ _ _ _
        (show (s.runs j).cleanupP ≠ s.nextId by
          have := (hidlt j hj).1; omega)]
      exact hclnj
    · rw [hEproms, hEruns, (hproj8 j).2.1, updFn_ne _ _ _ _
        (show (s.runs j).cep ≠ s.nextId by
          have := (hidlt j hj).2.2.1; omega)]
      exact hcepj

/-- Registering run `i`'s teardown body on its `currentEffectPromise`
preserves the pop-stable part, provided no other copy of that continuation
exists, no cleanup call was made yet, and the first teardown promise is
still pending. -/
theorem InvCore.subTeardownA {s : EffSt} (hc : InvCore s) {i : Nat}
    (hi : i < s.runCount) {q2 : Nat} (h2 : (s.runs i).tdP2 = some q2)
    (hocc0 : tdAOcc s i q2 = 0)
    (hcallnone : (s.runs i).callP = none)
    (hq2pend : (s.proms q2).isSettled = false) :
    InvCore (subscribe (s.runs i).cep (.teardownA i q2) s) := by
  have hd := hc.data
  have hoi := hd.order i hi
  have hbi := hd.bounds i hi
  rcases hd.td_some hi h2 with ⟨q3i, h3i, hq2gt, hq3e⟩
  have hXlt : (s.runs i).cep < s.nextId := by omega
  have hX0 : 0 < (s.runs i).cep := by omega
  have hruns := subscribe_runs (s.runs i).cep (.teardownA i q2) s
  have hcount := subscribe_runCount (s.runs i).cep (.teardownA i q2) s
  have hnext := subscribe_nextId (s.runs i).cep (.teardownA i q2) s
  have href := subscribe_chainRef (s.runs i).cep (.teardownA i q2) s
  have hkeep : ∀ q, (s.proms q).isSettled = true →
      (subscribe (s.runs i).cep (.teardownA i q2) s).proms q = s.proms q :=
    fun q hq => subscribe_proms_of_settled _ _ _ _ hq
  have hsets := subscribe_isSettled (s.runs i).cep
  refine ⟨hd.frames hruns hcount href (le_of_eq hnext.symm),
    ?_, ?_, ?_, ?_, ?_, ?_, ?_, ?_, ?_, ?_, ?_, ?_⟩
  · intro p hpge
    rw [hnext] at hpge
    rw [subscribe_proms_ne _ _ _ _ (by omega)]
    exact hc.fresh p hpge
  · rw [subscribe_proms_ne _ _ _ _ (by omega)]
    exact hc.prom0
  · intro j hj cp hcp
    rw [hcount] at hj
    rw [hruns] at hcp ⊢
    rw [hsets]
    exact hc.callp_cep j hj cp hcp
  · intro p c hOn
    rcases subscribe_onProm_cases _ _ _ _ _ hOn with hold | ⟨hp, hceq⟩
    · exact ContAt.framesContAt hruns (le_of_eq hcount.symm) (hc.placement p c hold)
    · subst hp
      subst hceq
      exact ⟨by omega, by rw [hruns], by rw [hruns]; exact h2⟩
  · intro c o' ht
    rcases subscribe_queue_cases _ _ _ (c, o') ht with hold | ⟨hceq, hto⟩
    · exact TaskOK.framesTaskOK hruns (le_of_eq hcount.symm) hkeep
        (hc.queue_ok c o' hold)
    · have hceq' : c = .teardownA i q2 := hceq
      subst hceq'
      have hsettl : (s.proms (s.runs i).cep).isSettled = true := by
        rw [← hto]
        exact Outcome.toProm_isSettled o'
      refine ⟨by omega, by rw [hruns]; exact h2, ?_⟩
      rw [hruns, hkeep _ hsettl]
      exact hto.symm
  · intro j hj q2' h2'
    rw [hcount] at hj
    rw [hruns] at h2' ⊢
    by_cases hji : j = i
    · subst hji
      have hq2e : q2' = q2 := by
        rw [h2'] at h2
        cases h2
        rfl
      subst hq2e
      have hocc1 : tdAOcc (subscribe (s.runs j).cep (.teardownA j q2') s) j q2' =
          tdAOcc s j q2' + 1 := by
        unfold tdAOcc
        rw [hruns]
        by_cases hset : (s.proms (s.runs j).cep).isSettled = true
        · rcases subscribe_of_settled _ (.teardownA j q2') _ hset with ⟨o, _, heq⟩
          rw [heq]
          show (s.proms (s.runs j).cep).contsOf.count _ +
            List.countP _ (s.queue ++ [(Cont.teardownA j q2', o)]) = _
          rw [List.countP_append]
          have hone : List.countP (fun t => decide (t.1 = Cont.teardownA j q2'))
              [(Cont.teardownA j q2', o)] = 1 := by
            simp
          omega
        · rcases Prom.exists_pending_of_not_settled _ hset with ⟨cs, hp⟩
          rw [subscribe_of_pending _ _ _ cs hp]
          show (updFn s.proms (s.runs j).cep
              (Prom.pending (cs ++ [.teardownA j q2'])) ((s.runs j).cep)).contsOf.count _ +
            List.countP _ s.queue = _
          rw [updFn_self, hp]
          simp only [Prom.contsOf]
          rw [List.count_append]
          have hone : List.count (Cont.teardownA j q2') [Cont.teardownA j q2'] = 1 := by
            simp
          omega
      rw [hocc1, hocc0]
      refine ⟨by omega, ?_⟩
      intro cp hcp
      rw [hcallnone] at hcp
      cases hcp
    · have hoccsame : tdAOcc (subscribe (s.runs i).cep (.teardownA i q2) s) j q2' =
          tdAOcc s j q2' := by
        unfold tdAOcc
        rw [hruns]
        by_cases hset : (s.proms (s.runs i).cep).isSettled = true
        · rcases subscribe_of_settled _ (.teardownA i q2) _ hset with ⟨o, _, heq⟩
          rw [heq]
          show (s.proms (s.runs j).cep).contsOf.count _ +
            List.countP _ (s.queue ++ [(Cont.teardownA i q2, o)]) = _
          rw [List.countP_append]
          have hz : List.countP (fun t => decide (t.1 = Cont.teardownA j q2'))
              [(Cont.teardownA i q2, o)] = 0 := by
            rw [List.countP_eq_zero]
            intro t htm
            rcases List.mem_singleton.mp htm with rfl
            simp only [decide_eq_true_eq]
            intro hcontra
            rw [Cont.teardownA.injEq] at hcontra
            exact hji hcontra.1.symm
          omega
        · rcases Prom.exists_pending_of_not_settled _ hset with ⟨cs, hp⟩
          rw [subscribe_of_pending _ _ _ cs hp]
          show (updFn s.proms (s.runs i).cep
              (Prom.pending (cs ++ [.teardownA i q2])) ((s.runs j).cep)).contsOf.count _ +
            List.countP _ s.queue = _
          rw [updFn_ne _ _ _ _ ((hd.ne_cep hi hj).2.2.2.1 hji)]
      rw [hoccsame]
      exact hc.tdA_count j hj q2' h2'
  · intro j hj q2' h2' hoccur
    rw [hcount] at hj
    rw [hruns] at h2' hoccur
    have hcepne : (s.runs i).cep ≠ q2' := (hd.ne_q2 hj hi h2').2.2.1
    rw [subscribe_proms_ne _ _ _ _ (Ne.symm hcepne)]
    rcases hoccur with hOn | hq
    · rcases subscribe_onProm_cases _ _ _ _ _ hOn with hold | ⟨_, hceq⟩
      · exact hc.tdA_q2_pending j hj q2' h2' (Or.inl hold)
      · rw [Cont.teardownA.injEq] at hceq
        rcases hceq with ⟨rfl, rfl⟩
        exact hq2pend
    · rcases InQueue_subscribe_cases _ _ _ _ hq with h1 | h1
      · exact hc.tdA_q2_pending j hj q2' h2' (Or.inr h1)
      · rw [Cont.teardownA.injEq] at h1
        rcases h1 with ⟨rfl, rfl⟩
        exact hq2pend
  · intro j hj hsettled
    rw [hcount] at hj
    rw [hruns] at hsettled ⊢
    rw [hsets] at hsettled
    rcases hc.s1 j hj hsettled with ⟨hful, heffj⟩
    rw [hkeep _ hsettled, hsets]
    exact ⟨hful, heffj⟩
  · intro j hj q2' h2' hsettled
    rw [hcount] at hj
    rw [hruns] at h2' ⊢
    rw [hsets] at hsettled
    rcases hc.s2 j hj q2' h2' hsettled with ⟨hful, hcepj, hcpj⟩
    rw [hkeep _ hsettled, hsets]
    refine ⟨hful, hcepj, ?_⟩
    intro cp hcc
    rw [hsets]
    exact hcpj cp hcc
  · intro j hj q3' h3' hsettled
    rw [hcount] at hj
    rw [hruns] at h3' ⊢
    rw [hsets] at hsettled
    rcases hc.s3 j hj q3' h3' hsettled with ⟨hful, hq2j⟩
    rw [hkeep _ hsettled]
    refine ⟨hful, ?_⟩
    intro q2'' h2''
    rw [hsets]
    exact hq2j q2'' h2''
  · intro j hj hsettled
    rw [hcount] at hj
    rw [hruns] at hsettled ⊢
    rw [hsets] at hsettled
    rcases hc.s4 j hj hsettled with ⟨hful, q3', h3', hq3s⟩
    rw [hkeep _ hsettled]
    refine ⟨hful, q3', h3', ?_⟩
    rw [hsets]
    exact hq3s
  · intro j hj hsettled
    rw [hcount] at hj
    rw [hruns] at hsettled ⊢
    rw [hsets] at hsettled
    rcases hc.s5 j hj hsettled with ⟨hful, hclnj, hcepj⟩
    rw [hkeep _ hsettled]
    refine ⟨hful, ?_, ?_⟩
    · rw [hsets]
      exact hclnj
    · rw [hsets]
      exact hcepj

/-- The allocation stage of the cleanup closure of run `i` (the last run):
two fresh teardown promises are created with the catch and final-resolve
continuations registered, and the run is marked torn down.  Preserves the
pop-stable part. -/
theorem InvCore.teardownAlloc {s : EffSt} (hc : InvCore s) {i : Nat}
    (hi : i < s.runCount)
    (hnottorn : (s.runs i).torndown = false)
    (hlast : i + 1 = s.runCount) :
    InvCore { s with
      nextId := s.nextId + 2,
      proms := updFn (updFn s.proms
        s.nextId (.pending [.teardownCatch (s.nextId + 1)]))
        (s.nextId + 1) (.pending [.teardownB i]),
      runs := updFn s.runs i
        { s.runs i with torndown := true, tdP2 := some s.nextId, tdP3 := some (s.nextId + 1) } } := by
  have hd := hc.data
  have hidlt : ∀ j, j < s.runCount → (s.runs j).cleanupP < s.nextId ∧
      (s.runs j).effP < s.nextId ∧ (s.runs j).cep < s.nextId ∧
      (s.runs j).chainP < s.nextId := by
    intro j hj
    have ho := hd.order j hj
    have hb := hd.bounds j hj
    omega
  have h2lt : ∀ j, j < s.runCount → ∀ q, (s.runs j).tdP2 = some q →
      q < s.nextId := by
    intro j hj q hq
    rcases hd.td_some hj hq with ⟨q3, h3, _, he⟩
    have := (hd.bounds j hj).2.1 q3 h3
    omega
  have h3lt : ∀ j, j < s.runCount → ∀ q, (s.runs j).tdP3 = some q →
      q < s.nextId := fun j hj q hq => (hd.bounds j hj).2.1 q hq
  have hcplt : ∀ j, j < s.runCount → ∀ q, (s.runs j).callP = some q →
      q < s.nextId := fun j hj q hq => (hd.bounds j hj).2.2 q hq
  have hnone : (s.runs i).tdP2 = none ∧ (s.runs i).tdP3 = none ∧
      (s.runs i).callP = none := by
    rcases hd.td_ids i hi with ⟨h2n, h3n, _, hcn⟩ | ⟨a, b, _, _, htt, _, _⟩
    · exact ⟨h2n, h3n, hcn⟩
    · rw [htt] at hnottorn
      cases hnottorn
  have hcnt0 : ∀ q,
      (s.proms (s.runs i).cep).contsOf.count (Cont.teardownA i q) = 0 := by
    intro q
    rw [List.count_eq_zero]
    intro hmem
    rcases hc.placement _ _ hmem with ⟨_, _, h2x⟩
    rw [hnone.1] at h2x
    cases h2x
  have hq0 : ∀ q,
      List.countP (fun t => decide (t.1 = Cont.teardownA i q)) s.queue = 0 := by
    intro q
    rw [List.countP_eq_zero]
    intro t htm
    simp only [decide_eq_true_eq]
    intro hteq
    have htk := hc.queue_ok t.1 t.2 htm
    rw [hteq] at htk
    rcases htk with ⟨_, h2x, _⟩
    rw [hnone.1] at h2x
    cases h2x
  have hrio : updFn s.runs i { s.runs i with torndown := true, tdP2 := some s.nextId, tdP3 := some (s.nextId + 1) } i =
      { s.runs i with torndown := true, tdP2 := some s.nextId, tdP3 := some (s.nextId + 1) } := updFn_self _ _ _
  have hrne : ∀ j, j ≠ i →
      updFn s.runs i { s.runs i with torndown := true, tdP2 := some s.nextId, tdP3 := some (s.nextId + 1) } j = s.runs j :=
    fun j hj => updFn_ne _ _ _ _ hj
  have hproj5 : ∀ j,
      (updFn s.runs i { s.runs i with torndown := true, tdP2 := some s.nextId, tdP3 := some (s.nextId + 1) } j).effP =
        (s.runs j).effP ∧
      (updFn s.runs i { s.runs i with torndown := true, tdP2 := some s.nextId, tdP3 := some (s.nextId + 1) } j).cep =
        (s.runs j).cep ∧
      (updFn s.runs i { s.runs i with torndown := true, tdP2 := some s.nextId, tdP3 := some (s.nextId + 1) } j).cleanupP =
        (s.runs j).cleanupP ∧
      (updFn s.runs i { s.runs i with torndown := true, tdP2 := some s.nextId, tdP3 := some (s.nextId + 1) } j).prevChain =
        (s.runs j).prevChain ∧
      (updFn s.runs i { s.runs i with torndown := true, tdP2 := some s.nextId, tdP3 := some (s.nextId + 1) } j).chainP =
        (s.runs j).chainP ∧
      (updFn s.runs i { s.runs i with torndown := true, tdP2 := some s.nextId, tdP3 := some (s.nextId + 1) } j).callP =
        (s.runs j).callP := by
    intro j
    by_cases hj : j = i
    · subst hj
      rw [hrio]
      exact ⟨rfl, rfl, rfl, rfl, rfl, rfl⟩
    · rw [hrne j hj]
      exact ⟨rfl, rfl, rfl, rfl, rfl, rfl⟩
  have htd2i : (updFn s.runs i { s.runs i with torndown := true, tdP2 := some s.nextId, tdP3 := some (s.nextId + 1) } i).tdP2 =
      some s.nextId := by rw [hrio]
  have htd3i : (updFn s.runs i { s.runs i with torndown := true, tdP2 := some s.nextId, tdP3 := some (s.nextId + 1) } i).tdP3 =
      some (s.nextId + 1) := by rw [hrio]
  have htorni : (updFn s.runs i { s.runs i with torndown := true, tdP2 := some s.nextId, tdP3 := some (s.nextId + 1) } i).torndown =
      true := by rw [hrio]
  have hpm : ∀ p, p ≠ s.nextId → p ≠ s.nextId + 1 →
      updFn (updFn s.proms s.nextId (.pending [.teardownCatch (s.nextId + 1)]))
        (s.nextId + 1) (Prom.pending [.teardownB i]) p = s.proms p := by
    intro p hne2 hne3
    rw [updFn_ne _ _ _ _ hne3, updFn_ne _ _ _ _ hne2]
  have hpm2 :
      updFn (updFn s.proms s.nextId (.pending [.teardownCatch (s.nextId + 1)]))
        (s.nextId + 1) (Prom.pending [.teardownB i]) s.nextId =
        Prom.pending [.teardownCatch (s.nextId + 1)] := by
    rw [updFn_ne _ _ _ _ (by omega), updFn_self]
  have hpm3 :
      updFn (updFn s.proms s.nextId (.pending [.teardownCatch (s.nextId + 1)]))
        (s.nextId + 1) (Prom.pending [.teardownB i]) (s.nextId + 1) =
        Prom.pending [.teardownB i] := updFn_self _ _ _
  generalize hgen : ({ s with
      nextId := s.nextId + 2,
      proms := updFn (updFn s.proms
        s.nextId (.pending [.teardownCatch (s.nextId + 1)]))
        (s.nextId + 1) (.pending [.teardownB i]),
      runs := updFn s.runs i
        { s.runs i with torndown := true, tdP2 := some s.nextId, tdP3 := some (s.nextId + 1) } } : EffSt) = sB
  have hEruns : sB.runs = updFn s.runs i { s.runs i with torndown := true, tdP2 := some s.nextId, tdP3 := some (s.nextId + 1) } := by rw [← hgen]
  have hEproms : sB.proms =
      updFn (updFn s.proms s.nextId (.pending [.teardownCatch (s.nextId + 1)]))
        (s.nextId + 1) (Prom.pending [.teardownB i]) := by rw [← hgen]
  have hEcount : sB.runCount = s.runCount := by rw [← hgen]
  have hEnext : sB.nextId = s.nextId + 2 := by rw [← hgen]
  have hEref : sB.chainRef = s.chainRef := by rw [← hgen]
  have hEqueue : sB.queue = s.queue := by rw [← hgen]
  have hdata : InvData sB := by
    refine ⟨?_, ?_, ?_, ?_, ?_, ?_, ?_, ?_, ?_⟩
    · rw [hEnext]
      have := hd.nextId_pos
      omega
    · intro j hj
      rw [hEcount] at hj
      rw [hEruns]
      rcases hproj5 j with ⟨p1, p2, p3, _, p5, _⟩
      rw [p1, p2, p3, p5]
      exact hd.order j hj
    · intro j hj
      rw [hEcount] at hj
      rw [hEruns, hEnext]
      rcases hproj5 j with ⟨_, _, _, _, p5, p6⟩
      rw [p5, p6]
      have hb := hd.bounds j hj
      refine ⟨by omega, ?_, ?_⟩
      · intro q3 h3
        by_cases hj2 : j = i
        · subst hj2
          rw [htd3i] at h3
          cases h3
          omega
        · rw [hrne j hj2] at h3
          have := hb.2.1 q3 h3
          omega
      · intro cp hcp
        have := hb.2.2 cp hcp
        omega
    · intro j hj
      rw [hEcount] at hj
      rw [hEruns]
      rcases hproj5 j with ⟨_, _, _, _, p5, _⟩
      rw [p5]
      by_cases hj2 : j = i
      · subst hj2
        refine Or.inr ⟨s.nextId, s.nextId + 1, htd2i, htd3i, htorni, ?_, rfl⟩
        have := (hidlt j hj).2.2.2
        omega
      · rw [hrne j hj2]
        exact hd.td_ids j hj
    · intro j k hjk hk
      rw [hEcount] at hk
      rw [hEruns]
      rcases hproj5 j with ⟨_, _, _, _, p5, _⟩
      rcases hproj5 k with ⟨_, _, q3c, _⟩
      rw [p5, q3c]
      have hjlt : j < s.runCount := lt_trans hjk hk
      have hjne : j ≠ i := by omega
      rw [hrne j hjne]
      exact hd.cross j k hjk hk
    · intro j hj cp hcp
      rw [hEcount] at hj
      rw [hEruns] at hcp ⊢
      rw [(hproj5 j).2.2.2.2.2] at hcp
      by_cases hj2 : j = i
      · subst hj2
        rw [hnone.2.2] at hcp
        cases hcp
      · constructor
        · rcases (hd.callp_ids j hj cp hcp).1 with ⟨q3, h3, hlt⟩
          refine ⟨q3, ?_, hlt⟩
          rw [hrne j hj2]
          exact h3
        · intro k hk
          rw [hEcount] at hk
          rcases hproj5 k with ⟨r1, r2, r3, _, r5, _⟩
          rw [r1, r2, r3, r5]
          have hold := (hd.callp_ids j hj cp hcp).2 k hk
          refine ⟨hold.1, hold.2.1, hold.2.2.1, hold.2.2.2.1, ?_, ?_, ?_⟩
          · intro q hq
            by_cases hk2 : k = i
            · subst hk2
              rw [htd2i] at hq
              cases hq
              have := hcplt j hj cp hcp
              omega
            · rw [hrne k hk2] at hq
              exact hold.2.2.2.2.1 q hq
          · intro q hq
            by_cases hk2 : k = i
            · subst hk2
              rw [htd3i] at hq
              cases hq
              have := hcplt j hj cp hcp
              omega
            · rw [hrne k hk2] at hq
              exact hold.2.2.2.2.2.1 q hq
          · intro hne cq hcq
            rw [(hproj5 k).2.2.2.2.2] at hcq
            exact hold.2.2.2.2.2.2 hne cq hcq
    · rw [hEcount, hEref, hEruns]
      rcases hd.chainRef_spec with ⟨h1, h5⟩ | ⟨n, h1, h5⟩
      · exact Or.inl ⟨h1, h5⟩
      · refine Or.inr ⟨n, h1, ?_⟩
        rw [(hproj5 n).2.2.2.2.1]
        exact h5
    · intro j hj
      rw [hEcount] at hj
      rw [hEruns]
      rcases hd.prevChain_link j hj with ⟨ha, hb2⟩
      refine ⟨?_, ?_⟩
      · intro hj0
        rw [(hproj5 j).2.2.2.1]
        exact ha hj0
      · intro k hk
        rw [(hproj5 j).2.2.2.1, (hproj5 k).2.2.2.2.1]
        exact hb2 k hk
    · intro j hj
      rw [hEcount] at hj
      rw [hEruns]
      have hjne : j ≠ i := by omega
      rw [hrne j hjne]
      exact hd.torndown_prev j hj
  refine ⟨hdata, ?_, ?_, ?_, ?_, ?_, ?_, ?_, ?_, ?_, ?_, ?_, ?_⟩
  · intro p hpge
    rw [hEnext] at hpge
    rw [hEproms, hpm p (by omega) (by omega)]
    exact hc.fresh p (by omega)
  · rw [hEproms, hpm 0 (by have := hd.nextId_pos; omega)
      (by have := hd.nextId_pos; omega)]
    exact hc.prom0
  · intro j hj cp hcp
    rw [hEcount] at hj
    rw [hEruns] at hcp ⊢
    rw [(hproj5 j).2.2.2.2.2] at hcp
    rw [hEproms, (hproj5 j).2.1, hpm _
      (by have := (hidlt j hj).2.2.1; omega)
      (by have := (hidlt j hj).2.2.1; omega)]
    exact hc.callp_cep j hj cp hcp
  · intro p c hOn
    unfold OnProm at hOn
    rw [hEproms] at hOn
    by_cases hp3 : p = s.nextId + 1
    · subst hp3
      rw [hpm3] at hOn
      simp only [Prom.contsOf, List.mem_singleton] at hOn
      subst hOn
      refine ⟨by rw [hEcount]; exact hi, ?_⟩
      rw [hEruns, htd3i]
    · by_cases hp2 : p = s.nextId
      · subst hp2
        rw [hpm2] at hOn
        simp only [Prom.contsOf, List.mem_singleton] at hOn
        subst hOn
        exact ⟨i, by rw [hEcount]; exact hi,
          by rw [hEruns, htd2i], by rw [hEruns, htd3i]⟩
      · rw [hpm p hp2 hp3] at hOn
        have hold := hc.placement p c hOn
        cases c with
        | execEffect j =>
          rcases hold with ⟨h1, hq⟩
          exact ⟨by rw [hEcount]; exact h1,
            by rw [hEruns, (hproj5 j).1]; exact hq⟩
        | chainLink1 j ch =>
          rcases hold with ⟨h1, hq, h5⟩
          exact ⟨by rw [hEcount]; exact h1,
            by rw [hEruns, (hproj5 j).2.1]; exact hq,
            by rw [hEruns, (hproj5 j).2.2.2.2.1]; exact h5⟩
        | chainLink2 ch =>
          rcases hold with ⟨j, h1, hq, h5⟩
          exact ⟨j, by rw [hEcount]; exact h1,
            by rw [hEruns, (hproj5 j).2.2.2.2.1]; exact hq,
            by rw [hEruns, (hproj5 j).2.2.1]; exact h5⟩
        | teardownA j q2a =>
          rcases hold with ⟨h1, hq, h5⟩
          by_cases hj2 : j = i
          · subst hj2
            rw [hnone.1] at h5
            cases h5
          · exact ⟨by rw [hEcount]; exact h1,
              by rw [hEruns, (hproj5 j).2.1]; exact hq,
              by rw [hEruns, hrne j hj2]; exact h5⟩
        | teardownAwait j q2a =>
          rcases hold with ⟨h1, hq, h5⟩
          by_cases hj2 : j = i
          · subst hj2
            rw [hnone.2.2] at h5
            cases h5
          · exact ⟨by rw [hEcount]; exact h1,
              by rw [hEruns, hrne j hj2]; exact hq,
              by rw [hEruns, (hproj5 j).2.2.2.2.2]; exact h5⟩
        | teardownCatch q3 =>
          rcases hold with ⟨j, h1, hq, h5⟩
          by_cases hj2 : j = i
          · subst hj2
            rw [hnone.1] at hq
            cases hq
          · exact ⟨j, by rw [hEcount]; exact h1,
              by rw [hEruns, hrne j hj2]; exact hq,
              by rw [hEruns, hrne j hj2]; exact h5⟩
        | teardownB j =>
          rcases hold with ⟨h1, hq⟩
          by_cases hj2 : j = i
          · subst hj2
            rw [hnone.2.1] at hq
            cases hq
          · exact ⟨by rw [hEcount]; exact h1,
              by rw [hEruns, hrne j hj2]; exact hq⟩
  · intro c o ht
    rw [hEqueue] at ht
    have hold := hc.queue_ok c o ht
    cases c with
    | execEffect j =>
      rcases hold with ⟨h1, hq⟩
      refine ⟨by rw [hEcount]; exact h1, ?_⟩
      rw [hEruns, (hproj5 j).1, hEproms, hpm _
        (by have := (hidlt j h1).2.1; omega)
        (by have := (hidlt j h1).2.1; omega)]
      exact hq
    | chainLink1 j ch =>
      rcases hold with ⟨h1, hq, h5⟩
      refine ⟨by rw [hEcount]; exact h1,
        by rw [hEruns, (hproj5 j).2.2.2.2.1]; exact hq, ?_⟩
      rw [hEruns, (hproj5 j).2.1, hEproms, hpm _
        (by have := (hidlt j h1).2.2.1; omega)
        (by have := (hidlt j h1).2.2.1; omega)]
      exact h5
    | chainLink2 ch =>
      rcases hold with ⟨j, h1, hq, h5⟩
      refine ⟨j, by rw [hEcount]; exact h1,
        by rw [hEruns, (hproj5 j).2.2.2.2.1]; exact hq, ?_⟩
      rw [hEruns, (hproj5 j).2.2.1, hEproms, hpm _
        (by have := (hidlt j h1).1; omega)
        (by have := (hidlt j h1).1; omega)]
      exact h5
    | teardownA j q2a =>
      rcases hold with ⟨h1, hq, h5⟩
      by_cases hj2 : j = i
      · subst hj2
        rw [hnone.1] at hq
        cases hq
      · refine ⟨by rw [hEcount]; exact h1,
          by rw [hEruns, hrne j hj2]; exact hq, ?_⟩
        rw [hEruns, (hproj5 j).2.1, hEproms, hpm _
          (by have := (hidlt j h1).2.2.1; omega)
          (by have := (hidlt j h1).2.2.1; omega)]
        exact h5
    | teardownAwait j q2a =>
      rcases hold with ⟨h1, hq, cp, h5, h6⟩
      by_cases hj2 : j = i
      · subst hj2
        rw [hnone.2.2] at h5
        cases h5
      · refine ⟨by rw [hEcount]; exact h1,
          by rw [hEruns, hrne j hj2]; exact hq, cp,
          by rw [hEruns, (hproj5 j).2.2.2.2.2]; exact h5, ?_⟩
        rw [hEproms, hpm _
          (by have := hcplt j h1 cp h5; omega)
          (by have := hcplt j h1 cp h5; omega)]
        exact h6
    | teardownCatch q3 =>
      rcases hold with ⟨j, q2a, h1, hq, h5, h6⟩
      by_cases hj2 : j = i
      · subst hj2
        rw [hnone.1] at hq
        cases hq
      · refine ⟨j, q2a, by rw [hEcount]; exact h1,
          by rw [hEruns, hrne j hj2]; exact hq,
          by rw [hEruns, hrne j hj2]; exact h5, ?_⟩
        rw [hEproms, hpm _
          (by have := h2lt j h1 q2a hq; omega)
          (by have := h2lt j h1 q2a hq; omega)]
        exact h6
    | teardownB j =>
      rcases hold with ⟨h1, q3, hq, h5⟩
      by_cases hj2 : j = i
      · subst hj2
        rw [hnone.2.1] at hq
        cases hq
      · refine ⟨by rw [hEcount]; exact h1, q3,
          by rw [hEruns, hrne j hj2]; exact hq, ?_⟩
        rw [hEproms, hpm _
          (by have := h3lt j h1 q3 hq; omega)
          (by have := h3lt j h1 q3 hq; omega)]
        exact h5
  · intro j hj q2a h2a
    rw [hEcount] at hj
    have hoccsame : tdAOcc sB j q2a =
        (s.proms (s.runs j).cep).contsOf.count (Cont.teardownA j q2a) +
          List.countP (fun t => decide (t.1 = Cont.teardownA j q2a)) s.queue := by
      unfold tdAOcc
      rw [hEqueue, hEruns, (hproj5 j).2.1, hEproms, hpm _
        (by have := (hidlt j hj).2.2.1; omega)
        (by have := (hidlt j hj).2.2.1; omega)]
    rw [hEruns] at h2a ⊢
    by_cases hj2 : j = i
    · subst hj2
      rw [hoccsame, hcnt0, hq0]
      exact ⟨by omega, fun _ _ => rfl⟩
    · rw [hrne j hj2] at h2a
      rw [hoccsame, hrne j hj2]
      exact hc.tdA_count j hj q2a h2a
  · intro j hj q2a h2a hoccur
    rw [hEcount] at hj
    rw [hEruns] at h2a hoccur
    by_cases hj2 : j = i
    · subst hj2
      rw [htd2i] at h2a
      cases h2a
      rw [hEproms, hpm2]
      rfl
    · rw [hrne j hj2] at h2a
      have hq2alt := h2lt j hj q2a h2a
      rw [hEproms, hpm _ (by omega) (by omega)]
      refine hc.tdA_q2_pending j hj q2a h2a ?_
      rcases hoccur with hOn | ⟨o, ho⟩
      · left
        unfold OnProm at hOn ⊢
        rw [hEproms, (hproj5 j).2.1, hpm _
          (by have := (hidlt j hj).2.2.1; omega)
          (by have := (hidlt j hj).2.2.1; omega)] at hOn
        exact hOn
      · right
        rw [hEqueue] at ho
        exact ⟨o, ho⟩
  · intro j hj hsett
    rw [hEcount] at hj
    rw [hEproms, hEruns, (hproj5 j).2.1, hpm _
      (by have := (hidlt j hj).2.2.1; omega)
      (by have := (hidlt j hj).2.2.1; omega)] at hsett
    rw [hEproms, hEruns, (hproj5 j).2.1, (hproj5 j).1,
      hpm _ (by have := (hidlt j hj).2.2.1; omega)
        (by have := (hidlt j hj).2.2.1; omega),
      hpm _ (by have := (hidlt j hj).2.1; omega)
        (by have := (hidlt j hj).2.1; omega)]
    exact hc.s1 j hj hsett
  · intro j hj q2a h2a hsett
    rw [hEcount] at hj
    rw [hEruns] at h2a ⊢
    by_cases hj2 : j = i
    · subst hj2
      rw [htd2i] at h2a
      cases h2a
      rw [hEproms, hpm2] at hsett
      simp [Prom.isSettled] at hsett
    · rw [hrne j hj2] at h2a
      have hq2alt := h2lt j hj q2a h2a
      rw [hEproms, hpm _ (by omega) (by omega)] at hsett
      rcases hc.s2 j hj q2a h2a hsett with ⟨hful, hcepj, hcpj⟩
      refine ⟨?_, ?_, ?_⟩
      · rw [hEproms, hpm _ (by omega) (by omega)]
        exact hful
      · rw [hEproms, (hproj5 j).2.1, hpm _
          (by have := (hidlt j hj).2.2.1; omega)
          (by have := (hidlt j hj).2.2.1; omega)]
        exact hcepj
      · intro cp hcc
        rw [(hproj5 j).2.2.2.2.2] at hcc
        rw [hEproms, hpm _
          (by have := hcplt j hj cp hcc; omega)
          (by have := hcplt j hj cp hcc; omega)]
        exact hcpj cp hcc
  · intro j hj q3a h3a hsett
    rw [hEcount] at hj
    rw [hEruns] at h3a ⊢
    by_cases hj2 : j = i
    · subst hj2
      rw [htd3i] at h3a
      cases h3a
      rw [hEproms, hpm3] at hsett
      simp [Prom.isSettled] at hsett
    · rw [hrne j hj2] at h3a
      have hq3alt := h3lt j hj q3a h3a
      rw [hEproms, hpm _ (by omega) (by omega)] at hsett
      rcases hc.s3 j hj q3a h3a hsett with ⟨hful, hq2j⟩
      refine ⟨?_, ?_⟩
      · rw [hEproms, hpm _ (by omega) (by omega)]
        exact hful
      · intro q2b h2b
        rw [hrne j hj2] at h2b
        have := h2lt j hj q2b h2b
        rw [hEproms, hpm _ (by omega) (by omega)]
        exact hq2j q2b h2b
  · intro j hj hsett
    rw [hEcount] at hj
    rw [hEproms, hEruns, (hproj5 j).2.2.1, hpm _
      (by have := (hidlt j hj).1; omega)
      (by have := (hidlt j hj).1; omega)] at hsett
    by_cases hj2 : j = i
    · subst hj2
      rcases hc.s4 j hj hsett with ⟨_, q3a, h3a, _⟩
      rw [hnone.2.1] at h3a
      cases h3a
    · rcases hc.s4 j hj hsett with ⟨hful, q3a, h3a, hq3s⟩
      refine ⟨?_, q3a, ?_, ?_⟩
      · rw [hEproms, hEruns, (hproj5 j).2.2.1, hpm _
          (by have := (hidlt j hj).1; omega)
          (by have := (hidlt j hj).1; omega)]
        exact hful
      · rw [hEruns, hrne j hj2]
        exact h3a
      · rw [hEproms, hpm _
          (by have := h3lt j hj q3a h3a; omega)
          (by have := h3lt j hj q3a h3a; omega)]
        exact hq3s
  · intro j hj hsett
    rw [hEcount] at hj
    rw [hEproms, hEruns, (hproj5 j).2.2.2.2.1, hpm _
      (by have := (hidlt j hj).2.2.2; omega)
      (by have := (hidlt j hj).2.2.2; omega)] at hsett
    rcases hc.s5 j hj hsett with ⟨hful, hclnj, hcepj⟩
    refine ⟨?_, ?_, ?_⟩
    · rw [hEproms, hEruns, (hproj5 j).2.2.2.2.1, hpm _
        (by have := (hidlt j hj).2.2.2; omega)
        (by have := (hidlt j hj).2.2.2; omega)]
      exact hful
    · rw [hEproms, hEruns, (hproj5 j).2.2.1, hpm _
        (by have := (hidlt j hj).1; omega)
        (by have := (hidlt j hj).1; omega)]
      exact hclnj
    · rw [hEproms, hEruns, (hproj5 j).2.1, hpm _
        (by have := (hidlt j hj).2.2.1; omega)
        (by have := (hidlt j hj).2.2.1; omega)]
      exact hcepj

/-- Running the cleanup closure of the most recent run preserves the whole
invariant. -/
theorem Inv.teardownRunPres {s : EffSt} (hs : Inv s) {i : Nat}
    (hlast : i + 1 = s.runCount) :
    Inv (teardownRun i s) := by
  have hc := hs.core
  have hl := hs.live
  have hd := hc.data
  have hi : i < s.runCount := by omega
  by_cases htorn : (s.runs i).torndown = true
  · unfold teardownRun
    rw [if_pos htorn]
    exact hs
  · have hnt : (s.runs i).torndown = false := by
      cases h : (s.runs i).torndown
      · rfl
      · exact absurd h htorn
    have hidlt : ∀ j, j < s.runCount → (s.runs j).cleanupP < s.nextId ∧
        (s.runs j).effP < s.nextId ∧ (s.runs j).cep < s.nextId ∧
        (s.runs j).chainP < s.nextId := by
      intro j hj
      have ho := hd.order j hj
      have hb := hd.bounds j hj
      omega
    have h2lt : ∀ j, j < s.runCount → ∀ q, (s.runs j).tdP2 = some q →
        q < s.nextId := by
      intro j hj q hq
      rcases hd.td_some hj hq with ⟨q3, h3, _, he⟩
      have := (hd.bounds j hj).2.1 q3 h3
      omega
    have h3lt : ∀ j, j < s.runCount → ∀ q, (s.runs j).tdP3 = some q →
        q < s.nextId := fun j hj q hq => (hd.bounds j hj).2.1 q hq
    have hcplt : ∀ j, j < s.runCount → ∀ q, (s.runs j).callP = some q →
        q < s.nextId := fun j hj q hq => (hd.bounds j hj).2.2 q hq
    have hnone : (s.runs i).tdP2 = none ∧ (s.runs i).tdP3 = none ∧
        (s.runs i).callP = none := by
      rcases hd.td_ids i hi with ⟨h2n, h3n, _, hcn⟩ | ⟨a, b, _, _, htt, _, _⟩
      · exact ⟨h2n, h3n, hcn⟩
      · rw [htt] at hnt
        cases hnt
    have hcB : InvCore { s with
        nextId := s.nextId + 2,
        proms := updFn (updFn s.proms
          s.nextId (.pending [.teardownCatch (s.nextId + 1)]))
          (s.nextId + 1) (.pending [.teardownB i]),
        runs := updFn s.runs i { s.runs i with torndown := true, tdP2 := some s.nextId, tdP3 := some (s.nextId + 1) } } :=
      hc.teardownAlloc hi hnt hlast
    unfold teardownRun
    rw [if_neg htorn]
    show Inv (subscribe (s.runs i).cep (.teardownA i s.nextId) { s with
      nextId := s.nextId + 2,
      proms := updFn (updFn s.proms
        s.nextId (.pending [.teardownCatch (s.nextId + 1)]))
        (s.nextId + 1) (.pending [.teardownB i]),
      runs := updFn s.runs i { s.runs i with torndown := true, tdP2 := some s.nextId, tdP3 := some (s.nextId + 1) } })
    generalize hgen : ({ s with
      nextId := s.nextId + 2,
      proms := updFn (updFn s.proms
        s.nextId (.pending [.teardownCatch (s.nextId + 1)]))
        (s.nextId + 1) (.pending [.teardownB i]),
      runs := updFn s.runs i { s.runs i with torndown := true, tdP2 := some s.nextId, tdP3 := some (s.nextId + 1) } } : EffSt) = sB
    rw [hgen] at hcB
    have hEruns : sB.runs = updFn s.runs i { s.runs i with torndown := true, tdP2 := some s.nextId, tdP3 := some (s.nextId + 1) } := by
      rw [← hgen]
    have hEproms : sB.proms =
        updFn (updFn s.proms s.nextId (.pending [.teardownCatch (s.nextId + 1)]))
          (s.nextId + 1) (Prom.pending [.teardownB i]) := by rw [← hgen]
    have hEcount : sB.runCount = s.runCount := by rw [← hgen]
    have hEqueue : sB.queue = s.queue := by rw [← hgen]
    have hrio : updFn s.runs i { s.runs i with torndown := true, tdP2 := some s.nextId, tdP3 := some (s.nextId + 1) } i =
        { s.runs i with torndown := true, tdP2 := some s.nextId, tdP3 := some (s.nextId + 1) } := updFn_self _ _ _
    have hrne : ∀ j, j ≠ i →
        updFn s.runs i { s.runs i with torndown := true, tdP2 := some s.nextId, tdP3 := some (s.nextId + 1) } j = s.runs j :=
      fun j hj => updFn_ne _ _ _ _ hj
    have hproj5 : ∀ j,
        (sB.runs j).effP = (s.runs j).effP ∧
        (sB.runs j).cep = (s.runs j).cep ∧
        (sB.runs j).cleanupP = (s.runs j).cleanupP ∧
        (sB.runs j).prevChain = (s.runs j).prevChain ∧
        (sB.runs j).chainP = (s.runs j).chainP ∧
        (sB.runs j).callP = (s.runs j).callP := by
      intro j
      rw [hEruns]
      by_cases hj : j = i
      · subst hj
        rw [hrio]
        exact ⟨rfl, rfl, rfl, rfl, rfl, rfl⟩
      · rw [hrne j hj]
        exact ⟨rfl, rfl, rfl, rfl, rfl, rfl⟩
    have htd2B : (sB.runs i).tdP2 = some s.nextId := by
      rw [hEruns, hrio]
    have htd3B : (sB.runs i).tdP3 = some (s.nextId + 1) := by
      rw [hEruns, hrio]
    have htdne : ∀ j, j ≠ i → (sB.runs j).tdP2 = (s.runs j).tdP2 ∧
        (sB.runs j).tdP3 = (s.runs j).tdP3 := by
      intro j hj
      rw [hEruns, hrne j hj]
      exact ⟨rfl, rfl⟩
    have hBproms : ∀ p, p ≠ s.nextId → p ≠ s.nextId + 1 →
        sB.proms p = s.proms p := by
      intro p h1 h5
      rw [hEproms, updFn_ne _ _ _ _ h5, updFn_ne _ _ _ _ h1]
    have hBp2 : sB.proms s.nextId = Prom.pending [.teardownCatch (s.nextId + 1)] := by
      rw [hEproms, updFn_ne _ _ _ _ (by omega), updFn_self]
    have hBp3 : sB.proms (s.nextId + 1) = Prom.pending [.teardownB i] := by
      rw [hEproms, updFn_self]
    have hcepeq : (sB.runs i).cep = (s.runs i).cep := (hproj5 i).2.1
    have hoccB : tdAOcc sB i s.nextId = 0 := by
      unfold tdAOcc
      rw [hEqueue, hcepeq, hBproms _
        (by have := (hidlt i hi).2.2.1; omega)
        (by have := (hidlt i hi).2.2.1; omega)]
      have hcnt0 : (s.proms (s.runs i).cep).contsOf.count
          (Cont.teardownA i s.nextId) = 0 := by
        rw [List.count_eq_zero]
        intro hmem
        rcases hc.placement _ _ hmem with ⟨_, _, h2x⟩
        rw [hnone.1] at h2x
        cases h2x
      have hq0 : List.countP
          (fun t => decide (t.1 = Cont.teardownA i s.nextId)) s.queue = 0 := by
        rw [List.countP_eq_zero]
        intro t htm
        simp only [decide_eq_true_eq]
        intro hteq
        have htk := hc.queue_ok t.1 t.2 htm
        rw [hteq] at htk
        rcases htk with ⟨_, h2x, _⟩
        rw [hnone.1] at h2x
        cases h2x
      omega
    have hcallB : (sB.runs i).callP = none := by
      rw [(hproj5 i).2.2.2.2.2]
      exact hnone.2.2
    have hq2pendB : (sB.proms s.nextId).isSettled = false := by
      rw [hBp2]
      rfl
    have hiB : i < sB.runCount := by
      rw [hEcount]
      exact hi
    have hcoreF := hcB.subTeardownA hiB htd2B hoccB hcallB hq2pendB
    rw [hcepeq] at hcoreF
    refine ⟨hcoreF, ?_⟩
    have hrunsF := subscribe_runs (s.runs i).cep (Cont.teardownA i s.nextId) sB
    have hcountF := subscribe_runCount (s.runs i).cep (Cont.teardownA i s.nextId) sB
    have hOnF : ∀ p c, p ≠ s.nextId → p ≠ s.nextId + 1 → OnProm s p c →
        OnProm (subscribe (s.runs i).cep (.teardownA i s.nextId) sB) p c := by
      intro p c h1 h5 hOn
      refine subscribe_onProm_subset _ _ _ _ _ ?_
      unfold OnProm at hOn ⊢
      rw [hBproms p h1 h5]
      exact hOn
    have hInqF : ∀ c, InQueue s c →
        InQueue (subscribe (s.runs i).cep (.teardownA i s.nextId) sB) c := by
      intro c ⟨o, ho⟩
      refine InQueue_subscribe _ _ _ _ ⟨o, ?_⟩
      rw [hEqueue]
      exact ho
    have hsetF : ∀ p, p ≠ s.nextId → p ≠ s.nextId + 1 →
        (((subscribe (s.runs i).cep (.teardownA i s.nextId) sB).proms p).isSettled) =
          (s.proms p).isSettled := by
      intro p h1 h5
      rw [subscribe_isSettled, hBproms p h1 h5]
    refine ⟨?_, ?_, ?_, ?_, ?_⟩
    · intro j hj
      rw [hcountF, hEcount] at hj
      rw [hrunsF, (hproj5 j).1, (hproj5 j).2.1]
      rcases hl.l0 j hj with hOn | hq | hsett
      · exact Or.inl (hOnF _ _
          (by have := (hidlt j hj).2.1; omega)
          (by have := (hidlt j hj).2.1; omega) hOn)
      · exact Or.inr (Or.inl (hInqF _ hq))
      · refine Or.inr (Or.inr ?_)
        rw [hsetF _ (by have := (hidlt j hj).2.2.1; omega)
          (by have := (hidlt j hj).2.2.1; omega)]
        exact hsett
    · intro j hj
      rw [hcountF, hEcount] at hj
      rw [hrunsF, (hproj5 j).2.1, (hproj5 j).2.2.1, (hproj5 j).2.2.2.2.1]
      rcases hl.l1 j hj with hOn | hq | hOn | hq | hsett
      · exact Or.inl (hOnF _ _
          (by have := (hidlt j hj).2.2.1; omega)
          (by have := (hidlt j hj).2.2.1; omega) hOn)
      · exact Or.inr (Or.inl (hInqF _ hq))
      · exact Or.inr (Or.inr (Or.inl (hOnF _ _
          (by have := (hidlt j hj).1; omega)
          (by have := (hidlt j hj).1; omega) hOn)))
      · exact Or.inr (Or.inr (Or.inr (Or.inl (hInqF _ hq))))
      · refine Or.inr (Or.inr (Or.inr (Or.inr ?_)))
        rw [hsetF _ (by have := (hidlt j hj).2.2.2; omega)
          (by have := (hidlt j hj).2.2.2; omega)]
        exact hsett
    · intro j hj q2a h2a
      rw [hcountF, hEcount] at hj
      rw [hrunsF] at h2a ⊢
      by_cases hj2 : j = i
      · subst hj2
        rw [htd2B] at h2a
        cases h2a
        rw [(hproj5 j).2.1]
        rcases subscribe_onProm_self (s.runs j).cep (.teardownA j s.nextId) sB with
          hOn | hq
        · exact Or.inl hOn
        · exact Or.inr (Or.inl hq)
      · rw [(htdne j hj2).1] at h2a
        rw [(hproj5 j).2.1, (hproj5 j).2.2.2.2.2]
        rcases hl.l2 j hj q2a h2a with hOn | hq | ⟨cp, hcp, hx⟩ | hsett
        · exact Or.inl (hOnF _ _
            (by have := (hidlt j hj).2.2.1; omega)
            (by have := (hidlt j hj).2.2.1; omega) hOn)
        · exact Or.inr (Or.inl (hInqF _ hq))
        · refine Or.inr (Or.inr (Or.inl ⟨cp, hcp, ?_⟩))
          rcases hx with hOn | hq
          · exact Or.inl (hOnF _ _
              (by have := hcplt j hj cp hcp; omega)
              (by have := hcplt j hj cp hcp; omega) hOn)
          · exact Or.inr (hInqF _ hq)
        · refine Or.inr (Or.inr (Or.inr ?_))
          rw [hsetF _ (by have := h2lt j hj q2a h2a; omega)
            (by have := h2lt j hj q2a h2a; omega)]
          exact hsett
    · intro j hj q2a q3a h2a h3a
      rw [hcountF, hEcount] at hj
      rw [hrunsF] at h2a h3a
      by_cases hj2 : j = i
      · subst hj2
        rw [htd2B] at h2a
        cases h2a
        rw [htd3B] at h3a
        cases h3a
        refine Or.inl ?_
        unfold OnProm
        rw [subscribe_proms_ne _ _ _ _
          (show s.nextId ≠ (s.runs j).cep by
            have := (hidlt j hj).2.2.1; omega), hBp2]
        simp [Prom.contsOf]
      · rw [(htdne j hj2).1] at h2a
        rw [(htdne j hj2).2] at h3a
        rcases hl.l3 j hj q2a q3a h2a h3a with hOn | hq | hsett
        · exact Or.inl (hOnF _ _
            (by have := h2lt j hj q2a h2a; omega)
            (by have := h2lt j hj q2a h2a; omega) hOn)
        · exact Or.inr (Or.inl (hInqF _ hq))
        · refine Or.inr (Or.inr ?_)
          rw [hsetF _ (by have := h3lt j hj q3a h3a; omega)
            (by have := h3lt j hj q3a h3a; omega)]
          exact hsett
    · intro j hj q3a h3a
      rw [hcountF, hEcount] at hj
      rw [hrunsF] at h3a ⊢
      by_cases hj2 : j = i
      · subst hj2
        rw [htd3B] at h3a
        cases h3a
        refine Or.inl ?_
        unfold OnProm
        rw [subscribe_proms_ne _ _ _ _
          (show s.nextId + 1 ≠ (s.runs j).cep by
            have := (hidlt j hj).2.2.1; omega), hBp3]
        simp [Prom.contsOf]
      · rw [(htdne j hj2).2] at h3a
        rw [(hproj5 j).2.2.1]
        rcases hl.l4 j hj q3a h3a with hOn | hq | hsett
        · exact Or.inl (hOnF _ _
            (by have := h3lt j hj q3a h3a; omega)
            (by have := h3lt j hj q3a h3a; omega) hOn)
        · exact Or.inr (Or.inl (hInqF _ hq))
        · refine Or.inr (Or.inr ?_)
          rw [hsetF _ (by have := (hidlt j hj).1; omega)
            (by have := (hidlt j hj).1; omega)]
          exact hsett

/-- The synchronous setup of a new effect run (four fresh promises, the new
run record, the published chain) preserves the whole invariant, provided
the previously active run has already been torn down (the host runs the
previous cleanup closure in the same commit). -/
theorem Inv.setupPres {s : EffSt} (hs : Inv s)
    (htorn : ∀ k, k + 1 = s.runCount → (s.runs k).torndown = true) :
    Inv (setup s) := by
  have hc := hs.core
  have hl := hs.live
  have hd := hc.data
  have hidlt : ∀ j, j < s.runCount → (s.runs j).cleanupP < s.nextId ∧
      (s.runs j).effP < s.nextId ∧ (s.runs j).cep < s.nextId ∧
      (s.runs j).chainP < s.nextId := by
    intro j hj
    have ho := hd.order j hj
    have hb := hd.bounds j hj
    omega
  have h2lt : ∀ j, j < s.runCount → ∀ q, (s.runs j).tdP2 = some q →
      q < s.nextId := by
    intro j hj q hq
    rcases hd.td_some hj hq with ⟨q3, h3, _, he⟩
    have := (hd.bounds j hj).2.1 q3 h3
    omega
  have h3lt : ∀ j, j < s.runCount → ∀ q, (s.runs j).tdP3 = some q →
      q < s.nextId := fun j hj q hq => (hd.bounds j hj).2.1 q hq
  have hcplt : ∀ j, j < s.runCount → ∀ q, (s.runs j).callP = some q →
      q < s.nextId := fun j hj q hq => (hd.bounds j hj).2.2 q hq
  have hset : setup s = { s with
      nextId := s.nextId + 4,
      proms := updFn (updFn (updFn (updFn s.proms
        s.nextId (.pending []))
        (s.nextId + 1) (.pending [.execEffect s.runCount]))
        (s.nextId + 2) (.pending [.chainLink1 s.runCount (s.nextId + 3)]))
        (s.nextId + 3) (.pending []),
      runs := updFn s.runs s.runCount
        ⟨s.nextId + 1, s.nextId + 2, s.nextId, s.chainRef, s.nextId + 3,
          .undef, false, none, none, none⟩,
      runCount := s.runCount + 1,
      chainRef := s.nextId + 3 } := rfl
  rw [hset]
  have hpm : ∀ p, p < s.nextId →
      updFn (updFn (updFn (updFn s.proms
        s.nextId (.pending []))
        (s.nextId + 1) (.pending [.execEffect s.runCount]))
        (s.nextId + 2) (.pending [.chainLink1 s.runCount (s.nextId + 3)]))
        (s.nextId + 3) (Prom.pending []) p = s.proms p := by
    intro p hp
    rw [updFn_ne _ _ _ _ (by omega), updFn_ne _ _ _ _ (by omega),
      updFn_ne _ _ _ _ (by omega), updFn_ne _ _ _ _ (by omega)]
  have hpmc :
      updFn (updFn (updFn (updFn s.proms
        s.nextId (.pending []))
        (s.nextId + 1) (.pending [.execEffect s.runCount]))
        (s.nextId + 2) (.pending [.chainLink1 s.runCount (s.nextId + 3)]))
        (s.nextId + 3) (Prom.pending []) s.nextId = Prom.pending [] := by
    rw [updFn_ne _ _ _ _ (by omega), updFn_ne _ _ _ _ (by omega),
      updFn_ne _ _ _ _ (by omega), updFn_self]
  have hpme :
      updFn (updFn (updFn (updFn s.proms
        s.nextId (.pending []))
        (s.nextId + 1) (.pending [.execEffect s.runCount]))
        (s.nextId + 2) (.pending [.chainLink1 s.runCount (s.nextId + 3)]))
        (s.nextId + 3) (Prom.pending []) (s.nextId + 1) =
        Prom.pending [.execEffect s.runCount] := by
    rw [updFn_ne _ _ _ _ (by omega), updFn_ne _ _ _ _ (by omega), updFn_self]
  have hpmcep :
      updFn (updFn (updFn (updFn s.proms
        s.nextId (.pending []))
        (s.nextId + 1) (.pending [.execEffect s.runCount]))
        (s.nextId + 2) (.pending [.chainLink1 s.runCount (s.nextId + 3)]))
        (s.nextId + 3) (Prom.pending []) (s.nextId + 2) =
        Prom.pending [.chainLink1 s.runCount (s.nextId + 3)] := by
    rw [updFn_ne _ _ _ _ (by omega), updFn_self]
  have hpmch :
      updFn (updFn (updFn (updFn s.proms
        s.nextId (.pending []))
        (s.nextId + 1) (.pending [.execEffect s.runCount]))
        (s.nextId + 2) (.pending [.chainLink1 s.runCount (s.nextId + 3)]))
        (s.nextId + 3) (Prom.pending []) (s.nextId + 3) = Prom.pending [] :=
    updFn_self _ _ _
  have hrn : ∀ j, j < s.runCount →
      updFn s.runs s.runCount
        (⟨s.nextId + 1, s.nextId + 2, s.nextId, s.chainRef, s.nextId + 3,
          .undef, false, none, none, none⟩ : Run) j = s.runs j :=
    fun j hj => updFn_ne _ _ _ _ (by omega)
  have hrnn :
      updFn s.runs s.runCount
        (⟨s.nextId + 1, s.nextId + 2, s.nextId, s.chainRef, s.nextId + 3,
          .undef, false, none, none, none⟩ : Run) s.runCount =
        ⟨s.nextId + 1, s.nextId + 2, s.nextId, s.chainRef, s.nextId + 3,
          .undef, false, none, none, none⟩ := updFn_self _ _ _
  generalize hgen : ({ s with
      nextId := s.nextId + 4,
      proms := updFn (updFn (updFn (updFn s.proms
        s.nextId (.pending []))
        (s.nextId + 1) (.pending [.execEffect s.runCount]))
        (s.nextId + 2) (.pending [.chainLink1 s.runCount (s.nextId + 3)]))
        (s.nextId + 3) (.pending []),
      runs := updFn s.runs s.runCount
        ⟨s.nextId + 1, s.nextId + 2, s.nextId, s.chainRef, s.nextId + 3,
          .undef, false, none, none, none⟩,
      runCount := s.runCount + 1,
      chainRef := s.nextId + 3 } : EffSt) = sN
  have hEruns : sN.runs = updFn s.runs s.runCount
      ⟨s.nextId + 1, s.nextId + 2, s.nextId, s.chainRef, s.nextId + 3,
        .undef, false, none, none, none⟩ := by rw [← hgen]
  have hEproms : sN.proms =
      updFn (updFn (updFn (updFn s.proms
        s.nextId (.pending []))
        (s.nextId + 1) (.pending [.execEffect s.runCount]))
        (s.nextId + 2) (.pending [.chainLink1 s.runCount (s.nextId + 3)]))
        (s.nextId + 3) (Prom.pending []) := by rw [← hgen]
  have hEcount : sN.runCount = s.runCount + 1 := by rw [← hgen]
  have hEnext : sN.nextId = s.nextId + 4 := by rw [← hgen]
  have hEref : sN.chainRef = s.nextId + 3 := by rw [← hgen]
  have hEqueue : sN.queue = s.queue := by rw [← hgen]
  have hrold : ∀ j, j < s.runCount → sN.runs j = s.runs j := by
    intro j hj
    rw [hEruns]
    exact hrn j hj
  have hrnew : sN.runs s.runCount =
      ⟨s.nextId + 1, s.nextId + 2, s.nextId, s.chainRef, s.nextId + 3,
        .undef, false, none, none, none⟩ := by
    rw [hEruns]
    exact hrnn
  have hpold : ∀ p, p < s.nextId → sN.proms p = s.proms p := by
    intro p hp
    rw [hEproms]
    exact hpm p hp
  have hdata : InvData sN := by
    refine ⟨?_, ?_, ?_, ?_, ?_, ?_, ?_, ?_, ?_⟩
    · rw [hEnext]
      have := hd.nextId_pos
      omega
    · intro j hj
      rw [hEcount] at hj
      by_cases hj2 : j = s.runCount
      · subst hj2
        rw [hrnew]
        dsimp only
        refine ⟨?_, rfl, rfl, rfl⟩
        have := hd.nextId_pos
        omega
      · have hjlt : j < s.runCount := by omega
        rw [hrold j hjlt]
        exact hd.order j hjlt
    · intro j hj
      rw [hEcount] at hj
      rw [hEnext]
      by_cases hj2 : j = s.runCount
      · subst hj2
        rw [hrnew]
        dsimp only
        refine ⟨by omega, ?_, ?_⟩
        · intro q3 h3
          cases h3
        · intro cp hcp
          cases hcp
      · have hjlt : j < s.runCount := by omega
        rw [hrold j hjlt]
        have hb := hd.bounds j hjlt
        refine ⟨by omega, ?_, ?_⟩
        · intro q3 h3
          have := hb.2.1 q3 h3
          omega
        · intro cp hcp
          have := hb.2.2 cp hcp
          omega
    · intro j hj
      rw [hEcount] at hj
      by_cases hj2 : j = s.runCount
      · subst hj2
        rw [hrnew]
        exact Or.inl ⟨rfl, rfl, rfl, rfl⟩
      · have hjlt : j < s.runCount := by omega
        rw [hrold j hjlt]
        exact hd.td_ids j hjlt
    · intro j k hjk hk
      rw [hEcount] at hk
      by_cases hk2 : k = s.runCount
      · subst hk2
        have hjlt : j < s.runCount := hjk
        rw [hrold j hjlt, hrnew]
        dsimp only
        refine ⟨?_, ?_⟩
        · have := (hidlt j hjlt).2.2.2
          omega
        · intro q3 h3
          have := h3lt j hjlt q3 h3
          omega
      · have hklt : k < s.runCount := by omega
        have hjlt : j < s.runCount := lt_trans hjk hklt
        rw [hrold j hjlt, hrold k hklt]
        exact hd.cross j k hjk hklt
    · intro j hj cp hcp
      rw [hEcount] at hj
      by_cases hj2 : j = s.runCount
      · subst hj2
        rw [hrnew] at hcp
        cases hcp
      · have hjlt : j < s.runCount := by omega
        rw [hrold j hjlt] at hcp ⊢
        refine ⟨(hd.callp_ids j hjlt cp hcp).1, ?_⟩
        intro k hk
        rw [hEcount] at hk
        by_cases hk2 : k = s.runCount
        · subst hk2
          rw [hrnew]
          dsimp only
          have := hcplt j hjlt cp hcp
          refine ⟨by omega, by omega, by omega, by omega, ?_, ?_, ?_⟩
          · intro q hq
            cases hq
          · intro q hq
            cases hq
          · intro _ cq hcq
            cases hcq
        · have hklt : k < s.runCount := by omega
          rw [hrold k hklt]
          exact (hd.callp_ids j hjlt cp hcp).2 k hklt
    · refine Or.inr ⟨s.runCount, hEcount, ?_⟩
      rw [hrnew, hEref]
    · intro j hj
      rw [hEcount] at hj
      by_cases hj2 : j = s.runCount
      · subst hj2
        rw [hrnew]
        refine ⟨?_, ?_⟩
        · intro hj0
          show s.chainRef = 0
          rcases hd.chainRef_spec with ⟨_, h5⟩ | ⟨m, hm, _⟩
          · exact h5
          · rw [hj0] at hm
            cases hm
        · intro k hk
          show s.chainRef = (sN.runs k).chainP
          have hklt : k < s.runCount := by omega
          rw [hrold k hklt]
          rcases hd.chainRef_spec with ⟨hm, _⟩ | ⟨m, hm, h5⟩
          · omega
          · have hkm : k = m := by omega
            subst hkm
            exact h5
      · have hjlt : j < s.runCount := by omega
        rw [hrold j hjlt]
        rcases hd.prevChain_link j hjlt with ⟨ha, hb⟩
        refine ⟨ha, ?_⟩
        intro k hk
        have hklt : k < s.runCount := by omega
        rw [hrold k hklt]
        exact hb k hk
    · intro j hj
      rw [hEcount] at hj
      have hjlt : j < s.runCount := by omega
      rw [hrold j hjlt]
      by_cases hj1 : j + 1 = s.runCount
      · exact htorn j hj1
      · exact hd.torndown_prev j (by omega)
  have hcoreN : InvCore sN := by
    refine ⟨hdata, ?_, ?_, ?_, ?_, ?_, ?_, ?_, ?_, ?_, ?_, ?_, ?_⟩
    · intro p hpge
      rw [hEnext] at hpge
      rw [hEproms, updFn_ne _ _ _ _ (by omega), updFn_ne _ _ _ _ (by omega),
        updFn_ne _ _ _ _ (by omega), updFn_ne _ _ _ _ (by omega)]
      exact hc.fresh p (by omega)
    · rw [hpold 0 (by have := hd.nextId_pos; omega)]
      exact hc.prom0
    · intro j hj cp hcp
      rw [hEcount] at hj
      by_cases hj2 : j = s.runCount
      · subst hj2
        rw [hrnew] at hcp
        cases hcp
      · have hjlt : j < s.runCount := by omega
        rw [hrold j hjlt] at hcp ⊢
        rw [hpold _ (hidlt j hjlt).2.2.1]
        exact hc.callp_cep j hjlt cp hcp
    · intro p c hOn
      unfold OnProm at hOn
      rw [hEproms] at hOn
      by_cases hch : p = s.nextId + 3
      · subst hch
        rw [updFn_self] at hOn
        simp [Prom.contsOf] at hOn
      · rw [updFn_ne _ _ _ _ hch] at hOn
        by_cases hcep : p = s.nextId + 2
        · subst hcep
          rw [updFn_self] at hOn
          simp only [Prom.contsOf, List.mem_singleton] at hOn
          subst hOn
          refine ⟨by rw [hEcount]; omega, ?_, ?_⟩
          · rw [hrnew]
          · rw [hrnew]
        · rw [updFn_ne _ _ _ _ hcep] at hOn
          by_cases he : p = s.nextId + 1
          · subst he
            rw [updFn_self] at hOn
            simp only [Prom.contsOf, List.mem_singleton] at hOn
            subst hOn
            refine ⟨by rw [hEcount]; omega, ?_⟩
            rw [hrnew]
          · rw [updFn_ne _ _ _ _ he] at hOn
            by_cases hcl : p = s.nextId
            · subst hcl
              rw [updFn_self] at hOn
              simp [Prom.contsOf] at hOn
            · rw [updFn_ne _ _ _ _ hcl] at hOn
              have hold := hc.placement p c hOn
              cases c with
              | execEffect j =>
                rcases hold with ⟨h1, hq⟩
                exact ⟨by rw [hEcount]; omega,
                  by rw [hrold j h1]; exact hq⟩
              | chainLink1 j ch =>
                rcases hold with ⟨h1, hq, h5⟩
                exact ⟨by rw [hEcount]; omega,
                  by rw [hrold j h1]; exact hq,
                  by rw [hrold j h1]; exact h5⟩
              | chainLink2 ch =>
                rcases hold with ⟨j, h1, hq, h5⟩
                exact ⟨j, by rw [hEcount]; omega,
                  by rw [hrold j h1]; exact hq,
                  by rw [hrold j h1]; exact h5⟩
              | teardownA j q2a =>
                rcases hold with ⟨h1, hq, h5⟩
                exact ⟨by rw [hEcount]; omega,
                  by rw [hrold j h1]; exact hq,
                  by rw [hrold j h1]; exact h5⟩
              | teardownAwait j q2a =>
                rcases hold with ⟨h1, hq, h5⟩
                exact ⟨by rw [hEcount]; omega,
                  by rw [hrold j h1]; exact hq,
                  by rw [hrold j h1]; exact h5⟩
              | teardownCatch q3 =>
                rcases hold with ⟨j, h1, hq, h5⟩
                exact ⟨j, by rw [hEcount]; omega,
                  by rw [hrold j h1]; exact hq,
                  by rw [hrold j h1]; exact h5⟩
              | teardownB j =>
                rcases hold with ⟨h1, hq⟩
                exact ⟨by rw [hEcount]; omega,
                  by rw [hrold j h1]; exact hq⟩
    · intro c o ht
      rw [hEqueue] at ht
      have hold := hc.queue_ok c o ht
      cases c with
      | execEffect j =>
        rcases hold with ⟨h1, hq⟩
        refine ⟨by rw [hEcount]; omega, ?_⟩
        rw [hrold j h1, hpold _ (hidlt j h1).2.1]
        exact hq
      | chainLink1 j ch =>
        rcases hold with ⟨h1, hq, h5⟩
        refine ⟨by rw [hEcount]; omega, by rw [hrold j h1]; exact hq, ?_⟩
        rw [hrold j h1, hpold _ (hidlt j h1).2.2.1]
        exact h5
      | chainLink2 ch =>
        rcases hold with ⟨j, h1, hq, h5⟩
        refine ⟨j, by rw [hEcount]; omega, by rw [hrold j h1]; exact hq, ?_⟩
        rw [hrold j h1, hpold _ (hidlt j h1).1]
        exact h5
      | teardownA j q2a =>
        rcases hold with ⟨h1, hq, h5⟩
        refine ⟨by rw [hEcount]; omega, by rw [hrold j h1]; exact hq, ?_⟩
        rw [hrold j h1, hpold _ (hidlt j h1).2.2.1]
        exact h5
      | teardownAwait j q2a =>
        rcases hold with ⟨h1, hq, cp, h5, h6⟩
        refine ⟨by rw [hEcount]; omega, by rw [hrold j h1]; exact hq, cp,
          by rw [hrold j h1]; exact h5, ?_⟩
        rw [hpold _ (hcplt j h1 cp h5)]
        exact h6
      | teardownCatch q3 =>
        rcases hold with ⟨j, q2a, h1, hq, h5, h6⟩
        refine ⟨j, q2a, by rw [hEcount]; omega,
          by rw [hrold j h1]; exact hq, by rw [hrold j h1]; exact h5, ?_⟩
        rw [hpold _ (h2lt j h1 q2a hq)]
        exact h6
      | teardownB j =>
        rcases hold with ⟨h1, q3, hq, h5⟩
        refine ⟨by rw [hEcount]; omega, q3, by rw [hrold j h1]; exact hq, ?_⟩
        rw [hpold _ (h3lt j h1 q3 hq)]
        exact h5
    · intro j hj q2a h2a
      rw [hEcount] at hj
      by_cases hj2 : j = s.runCount
      · subst hj2
        rw [hrnew] at h2a
        cases h2a
      · have hjlt : j < s.runCount := by omega
        rw [hrold j hjlt] at h2a ⊢
        have hoccsame : tdAOcc sN j q2a = tdAOcc s j q2a := by
          unfold tdAOcc
          rw [hEqueue, hrold j hjlt, hpold _ (hidlt j hjlt).2.2.1]
        rw [hoccsame]
        exact hc.tdA_count j hjlt q2a h2a
    · intro j hj q2a h2a hoccur
      rw [hEcount] at hj
      by_cases hj2 : j = s.runCount
      · subst hj2
        rw [hrnew] at h2a
        cases h2a
      · have hjlt : j < s.runCount := by omega
        rw [hrold j hjlt] at h2a hoccur
        rw [hpold _ (h2lt j hjlt q2a h2a)]
        refine hc.tdA_q2_pending j hjlt q2a h2a ?_
        rcases hoccur with hOn | ⟨o, ho⟩
        · left
          unfold OnProm at hOn ⊢
          rw [hpold _ (hidlt j hjlt).2.2.1] at hOn
          exact hOn
        · right
          rw [hEqueue] at ho
          exact ⟨o, ho⟩
    · intro j hj hsett
      rw [hEcount] at hj
      by_cases hj2 : j = s.runCount
      · subst hj2
        rw [hrnew] at hsett
        dsimp only at hsett
        have : sN.proms (s.nextId + 2) =
            Prom.pending [.chainLink1 s.runCount (s.nextId + 3)] := by
          rw [hEproms]
          exact hpmcep
        rw [this] at hsett
        simp [Prom.isSettled] at hsett
      · have hjlt : j < s.runCount := by omega
        rw [hrold j hjlt] at hsett ⊢
        rw [hpold _ (hidlt j hjlt).2.2.1] at hsett ⊢
        rw [hpold _ (hidlt j hjlt).2.1]
        exact hc.s1 j hjlt hsett
    · intro j hj q2a h2a hsett
      rw [hEcount] at hj
      by_cases hj2 : j = s.runCount
      · subst hj2
        rw [hrnew] at h2a
        cases h2a
      · have hjlt : j < s.runCount := by omega
        rw [hrold j hjlt] at h2a ⊢
        rw [hpold _ (h2lt j hjlt q2a h2a)] at hsett ⊢
        rcases hc.s2 j hjlt q2a h2a hsett with ⟨hful, hcepj, hcpj⟩
        refine ⟨hful, ?_, ?_⟩
        · rw [hpold _ (hidlt j hjlt).2.2.1]
          exact hcepj
        · intro cp hcc
          rw [hpold _ (hcplt j hjlt cp hcc)]
          exact hcpj cp hcc
    · intro j hj q3a h3a hsett
      rw [hEcount] at hj
      by_cases hj2 : j = s.runCount
      · subst hj2
        rw [hrnew] at h3a
        cases h3a
      · have hjlt : j < s.runCount := by omega
        rw [hrold j hjlt] at h3a ⊢
        rw [hpold _ (h3lt j hjlt q3a h3a)] at hsett ⊢
        rcases hc.s3 j hjlt q3a h3a hsett with ⟨hful, hq2j⟩
        refine ⟨hful, ?_⟩
        intro q2b h2b
        rw [hpold _ (h2lt j hjlt q2b h2b)]
        exact hq2j q2b h2b
    · intro j hj hsett
      rw [hEcount] at hj
      by_cases hj2 : j = s.runCount
      · subst hj2
        rw [hrnew] at hsett
        dsimp only at hsett
        have : sN.proms s.nextId = Prom.pending [] := by
          rw [hEproms]
          exact hpmc
        rw [this] at hsett
        simp [Prom.isSettled] at hsett
      · have hjlt : j < s.runCount := by omega
        rw [hrold j hjlt] at hsett ⊢
        rw [hpold _ (hidlt j hjlt).1] at hsett ⊢
        rcases hc.s4 j hjlt hsett with ⟨hful, q3a, h3a, hq3s⟩
        refine ⟨hful, q3a, h3a, ?_⟩
        rw [hpold _ (h3lt j hjlt q3a h3a)]
        exact hq3s
    · intro j hj hsett
      rw [hEcount] at hj
      by_cases hj2 : j = s.runCount
      · subst hj2
        rw [hrnew] at hsett
        dsimp only at hsett
        have : sN.proms (s.nextId + 3) = Prom.pending [] := by
          rw [hEproms]
          exact hpmch
        rw [this] at hsett
        simp [Prom.isSettled] at hsett
      · have hjlt : j < s.runCount := by omega
        rw [hrold j hjlt] at hsett ⊢
        rw [hpold _ (hidlt j hjlt).2.2.2] at hsett ⊢
        rcases hc.s5 j hjlt hsett with ⟨hful, hclnj, hcepj⟩
        refine ⟨hful, ?_, ?_⟩
        · rw [hpold _ (hidlt j hjlt).1]
          exact hclnj
        · rw [hpold _ (hidlt j hjlt).2.2.1]
          exact hcepj
  refine ⟨hcoreN, ?_, ?_, ?_, ?_, ?_⟩
  · intro j hj
    rw [hEcount] at hj
    by_cases hj2 : j = s.runCount
    · subst hj2
      rw [hrnew]
      dsimp only
      refine Or.inl ?_
      unfold OnProm
      have : sN.proms (s.nextId + 1) =
          Prom.pending [.execEffect s.runCount] := by
        rw [hEproms]
        exact hpme
      rw [this]
      simp [Prom.contsOf]
    · have hjlt : j < s.runCount := by omega
      rw [hrold j hjlt]
      rcases hl.l0 j hjlt with hOn | hq | hsett
      · refine Or.inl ?_
        unfold OnProm at hOn ⊢
        rw [hpold _ (hidlt j hjlt).2.1]
        exact hOn
      · refine Or.inr (Or.inl ?_)
        rcases hq with ⟨o, ho⟩
        refine ⟨o, ?_⟩
        rw [hEqueue]
        exact ho
      · refine Or.inr (Or.inr ?_)
        rw [hpold _ (hidlt j hjlt).2.2.1]
        exact hsett
  · intro j hj
    rw [hEcount] at hj
    by_cases hj2 : j = s.runCount
    · subst hj2
      rw [hrnew]
      dsimp only
      refine Or.inl ?_
      unfold OnProm
      have : sN.proms (s.nextId + 2) =
          Prom.pending [.chainLink1 s.runCount (s.nextId + 3)] := by
        rw [hEproms]
        exact hpmcep
      rw [this]
      simp [Prom.contsOf]
    · have hjlt : j < s.runCount := by omega
      rw [hrold j hjlt]
      rcases hl.l1 j hjlt with hOn | hq | hOn | hq | hsett
      · refine Or.inl ?_
        unfold OnProm at hOn ⊢
        rw [hpold _ (hidlt j hjlt).2.2.1]
        exact hOn
      · refine Or.inr (Or.inl ?_)
        rcases hq with ⟨o, ho⟩
        exact ⟨o, by rw [hEqueue]; exact ho⟩
      · refine Or.inr (Or.inr (Or.inl ?_))
        unfold OnProm at hOn ⊢
        rw [hpold _ (hidlt j hjlt).1]
        exact hOn
      · refine Or.inr (Or.inr (Or.inr (Or.inl ?_)))
        rcases hq with ⟨o, ho⟩
        exact ⟨o, by rw [hEqueue]; exact ho⟩
      · refine Or.inr (Or.inr (Or.inr (Or.inr ?_)))
        rw [hpold _ (hidlt j hjlt).2.2.2]
        exact hsett
  · intro j hj q2a h2a
    rw [hEcount] at hj
    by_cases hj2 : j = s.runCount
    · subst hj2
      rw [hrnew] at h2a
      cases h2a
    · have hjlt : j < s.runCount := by omega
      rw [hrold j hjlt] at h2a ⊢
      rcases hl.l2 j hjlt q2a h2a with hOn | hq | ⟨cp, hcp, hx⟩ | hsett
      · refine Or.inl ?_
        unfold OnProm at hOn ⊢
        rw [hpold _ (hidlt j hjlt).2.2.1]
        exact hOn
      · refine Or.inr (Or.inl ?_)
        rcases hq with ⟨o, ho⟩
        exact ⟨o, by rw [hEqueue]; exact ho⟩
      · refine Or.inr (Or.inr (Or.inl ⟨cp, hcp, ?_⟩))
        rcases hx with hOn | hq
        · refine Or.inl ?_
          unfold OnProm at hOn ⊢
          rw [hpold _ (hcplt j hjlt cp hcp)]
          exact hOn
        · refine Or.inr ?_
          rcases hq with ⟨o, ho⟩
          exact ⟨o, by rw [hEqueue]; exact ho⟩
      · refine Or.inr (Or.inr (Or.inr ?_))
        rw [hpold _ (h2lt j hjlt q2a h2a)]
        exact hsett
  · intro j hj q2a q3a h2a h3a
    rw [hEcount] at hj
    by_cases hj2 : j = s.runCount
    · subst hj2
      rw [hrnew] at h2a
      cases h2a
    · have hjlt : j < s.runCount := by omega
      rw [hrold j hjlt] at h2a h3a
      rcases hl.l3 j hjlt q2a q3a h2a h3a with hOn | hq | hsett
      · refine Or.inl ?_
        unfold OnProm at hOn ⊢
        rw [hpold _ (h2lt j hjlt q2a h2a)]
        exact hOn
      · refine Or.inr (Or.inl ?_)
        rcases hq with ⟨o, ho⟩
        exact ⟨o, by rw [hEqueue]; exact ho⟩
      · refine Or.inr (Or.inr ?_)
        rw [hpold _ (h3lt j hjlt q3a h3a)]
        exact hsett
  · intro j hj q3a h3a
    rw [hEcount] at hj
    by_cases hj2 : j = s.runCount
    · subst hj2
      rw [hrnew] at h3a
      cases h3a
    · have hjlt : j < s.runCount := by omega
      rw [hrold j hjlt] at h3a ⊢
      rcases hl.l4 j hjlt q3a h3a with hOn | hq | hsett
      · refine Or.inl ?_
        unfold OnProm at hOn ⊢
        rw [hpold _ (h3lt j hjlt q3a h3a)]
        exact hOn
      · refine Or.inr (Or.inl ?_)
        rcases hq with ⟨o, ho⟩
        exact ⟨o, by rw [hEqueue]; exact ho⟩
      · refine Or.inr (Or.inr ?_)
        rw [hpold _ (hidlt j hjlt).1]
        exact hsett

/-- Progress after popping the `await effect(...)` resumption and running
it: `currentEffectPromise` is fulfilled, which re-establishes every
progress disjunction (the popped stage becomes "settled").  `s2` is the
popped state with at most the `cleanup` variable and the log changed. -/
theorem InvLive.microExecLive {s : EffSt} (hc : InvCore s) (hl : InvLive s)
    {i : Nat} {o : Outcome} {rest : List (Cont × Outcome)}
    (hq : s.queue = (Cont.execEffect i, o) :: rest)
    (hi : i < s.runCount) {s2 : EffSt}
    (hproms : s2.proms = s.proms) (hqueue : s2.queue = rest)
    (hcount : s2.runCount = s.runCount) (hproj : RunsProj s s2) :
    InvLive (settle (s2.runs i).cep (.fulfilled .undef) s2) := by
  have hd := hc.data
  have hcep2 : (s2.runs i).cep = (s.runs i).cep := (hproj i).2.1
  have hInqC : ∀ d, InQueue s d → d = Cont.execEffect i ∨ InQueue s2 d := by
    intro d hin
    rcases hin with ⟨o', ho'⟩
    rw [hq] at ho'
    rcases List.mem_cons.mp ho' with heq | hmem
    · left
      exact congrArg Prod.fst heq
    · right
      refine ⟨o', ?_⟩
      rw [hqueue]
      exact hmem
  have hOnT : ∀ p d, p ≠ (s.runs i).cep → OnProm s p d →
      OnProm (settle (s2.runs i).cep (.fulfilled .undef) s2) p d := by
    intro p d hne hOn
    rw [hcep2]
    refine settle_onProm_subset_ne _ _ _ _ _ hne ?_
    unfold OnProm at hOn ⊢
    rw [hproms]
    exact hOn
  have hInqT : ∀ d, InQueue s2 d →
      InQueue (settle (s2.runs i).cep (.fulfilled .undef) s2) d :=
    fun d h => InQueue_settle _ _ _ _ h
  have hmove : ∀ d, OnProm s (s.runs i).cep d →
      InQueue (settle (s2.runs i).cep (.fulfilled .undef) s2) d := by
    intro d hOn
    refine InQueue_of_onProm_settle _ _ _ _ ?_
    rw [hcep2]
    unfold OnProm at hOn ⊢
    rw [hproms]
    exact hOn
  have hsetT : ∀ p, (s.proms p).isSettled = true →
      (((settle (s2.runs i).cep (.fulfilled .undef) s2)).proms p).isSettled = true := by
    intro p h
    refine settle_isSettled_mono _ _ _ _ ?_
    rw [hproms]
    exact h
  have hruns := settle_runs (s2.runs i).cep (.fulfilled .undef) s2
  have hcount2 := settle_runCount (s2.runs i).cep (.fulfilled .undef) s2
  have hselfset : (((settle (s2.runs i).cep (.fulfilled .undef) s2)).proms
      (s.runs i).cep).isSettled = true := by
    rw [← hcep2]
    exact settle_self_isSettled _ _ _
  refine ⟨?_, ?_, ?_, ?_, ?_⟩
  · intro j hj
    rw [hcount2, hcount] at hj
    rw [hruns, (hproj j).1, (hproj j).2.1]
    rcases hl.l0 j hj with hOn | hqd | hsett
    · exact Or.inl (hOnT _ _ ((hd.ne_cep hi hj).2.1) hOn)
    · rcases hInqC _ hqd with hdc | hq2
      · rw [Cont.execEffect.injEq] at hdc
        subst hdc
        exact Or.inr (Or.inr hselfset)
      · exact Or.inr (Or.inl (hInqT _ hq2))
    · exact Or.inr (Or.inr (hsetT _ hsett))
  · intro j hj
    rw [hcount2, hcount] at hj
    rw [hruns, (hproj j).2.1, (hproj j).2.2.2.2.1, (hproj j).2.2.1]
    rcases hl.l1 j hj with hOn | hqd | hOn | hqd | hsett
    · by_cases hji : j = i
      · subst hji
        exact Or.inr (Or.inl (hmove _ hOn))
      · exact Or.inl (hOnT _ _ ((hd.ne_cep hi hj).2.2.2.1 hji) hOn)
    · rcases hInqC _ hqd with hdc | hq2
      · cases hdc
      · exact Or.inr (Or.inl (hInqT _ hq2))
    · exact Or.inr (Or.inr (Or.inl (hOnT _ _ ((hd.ne_cep hi hj).1) hOn)))
    · rcases hInqC _ hqd with hdc | hq2
      · cases hdc
      · exact Or.inr (Or.inr (Or.inr (Or.inl (hInqT _ hq2))))
    · exact Or.inr (Or.inr (Or.inr (Or.inr (hsetT _ hsett))))
  · intro j hj q2a h2a
    rw [hcount2, hcount] at hj
    rw [hruns] at h2a ⊢
    rw [(hproj j).2.2.2.2.2.2.1] at h2a
    rw [(hproj j).2.1, (hproj j).2.2.2.2.2.2.2.2]
    rcases hl.l2 j hj q2a h2a with hOn | hqd | hcpx | hsett
    · by_cases hji : j = i
      · subst hji
        exact Or.inr (Or.inl (hmove _ hOn))
      · exact Or.inl (hOnT _ _ ((hd.ne_cep hi hj).2.2.2.1 hji) hOn)
    · rcases hInqC _ hqd with hdc | hq2
      · cases hdc
      · exact Or.inr (Or.inl (hInqT _ hq2))
    · rcases hcpx with ⟨cp, hcp, hx⟩
      refine Or.inr (Or.inr (Or.inl ⟨cp, hcp, ?_⟩))
      rcases hx with hOn | hqd
      · exact Or.inl (hOnT _ _ ((hd.ne_cep hi hj).2.2.2.2.2.2 cp hcp) hOn)
      · rcases hInqC _ hqd with hdc | hq2
        · cases hdc
        · exact Or.inr (hInqT _ hq2)
    · exact Or.inr (Or.inr (Or.inr (hsetT _ hsett)))
  · intro j hj q2a q3a h2a h3a
    rw [hcount2, hcount] at hj
    rw [hruns] at h2a h3a
    rw [(hproj j).2.2.2.2.2.2.1] at h2a
    rw [(hproj j).2.2.2.2.2.2.2.1] at h3a
    rcases hl.l3 j hj q2a q3a h2a h3a with hOn | hqd | hsett
    · exact Or.inl (hOnT _ _
        (Ne.symm ((hd.ne_q2 hj hi h2a).2.2.1)) hOn)
    · rcases hInqC _ hqd with hdc | hq2
      · cases hdc
      · exact Or.inr (Or.inl (hInqT _ hq2))
    · exact Or.inr (Or.inr (hsetT _ hsett))
  · intro j hj q3a h3a
    rw [hcount2, hcount] at hj
    rw [hruns] at h3a ⊢
    rw [(hproj j).2.2.2.2.2.2.2.1] at h3a
    rw [(hproj j).2.2.1]
    rcases hl.l4 j hj q3a h3a with hOn | hqd | hsett
    · exact Or.inl (hOnT _ _
        (Ne.symm ((hd.ne_q3 hj hi h3a).2.2.1)) hOn)
    · rcases hInqC _ hqd with hdc | hq2
      · cases hdc
      · exact Or.inr (Or.inl (hInqT _ hq2))
    · exact Or.inr (Or.inr (hsetT _ hsett))

/-- Progress after popping the chain adoption (`chainLink1`, fulfilled) and
running it: the `chainLink2` resumption is registered on `cleanupPromise`,
which re-establishes the chain progress disjunction. -/
theorem InvLive.microChain1Live {s : EffSt} (hl : InvLive s)
    {i : Nat} {o : Outcome} {rest : List (Cont × Outcome)}
    (hq : s.queue = (Cont.chainLink1 i (s.runs i).chainP, o) :: rest)
    (hi : i < s.runCount) :
    InvLive (subscribe (s.runs i).cleanupP (.chainLink2 (s.runs i).chainP)
      { s with queue := rest }) := by
  have hOnT : ∀ p d, OnProm s p d →
      OnProm (subscribe (s.runs i).cleanupP (.chainLink2 (s.runs i).chainP)
        { s with queue := rest }) p d := by
    intro p d hOn
    exact subscribe_onProm_subset _ _ _ _ _ hOn
  have hInqC : ∀ d, InQueue s d →
      d = Cont.chainLink1 i (s.runs i).chainP ∨
      InQueue { s with queue := rest } d := by
    intro d hin
    rcases hin with ⟨o', ho'⟩
    rw [hq] at ho'
    rcases List.mem_cons.mp ho' with heq | hmem
    · left
      exact congrArg Prod.fst heq
    · right
      exact ⟨o', hmem⟩
  have hInqT : ∀ d, InQueue { s with queue := rest } d →
      InQueue (subscribe (s.runs i).cleanupP (.chainLink2 (s.runs i).chainP)
        { s with queue := rest }) d :=
    fun d h => InQueue_subscribe _ _ _ _ h
  have hsetT : ∀ p, (s.proms p).isSettled = true →
      ((subscribe (s.runs i).cleanupP (.chainLink2 (s.runs i).chainP)
        { s with queue := rest }).proms p).isSettled = true := by
    intro p h
    rw [subscribe_isSettled]
    exact h
  have hruns := subscribe_runs (s.runs i).cleanupP
    (.chainLink2 (s.runs i).chainP) { s with queue := rest }
  have hcount2 := subscribe_runCount (s.runs i).cleanupP
    (.chainLink2 (s.runs i).chainP) { s with queue := rest }
  refine ⟨?_, ?_, ?_, ?_, ?_⟩
  · intro j hj
    rw [hcount2] at hj
    rw [hruns]
    rcases hl.l0 j hj with hOn | hqd | hsett
    · exact Or.inl (hOnT _ _ hOn)
    · rcases hInqC _ hqd with hdc | hq2
      · cases hdc
      · exact Or.inr (Or.inl (hInqT _ hq2))
    · exact Or.inr (Or.inr (hsetT _ hsett))
  · intro j hj
    rw [hcount2] at hj
    rw [hruns]
    rcases hl.l1 j hj with hOn | hqd | hOn | hqd | hsett
    · exact Or.inl (hOnT _ _ hOn)
    · rcases hInqC _ hqd with hdc | hq2
      · rw [Cont.chainLink1.injEq] at hdc
        rcases hdc with ⟨rfl, hch⟩
        rw [hch]
        rcases subscribe_onProm_self (s.runs j).cleanupP
          (.chainLink2 (s.runs j).chainP) { s with queue := rest } with
          hOn2 | hq2
        · exact Or.inr (Or.inr (Or.inl hOn2))
        · exact Or.inr (Or.inr (Or.inr (Or.inl hq2)))
      · exact Or.inr (Or.inl (hInqT _ hq2))
    · exact Or.inr (Or.inr (Or.inl (hOnT _ _ hOn)))
    · rcases hInqC _ hqd with hdc | hq2
      · cases hdc
      · exact Or.inr (Or.inr (Or.inr (Or.inl (hInqT _ hq2))))
    · exact Or.inr (Or.inr (Or.inr (Or.inr (hsetT _ hsett))))
  · intro j hj q2a h2a
    rw [hcount2] at hj
    rw [hruns] at h2a ⊢
    rcases hl.l2 j hj q2a h2a with hOn | hqd | hcpx | hsett
    · exact Or.inl (hOnT _ _ hOn)
    · rcases hInqC _ hqd with hdc | hq2
      · cases hdc
      · exact Or.inr (Or.inl (hInqT _ hq2))
    · rcases hcpx with ⟨cp, hcp, hx⟩
      refine Or.inr (Or.inr (Or.inl ⟨cp, hcp, ?_⟩))
      rcases hx with hOn | hqd
      · exact Or.inl (hOnT _ _ hOn)
      · rcases hInqC _ hqd with hdc | hq2
        · cases hdc
        · exact Or.inr (hInqT _ hq2)
    · exact Or.inr (Or.inr (Or.inr (hsetT _ hsett)))
  · intro j hj q2a q3a h2a h3a
    rw [hcount2] at hj
    rw [hruns] at h2a h3a
    rcases hl.l3 j hj q2a q3a h2a h3a with hOn | hqd | hsett
    · exact Or.inl (hOnT _ _ hOn)
    · rcases hInqC _ hqd with hdc | hq2
      · cases hdc
      · exact Or.inr (Or.inl (hInqT _ hq2))
    · exact Or.inr (Or.inr (hsetT _ hsett))
  · intro j hj q3a h3a
    rw [hcount2] at hj
    rw [hruns] at h3a ⊢
    rcases hl.l4 j hj q3a h3a with hOn | hqd | hsett
    · exact Or.inl (hOnT _ _ hOn)
    · rcases hInqC _ hqd with hdc | hq2
      · cases hdc
      · exact Or.inr (Or.inl (hInqT _ hq2))
    · exact Or.inr (Or.inr (hsetT _ hsett))

/-- Progress after popping the fulfilled chain adoption resumption
(`chainLink2`) and settling the published chain promise. -/
theorem InvLive.microChainPLive {s : EffSt} (hc : InvCore s) (hl : InvLive s)
    {i : Nat} {o : Outcome} {rest : List (Cont × Outcome)}
    (hq : s.queue = (Cont.chainLink2 (s.runs i).chainP, o) :: rest)
    (hi : i < s.runCount) {s2 : EffSt}
    (hproms : s2.proms = s.proms) (hqueue : s2.queue = rest)
    (hcount : s2.runCount = s.runCount) (hruns2 : s2.runs = s.runs) :
    InvLive (settle (s.runs i).chainP (.fulfilled .undef) s2) := by
  have hd := hc.data
  have hInqC : ∀ d, InQueue s d →
      d = Cont.chainLink2 (s.runs i).chainP ∨ InQueue s2 d := by
    intro d hin
    rcases hin with ⟨o', ho'⟩
    rw [hq] at ho'
    rcases List.mem_cons.mp ho' with heq | hmem
    · left
      exact congrArg Prod.fst heq
    · right
      refine ⟨o', ?_⟩
      rw [hqueue]
      exact hmem
  have hOnT : ∀ p d, p ≠ (s.runs i).chainP → OnProm s p d →
      OnProm (settle (s.runs i).chainP (.fulfilled .undef) s2) p d := by
    intro p d hne hOn
    refine settle_onProm_subset_ne _ _ _ _ _ hne ?_
    unfold OnProm at hOn ⊢
    rw [hproms]
    exact hOn
  have hInqT : ∀ d, InQueue s2 d →
      InQueue (settle (s.runs i).chainP (.fulfilled .undef) s2) d :=
    fun d h => InQueue_settle _ _ _ _ h
  have hsetT : ∀ p, (s.proms p).isSettled = true →
      ((settle (s.runs i).chainP (.fulfilled .undef) s2).proms p).isSettled = true := by
    intro p h
    refine settle_isSettled_mono _ _ _ _ ?_
    rw [hproms]
    exact h
  have hruns := settle_runs (s.runs i).chainP (.fulfilled .undef) s2
  have hcount2 := settle_runCount (s.runs i).chainP (.fulfilled .undef) s2
  have hselfset : ((settle (s.runs i).chainP (.fulfilled .undef) s2).proms
      (s.runs i).chainP).isSettled = true := settle_self_isSettled _ _ _
  refine ⟨?_, ?_, ?_, ?_, ?_⟩
  · intro j hj
    rw [hcount2, hcount] at hj
    rw [hruns, hruns2]
    rcases hl.l0 j hj with hOn | hqd | hsett
    · exact Or.inl (hOnT _ _ ((hd.ne_chainP hi hj).2.1) hOn)
    · rcases hInqC _ hqd with hdc | hq2
      · cases hdc
      · exact Or.inr (Or.inl (hInqT _ hq2))
    · exact Or.inr (Or.inr (hsetT _ hsett))
  · intro j hj
    rw [hcount2, hcount] at hj
    rw [hruns, hruns2]
    rcases hl.l1 j hj with hOn | hqd | hOn | hqd | hsett
    · exact Or.inl (hOnT _ _ ((hd.ne_chainP hi hj).2.2.1) hOn)
    · rcases hInqC _ hqd with hdc | hq2
      · cases hdc
      · exact Or.inr (Or.inl (hInqT _ hq2))
    · exact Or.inr (Or.inr (Or.inl (hOnT _ _ ((hd.ne_chainP hi hj).1) hOn)))
    · rcases hInqC _ hqd with hdc | hq2
      · rw [Cont.chainLink2.injEq] at hdc
        refine Or.inr (Or.inr (Or.inr (Or.inr ?_)))
        rw [hdc]
        exact hselfset
      · exact Or.inr (Or.inr (Or.inr (Or.inl (hInqT _ hq2))))
    · exact Or.inr (Or.inr (Or.inr (Or.inr (hsetT _ hsett))))
  · intro j hj q2a h2a
    rw [hcount2, hcount] at hj
    rw [hruns, hruns2] at h2a ⊢
    rcases hl.l2 j hj q2a h2a with hOn | hqd | hcpx | hsett
    · exact Or.inl (hOnT _ _ ((hd.ne_chainP hi hj).2.2.1) hOn)
    · rcases hInqC _ hqd with hdc | hq2
      · cases hdc
      · exact Or.inr (Or.inl (hInqT _ hq2))
    · rcases hcpx with ⟨cp, hcp, hx⟩
      refine Or.inr (Or.inr (Or.inl ⟨cp, hcp, ?_⟩))
      rcases hx with hOn | hqd
      · exact Or.inl (hOnT _ _ ((hd.ne_chainP hi hj).2.2.2.2.2.2 cp hcp) hOn)
      · rcases hInqC _ hqd with hdc | hq2
        · cases hdc
        · exact Or.inr (hInqT _ hq2)
    · exact Or.inr (Or.inr (Or.inr (hsetT _ hsett)))
  · intro j hj q2a q3a h2a h3a
    rw [hcount2, hcount] at hj
    rw [hruns, hruns2] at h2a h3a
    rcases hl.l3 j hj q2a q3a h2a h3a with hOn | hqd | hsett
    · exact Or.inl (hOnT _ _
        (Ne.symm ((hd.ne_q2 hj hi h2a).2.2.2.1)) hOn)
    · rcases hInqC _ hqd with hdc | hq2
      · cases hdc
      · exact Or.inr (Or.inl (hInqT _ hq2))
    · exact Or.inr (Or.inr (hsetT _ hsett))
  · intro j hj q3a h3a
    rw [hcount2, hcount] at hj
    rw [hruns, hruns2] at h3a ⊢
    rcases hl.l4 j hj q3a h3a with hOn | hqd | hsett
    · exact Or.inl (hOnT _ _
        (Ne.symm ((hd.ne_q3 hj hi h3a).2.2.2.1)) hOn)
    · rcases hInqC _ hqd with hdc | hq2
      · cases hdc
      · exact Or.inr (Or.inl (hInqT _ hq2))
    · exact Or.inr (Or.inr (hsetT _ hsett))

/-- Progress after popping a teardown stage (the teardown body with a falsy
or non-callable cleanup, or the await of the cleanup call) and resolving
the first teardown promise. -/
theorem InvLive.microQ2Live {s : EffSt} (hc : InvCore s) (hl : InvLive s)
    {i q2 : Nat} {c0 : Cont} {o : Outcome} {rest : List (Cont × Outcome)}
    (hq : s.queue = (c0, o) :: rest)
    (hc0 : c0 = Cont.teardownA i q2 ∨ c0 = Cont.teardownAwait i q2)
    (hi : i < s.runCount) (h2 : (s.runs i).tdP2 = some q2) {s2 : EffSt}
    (hproms : s2.proms = s.proms) (hqueue : s2.queue = rest)
    (hcount : s2.runCount = s.runCount) (hruns2 : s2.runs = s.runs) :
    InvLive (settle q2 (.fulfilled .undef) s2) := by
  have hd := hc.data
  have hInqC : ∀ d, InQueue s d → d = c0 ∨ InQueue s2 d := by
    intro d hin
    rcases hin with ⟨o', ho'⟩
    rw [hq] at ho'
    rcases List.mem_cons.mp ho' with heq | hmem
    · left
      exact congrArg Prod.fst heq
    · right
      refine ⟨o', ?_⟩
      rw [hqueue]
      exact hmem
  have hOnT : ∀ p d, p ≠ q2 → OnProm s p d →
      OnProm (settle q2 (.fulfilled .undef) s2) p d := by
    intro p d hne hOn
    refine settle_onProm_subset_ne _ _ _ _ _ hne ?_
    unfold OnProm at hOn ⊢
    rw [hproms]
    exact hOn
  have hmove : ∀ d, OnProm s q2 d →
      InQueue (settle q2 (.fulfilled .undef) s2) d := by
    intro d hOn
    refine InQueue_of_onProm_settle _ _ _ _ ?_
    unfold OnProm at hOn ⊢
    rw [hproms]
    exact hOn
  have hInqT : ∀ d, InQueue s2 d →
      InQueue (settle q2 (.fulfilled .undef) s2) d :=
    fun d h => InQueue_settle _ _ _ _ h
  have hsetT : ∀ p, (s.proms p).isSettled = true →
      ((settle q2 (.fulfilled .undef) s2).proms p).isSettled = true := by
    intro p h
    refine settle_isSettled_mono _ _ _ _ ?_
    rw [hproms]
    exact h
  have hruns := settle_runs q2 (.fulfilled .undef) s2
  have hcount2 := settle_runCount q2 (.fulfilled .undef) s2
  have hselfset : ((settle q2 (.fulfilled .undef) s2).proms q2).isSettled =
      true := settle_self_isSettled _ _ _
  refine ⟨?_, ?_, ?_, ?_, ?_⟩
  · intro j hj
    rw [hcount2, hcount] at hj
    rw [hruns, hruns2]
    rcases hl.l0 j hj with hOn | hqd | hsett
    · exact Or.inl (hOnT _ _ ((hd.ne_q2 hi hj h2).2.1) hOn)
    · rcases hInqC _ hqd with hdc | hq2d
      · rcases hc0 with rfl | rfl
        · cases hdc
        · cases hdc
      · exact Or.inr (Or.inl (hInqT _ hq2d))
    · exact Or.inr (Or.inr (hsetT _ hsett))
  · intro j hj
    rw [hcount2, hcount] at hj
    rw [hruns, hruns2]
    rcases hl.l1 j hj with hOn | hqd | hOn | hqd | hsett
    · exact Or.inl (hOnT _ _ ((hd.ne_q2 hi hj h2).2.2.1) hOn)
    · rcases hInqC _ hqd with hdc | hq2d
      · rcases hc0 with rfl | rfl
        · cases hdc
        · cases hdc
      · exact Or.inr (Or.inl (hInqT _ hq2d))
    · exact Or.inr (Or.inr (Or.inl (hOnT _ _
        ((hd.ne_q2 hi hj h2).1) hOn)))
    · rcases hInqC _ hqd with hdc | hq2d
      · rcases hc0 with rfl | rfl
        · cases hdc
        · cases hdc
      · exact Or.inr (Or.inr (Or.inr (Or.inl (hInqT _ hq2d))))
    · exact Or.inr (Or.inr (Or.inr (Or.inr (hsetT _ hsett))))
  · intro j hj q2a h2a
    rw [hcount2, hcount] at hj
    rw [hruns, hruns2] at h2a ⊢
    rcases hl.l2 j hj q2a h2a with hOn | hqd | hcpx | hsett
    · exact Or.inl (hOnT _ _ ((hd.ne_q2 hi hj h2).2.2.1) hOn)
    · rcases hInqC _ hqd with hdc | hq2d
      · rcases hc0 with rfl | rfl
        · rw [Cont.teardownA.injEq] at hdc
          rcases hdc with ⟨rfl, rfl⟩
          exact Or.inr (Or.inr (Or.inr hselfset))
        · cases hdc
      · exact Or.inr (Or.inl (hInqT _ hq2d))
    · rcases hcpx with ⟨cp, hcp, hx⟩
      rcases hx with hOn | hqd
      · exact Or.inr (Or.inr (Or.inl ⟨cp, hcp, Or.inl (hOnT _ _
          ((hd.ne_q2 hi hj h2).2.2.2.2.2.2 cp hcp) hOn)⟩))
      · rcases hInqC _ hqd with hdc | hq2d
        · rcases hc0 with rfl | rfl
          · cases hdc
          · rw [Cont.teardownAwait.injEq] at hdc
            rcases hdc with ⟨rfl, rfl⟩
            exact Or.inr (Or.inr (Or.inr hselfset))
        · exact Or.inr (Or.inr (Or.inl ⟨cp, hcp, Or.inr (hInqT _ hq2d)⟩))
    · exact Or.inr (Or.inr (Or.inr (hsetT _ hsett)))
  · intro j hj q2a q3a h2a h3a
    rw [hcount2, hcount] at hj
    rw [hruns, hruns2] at h2a h3a
    rcases hl.l3 j hj q2a q3a h2a h3a with hOn | hqd | hsett
    · by_cases hq2e : q2a = q2
      · subst hq2e
        exact Or.inr (Or.inl (hmove _ hOn))
      · exact Or.inl (hOnT _ _ hq2e hOn)
    · rcases hInqC _ hqd with hdc | hq2d
      · rcases hc0 with rfl | rfl
        · cases hdc
        · cases hdc
      · exact Or.inr (Or.inl (hInqT _ hq2d))
    · exact Or.inr (Or.inr (hsetT _ hsett))
  · intro j hj q3a h3a
    rw [hcount2, hcount] at hj
    rw [hruns, hruns2] at h3a ⊢
    rcases hl.l4 j hj q3a h3a with hOn | hqd | hsett
    · exact Or.inl (hOnT _ _
        ((hd.ne_q2 hi hj h2).2.2.2.2.2.1 q3a h3a) hOn)
    · rcases hInqC _ hqd with hdc | hq2d
      · rcases hc0 with rfl | rfl
        · cases hdc
        · cases hdc
      · exact Or.inr (Or.inl (hInqT _ hq2d))
    · exact Or.inr (Or.inr (hsetT _ hsett))

/-- Progress after popping the teardown catch resumption and resolving the
second teardown promise. -/
theorem InvLive.microQ3Live {s : EffSt} (hc : InvCore s) (hl : InvLive s)
    {i q3 : Nat} {o : Outcome} {rest : List (Cont × Outcome)}
    (hq : s.queue = (Cont.teardownCatch q3, o) :: rest)
    (hi : i < s.runCount) (h3 : (s.runs i).tdP3 = some q3) {s2 : EffSt}
    (hproms : s2.proms = s.proms) (hqueue : s2.queue = rest)
    (hcount : s2.runCount = s.runCount) (hruns2 : s2.runs = s.runs) :
    InvLive (settle q3 (.fulfilled .undef) s2) := by
  have hd := hc.data
  have hInqC : ∀ d, InQueue s d → d = Cont.teardownCatch q3 ∨ InQueue s2 d := by
    intro d hin
    rcases hin with ⟨o', ho'⟩
    rw [hq] at ho'
    rcases List.mem_cons.mp ho' with heq | hmem
    · left
      exact congrArg Prod.fst heq
    · right
      refine ⟨o', ?_⟩
      rw [hqueue]
      exact hmem
  have hOnT : ∀ p d, p ≠ q3 → OnProm s p d →
      OnProm (settle q3 (.fulfilled .undef) s2) p d := by
    intro p d hne hOn
    refine settle_onProm_subset_ne _ _ _ _ _ hne ?_
    unfold OnProm at hOn ⊢
    rw [hproms]
    exact hOn
  have hmove : ∀ d, OnProm s q3 d →
      InQueue (settle q3 (.fulfilled .undef) s2) d := by
    intro d hOn
    refine InQueue_of_onProm_settle _ _ _ _ ?_
    unfold OnProm at hOn ⊢
    rw [hproms]
    exact hOn
  have hInqT : ∀ d, InQueue s2 d →
      InQueue (settle q3 (.fulfilled .undef) s2) d :=
    fun d h => InQueue_settle _ _ _ _ h
  have hsetT : ∀ p, (s.proms p).isSettled = true →
      ((settle q3 (.fulfilled .undef) s2).proms p).isSettled = true := by
    intro p h
    refine settle_isSettled_mono _ _ _ _ ?_
    rw [hproms]
    exact h
  have hruns := settle_runs q3 (.fulfilled .undef) s2
  have hcount2 := settle_runCount q3 (.fulfilled .undef) s2
  have hselfset : ((settle q3 (.fulfilled .undef) s2).proms q3).isSettled =
      true := settle_self_isSettled _ _ _
  refine ⟨?_, ?_, ?_, ?_, ?_⟩
  · intro j hj
    rw [hcount2, hcount] at hj
    rw [hruns, hruns2]
    rcases hl.l0 j hj with hOn | hqd | hsett
    · exact Or.inl (hOnT _ _ ((hd.ne_q3 hi hj h3).2.1) hOn)
    · rcases hInqC _ hqd with hdc | hq2d
      · cases hdc
      · exact Or.inr (Or.inl (hInqT _ hq2d))
    · exact Or.inr (Or.inr (hsetT _ hsett))
  · intro j hj
    rw [hcount2, hcount] at hj
    rw [hruns, hruns2]
    rcases hl.l1 j hj with hOn | hqd | hOn | hqd | hsett
    · exact Or.inl (hOnT _ _ ((hd.ne_q3 hi hj h3).2.2.1) hOn)
    · rcases hInqC _ hqd with hdc | hq2d
      · cases hdc
      · exact Or.inr (Or.inl (hInqT _ hq2d))
    · exact Or.inr (Or.inr (Or.inl (hOnT _ _ ((hd.ne_q3 hi hj h3).1) hOn)))
    · rcases hInqC _ hqd with hdc | hq2d
      · cases hdc
      · exact Or.inr (Or.inr (Or.inr (Or.inl (hInqT _ hq2d))))
    · exact Or.inr (Or.inr (Or.inr (Or.inr (hsetT _ hsett))))
  · intro j hj q2a h2a
    rw [hcount2, hcount] at hj
    rw [hruns, hruns2] at h2a ⊢
    rcases hl.l2 j hj q2a h2a with hOn | hqd | hcpx | hsett
    · exact Or.inl (hOnT _ _ ((hd.ne_q3 hi hj h3).2.2.1) hOn)
    · rcases hInqC _ hqd with hdc | hq2d
      · cases hdc
      · exact Or.inr (Or.inl (hInqT _ hq2d))
    · rcases hcpx with ⟨cp, hcp, hx⟩
      rcases hx with hOn | hqd
      · exact Or.inr (Or.inr (Or.inl ⟨cp, hcp, Or.inl (hOnT _ _
          ((hd.ne_q3 hi hj h3).2.2.2.2.2.2 cp hcp) hOn)⟩))
      · rcases hInqC _ hqd with hdc | hq2d
        · cases hdc
        · exact Or.inr (Or.inr (Or.inl ⟨cp, hcp, Or.inr (hInqT _ hq2d)⟩))
    · exact Or.inr (Or.inr (Or.inr (hsetT _ hsett)))
  · intro j hj q2a q3a h2a h3a
    rw [hcount2, hcount] at hj
    rw [hruns, hruns2] at h2a h3a
    rcases hl.l3 j hj q2a q3a h2a h3a with hOn | hqd | hsett
    · exact Or.inl (hOnT _ _ ((hd.ne_q3 hi hj h3).2.2.2.2.1 q2a h2a) hOn)
    · rcases hInqC _ hqd with hdc | hq2d
      · rw [Cont.teardownCatch.injEq] at hdc
        refine Or.inr (Or.inr ?_)
        rw [hdc]
        exact hselfset
      · exact Or.inr (Or.inl (hInqT _ hq2d))
    · exact Or.inr (Or.inr (hsetT _ hsett))
  · intro j hj q3a h3a
    rw [hcount2, hcount] at hj
    rw [hruns, hruns2] at h3a ⊢
    rcases hl.l4 j hj q3a h3a with hOn | hqd | hsett
    · by_cases hq3e : q3a = q3
      · subst hq3e
        exact Or.inr (Or.inl (hmove _ hOn))
      · exact Or.inl (hOnT _ _ hq3e hOn)
    · rcases hInqC _ hqd with hdc | hq2d
      · cases hdc
      · exact Or.inr (Or.inl (hInqT _ hq2d))
    · exact Or.inr (Or.inr (hsetT _ hsett))

/-- Progress after popping the final teardown resumption (`teardownB`) and
manually resolving `cleanupPromise`. -/
theorem InvLive.microCleanupLive {s : EffSt} (hc : InvCore s) (hl : InvLive s)
    {i : Nat} {o : Outcome} {rest : List (Cont × Outcome)}
    (hq : s.queue = (Cont.teardownB i, o) :: rest)
    (hi : i < s.runCount) {s2 : EffSt}
    (hproms : s2.proms = s.proms) (hqueue : s2.queue = rest)
    (hcount : s2.runCount = s.runCount) (hruns2 : s2.runs = s.runs) :
    InvLive (settle (s.runs i).cleanupP (.fulfilled .undef) s2) := by
  have hd := hc.data
  have hInqC : ∀ d, InQueue s d → d = Cont.teardownB i ∨ InQueue s2 d := by
    intro d hin
    rcases hin with ⟨o', ho'⟩
    rw [hq] at ho'
    rcases List.mem_cons.mp ho' with heq | hmem
    · left
      exact congrArg Prod.fst heq
    · right
      refine ⟨o', ?_⟩
      rw [hqueue]
      exact hmem
  have hOnT : ∀ p d, p ≠ (s.runs i).cleanupP → OnProm s p d →
      OnProm (settle (s.runs i).cleanupP (.fulfilled .undef) s2) p d := by
    intro p d hne hOn
    refine settle_onProm_subset_ne _ _ _ _ _ hne ?_
    unfold OnProm at hOn ⊢
    rw [hproms]
    exact hOn
  have hmove : ∀ d, OnProm s (s.runs i).cleanupP d →
      InQueue (settle (s.runs i).cleanupP (.fulfilled .undef) s2) d := by
    intro d hOn
    refine InQueue_of_onProm_settle _ _ _ _ ?_
    unfold OnProm at hOn ⊢
    rw [hproms]
    exact hOn
  have hInqT : ∀ d, InQueue s2 d →
      InQueue (settle (s.runs i).cleanupP (.fulfilled .undef) s2) d :=
    fun d h => InQueue_settle _ _ _ _ h
  have hsetT : ∀ p, (s.proms p).isSettled = true →
      ((settle (s.runs i).cleanupP (.fulfilled .undef) s2).proms p).isSettled =
        true := by
    intro p h
    refine settle_isSettled_mono _ _ _ _ ?_
    rw [hproms]
    exact h
  have hruns := settle_runs (s.runs i).cleanupP (.fulfilled .undef) s2
  have hcount2 := settle_runCount (s.runs i).cleanupP (.fulfilled .undef) s2
  have hselfset : ((settle (s.runs i).cleanupP (.fulfilled .undef) s2).proms
      (s.runs i).cleanupP).isSettled = true := settle_self_isSettled _ _ _
  refine ⟨?_, ?_, ?_, ?_, ?_⟩
  · intro j hj
    rw [hcount2, hcount] at hj
    rw [hruns, hruns2]
    rcases hl.l0 j hj with hOn | hqd | hsett
    · exact Or.inl (hOnT _ _ ((hd.ne_cleanupP hi hj).1) hOn)
    · rcases hInqC _ hqd with hdc | hq2d
      · cases hdc
      · exact Or.inr (Or.inl (hInqT _ hq2d))
    · exact Or.inr (Or.inr (hsetT _ hsett))
  · intro j hj
    rw [hcount2, hcount] at hj
    rw [hruns, hruns2]
    rcases hl.l1 j hj with hOn | hqd | hOn | hqd | hsett
    · exact Or.inl (hOnT _ _ ((hd.ne_cleanupP hi hj).2.1) hOn)
    · rcases hInqC _ hqd with hdc | hq2d
      · cases hdc
      · exact Or.inr (Or.inl (hInqT _ hq2d))
    · by_cases hji : j = i
      · subst hji
        exact Or.inr (Or.inr (Or.inr (Or.inl (hmove _ hOn))))
      · exact Or.inr (Or.inr (Or.inl (hOnT _ _
          ((hd.ne_cleanupP hi hj).2.2.2.1 hji) hOn)))
    · rcases hInqC _ hqd with hdc | hq2d
      · cases hdc
      · exact Or.inr (Or.inr (Or.inr (Or.inl (hInqT _ hq2d))))
    · exact Or.inr (Or.inr (Or.inr (Or.inr (hsetT _ hsett))))
  · intro j hj q2a h2a
    rw [hcount2, hcount] at hj
    rw [hruns, hruns2] at h2a ⊢
    rcases hl.l2 j hj q2a h2a with hOn | hqd | hcpx | hsett
    · exact Or.inl (hOnT _ _ ((hd.ne_cleanupP hi hj).2.1) hOn)
    · rcases hInqC _ hqd with hdc | hq2d
      · cases hdc
      · exact Or.inr (Or.inl (hInqT _ hq2d))
    · rcases hcpx with ⟨cp, hcp, hx⟩
      rcases hx with hOn | hqd
      · exact Or.inr (Or.inr (Or.inl ⟨cp, hcp, Or.inl (hOnT _ _
          ((hd.ne_cleanupP hi hj).2.2.2.2.2.2 cp hcp) hOn)⟩))
      · rcases hInqC _ hqd with hdc | hq2d
        · cases hdc
        · exact Or.inr (Or.inr (Or.inl ⟨cp, hcp, Or.inr (hInqT _ hq2d)⟩))
    · exact Or.inr (Or.inr (Or.inr (hsetT _ hsett)))
  · intro j hj q2a q3a h2a h3a
    rw [hcount2, hcount] at hj
    rw [hruns, hruns2] at h2a h3a
    rcases hl.l3 j hj q2a q3a h2a h3a with hOn | hqd | hsett
    · exact Or.inl (hOnT _ _
        ((hd.ne_cleanupP hi hj).2.2.2.2.1 q2a h2a) hOn)
    · rcases hInqC _ hqd with hdc | hq2d
      · cases hdc
      · exact Or.inr (Or.inl (hInqT _ hq2d))
    · exact Or.inr (Or.inr (hsetT _ hsett))
  · intro j hj q3a h3a
    rw [hcount2, hcount] at hj
    rw [hruns, hruns2] at h3a ⊢
    rcases hl.l4 j hj q3a h3a with hOn | hqd | hsett
    · exact Or.inl (hOnT _ _
        ((hd.ne_cleanupP hi hj).2.2.2.2.2.1 q3a h3a) hOn)
    · rcases hInqC _ hqd with hdc | hq2d
      · rw [Cont.teardownB.injEq] at hdc
        subst hdc
        exact Or.inr (Or.inr hselfset)
      · exact Or.inr (Or.inl (hInqT _ hq2d))
    · exact Or.inr (Or.inr (hsetT _ hsett))

/-- Progress after popping the teardown body with a callable cleanup: the
call promise is allocated with the `await` resumption on it, which is the
third disjunct of the teardown progress field. -/
theorem InvLive.microAllocLive {s : EffSt} (hc : InvCore s) (hl : InvLive s)
    {i q2 : Nat} {o : Outcome} {rest : List (Cont × Outcome)}
    (hq : s.queue = (Cont.teardownA i q2, o) :: rest)
    (hi : i < s.runCount) (h2 : (s.runs i).tdP2 = some q2) {sA : EffSt}
    (hpromsA : sA.proms =
      updFn s.proms s.nextId (Prom.pending [.teardownAwait i q2]))
    (hqueueA : sA.queue = rest) (hcountA : sA.runCount = s.runCount)
    (hrunsA : sA.runs =
      updFn s.runs i { s.runs i with callP := some s.nextId }) :
    InvLive sA := by
  have hd := hc.data
  have hidlt : ∀ j, j < s.runCount → (s.runs j).cleanupP < s.nextId ∧
      (s.runs j).effP < s.nextId ∧ (s.runs j).cep < s.nextId ∧
      (s.runs j).chainP < s.nextId := by
    intro j hj
    have ho := hd.order j hj
    have hb := hd.bounds j hj
    omega
  have h2lt : ∀ j, j < s.runCount → ∀ q, (s.runs j).tdP2 = some q →
      q < s.nextId := by
    intro j hj q hqx
    rcases hd.td_some hj hqx with ⟨q3, h3, _, he⟩
    have := (hd.bounds j hj).2.1 q3 h3
    omega
  have h3lt : ∀ j, j < s.runCount → ∀ q, (s.runs j).tdP3 = some q →
      q < s.nextId := fun j hj q hqx => (hd.bounds j hj).2.1 q hqx
  have hcplt : ∀ j, j < s.runCount → ∀ q, (s.runs j).callP = some q →
      q < s.nextId := fun j hj q hqx => (hd.bounds j hj).2.2 q hqx
  have hrio : updFn s.runs i { s.runs i with callP := some s.nextId } i =
      { s.runs i with callP := some s.nextId } := updFn_self _ _ _
  have hrne : ∀ j, j ≠ i →
      updFn s.runs i { s.runs i with callP := some s.nextId } j = s.runs j :=
    fun j hj => updFn_ne _ _ _ _ hj
  have hproj8 : ∀ j,
      (sA.runs j).effP = (s.runs j).effP ∧
      (sA.runs j).cep = (s.runs j).cep ∧
      (sA.runs j).cleanupP = (s.runs j).cleanupP ∧
      (sA.runs j).chainP = (s.runs j).chainP ∧
      (sA.runs j).tdP2 = (s.runs j).tdP2 ∧
      (sA.runs j).tdP3 = (s.runs j).tdP3 := by
    intro j
    rw [hrunsA]
    by_cases hj : j = i
    · subst hj
      rw [hrio]
      exact ⟨rfl, rfl, rfl, rfl, rfl, rfl⟩
    · rw [hrne j hj]
      exact ⟨rfl, rfl, rfl, rfl, rfl, rfl⟩
  have hcallpi : (sA.runs i).callP = some s.nextId := by
    rw [hrunsA, hrio]
  have hcallpne : ∀ j, j ≠ i → (sA.runs j).callP = (s.runs j).callP := by
    intro j hj
    rw [hrunsA, hrne j hj]
  have hInqC : ∀ d, InQueue s d → d = Cont.teardownA i q2 ∨ InQueue sA d := by
    intro d hin
    rcases hin with ⟨o', ho'⟩
    rw [hq] at ho'
    rcases List.mem_cons.mp ho' with heq | hmem
    · left
      exact congrArg Prod.fst heq
    · right
      refine ⟨o', ?_⟩
      rw [hqueueA]
      exact hmem
  have hOnT : ∀ p d, p < s.nextId → OnProm s p d → OnProm sA p d := by
    intro p d hplt hOn
    unfold OnProm at hOn ⊢
    rw [hpromsA, updFn_ne _ _ _ _ (by omega)]
    exact hOn
  have hsetT : ∀ p, p < s.nextId → (s.proms p).isSettled = true →
      ((sA.proms p)).isSettled = true := by
    intro p hplt h
    rw [hpromsA, updFn_ne _ _ _ _ (by omega)]
    exact h
  refine ⟨?_, ?_, ?_, ?_, ?_⟩
  · intro j hj
    rw [hcountA] at hj
    rw [(hproj8 j).1, (hproj8 j).2.1]
    rcases hl.l0 j hj with hOn | hqd | hsett
    · exact Or.inl (hOnT _ _ (hidlt j hj).2.1 hOn)
    · rcases hInqC _ hqd with hdc | hq2d
      · cases hdc
      · exact Or.inr (Or.inl hq2d)
    · exact Or.inr (Or.inr (hsetT _ (hidlt j hj).2.2.1 hsett))
  · intro j hj
    rw [hcountA] at hj
    rw [(hproj8 j).2.1, (hproj8 j).2.2.1, (hproj8 j).2.2.2.1]
    rcases hl.l1 j hj with hOn | hqd | hOn | hqd | hsett
    · exact Or.inl (hOnT _ _ (hidlt j hj).2.2.1 hOn)
    · rcases hInqC _ hqd with hdc | hq2d
      · cases hdc
      · exact Or.inr (Or.inl hq2d)
    · exact Or.inr (Or.inr (Or.inl (hOnT _ _ (hidlt j hj).1 hOn)))
    · rcases hInqC _ hqd with hdc | hq2d
      · cases hdc
      · exact Or.inr (Or.inr (Or.inr (Or.inl hq2d)))
    · exact Or.inr (Or.inr (Or.inr (Or.inr
        (hsetT _ (hidlt j hj).2.2.2 hsett))))
  · intro j hj q2a h2a
    rw [hcountA] at hj
    rw [(hproj8 j).2.2.2.2.1] at h2a
    rw [(hproj8 j).2.1]
    by_cases hji : j = i
    · subst hji
      have hq2e : q2a = q2 := by
        rw [h2a] at h2
        cases h2
        rfl
      subst hq2e
      refine Or.inr (Or.inr (Or.inl ⟨s.nextId, hcallpi, Or.inl ?_⟩))
      unfold OnProm
      rw [hpromsA, updFn_self]
      simp [Prom.contsOf]
    · rw [hcallpne j hji]
      rcases hl.l2 j hj q2a h2a with hOn | hqd | hcpx | hsett
      · exact Or.inl (hOnT _ _ (hidlt j hj).2.2.1 hOn)
      · rcases hInqC _ hqd with hdc | hq2d
        · rw [Cont.teardownA.injEq] at hdc
          exact absurd hdc.1 hji
        · exact Or.inr (Or.inl hq2d)
      · rcases hcpx with ⟨cp, hcp, hx⟩
        rcases hx with hOn | hqd
        · exact Or.inr (Or.inr (Or.inl ⟨cp, hcp, Or.inl
            (hOnT _ _ (hcplt j hj cp hcp) hOn)⟩))
        · rcases hInqC _ hqd with hdc | hq2d
          · cases hdc
          · exact Or.inr (Or.inr (Or.inl ⟨cp, hcp, Or.inr hq2d⟩))
      · exact Or.inr (Or.inr (Or.inr
          (hsetT _ (h2lt j hj q2a h2a) hsett)))
  · intro j hj q2a q3a h2a h3a
    rw [hcountA] at hj
    rw [(hproj8 j).2.2.2.2.1] at h2a
    rw [(hproj8 j).2.2.2.2.2] at h3a
    rcases hl.l3 j hj q2a q3a h2a h3a with hOn | hqd | hsett
    · exact Or.inl (hOnT _ _ (h2lt j hj q2a h2a) hOn)
    · rcases hInqC _ hqd with hdc | hq2d
      · cases hdc
      · exact Or.inr (Or.inl hq2d)
    · exact Or.inr (Or.inr (hsetT _ (h3lt j hj q3a h3a) hsett))
  · intro j hj q3a h3a
    rw [hcountA] at hj
    rw [(hproj8 j).2.2.2.2.2] at h3a
    rw [(hproj8 j).2.2.1]
    rcases hl.l4 j hj q3a h3a with hOn | hqd | hsett
    · exact Or.inl (hOnT _ _ (h3lt j hj q3a h3a) hOn)
    · rcases hInqC _ hqd with hdc | hq2d
      · cases hdc
      · exact Or.inr (Or.inl hq2d)
    · exact Or.inr (Or.inr (hsetT _ (hidlt j hj).1 hsett))

/-- Removing the queue head preserves the pop-stable part. -/
theorem InvCore.pop {s : EffSt} (hc : InvCore s) (t : Cont × Outcome)
    (rest : List (Cont × Outcome)) (hq : s.queue = t :: rest) :
    InvCore { s with queue := rest } := by
  have hmem : ∀ u : Cont × Outcome, u ∈ rest → u ∈ s.queue := by
    intro u hu
    rw [hq]
    exact List.mem_cons_of_mem t hu
  refine ⟨hc.data.frames rfl rfl rfl le_rfl,
    hc.fresh, hc.prom0, hc.callp_cep, ?_, ?_, ?_, ?_,
    hc.s1, hc.s2, hc.s3, hc.s4, hc.s5⟩
  · intro p c hOn
    exact ContAt.framesContAt rfl le_rfl (hc.placement p c hOn)
  · intro c o ht
    exact TaskOK.framesTaskOK rfl le_rfl (fun q _ => rfl)
      (hc.queue_ok c o (hmem (c, o) ht))
  · intro i hi q2 h2
    have hle : tdAOcc { s with queue := rest } i q2 ≤ tdAOcc s i q2 := by
      unfold tdAOcc
      have : List.countP (fun u => decide (u.1 = Cont.teardownA i q2)) s.queue =
          List.countP (fun u => decide (u.1 = Cont.teardownA i q2)) (t :: rest) := by
        rw [hq]
      rw [this, List.countP_cons]
      simp only
      omega
    rcases hc.tdA_count i hi q2 h2 with ⟨h1, hcall⟩
    exact ⟨by omega, fun cp hcp => by have := hcall cp hcp; omega⟩
  · intro i hi q2 h2 hoccur
    refine hc.tdA_q2_pending i hi q2 h2 ?_
    rcases hoccur with h | ⟨o', ho'⟩
    · exact Or.inl h
    · exact Or.inr ⟨o', hmem _ ho'⟩

/-- Draining one microtask preserves the whole invariant.  The popped task
carries the settled outcome of its trigger promise (queue_ok), which rules
out the rejection branches of continuations whose trigger can only be
fulfilled, and each continuation re-establishes the progress disjunction
its stage occupied. -/
theorem Inv.microPres {s : EffSt} (hs : Inv s) : Inv (step .micro s) := by
  have hc := hs.core
  have hl := hs.live
  have hd := hc.data
  unfold step
  show Inv (match s.queue with
    | [] => s
    | t :: rest2 => runTask t.1 t.2 { s with queue := rest2 })
  rcases hq : s.queue with _ | ⟨⟨c, o⟩, rest⟩
  · exact hs
  · show Inv (runTask c o { s with queue := rest })
    have htk : TaskOK s c o := hc.queue_ok c o (by
      rw [hq]
      exact List.mem_cons_self _ _)
    have hcs1 : InvCore { s with queue := rest } := hc.pop (c, o) rest hq
    have hs1p : (({ s with queue := rest } : EffSt)).proms = s.proms := rfl
    have hs1q : (({ s with queue := rest } : EffSt)).queue = rest := rfl
    have hs1c : (({ s with queue := rest } : EffSt)).runCount = s.runCount := rfl
    have hs1r : (({ s with queue := rest } : EffSt)).runs = s.runs := rfl
    cases c with
    | execEffect i =>
      obtain ⟨hi, hpe⟩ := htk
      have heff : (s.proms (s.runs i).effP).isSettled = true := by
        rw [hpe]
        exact Outcome.toProm_isSettled o
      cases o with
      | fulfilled v =>
        show Inv (settle (s.runs i).cep (.fulfilled .undef)
          (updRun i (fun r => { r with cleanupVal := v })
            { s with queue := rest }))
        constructor
        · have hcs2 := hcs1.updRun_cleanupVal i v
          have heff2 : ((updRun i (fun r => { r with cleanupVal := v })
              { s with queue := rest }).proms
              ((updRun i (fun r => { r with cleanupVal := v })
                { s with queue := rest }).runs i).effP).isSettled = true := by
            rw [(runs_proj_updCleanupVal { s with queue := rest } i v i).1]
            exact heff
          have hres := hcs2.settleCep (i := i) hi heff2
          have hcepb : ((updRun i (fun r => { r with cleanupVal := v })
              { s with queue := rest }).runs i).cep = (s.runs i).cep :=
            (runs_proj_updCleanupVal { s with queue := rest } i v i).2.1
          rw [hcepb] at hres
          exact hres
        · have hprojb : RunsProj s (updRun i (fun r => { r with cleanupVal := v })
              { s with queue := rest }) :=
            runs_proj_updCleanupVal { s with queue := rest } i v
          have hpq : (updRun i (fun r => { r with cleanupVal := v })
              { s with queue := rest }).proms = s.proms := rfl
          have hqq : (updRun i (fun r => { r with cleanupVal := v })
              { s with queue := rest }).queue = rest := rfl
          have hcq : (updRun i (fun r => { r with cleanupVal := v })
              { s with queue := rest }).runCount = s.runCount := rfl
          have hlv := InvLive.microExecLive hc hl hq hi hpq hqq hcq hprojb
          have hcepb : ((updRun i (fun r => { r with cleanupVal := v })
              { s with queue := rest }).runs i).cep = (s.runs i).cep :=
            (runs_proj_updCleanupVal { s with queue := rest } i v i).2.1
          rw [hcepb] at hlv
          exact hlv
      | rejected e =>
        show Inv (settle (s.runs i).cep (.fulfilled .undef)
          (if s.mounted then
            pushLog ⟨.actionErr, i, s.mounted⟩ { s with queue := rest }
          else { s with queue := rest }))
        by_cases hm : s.mounted = true
        · rw [if_pos hm]
          constructor
          · have hcs2 : InvCore (pushLog ⟨.actionErr, i, s.mounted⟩
                { s with queue := rest }) :=
              hcs1.defeq_frames rfl rfl rfl rfl rfl rfl
            exact hcs2.settleCep (i := i) hi heff
          · have hprojb : RunsProj s (pushLog ⟨.actionErr, i, s.mounted⟩
                { s with queue := rest }) :=
              fun j => ⟨rfl, rfl, rfl, rfl, rfl, rfl, rfl, rfl, rfl⟩
            have hpq : (pushLog ⟨.actionErr, i, s.mounted⟩
                { s with queue := rest }).proms = s.proms := rfl
            have hqq : (pushLog ⟨.actionErr, i, s.mounted⟩
                { s with queue := rest }).queue = rest := rfl
            have hcq : (pushLog ⟨.actionErr, i, s.mounted⟩
                { s with queue := rest }).runCount = s.runCount := rfl
            exact InvLive.microExecLive hc hl hq hi hpq hqq hcq hprojb
        · rw [if_neg hm]
          constructor
          · exact hcs1.settleCep (i := i) hi heff
          · have hprojb : RunsProj s ({ s with queue := rest } : EffSt) :=
              fun j => ⟨rfl, rfl, rfl, rfl, rfl, rfl, rfl, rfl, rfl⟩
            exact InvLive.microExecLive hc hl hq hi hs1p hs1q hs1c hprojb
    | chainLink1 i ch =>
      obtain ⟨hi, hch, hpe⟩ := htk
      have hcepset : (s.proms (s.runs i).cep).isSettled = true := by
        rw [hpe]
        exact Outcome.toProm_isSettled o
      have hful := (hc.s1 i hi hcepset).1
      subst hch
      cases o with
      | fulfilled v =>
        show Inv (subscribe (s.runs i).cleanupP
          (.chainLink2 (s.runs i).chainP) { s with queue := rest })
        exact ⟨hcs1.subChainLink2 hi, InvLive.microChain1Live hl hq hi⟩
      | rejected e =>
        exfalso
        rw [hful] at hpe
        cases hpe
    | chainLink2 ch =>
      obtain ⟨i, hi, hch, hpe⟩ := htk
      have hclnset : (s.proms (s.runs i).cleanupP).isSettled = true := by
        rw [hpe]
        exact Outcome.toProm_isSettled o
      rcases hc.s4 i hi hclnset with ⟨hful, q3, h3, hq3s⟩
      rcases hc.s3 i hi q3 h3 hq3s with ⟨_, hq2s⟩
      rcases hd.td3_some hi h3 with ⟨q2, h2x, _, _⟩
      rcases hc.s2 i hi q2 h2x (hq2s q2 h2x) with ⟨_, hcepset, _⟩
      subst hch
      cases o with
      | fulfilled v =>
        have hv : v = JSVal.undef := by
          rw [hful] at hpe
          cases hpe
          rfl
        subst hv
        show Inv (settle (s.runs i).chainP (.fulfilled .undef)
          { s with queue := rest })
        exact ⟨hcs1.settleChainP hi hclnset hcepset,
          InvLive.microChainPLive hc hl hq hi hs1p hs1q hs1c hs1r⟩
      | rejected e =>
        exfalso
        rw [hful] at hpe
        cases hpe
    | teardownA i q2 =>
      obtain ⟨hi, h2, hpe⟩ := htk
      have hcepset : (s.proms (s.runs i).cep).isSettled = true := by
        rw [hpe]
        exact Outcome.toProm_isSettled o
      have hful := (hc.s1 i hi hcepset).1
      have hcallnone : (s.runs i).callP = none := by
        cases hcp : (s.runs i).callP with
        | none => rfl
        | some cp =>
          have hz := (hc.tdA_count i hi q2 h2).2 cp hcp
          have hcnt1 : 1 ≤ List.countP
              (fun t => decide (t.1 = Cont.teardownA i q2)) s.queue := by
            rw [hq, List.countP_cons]
            simp
          unfold tdAOcc at hz
          omega
      have hocc0r : tdAOcc { s with queue := rest } i q2 = 0 := by
        have hle := (hc.tdA_count i hi q2 h2).1
        have hcnteq : List.countP
            (fun t => decide (t.1 = Cont.teardownA i q2)) s.queue =
            List.countP (fun t => decide (t.1 = Cont.teardownA i q2)) rest + 1 := by
          rw [hq, List.countP_cons]
          simp
        unfold tdAOcc at hle ⊢
        show (s.proms (s.runs i).cep).contsOf.count (Cont.teardownA i q2) +
          List.countP (fun t => decide (t.1 = Cont.teardownA i q2)) rest = 0
        omega
      have hq2pend : (s.proms q2).isSettled = false :=
        hc.tdA_q2_pending i hi q2 h2
          (Or.inr ⟨o, by rw [hq]; exact List.mem_cons_self _ _⟩)
      cases o with
      | rejected e =>
        exfalso
        rw [hful] at hpe
        cases hpe
      | fulfilled v =>
        show Inv (if (s.runs i).cleanupVal.truthy = false
          then settle q2 (.fulfilled .undef) { s with queue := rest }
          else
            match (s.runs i).cleanupVal with
            | .fn _ => { s with
                queue := rest,
                nextId := s.nextId + 1,
                proms := updFn s.proms s.nextId
                  (.pending [.teardownAwait i q2]),
                runs := updFn s.runs i { s.runs i with callP := some s.nextId },
                calls := s.calls ++ [⟨i, true⟩] }
            | _ => settle q2 (.fulfilled .undef)
                (pushLog ⟨.cleanupErr, i, s.mounted⟩
                  (pushCall ⟨i, false⟩ { s with queue := rest })))
        have hcallA : ∀ cp, (s.runs i).callP = some cp →
            ((({ s with queue := rest } : EffSt)).proms cp).isSettled = true := by
          intro cp hcp
          rw [hcallnone] at hcp
          cases hcp
        by_cases htr : (s.runs i).cleanupVal.truthy = false
        · rw [if_pos htr]
          exact ⟨hcs1.settleQ2 hi h2 hcepset hcallA hocc0r,
            InvLive.microQ2Live hc hl hq (Or.inl rfl) hi h2 hs1p hs1q hs1c hs1r⟩
        · rw [if_neg htr]
          cases hcv : (s.runs i).cleanupVal with
          | fn k =>
            constructor
            · exact hcs1.allocCallP hi h2 hcepset hocc0r hcallnone hq2pend
            · have hpa : (({ s with
                  queue := rest,
                  nextId := s.nextId + 1,
                  proms := updFn s.proms s.nextId
                    (.pending [.teardownAwait i q2]),
                  runs := updFn s.runs i { s.runs i with callP := some s.nextId },
                  calls := s.calls ++ [⟨i, true⟩] } : EffSt)).proms =
                  updFn s.proms s.nextId (Prom.pending [.teardownAwait i q2]) := rfl
              have hqa : (({ s with
                  queue := rest,
                  nextId := s.nextId + 1,
                  proms := updFn s.proms s.nextId
                    (.pending [.teardownAwait i q2]),
                  runs := updFn s.runs i { s.runs i with callP := some s.nextId },
                  calls := s.calls ++ [⟨i, true⟩] } : EffSt)).queue = rest := rfl
              have hca : (({ s with
                  queue := rest,
                  nextId := s.nextId + 1,
                  proms := updFn s.proms s.nextId
                    (.pending [.teardownAwait i q2]),
                  runs := updFn s.runs i { s.runs i with callP := some s.nextId },
                  calls := s.calls ++ [⟨i, true⟩] } : EffSt)).runCount =
                  s.runCount := rfl
              have hra : (({ s with
                  queue := rest,
                  nextId := s.nextId + 1,
                  proms := updFn s.proms s.nextId
                    (.pending [.teardownAwait i q2]),
                  runs := updFn s.runs i { s.runs i with callP := some s.nextId },
                  calls := s.calls ++ [⟨i, true⟩] } : EffSt)).runs =
                  updFn s.runs i { s.runs i with callP := some s.nextId } := rfl
              exact InvLive.microAllocLive hc hl hq hi h2 hpa hqa hca hra
          | undef =>
            refine ⟨?_, ?_⟩
            · have hcs2 : InvCore (pushLog ⟨.cleanupErr, i, s.mounted⟩
                  (pushCall ⟨i, false⟩ { s with queue := rest })) :=
                hcs1.defeq_frames rfl rfl rfl rfl rfl rfl
              exact hcs2.settleQ2 hi h2 hcepset hcallA hocc0r
            · have hpq : (pushLog ⟨.cleanupErr, i, s.mounted⟩
                  (pushCall ⟨i, false⟩ { s with queue := rest })).proms =
                  s.proms := rfl
              have hqq : (pushLog ⟨.cleanupErr, i, s.mounted⟩
                  (pushCall ⟨i, false⟩ { s with queue := rest })).queue =
                  rest := rfl
              have hcq : (pushLog ⟨.cleanupErr, i, s.mounted⟩
                  (pushCall ⟨i, false⟩ { s with queue := rest })).runCount =
                  s.runCount := rfl
              have hrq : (pushLog ⟨.cleanupErr, i, s.mounted⟩
                  (pushCall ⟨i, false⟩ { s with queue := rest })).runs =
                  s.runs := rfl
              exact InvLive.microQ2Live hc hl hq (Or.inl rfl) hi h2
                hpq hqq hcq hrq
          | null =>
            refine ⟨?_, ?_⟩
            · have hcs2 : InvCore (pushLog ⟨.cleanupErr, i, s.mounted⟩
                  (pushCall ⟨i, false⟩ { s with queue := rest })) :=
                hcs1.defeq_frames rfl rfl rfl rfl rfl rfl
              exact hcs2.settleQ2 hi h2 hcepset hcallA hocc0r
            · have hpq : (pushLog ⟨.cleanupErr, i, s.mounted⟩
                  (pushCall ⟨i, false⟩ { s with queue := rest })).proms =
                  s.proms := rfl
              have hqq : (pushLog ⟨.cleanupErr, i, s.mounted⟩
                  (pushCall ⟨i, false⟩ { s with queue := rest })).queue =
                  rest := rfl
              have hcq : (pushLog ⟨.cleanupErr, i, s.mounted⟩
                  (pushCall ⟨i, false⟩ { s with queue := rest })).runCount =
                  s.runCount := rfl
              have hrq : (pushLog ⟨.cleanupErr, i, s.mounted⟩
                  (pushCall ⟨i, false⟩ { s with queue := rest })).runs =
                  s.runs := rfl
              exact InvLive.microQ2Live hc hl hq (Or.inl rfl) hi h2
                hpq hqq hcq hrq
          | bool b =>
            refine ⟨?_, ?_⟩
            · have hcs2 : InvCore (pushLog ⟨.cleanupErr, i, s.mounted⟩
                  (pushCall ⟨i, false⟩ { s with queue := rest })) :=
                hcs1.defeq_frames rfl rfl rfl rfl rfl rfl
              exact hcs2.settleQ2 hi h2 hcepset hcallA hocc0r
            · have hpq : (pushLog ⟨.cleanupErr, i, s.mounted⟩
                  (pushCall ⟨i, false⟩ { s with queue := rest })).proms =
                  s.proms := rfl
              have hqq : (pushLog ⟨.cleanupErr, i, s.mounted⟩
                  (pushCall ⟨i, false⟩ { s with queue := rest })).queue =
                  rest := rfl
              have hcq : (pushLog ⟨.cleanupErr, i, s.mounted⟩
                  (pushCall ⟨i, false⟩ { s with queue := rest })).runCount =
                  s.runCount := rfl
              have hrq : (pushLog ⟨.cleanupErr, i, s.mounted⟩
                  (pushCall ⟨i, false⟩ { s with queue := rest })).runs =
                  s.runs := rfl
              exact InvLive.microQ2Live hc hl hq (Or.inl rfl) hi h2
                hpq hqq hcq hrq
          | num n =>
            refine ⟨?_, ?_⟩
            · have hcs2 : InvCore (pushLog ⟨.cleanupErr, i, s.mounted⟩
                  (pushCall ⟨i, false⟩ { s with queue := rest })) :=
                hcs1.defeq_frames rfl rfl rfl rfl rfl rfl
              exact hcs2.settleQ2 hi h2 hcepset hcallA hocc0r
            · have hpq : (pushLog ⟨.cleanupErr, i, s.mounted⟩
                  (pushCall ⟨i, false⟩ { s with queue := rest })).proms =
                  s.proms := rfl
              have hqq : (pushLog ⟨.cleanupErr, i, s.mounted⟩
                  (pushCall ⟨i, false⟩ { s with queue := rest })).queue =
                  rest := rfl
              have hcq : (pushLog ⟨.cleanupErr, i, s.mounted⟩
                  (pushCall ⟨i, false⟩ { s with queue := rest })).runCount =
                  s.runCount := rfl
              have hrq : (pushLog ⟨.cleanupErr, i, s.mounted⟩
                  (pushCall ⟨i, false⟩ { s with queue := rest })).runs =
                  s.runs := rfl
              exact InvLive.microQ2Live hc hl hq (Or.inl rfl) hi h2
                hpq hqq hcq hrq
          | negZero =>
            refine ⟨?_, ?_⟩
            · have hcs2 : InvCore (pushLog ⟨.cleanupErr, i, s.mounted⟩
                  (pushCall ⟨i, false⟩ { s with queue := rest })) :=
                hcs1.defeq_frames rfl rfl rfl rfl rfl rfl
              exact hcs2.settleQ2 hi h2 hcepset hcallA hocc0r
            · have hpq : (pushLog ⟨.cleanupErr, i, s.mounted⟩
                  (pushCall ⟨i, false⟩ { s with queue := rest })).proms =
                  s.proms := rfl
              have hqq : (pushLog ⟨.cleanupErr, i, s.mounted⟩
                  (pushCall ⟨i, false⟩ { s with queue := rest })).queue =
                  rest := rfl
              have hcq : (pushLog ⟨.cleanupErr, i, s.mounted⟩
                  (pushCall ⟨i, false⟩ { s with queue := rest })).runCount =
                  s.runCount := rfl
              have hrq : (pushLog ⟨.cleanupErr, i, s.mounted⟩
                  (pushCall ⟨i, false⟩ { s with queue := rest })).runs =
                  s.runs := rfl
              exact InvLive.microQ2Live hc hl hq (Or.inl rfl) hi h2
                hpq hqq hcq hrq
          | nan =>
            refine ⟨?_, ?_⟩
            · have hcs2 : InvCore (pushLog ⟨.cleanupErr, i, s.mounted⟩
                  (pushCall ⟨i, false⟩ { s with queue := rest })) :=
                hcs1.defeq_frames rfl rfl rfl rfl rfl rfl
              exact hcs2.settleQ2 hi h2 hcepset hcallA hocc0r
            · have hpq : (pushLog ⟨.cleanupErr, i, s.mounted⟩
                  (pushCall ⟨i, false⟩ { s with queue := rest })).proms =
                  s.proms := rfl
              have hqq : (pushLog ⟨.cleanupErr, i, s.mounted⟩
                  (pushCall ⟨i, false⟩ { s with queue := rest })).queue =
                  rest := rfl
              have hcq : (pushLog ⟨.cleanupErr, i, s.mounted⟩
                  (pushCall ⟨i, false⟩ { s with queue := rest })).runCount =
                  s.runCount := rfl
              have hrq : (pushLog ⟨.cleanupErr, i, s.mounted⟩
                  (pushCall ⟨i, false⟩ { s with queue := rest })).runs =
                  s.runs := rfl
              exact InvLive.microQ2Live hc hl hq (Or.inl rfl) hi h2
                hpq hqq hcq hrq
          | str t =>
            refine ⟨?_, ?_⟩
            · have hcs2 : InvCore (pushLog ⟨.cleanupErr, i, s.mounted⟩
                  (pushCall ⟨i, false⟩ { s with queue := rest })) :=
                hcs1.defeq_frames rfl rfl rfl rfl rfl rfl
              exact hcs2.settleQ2 hi h2 hcepset hcallA hocc0r
            · have hpq : (pushLog ⟨.cleanupErr, i, s.mounted⟩
                  (pushCall ⟨i, false⟩ { s with queue := rest })).proms =
                  s.proms := rfl
              have hqq : (pushLog ⟨.cleanupErr, i, s.mounted⟩
                  (pushCall ⟨i, false⟩ { s with queue := rest })).queue =
                  rest := rfl
              have hcq : (pushLog ⟨.cleanupErr, i, s.mounted⟩
                  (pushCall ⟨i, false⟩ { s with queue := rest })).runCount =
                  s.runCount := rfl
              have hrq : (pushLog ⟨.cleanupErr, i, s.mounted⟩
                  (pushCall ⟨i, false⟩ { s with queue := rest })).runs =
                  s.runs := rfl
              exact InvLive.microQ2Live hc hl hq (Or.inl rfl) hi h2
                hpq hqq hcq hrq
          | obj d =>
            refine ⟨?_, ?_⟩
            · have hcs2 : InvCore (pushLog ⟨.cleanupErr, i, s.mounted⟩
                  (pushCall ⟨i, false⟩ { s with queue := rest })) :=
                hcs1.defeq_frames rfl rfl rfl rfl rfl rfl
              exact hcs2.settleQ2 hi h2 hcepset hcallA hocc0r
            · have hpq : (pushLog ⟨.cleanupErr, i, s.mounted⟩
                  (pushCall ⟨i, false⟩ { s with queue := rest })).proms =
                  s.proms := rfl
              have hqq : (pushLog ⟨.cleanupErr, i, s.mounted⟩
                  (pushCall ⟨i, false⟩ { s with queue := rest })).queue =
                  rest := rfl
              have hcq : (pushLog ⟨.cleanupErr, i, s.mounted⟩
                  (pushCall ⟨i, false⟩ { s with queue := rest })).runCount =
                  s.runCount := rfl
              have hrq : (pushLog ⟨.cleanupErr, i, s.mounted⟩
                  (pushCall ⟨i, false⟩ { s with queue := rest })).runs =
                  s.runs := rfl
              exact InvLive.microQ2Live hc hl hq (Or.inl rfl) hi h2
                hpq hqq hcq hrq
    | teardownAwait i q2 =>
      obtain ⟨hi, h2, cp, hcp, hpe⟩ := htk
      have hcepset : (s.proms (s.runs i).cep).isSettled = true :=
        hc.callp_cep i hi cp hcp
      have hocc0s : tdAOcc s i q2 = 0 := (hc.tdA_count i hi q2 h2).2 cp hcp
      have hocc0r : tdAOcc { s with queue := rest } i q2 = 0 := by
        have hcnteq : List.countP
            (fun t => decide (t.1 = Cont.teardownA i q2)) s.queue =
            List.countP (fun t => decide (t.1 = Cont.teardownA i q2)) rest := by
          rw [hq, List.countP_cons]
          simp
        unfold tdAOcc at hocc0s ⊢
        show (s.proms (s.runs i).cep).contsOf.count (Cont.teardownA i q2) +
          List.countP (fun t => decide (t.1 = Cont.teardownA i q2)) rest = 0
        omega
      have hcallA : ∀ cp', (s.runs i).callP = some cp' →
          ((({ s with queue := rest } : EffSt)).proms cp').isSettled = true := by
        intro cp' hcp'
        rw [hcp] at hcp'
        cases hcp'
        show (s.proms cp).isSettled = true
        rw [hpe]
        exact Outcome.toProm_isSettled o
      cases o with
      | fulfilled v =>
        show Inv (settle q2 (.fulfilled .undef) { s with queue := rest })
        exact ⟨hcs1.settleQ2 hi h2 hcepset hcallA hocc0r,
          InvLive.microQ2Live hc hl hq (Or.inr rfl) hi h2 hs1p hs1q hs1c hs1r⟩
      | rejected e =>
        show Inv (settle q2 (.fulfilled .undef)
          (pushLog ⟨.cleanupErr, i, s.mounted⟩ { s with queue := rest }))
        refine ⟨?_, ?_⟩
        · have hcs2 : InvCore (pushLog ⟨.cleanupErr, i, s.mounted⟩
              { s with queue := rest }) :=
            hcs1.defeq_frames rfl rfl rfl rfl rfl rfl
          exact hcs2.settleQ2 hi h2 hcepset hcallA hocc0r
        · have hpq : (pushLog ⟨.cleanupErr, i, s.mounted⟩
              { s with queue := rest }).proms = s.proms := rfl
          have hqq : (pushLog ⟨.cleanupErr, i, s.mounted⟩
              { s with queue := rest }).queue = rest := rfl
          have hcq : (pushLog ⟨.cleanupErr, i, s.mounted⟩
              { s with queue := rest }).runCount = s.runCount := rfl
          have hrq : (pushLog ⟨.cleanupErr, i, s.mounted⟩
              { s with queue := rest }).runs = s.runs := rfl
          exact InvLive.microQ2Live hc hl hq (Or.inr rfl) hi h2 hpq hqq hcq hrq
    | teardownCatch q3 =>
      obtain ⟨i, q2x, hi, h2x, h3x, hpe⟩ := htk
      have hq2set : (s.proms q2x).isSettled = true := by
        rw [hpe]
        exact Outcome.toProm_isSettled o
      rcases hc.s2 i hi q2x h2x hq2set with ⟨hful, _, _⟩
      have hq2sA : ∀ q2', (s.runs i).tdP2 = some q2' →
          (s.proms q2').isSettled = true := by
        intro q2' h2'
        rw [h2x] at h2'
        cases h2'
        exact hq2set
      cases o with
      | fulfilled v =>
        have hv : v = JSVal.undef := by
          rw [hful] at hpe
          cases hpe
          rfl
        subst hv
        show Inv (settle q3 (.fulfilled .undef) { s with queue := rest })
        exact ⟨hcs1.settleQ3 hi h3x hq2sA,
          InvLive.microQ3Live hc hl hq hi h3x hs1p hs1q hs1c hs1r⟩
      | rejected e =>
        exfalso
        rw [hful] at hpe
        cases hpe
    | teardownB i =>
      obtain ⟨hi, q3, h3, hpe⟩ := htk
      have hq3set : (s.proms q3).isSettled = true := by
        rw [hpe]
        exact Outcome.toProm_isSettled o
      show Inv (settle (s.runs i).cleanupP (.fulfilled .undef)
        { s with queue := rest })
      exact ⟨hcs1.settleCleanupB hi ⟨q3, h3, hq3set⟩,
        InvLive.microCleanupLive hc hl hq hi hs1p hs1q hs1c hs1r⟩

/-- The cleanup closure never runs twice and survives re-running. -/
theorem teardownRun_runCount (i : Nat) (s : EffSt) :
    (teardownRun i s).runCount = s.runCount := by
  unfold teardownRun
  by_cases h : (s.runs i).torndown = true
  · rw [if_pos h]
  · rw [if_neg h]
    show (subscribe (s.runs i).cep (.teardownA i s.nextId) { s with
      nextId := s.nextId + 2,
      proms := updFn (updFn s.proms
        s.nextId (.pending [.teardownCatch (s.nextId + 1)]))
        (s.nextId + 1) (.pending [.teardownB i]),
      runs := updFn s.runs i { s.runs i with torndown := true, tdP2 := some s.nextId, tdP3 := some (s.nextId + 1) } }).runCount = s.runCount
    rw [subscribe_runCount]

/-- After the host runs the cleanup closure, the run is marked torn down. -/
theorem teardownRun_torndown_self (i : Nat) (s : EffSt) :
    ((teardownRun i s).runs i).torndown = true := by
  unfold teardownRun
  by_cases h : (s.runs i).torndown = true
  · rw [if_pos h]
    exact h
  · rw [if_neg h]
    show ((subscribe (s.runs i).cep (.teardownA i s.nextId) { s with
      nextId := s.nextId + 2,
      proms := updFn (updFn s.proms
        s.nextId (.pending [.teardownCatch (s.nextId + 1)]))
        (s.nextId + 1) (.pending [.teardownB i]),
      runs := updFn s.runs i { s.runs i with torndown := true, tdP2 := some s.nextId, tdP3 := some (s.nextId + 1) } }).runs i).torndown = true
    rw [subscribe_runs]
    show (updFn s.runs i { s.runs i with torndown := true, tdP2 := some s.nextId, tdP3 := some (s.nextId + 1) } i).torndown = true
    rw [updFn_self]

/-- Running the cleanup closure of the active run preserves the
invariant. -/
theorem Inv.teardownLastPres {s : EffSt} (hs : Inv s) :
    Inv (teardownLast s) := by
  unfold teardownLast
  cases hrc : s.runCount with
  | zero => exact hs
  | succ n => exact hs.teardownRunPres hrc.symm

theorem teardownLast_runCount (s : EffSt) :
    (teardownLast s).runCount = s.runCount := by
  unfold teardownLast
  cases hrc : s.runCount with
  | zero => exact hrc
  | succ n =>
    rw [teardownRun_runCount]
    exact hrc

theorem teardownLast_torndown (s : EffSt) :
    ∀ k, k + 1 = s.runCount → ((teardownLast s).runs k).torndown = true := by
  intro k hk
  unfold teardownLast
  cases hrc : s.runCount with
  | zero => omega
  | succ n =>
    have hkn : k = n := by omega
    subst hkn
    exact teardownRun_torndown_self k s

/-- Every event of the environment preserves the invariant. -/
theorem Inv.stepPres (ev : Ev) {s : EffSt} (hs : Inv s) : Inv (step ev s) := by
  cases ev with
  | micro => exact hs.microPres
  | rerender =>
    unfold step
    show Inv (if s.mounted = true then setup (teardownLast s) else s)
    by_cases hm : s.mounted = true
    · rw [if_pos hm]
      refine (hs.teardownLastPres).setupPres ?_
      intro k hk
      rw [teardownLast_runCount] at hk
      exact teardownLast_torndown s k hk
    · rw [if_neg hm]
      exact hs
  | unmount =>
    unfold step
    show Inv (if s.mounted = true
      then { teardownLast s with mounted := false } else s)
    by_cases hm : s.mounted = true
    · rw [if_pos hm]
      have htl := hs.teardownLastPres
      have hproj : RunsProj (teardownLast s)
          ({ teardownLast s with mounted := false } : EffSt) :=
        fun j => ⟨rfl, rfl, rfl, rfl, rfl, rfl, rfl, rfl, rfl⟩
      exact ⟨htl.core.projFramesCore hproj rfl rfl rfl rfl rfl,
        htl.live.projFramesLive hproj rfl rfl rfl⟩
    · rw [if_neg hm]
      exact hs
  | settleAction i o =>
    unfold step
    show Inv (if i < s.runCount then settle (s.runs i).effP o s else s)
    by_cases hlt : i < s.runCount
    · rw [if_pos hlt]
      exact hs.settleEffP hlt o
    · rw [if_neg hlt]
      exact hs
  | settleCleanup i o =>
    unfold step
    show Inv (if i < s.runCount then
      match (s.runs i).callP with
      | some cp => settle cp o s
      | none => s
    else s)
    by_cases hlt : i < s.runCount
    · rw [if_pos hlt]
      cases hcp : (s.runs i).callP with
      | none => exact hs
      | some cp =>
        exact ⟨hs.core.settleCallPCore hlt hcp o,
          InvLive.settleCallPLive hs.core hs.live hlt hcp o⟩
    · rw [if_neg hlt]
      exact hs

/-- The initial hook state satisfies the invariant. -/
theorem Inv.initial : Inv init := by
  refine ⟨⟨⟨le_rfl, ?_, ?_, ?_, ?_, ?_, ?_, ?_, ?_⟩, ?_, ?_, ?_, ?_, ?_,
    ?_, ?_, ?_, ?_, ?_, ?_, ?_⟩, ?_, ?_, ?_, ?_, ?_⟩
  · intro j hj
    exact absurd (show j < 0 from hj) (by omega)
  · intro j hj
    exact absurd (show j < 0 from hj) (by omega)
  · intro j hj
    exact absurd (show j < 0 from hj) (by omega)
  · intro j k hjk hk
    exact absurd (show k < 0 from hk) (by omega)
  · intro j hj
    exact absurd (show j < 0 from hj) (by omega)
  · exact Or.inl ⟨rfl, rfl⟩
  · intro j hj
    exact absurd (show j < 0 from hj) (by omega)
  · intro j hj
    exact absurd (show j + 1 < 0 from hj) (by omega)
  · intro p hp
    have hp1 : 1 ≤ p := hp
    show (if p = 0 then Prom.fulfilled .undef else Prom.pending []) =
      Prom.pending []
    rw [if_neg (by omega)]
  · show (if (0 : Nat) = 0 then Prom.fulfilled .undef else Prom.pending []) =
      Prom.fulfilled .undef
    rw [if_pos rfl]
  · intro j hj
    exact absurd (show j < 0 from hj) (by omega)
  · intro p c hOn
    exfalso
    unfold OnProm at hOn
    by_cases hp : p = 0
    · subst hp
      rw [show init.proms 0 = Prom.fulfilled .undef from rfl] at hOn
      simp [Prom.contsOf] at hOn
    · rw [show init.proms p = (if p = 0 then Prom.fulfilled .undef
        else Prom.pending []) from rfl, if_neg hp] at hOn
      simp [Prom.contsOf] at hOn
  · intro c o ht
    exact absurd ht (List.not_mem_nil _)
  · intro j hj
    exact absurd (show j < 0 from hj) (by omega)
  · intro j hj
    exact absurd (show j < 0 from hj) (by omega)
  · intro j hj
    exact absurd (show j < 0 from hj) (by omega)
  · intro j hj
    exact absurd (show j < 0 from hj) (by omega)
  · intro j hj
    exact absurd (show j < 0 from hj) (by omega)
  · intro j hj
    exact absurd (show j < 0 from hj) (by omega)
  · intro j hj
    exact absurd (show j < 0 from hj) (by omega)
  · intro j hj
    exact absurd (show j < 0 from hj) (by omega)
  · intro j hj
    exact absurd (show j < 0 from hj) (by omega)
  · intro j hj
    exact absurd (show j < 0 from hj) (by omega)
  · intro j hj
    exact absurd (show j < 0 from hj) (by omega)
  · intro j hj
    exact absurd (show j < 0 from hj) (by omega)

/-- Every state reachable by an event trace satisfies the invariant. -/
theorem Inv.effRunPres (evs : List Ev) : Inv (effRun evs) := by
  have h : ∀ (l : List Ev) (st : EffSt), Inv st →
      Inv (l.foldl (fun s e => step e s) st) := by
    intro l
    induction l with
    | nil =>
      intro st hst
      exact hst
    | cons e tl ih =>
      intro st hst
      exact ih (step e st) (Inv.stepPres e hst)
  exact h evs init Inv.initial

end UseAsyncEffekt

namespace UseAsyncEffekt

/-- Trace refuting C7 as stated: mount, the action of run 0 resolves with a
cleanup function, the instance unmounts, the cleanup call rejects. -/
def c7Trace : List Ev :=
  [.rerender, .settleAction 0 (.fulfilled (.fn 0)), .micro, .unmount,
   .micro, .micro, .settleCleanup 0 (.rejected (.str "boom")),
   .micro, .micro, .micro, .micro]

/-- Trace refuting C8 as stated: mount, the action of run 0 resolves with
the non-callable number 42, the instance unmounts, the teardown body runs. -/
def c8Trace : List Ev :=
  [.rerender, .settleAction 0 (.fulfilled (.num 42)), .micro, .unmount,
   .micro, .micro, .micro]

end UseAsyncEffekt

open UseAsyncEffekt in
/-- C7 counterexample: a cleanup failure is reported even though isAlive()
is false at the moment the error is caught.  Run 0's action resolves with a
cleanup function, the instance unmounts (so `isMountedRef.current` is
false), the cleanup call rejects, and the source's unconditional
`console.error("useAsyncEffekt cleanup error:", ...)` still fires: the log
holds a cleanup-error entry whose mounted-at-catch flag is false. -/
theorem C7_counterexample_cleanup_error_reported_after_unmount :
    (effRun c7Trace).log =
      [⟨.cleanupErr, 0, false⟩] ∧
    (effRun c7Trace).mounted = false := by
  decide

namespace UseAsyncEffekt

/-- An action-error report can only be recorded while mounted. -/
def LogEntryOK (e : LogEntry) : Prop :=
  e.kind = .actionErr → e.mountedAtCatch = true

/-- All recorded reports satisfy `LogEntryOK`. -/
def LogOK (s : EffSt) : Prop := ∀ e ∈ s.log, LogEntryOK e

theorem teardownRun_log (i : Nat) (s : EffSt) :
    (teardownRun i s).log = s.log := by
  unfold teardownRun
  by_cases h : (s.runs i).torndown
  · simp [h]
  · simp [h, subscribe_log]

theorem teardownLast_log (s : EffSt) : (teardownLast s).log = s.log := by
  unfold teardownLast
  cases s.runCount with
  | zero => rfl
  | succ n => exact teardownRun_log n s

theorem runTask_logOK (c : Cont) (o : Outcome) (s : EffSt) (h : LogOK s) :
    LogOK (runTask c o s) := by
  have happend : ∀ (l : List LogEntry) (e : LogEntry), LogEntryOK e →
      (∀ x ∈ l, LogEntryOK x) → ∀ x ∈ l ++ [e], LogEntryOK x := by
    intro l e he hl x hx
    rcases List.mem_append.mp hx with h1 | h1
    · exact hl x h1
    · rcases List.mem_singleton.mp h1 with rfl
      exact he
  cases c with
  | execEffect i =>
    cases o with
    | fulfilled v =>
      intro e he
      rw [runTask, settle_log] at he
      exact h e he
    | rejected err =>
      intro e he
      rw [runTask, settle_log] at he
      cases hm : s.mounted with
      | true =>
        rw [hm] at he
        simp only [if_true, pushLog] at he
        exact happend s.log ⟨.actionErr, i, true⟩ (fun _ => rfl) h e he
      | false =>
        rw [hm] at he
        simp only [Bool.false_eq_true, if_false] at he
        exact h e he
  | chainLink1 i chain =>
    cases o with
    | fulfilled v =>
      intro e he; rw [runTask, subscribe_log] at he; exact h e he
    | rejected err =>
      intro e he; rw [runTask, settle_log] at he; exact h e he
  | chainLink2 chain =>
    intro e he; rw [runTask, settle_log] at he; exact h e he
  | teardownA i p2 =>
    cases o with
    | rejected err =>
      intro e he; rw [runTask, settle_log] at he; exact h e he
    | fulfilled v =>
      intro e he
      rw [runTask] at he
      by_cases hcv : (s.runs i).cleanupVal.truthy = false
      · rw [if_pos hcv, settle_log] at he
        exact h e he
      · rw [if_neg hcv] at he
        cases hval : (s.runs i).cleanupVal with
        | fn fid =>
          rw [hval] at he
          exact h e he
        | undef => rw [hval] at he; rw [settle_log] at he
                   exact happend _ _ (by intro hk; cases hk) h e he
        | null => rw [hval] at he; rw [settle_log] at he
                  exact happend _ _ (by intro hk; cases hk) h e he
        | bool b => rw [hval] at he; rw [settle_log] at he
                    exact happend _ _ (by intro hk; cases hk) h e he
        | num n => rw [hval] at he; rw [settle_log] at he
                   exact happend _ _ (by intro hk; cases hk) h e he
        | negZero => rw [hval] at he; rw [settle_log] at he
                     exact happend _ _ (by intro hk; cases hk) h e he
        | nan => rw [hval] at he; rw [settle_log] at he
                 exact happend _ _ (by intro hk; cases hk) h e he
        | str t => rw [hval] at he; rw [settle_log] at he
                   exact happend _ _ (by intro hk; cases hk) h e he
        | obj oid => rw [hval] at he; rw [settle_log] at he
                     exact happend _ _ (by intro hk; cases hk) h e he
  | teardownAwait i p2 =>
    cases o with
    | fulfilled v =>
      intro e he; rw [runTask, settle_log] at he; exact h e he
    | rejected err =>
      intro e he
      rw [runTask, settle_log] at he
      exact happend _ _ (by intro hk; cases hk) h e he
  | teardownCatch p3 =>
    cases o with
    | fulfilled v =>
      intro e he; rw [runTask, settle_log] at he; exact h e he
    | rejected err =>
      intro e he; rw [runTask, settle_log] at he; exact h e he
  | teardownB i =>
    intro e he; rw [runTask, settle_log] at he; exact h e he

theorem logOK_step (ev : Ev) (s : EffSt) (h : LogOK s) : LogOK (step ev s) := by
  cases ev with
  | rerender =>
    cases hm : s.mounted with
    | false => simpa [step, hm] using h
    | true =>
      intro e he
      simp only [step, hm, if_true] at he
      have : (setup (teardownLast s)).log = s.log := by
        show (teardownLast s).log = s.log
        exact teardownLast_log s
      rw [this] at he
      exact h e he
  | unmount =>
    cases hm : s.mounted with
    | false => simpa [step, hm] using h
    | true =>
      intro e he
      simp only [step, hm, if_true] at he
      have : ({ teardownLast s with mounted := false } : EffSt).log = s.log :=
        teardownLast_log s
      rw [this] at he
      exact h e he
  | settleAction i o =>
    intro e he
    simp only [step] at he
    by_cases hi : i < s.runCount
    · rw [if_pos hi, settle_log] at he
      exact h e he
    · rw [if_neg hi] at he
      exact h e he
  | settleCleanup i o =>
    intro e he
    simp only [step] at he
    by_cases hi : i < s.runCount
    · rw [if_pos hi] at he
      cases hcp : (s.runs i).callP with
      | some cp => rw [hcp, settle_log] at he; exact h e he
      | none => rw [hcp] at he; exact h e he
    · rw [if_neg hi] at he
      exact h e he
  | micro =>
    cases hq : s.queue with
    | nil => simpa [step, hq] using h
    | cons t rest =>
      have h' : LogOK { s with queue := rest } := h
      simpa [step, hq] using runTask_logOK t.1 t.2 { s with queue := rest } h'

theorem effRun_logOK (evs : List Ev) : LogOK (effRun evs) := by
  have hall : ∀ s, LogOK s → LogOK (evs.foldl (fun s e => step e s) s) := by
    induction evs with
    | nil => intro s hs; exact hs
    | cons ev rest ih => intro s hs; exact ih _ (logOK_step ev s hs)
  exact hall init (by intro e he; cases he)

end UseAsyncEffekt

open UseAsyncEffekt in
/-- C7 (amended): action failures are reported if and only if isAlive() is
true at the moment of the catch — every action-error log entry of every
reachable state was recorded while mounted, and the rejected-action
continuation appends a report exactly when the instance is mounted.
Cleanup failures, however, are reported unconditionally, mounted or not.
Neither is re-raised: in the model of the source there is no propagation
channel out of the catch blocks, every path resolves its promise
normally. -/
theorem C7_amended_error_reporting :
    (∀ (evs : List Ev), ∀ entry ∈ (effRun evs).log,
      entry.kind = .actionErr → entry.mountedAtCatch = true) ∧
    (∀ (s : EffSt) (i : Nat) (e : JSVal),
      (runTask (.execEffect i) (.rejected e) s).log =
        s.log ++ (if s.mounted then [⟨.actionErr, i, s.mounted⟩] else [])) ∧
    (∀ (s : EffSt) (i p2 : Nat) (e : JSVal),
      (runTask (.teardownAwait i p2) (.rejected e) s).log =
        s.log ++ [⟨.cleanupErr, i, s.mounted⟩]) := by
  refine ⟨fun evs entry hmem => effRun_logOK evs entry hmem, ?_, ?_⟩
  · intro s i e
    cases hm : s.mounted with
    | true => simp [runTask, settle_log, pushLog, hm]
    | false => simp [runTask, settle_log, hm]
  · intro s i p2 e
    simp [runTask, settle_log, pushLog]

open UseAsyncEffekt in
/-- C8 counterexample: run 0's action resolves with the number 42, a truthy
non-callable value; at teardown the source treats it as a cleanup (the
guard is `if (!cleanup) return`, truthiness, not callability), so an
invocation attempt occurs and the resulting TypeError is caught and
reported as a cleanup error — contradicting "no invocation attempt and no
reported error". -/
theorem C8_counterexample_noncallable_number_invoked :
    ((effRun c8Trace).runs 0).cleanupVal = .num 42 ∧
    (effRun c8Trace).calls = [⟨0, false⟩] ∧
    (effRun c8Trace).log = [⟨.cleanupErr, 0, false⟩] := by
  decide

open UseAsyncEffekt in
/-- C8 (amended): the teardown body gates the stored resolved value by
truthiness, not callability.  A falsy resolved value (undefined, null,
false, 0, -0, NaN, the empty string) is ignored: teardown just resolves,
with no invocation attempt and no report.  A callable value is invoked as
the cleanup.  A truthy non-callable value (such as 42 or a non-empty
string) is also treated as a cleanup: an invocation attempt occurs and the
resulting TypeError is caught and reported as a cleanup error. -/
theorem C8_amended_truthiness_gates_cleanup :
    (∀ (s : EffSt) (i p2 : Nat) (w : JSVal),
      (s.runs i).cleanupVal.truthy = false →
        runTask (.teardownA i p2) (.fulfilled w) s =
          settle p2 (.fulfilled .undef) s) ∧
    (∀ (s : EffSt) (i p2 : Nat) (w : JSVal) (fid : Nat),
      (s.runs i).cleanupVal = .fn fid →
        (runTask (.teardownA i p2) (.fulfilled w) s).calls =
          s.calls ++ [⟨i, true⟩] ∧
        (runTask (.teardownA i p2) (.fulfilled w) s).log = s.log) ∧
    (∀ (s : EffSt) (i p2 : Nat) (w : JSVal),
      (s.runs i).cleanupVal.truthy = true →
      (s.runs i).cleanupVal.callable = false →
        (runTask (.teardownA i p2) (.fulfilled w) s).calls =
          s.calls ++ [⟨i, false⟩] ∧
        (runTask (.teardownA i p2) (.fulfilled w) s).log =
          s.log ++ [⟨.cleanupErr, i, s.mounted⟩]) := by
  refine ⟨?_, ?_, ?_⟩
  · intro s i p2 w hcv
    simp [runTask, hcv]
  · intro s i p2 w fid hcv
    rw [runTask]
    rw [hcv]
    simp [JSVal.truthy]
  · intro s i p2 w htr hnc
    rw [runTask]
    rw [if_neg (by rw [htr]; simp)]
    cases hval : (s.runs i).cleanupVal with
    | fn fid => rw [hval] at hnc; simp [JSVal.callable] at hnc
    | undef => rw [hval] at htr; simp [JSVal.truthy] at htr
    | null => rw [hval] at htr; simp [JSVal.truthy] at htr
    | bool b =>
      simp [settle_calls, settle_log, pushCall, pushLog]
    | num n =>
      simp [settle_calls, settle_log, pushCall, pushLog]
    | negZero => rw [hval] at htr; simp [JSVal.truthy] at htr
    | nan => rw [hval] at htr; simp [JSVal.truthy] at htr
    | str t =>
      simp [settle_calls, settle_log, pushCall, pushLog]
    | obj oid =>
      simp [settle_calls, settle_log, pushCall, pushLog]

namespace UseAsyncEffekt

/-- Witness trace for C1: run 0 mounts and its action resolves, the chain
microtasks drain, a re-render tears run 0 down and mounts run 1, and the
teardown and chain microtasks of run 0 drain to quiescence. -/
def c1Trace : List Ev :=
  [.rerender, .settleAction 0 (.fulfilled .undef), .micro, .rerender,
   .micro, .micro, .micro, .micro, .micro, .micro]

/-- Witness trace for C6: run 0's action resolves with a cleanup function,
a re-render tears run 0 down, the cleanup call rejects, the pipeline still
drains, and run 1's action also resolves, reaching quiescence. -/
def c6Trace : List Ev :=
  [.rerender, .settleAction 0 (.fulfilled (.fn 0)), .micro, .rerender,
   .micro, .micro, .settleCleanup 0 (.rejected (.str "bad")),
   .micro, .micro, .micro, .micro, .settleAction 1 (.fulfilled .undef),
   .micro, .micro]

end UseAsyncEffekt

open UseAsyncEffekt in
/-- C1: in every reachable state of the sequencer, for every run `k ≥ 1`
the `waitForPrevious()` handle of run `k` is exactly the published chain
promise of run `k - 1` — never run `k`'s own chain promise — and whenever
that handle has settled, run `k - 1`'s action promise, its cleanup
promise, and its cleanup call (if one was made) have all already settled:
the handle resolves strictly after the prior run's full completion and
never observes run `k`'s own. -/
theorem C1_waitForPrevious_after_prior_completion (evs : List Ev) (k : Nat)
    (hk : k < (effRun evs).runCount) (hk0 : 0 < k) :
    ((effRun evs).runs k).prevChain = ((effRun evs).runs (k - 1)).chainP ∧
    ((effRun evs).runs k).prevChain ≠ ((effRun evs).runs k).chainP ∧
    (((effRun evs).proms ((effRun evs).runs k).prevChain).isSettled = true →
      ((effRun evs).proms ((effRun evs).runs (k - 1)).effP).isSettled = true ∧
      ((effRun evs).proms ((effRun evs).runs (k - 1)).cleanupP).isSettled = true ∧
      (((effRun evs).runs (k - 1)).callP.all
        (fun cp => ((effRun evs).proms cp).isSettled)) = true) := by
  have hs := Inv.effRunPres evs
  have hd := hs.core.data
  have hk1 : k - 1 < (effRun evs).runCount := Nat.lt_of_le_of_lt (Nat.sub_le k 1) hk
  have hprev : ((effRun evs).runs k).prevChain = ((effRun evs).runs (k - 1)).chainP :=
    (hd.prevChain_link k hk).2 (k - 1) (Nat.succ_pred_eq_of_pos hk0).symm
  refine ⟨hprev, ?_, ?_⟩
  · rw [hprev]
    exact (hd.ne_chainP hk hk1).2.2.2.1 (by omega)
  · intro hset
    rw [hprev] at hset
    have h5 := hs.core.s5 (k - 1) hk1 hset
    have h1 := hs.core.s1 (k - 1) hk1 h5.2.2
    refine ⟨h1.2, h5.2.1, ?_⟩
    have h4 := hs.core.s4 (k - 1) hk1 h5.2.1
    rcases h4.2 with ⟨q3, h3, hq3s⟩
    have h3s := hs.core.s3 (k - 1) hk1 q3 h3 hq3s
    rcases hd.td3_some hk1 h3 with ⟨q2, h2, _, _⟩
    have h2s := hs.core.s2 (k - 1) hk1 q2 h2 (h3s.2 q2 h2)
    cases hcp : ((effRun evs).runs (k - 1)).callP with
    | none => rfl
    | some cp =>
      simp only [Option.all]
      exact h2s.2.2 cp hcp

open UseAsyncEffekt in
/-- Witness for C1 on the concrete two-run trace `c1Trace`: run 1's
handle is run 0's chain promise and not run 1's own, and since the handle
has settled there, run 0's action promise, cleanup promise and (absent)
cleanup call are all settled. -/
theorem C1_waitForPrevious_after_prior_completion_witness :
    ((effRun c1Trace).runs 1).prevChain = ((effRun c1Trace).runs 0).chainP ∧
    ((effRun c1Trace).runs 1).prevChain ≠ ((effRun c1Trace).runs 1).chainP ∧
    ((effRun c1Trace).proms ((effRun c1Trace).runs 0).effP).isSettled = true ∧
    ((effRun c1Trace).proms ((effRun c1Trace).runs 0).cleanupP).isSettled = true ∧
    (((effRun c1Trace).runs 0).callP.all
      (fun cp => ((effRun c1Trace).proms cp).isSettled)) = true := by
  have h := C1_waitForPrevious_after_prior_completion c1Trace 1 (by decide) (by decide)
  exact ⟨h.1, h.2.1, h.2.2 (by decide)⟩

open UseAsyncEffekt in
/-- C6: in every reachable state of the sequencer the `waitForPrevious()`
handle of any run is never a rejected promise, whatever happened upstream;
and at quiescence — empty microtask queue, every run's action settled and
every made cleanup call settled — the handle of every run `k ≥ 1` has
resolved, with `undefined`, so downstream waiters are never stuck, even
when a cleanup rejected (the failure is only reported). -/
theorem C6_waitForPrevious_never_rejects (evs : List Ev) (k : Nat)
    (hk : k < (effRun evs).runCount) :
    (∀ e, (effRun evs).proms ((effRun evs).runs k).prevChain ≠ Prom.rejected e) ∧
    ((effRun evs).queue = [] →
      (∀ j, j < (effRun evs).runCount →
        ((effRun evs).proms ((effRun evs).runs j).effP).isSettled = true ∧
        (((effRun evs).runs j).callP.all
          (fun cp => ((effRun evs).proms cp).isSettled)) = true) →
      0 < k →
      (effRun evs).proms ((effRun evs).runs k).prevChain =
        Prom.fulfilled JSVal.undef) := by
  have hs := Inv.effRunPres evs
  have hd := hs.core.data
  constructor
  · intro e habs
    rcases Nat.eq_zero_or_pos k with hk0 | hk0
    · subst hk0
      rw [(hd.prevChain_link 0 hk).1 rfl, hs.core.prom0] at habs
      exact Prom.noConfusion habs
    · have hk1 : k - 1 < (effRun evs).runCount :=
        Nat.lt_of_le_of_lt (Nat.sub_le k 1) hk
      rw [(hd.prevChain_link k hk).2 (k - 1)
        (Nat.succ_pred_eq_of_pos hk0).symm] at habs
      have hset : ((effRun evs).proms
          ((effRun evs).runs (k - 1)).chainP).isSettled = true := by
        rw [habs]; rfl
      rw [(hs.core.s5 (k - 1) hk1 hset).1] at habs
      exact Prom.noConfusion habs
  · intro hq hall hk0
    have hk1 : k - 1 < (effRun evs).runCount :=
      Nat.lt_of_le_of_lt (Nat.sub_le k 1) hk
    rw [(hd.prevChain_link k hk).2 (k - 1) (Nat.succ_pred_eq_of_pos hk0).symm]
    have hnq : ∀ c : Cont, ¬ InQueue (effRun evs) c := by
      intro c hc
      rcases hc with ⟨o, hmem⟩
      rw [hq] at hmem
      cases hmem
    have htd : ((effRun evs).runs (k - 1)).torndown = true :=
      hd.torndown_prev (k - 1) (by omega)
    rcases hd.td_ids (k - 1) hk1 with ⟨_, _, htf, _⟩ | ⟨q2, q3, h2, h3, _, _, _⟩
    · rw [htd] at htf
      exact Bool.noConfusion htf
    have heff := (hall (k - 1) hk1).1
    have hcep : ((effRun evs).proms
        ((effRun evs).runs (k - 1)).cep).isSettled = true := by
      rcases hs.live.l0 (k - 1) hk1 with hOn | hIn | hdone
      · have hm : Cont.execEffect (k - 1) ∈
            ((effRun evs).proms ((effRun evs).runs (k - 1)).effP).contsOf := hOn
        rw [Prom.contsOf_eq_nil_of_isSettled _ heff] at hm
        cases hm
      · exact absurd hIn (hnq _)
      · exact hdone
    have hq2s : ((effRun evs).proms q2).isSettled = true := by
      rcases hs.live.l2 (k - 1) hk1 q2 h2 with
        hOn | hIn | ⟨cp, hcp, hOn | hIn⟩ | hdone
      · have hm : Cont.teardownA (k - 1) q2 ∈
            ((effRun evs).proms ((effRun evs).runs (k - 1)).cep).contsOf := hOn
        rw [Prom.contsOf_eq_nil_of_isSettled _ hcep] at hm
        cases hm
      · exact absurd hIn (hnq _)
      · have hcps : ((effRun evs).proms cp).isSettled = true := by
          have hc2 := (hall (k - 1) hk1).2
          rw [hcp] at hc2
          simpa only [Option.all] using hc2
        have hm : Cont.teardownAwait (k - 1) q2 ∈
            ((effRun evs).proms cp).contsOf := hOn
        rw [Prom.contsOf_eq_nil_of_isSettled _ hcps] at hm
        cases hm
      · exact absurd hIn (hnq _)
      · exact hdone
    have hq3s : ((effRun evs).proms q3).isSettled = true := by
      rcases hs.live.l3 (k - 1) hk1 q2 q3 h2 h3 with hOn | hIn | hdone
      · have hm : Cont.teardownCatch q3 ∈ ((effRun evs).proms q2).contsOf := hOn
        rw [Prom.contsOf_eq_nil_of_isSettled _ hq2s] at hm
        cases hm
      · exact absurd hIn (hnq _)
      · exact hdone
    have hcl : ((effRun evs).proms
        ((effRun evs).runs (k - 1)).cleanupP).isSettled = true := by
      rcases hs.live.l4 (k - 1) hk1 q3 h3 with hOn | hIn | hdone
      · have hm : Cont.teardownB (k - 1) ∈ ((effRun evs).proms q3).contsOf := hOn
        rw [Prom.contsOf_eq_nil_of_isSettled _ hq3s] at hm
        cases hm
      · exact absurd hIn (hnq _)
      · exact hdone
    have hch : ((effRun evs).proms
        ((effRun evs).runs (k - 1)).chainP).isSettled = true := by
      rcases hs.live.l1 (k - 1) hk1 with hOn | hIn | hOn | hIn | hdone
      · have hm : Cont.chainLink1 (k - 1) ((effRun evs).runs (k - 1)).chainP ∈
            ((effRun evs).proms ((effRun evs).runs (k - 1)).cep).contsOf := hOn
        rw [Prom.contsOf_eq_nil_of_isSettled _ hcep] at hm
        cases hm
      · exact absurd hIn (hnq _)
      · have hm : Cont.chainLink2 ((effRun evs).runs (k - 1)).chainP ∈
            ((effRun evs).proms ((effRun evs).runs (k - 1)).cleanupP).contsOf := hOn
        rw [Prom.contsOf_eq_nil_of_isSettled _ hcl] at hm
        cases hm
      · exact absurd hIn (hnq _)
      · exact hdone
    exact (hs.core.s5 (k - 1) hk1 hch).1

open UseAsyncEffekt in
/-- Witness for C6 on the concrete trace `c6Trace`, in which run 0's
cleanup call rejected: run 1's `waitForPrevious()` handle is not a
rejected promise, and at the quiescent final state it has resolved with
`undefined`. -/
theorem C6_waitForPrevious_never_rejects_witness :
    (∀ e, (effRun c6Trace).proms ((effRun c6Trace).runs 1).prevChain ≠
      Prom.rejected e) ∧
    (effRun c6Trace).proms ((effRun c6Trace).runs 1).prevChain =
      Prom.fulfilled JSVal.undef := by
  have h := C6_waitForPrevious_never_rejects c6Trace 1 (by decide)
  exact ⟨h.1, h.2 (by decide) (by decide) (by decide)⟩
